import Mathlib

/-!
Vector timestamper: ordering and progress bookkeeping.

A shallow embedding of `coordinator/timestamper.cc`: the clock state (vector
clock and per-shard queue timestamps), the registries of outstanding
transactions and node programs, the frontier `(max_done_id, max_done_clk)`,
the done-request ledger and the periodic timer.  It is followed by the
shard-side pieces the timestamper drives: the node-program state of a shard
(`db/state/program_state.h`), the property list of a graph element
(`db/element.cc`) and the reachability program (`node_prog/reach_program.h`).

Conventions.
* The shared object `vts` is a record that every handler takes and returns.
  Handlers run one at a time (the source serialises them with mutexes).
* A handler returns `none` when the source would abort: a failed `assert`,
  an out-of-range `.at()`, or `top()` on an empty priority queue.
* 64-bit event counters (`vclk`, `qts`) are natural numbers: they start at
  zero and grow by one per event.  Arithmetic that can wrap on ordinary
  inputs (the unsigned subtraction `loc1 - SHARD_ID_INCR`, the 32-bit
  `--count`) is modelled with its wrap-around made explicit.
* `std::unordered_map` is an association list with unique keys; its iteration
  order is the list order.  `std::priority_queue<.., std::greater<..>>` is a
  bag whose `top()` is its minimum.
* Request ids come from `generate_id()`, whose definition is not part of
  this development; the handlers take the generated id as an argument.
-/

namespace Weaver

/-! ## Constants and plain records -/

/-- Build-time constants (`NUM_VTS`, `NUM_SHARDS`, `SHARD_ID_INCR`) and the
process-wide `vt_id`. -/
structure Consts where
  NUM_VTS : Nat
  NUM_SHARDS : Nat
  SHARD_ID_INCR : Nat
  vt_id : Nat
deriving DecidableEq, Repr

/-- The sentinel handle `(uint64_t)-1` of a global node program. -/
def MAX_UINT64 : Nat := 2 ^ 64 - 1

abbrev vclock_t := List Nat

abbrev qtimestamp_t := List Nat

/-- Tags of `node_prog::prog_type` that occur in the sources. -/
inductive prog_type where
  | REACHABILITY
  | N_HOP_REACHABILITY
  | TRIANGLE_COUNT
  | DIJKSTRA
  | CLUSTERING
  | READ_NODE_PROPS
  | READ_EDGES_PROPS
  | READ_N_EDGES
deriving DecidableEq, Repr

/-- A write of a transaction: `transaction::pending_update`.  `handle` stands
for the payload the timestamper does not look at. -/
structure pending_update where
  handle : Nat
  loc1 : Nat
  qts : qtimestamp_t
deriving DecidableEq, Repr

/-- A transaction under admission: `transaction::pending_tx`. -/
structure pending_tx where
  id : Nat
  client_id : Nat
  timestamp : vclock_t
  writes : List pending_update
deriving DecidableEq, Repr

/-- The value type of `outstanding_tx`: `coordinator::current_tx`. -/
structure current_tx where
  client : Nat
  count : Nat
deriving DecidableEq, Repr

/-- The value type of `outstanding_progs`: `coordinator::current_prog`. -/
structure current_prog where
  client : Nat
  vclk : vclock_t
deriving DecidableEq, Repr

/-- Messages the timestamper sends, with the fields `prepare_message` packs. -/
inductive message where
  | TX_INIT (vt_id : Nat) (timestamp : vclock_t) (qts : qtimestamp_t) (tx_id : Nat)
      (writes : List pending_update)
  | CLIENT_TX_DONE
  | CLIENT_TX_FAIL
  | VT_NOP (vt_id : Nat) (vclk : vclock_t) (qts : qtimestamp_t) (req_id : Nat)
      (done_reqs : List (Nat × prog_type)) (max_done_id : Nat) (max_done_clk : vclock_t)
      (num_outstanding_progs : Nat) (shard_node_count : List Nat)
  | VT_CLOCK_UPDATE (vt_id : Nat) (clk : Nat)
  | VT_CLOCK_UPDATE_ACK
  | NODE_PROG (pType : prog_type) (global_req : Bool) (vt_id : Nat) (req_timestamp : vclock_t)
      (req_id : Nat) (batch : List (Nat × Nat))
  | NODE_PROG_RETURN (payload : Nat)
deriving DecidableEq, Repr

/-- One `comm.send(destination, msg)`. -/
abbrev sent := Nat × message

/-! ## Containers -/

/-- `unordered_map::find`. -/
def map_find {β : Type} : List (Nat × β) → Nat → Option β
  | [], _ => none
  | (k, v) :: m, key => if k = key then some v else map_find m key

/-- `unordered_map::emplace`: inserts only when the key is absent. -/
def map_emplace {β : Type} (m : List (Nat × β)) (key : Nat) (v : β) : List (Nat × β) :=
  match map_find m key with
  | some _ => m
  | none => m ++ [(key, v)]

/-- `unordered_map::erase(key)`. -/
def map_erase {β : Type} (m : List (Nat × β)) (key : Nat) : List (Nat × β) :=
  m.filter (fun kv => decide (kv.1 ≠ key))

/-- `priority_queue::top()` of a min-queue; `none` on an empty queue. -/
def pq_top (q : List Nat) : Option Nat := q.min?

/-- `priority_queue::pop()` of a min-queue. -/
def pq_pop (q : List Nat) : List Nat :=
  match pq_top q with
  | none => q
  | some m => q.erase m

/-- `priority_queue::emplace`. -/
def pq_emplace (q : List Nat) (x : Nat) : List Nat := x :: q

/-- Reading a vector or bitset entry. -/
def vec_get (v : List Nat) (i : Nat) : Nat := v.getD i 0

/-- The statement `v[i]++` on a vector of counters. -/
def vec_incr (v : List Nat) (i : Nat) : List Nat := v.set i (vec_get v i + 1)

/-- The test `b[i]` on a bitset. -/
def bit_get (b : List Bool) (i : Nat) : Bool := b.getD i false

/-- The call `b.set(i)` on a bitset. -/
def bit_set (b : List Bool) (i : Nat) : List Bool := b.set i true

/-! ## Vector clock

`common/vclock.h` is not part of this development. -/

/-- Modelled from the spec: `vclock::increment_clock` is missing; the spec
says `vclk[vt_id] += 1`. -/
def increment_clock (c : Consts) (vclk : vclock_t) : vclock_t := vec_incr vclk c.vt_id

/-- Modelled from the spec: `vclock::update_clock` is missing; the spec says
`vclk[peer_vt] = max(vclk[peer_vt], value)`. -/
def update_clock (vclk : vclock_t) (vt : Nat) (new_clock : Nat) : vclock_t :=
  vclk.set vt (max (vec_get vclk vt) new_clock)

/-! ## The timestamper object -/

/-- The fields of `coordinator::timestamper` that the handlers use, followed
by the locals of `timer_function` that live across its loop iterations. -/
structure timestamper where
  vclk : vclock_t
  qts : qtimestamp_t
  outstanding_tx : List (Nat × current_tx)
  outstanding_progs : List (Nat × current_prog)
  pend_prog_queue : List Nat
  done_prog_queue : List Nat
  seen_done_id : List Nat
  max_done_id : Nat
  max_done_clk : vclock_t
  done_reqs : List (prog_type × List (Nat × List Bool))
  to_nop : List Bool
  clock_update_acks : Nat
  shard_node_count : List Nat
  timer_vclk : vclock_t
  timer_done_reqs : List (List (Nat × prog_type))
deriving DecidableEq, Repr

/-- Modelled from the spec: the constructor of `coordinator::timestamper` is
missing.  Clocks, queue timestamps and node counts start at zero, the
registries and queues are empty and every `to_nop` bit is set.  The spec
gives no start value for the frontier, so `max_done_id` and `max_done_clk`
start at the two arguments; `clock_update_acks` starts at `NUM_VTS - 1`, the
value at which the timer sends its first round of clock updates. -/
def init (c : Consts) (max_done_id0 : Nat) (max_done_clk0 : vclock_t) : timestamper where
  vclk := List.replicate c.NUM_VTS 0
  qts := List.replicate c.NUM_SHARDS 0
  outstanding_tx := []
  outstanding_progs := []
  pend_prog_queue := []
  done_prog_queue := []
  seen_done_id := []
  max_done_id := max_done_id0
  max_done_clk := max_done_clk0
  done_reqs := []
  to_nop := List.replicate c.NUM_SHARDS true
  clock_update_acks := c.NUM_VTS - 1
  shard_node_count := List.replicate c.NUM_SHARDS 0
  timer_vclk := List.replicate c.NUM_VTS 0
  timer_done_reqs := List.replicate c.NUM_SHARDS []

/-! ## Transactions -/

/-- The first loop of `begin_transaction`, run under `clk_mutex`: each write
bumps the queue timestamp of its shard, records the whole `qts` vector and is
appended to the batch of its shard.  `written` collects `tx.writes` as the
loop leaves them.  `qts.at(..)` throws on an index that is out of range,
which includes a `loc1` below `SHARD_ID_INCR` (the subtraction wraps). -/
def begin_transaction_loop (c : Consts) :
    List pending_update → qtimestamp_t → List (List pending_update) → List pending_update →
    Option (qtimestamp_t × List (List pending_update) × List pending_update)
  | [], qts, tx_vec, written => some (qts, tx_vec, written)
  | upd :: rest, qts, tx_vec, written =>
    if upd.loc1 < c.SHARD_ID_INCR then none
    else if upd.loc1 - c.SHARD_ID_INCR < qts.length then
      let qts1 := vec_incr qts (upd.loc1 - c.SHARD_ID_INCR)
      let upd1 : pending_update := { upd with qts := qts1 }
      begin_transaction_loop c rest qts1
        (tx_vec.set (upd.loc1 - c.SHARD_ID_INCR)
          (tx_vec.getD (upd.loc1 - c.SHARD_ID_INCR) [] ++ [upd1]))
        (written ++ [upd1])
    else none

/-- The loop that counts the shards with a non-empty batch. -/
def count_shards (tx_vec : List (List pending_update)) (num_shards : Nat) : Nat :=
  (List.range num_shards).foldl
    (fun count i => if (tx_vec.getD i []).isEmpty then count else count + 1) 0

/-- The loop that sends one `TX_INIT` per shard with a non-empty batch. -/
def send_tx_batches (c : Consts) (timestamp : vclock_t) (tx_id : Nat)
    (tx_vec : List (List pending_update)) : List sent :=
  (List.range c.NUM_SHARDS).foldl
    (fun out i =>
      match tx_vec.getD i [] with
      | [] => out
      | w0 :: ws =>
        out ++ [(w0.loc1, message.TX_INIT c.vt_id timestamp w0.qts tx_id (w0 :: ws))]) []

/-- The function `begin_transaction`.  Returns the object, the transaction as
stamped (its `timestamp` and the `qts` of each write) and the messages sent. -/
def begin_transaction (c : Consts) (vts : timestamper) (tx : pending_tx) :
    Option (timestamper × pending_tx × List sent) :=
  match begin_transaction_loop c tx.writes vts.qts (List.replicate c.NUM_SHARDS []) [] with
  | none => none
  | some (qts1, tx_vec, written) =>
    let vclk1 := increment_clock c vts.vclk
    let tx1 : pending_tx := { tx with timestamp := vclk1, writes := written }
    let cur_tx : current_tx := { client := tx.client_id, count := count_shards tx_vec c.NUM_SHARDS }
    some ({ vts with
            qts := qts1
            vclk := vclk1
            outstanding_tx := map_emplace vts.outstanding_tx tx.id cur_tx },
          tx1, send_tx_batches c vclk1 tx.id tx_vec)

/-- Assignment through `operator[]` / `at()` to the entry of an existing key. -/
def map_assign {β : Type} (m : List (Nat × β)) (key : Nat) (v : β) : List (Nat × β) :=
  m.map (fun kv => if kv.1 = key then (kv.1, v) else kv)

/-- The function `end_transaction`: `--count` on the 32-bit counter of the
entry (`at()` throws when the id has no entry); on zero the entry is erased
and the client gets `CLIENT_TX_DONE`. -/
def end_transaction (vts : timestamper) (tx_id : Nat) : Option (timestamper × List sent) :=
  match map_find vts.outstanding_tx tx_id with
  | none => none
  | some e =>
    let count1 := (e.count + (2 ^ 32 - 1)) % 2 ^ 32
    if count1 = 0 then
      some ({ vts with outstanding_tx := map_erase vts.outstanding_tx tx_id },
            [(e.client, message.CLIENT_TX_DONE)])
    else
      some ({ vts with
              outstanding_tx := map_assign vts.outstanding_tx tx_id { e with count := count1 } },
            [])

/-! ## Node programs and the frontier -/

/-- The `while` loop of `mark_req_finished`: as long as both queues are
non-empty with equal tops, retire that id.  Each round pops
`pend_prog_queue`, so its length bounds the number of rounds; `fuel` is that
bound. -/
def mark_req_finished_loop : Nat → timestamper → Option timestamper
  | fuel, vts =>
    match pq_top vts.pend_prog_queue, pq_top vts.done_prog_queue with
    | some p, some d =>
      if p = d then
        match fuel with
        | 0 => none
        | fuel + 1 =>
          if vts.max_done_id < p then
            match map_find vts.outstanding_progs p with
            | none => none
            | some prog =>
              mark_req_finished_loop fuel
                { vts with
                  max_done_id := p
                  max_done_clk := prog.vclk
                  pend_prog_queue := pq_pop vts.pend_prog_queue
                  done_prog_queue := pq_pop vts.done_prog_queue
                  outstanding_progs := map_erase vts.outstanding_progs p }
          else none
      else some vts
    | _, _ => some vts

/-- The function `mark_req_finished`. -/
def mark_req_finished (vts : timestamper) (req_id : Nat) : Option timestamper :=
  if req_id ∈ vts.seen_done_id then none
  else
    let vts1 := { vts with seen_done_id := req_id :: vts.seen_done_id }
    match pq_top vts1.pend_prog_queue with
    | none => none
    | some top =>
      if top = req_id then
        if vts1.max_done_id < top then
          match map_find vts1.outstanding_progs req_id with
          | none => none
          | some prog =>
            let vts2 := { vts1 with
              max_done_id := req_id
              max_done_clk := prog.vclk
              pend_prog_queue := pq_pop vts1.pend_prog_queue
              outstanding_progs := map_erase vts1.outstanding_progs req_id }
            mark_req_finished_loop vts2.pend_prog_queue.length vts2
        else none
      else some { vts1 with done_prog_queue := pq_emplace vts1.done_prog_queue req_id }

/-- The outcome of `initial_batches[loc].emplace_back(arg)` on the map of
per-shard batches. -/
def batch_add : List (Nat × List (Nat × Nat)) → Nat → Nat × Nat → List (Nat × List (Nat × Nat))
  | [], loc, arg => [(loc, [arg])]
  | (k, b) :: m, loc, arg =>
    if k = loc then (k, b ++ [arg]) :: m else (k, b) :: batch_add m loc arg

/-- The scan of `initial_args` for the sentinel handle: returns `global_req`
and `mappings_to_get`, or `none` when one of the two assertions on a global
request fails. -/
def scan_initial_args (num_args : Nat) : List (Nat × Nat) → List Nat → Option (Bool × List Nat)
  | [], mappings_to_get => some (false, mappings_to_get)
  | arg :: rest, mappings_to_get =>
    if arg.1 = MAX_UINT64 then
      if mappings_to_get.isEmpty ∧ num_args = 1 then some (true, mappings_to_get) else none
    else
      scan_initial_args num_args rest
        (if arg.1 ∈ mappings_to_get then mappings_to_get else mappings_to_get ++ [arg.1])

/-- The block of `unpack_and_start_coord` that runs under `tx_prog_mutex`:
the program is recorded in `outstanding_progs` with its client and the clock
of its timestamp, and its id is pushed on `pend_prog_queue`. -/
def register_prog (vts : timestamper) (req_id clientID : Nat) (clock : vclock_t) : timestamper :=
  { vts with
    outstanding_progs :=
      map_emplace vts.outstanding_progs req_id { client := clientID, vclk := clock }
    pend_prog_queue := pq_emplace vts.pend_prog_queue req_id }

/-- The function `unpack_and_start_coord`.  `results` is what the name mapper
returns for `mappings_to_get` and `req_id` is what `generate_id()` returns. -/
def unpack_and_start_coord (c : Consts) (vts : timestamper) (pType : prog_type)
    (initial_args : List (Nat × Nat)) (clientID : Nat) (results : List (Nat × Nat))
    (req_id : Nat) : Option (timestamper × List sent) :=
  match scan_initial_args initial_args.length initial_args [] with
  | none => none
  | some (global_req, mappings_to_get) =>
    if ¬ mappings_to_get.isEmpty ∧ results.length ≠ mappings_to_get.length then none
    else
      let request_element_mappings : List (Nat × Nat) :=
        if mappings_to_get.isEmpty then []
        else results.foldl (fun m kv => map_emplace m kv.1 kv.2) []
      let initial_batches : List (Nat × List (Nat × Nat)) :=
        if global_req then
          (List.range c.NUM_SHARDS).foldl
            (fun m i => batch_add m (i + c.SHARD_ID_INCR) (initial_args.getD 0 (0, 0))) []
        else
          initial_args.foldl
            (fun m arg => batch_add m ((map_find request_element_mappings arg.1).getD 0) arg) []
      let vclk1 := increment_clock c vts.vclk
      if vclk1.length = c.NUM_VTS then
        some (register_prog { vts with vclk := vclk1 } req_id clientID vclk1,
              initial_batches.map
                (fun batch_pair =>
                  (batch_pair.1,
                   message.NODE_PROG pType global_req c.vt_id vclk1 req_id batch_pair.2)))
      else none

/-- The statement `done_reqs[type].emplace(req_id, bitset())`. -/
def ledger_emplace (num_shards : Nat) :
    List (prog_type × List (Nat × List Bool)) → prog_type → Nat →
    List (prog_type × List (Nat × List Bool))
  | [], type, req_id => [(type, [(req_id, List.replicate num_shards false)])]
  | (t, m) :: rest, type, req_id =>
    if t = type then (t, map_emplace m req_id (List.replicate num_shards false)) :: rest
    else (t, m) :: ledger_emplace num_shards rest type req_id

/-- The `NODE_PROG_RETURN` case of `server_loop`: a reply for an outstanding
id enters the ledger, is forwarded to the client and is marked finished; any
other reply is logged and dropped. -/
def node_prog_return (c : Consts) (vts : timestamper) (type : prog_type) (req_id : Nat)
    (payload : Nat) : Option (timestamper × List sent) :=
  match map_find vts.outstanding_progs req_id with
  | some prog =>
    let vts1 := { vts with done_reqs := ledger_emplace c.NUM_SHARDS vts.done_reqs type req_id }
    match mark_req_finished vts1 req_id with
    | none => none
    | some vts2 => some (vts2, [(prog.client, message.NODE_PROG_RETURN payload)])
  | none => some (vts, [])

/-! ## Timer -/

/-- The innermost loop of the ledger pass: for one reply, set the bit of
every shard that gets a NOP and has not been told yet, and append the reply
to the done-list of that shard. -/
def nop_reply_shards (to_nop : List Bool) (req_id : Nat) (type : prog_type) (num_shards : Nat)
    (bits : List Bool) (done_reqs : List (List (Nat × prog_type))) :
    List Bool × List (List (Nat × prog_type)) :=
  (List.range num_shards).foldl
    (fun acc shard_id =>
      if bit_get to_nop shard_id ∧ ¬ bit_get acc.1 shard_id then
        (bit_set acc.1 shard_id,
         acc.2.set shard_id (acc.2.getD shard_id [] ++ [(req_id, type)]))
      else acc)
    (bits, done_reqs)

/-- The test `bitset::all()`. -/
def bits_all (num_shards : Nat) (bits : List Bool) : Bool :=
  (List.range num_shards).all (fun i => bit_get bits i)

/-- The loop over the replies of one program type; `del_done_reqs` collects
the ids whose bitset is complete. -/
def nop_replies (to_nop : List Bool) (type : prog_type) (num_shards : Nat) :
    List (Nat × List Bool) → List (List (Nat × prog_type)) → List Nat →
    List (Nat × List Bool) × List (List (Nat × prog_type)) × List Nat
  | [], done_reqs, del_done_reqs => ([], done_reqs, del_done_reqs)
  | (req_id, bits) :: rest, done_reqs, del_done_reqs =>
    let r := nop_reply_shards to_nop req_id type num_shards bits done_reqs
    let del1 := if bits_all num_shards r.1 then del_done_reqs ++ [req_id] else del_done_reqs
    let t := nop_replies to_nop type num_shards rest r.2 del1
    ((req_id, r.1) :: t.1, t.2.1, t.2.2)

/-- The loop over the program types of the ledger.  `del_done_reqs` is
cleared once before this loop, so the erase pass of a type also sees the ids
collected for the types before it. -/
def nop_ledger (to_nop : List Bool) (num_shards : Nat) :
    List (prog_type × List (Nat × List Bool)) → List (List (Nat × prog_type)) → List Nat →
    List (prog_type × List (Nat × List Bool)) × List (List (Nat × prog_type))
  | [], done_reqs, _ => ([], done_reqs)
  | (type, replies) :: rest, done_reqs, del_done_reqs =>
    let r := nop_replies to_nop type num_shards replies done_reqs del_done_reqs
    let kept := r.2.2.foldl (fun m del => map_erase m del) r.1
    let t := nop_ledger to_nop num_shards rest r.2.1 r.2.2
    ((type, kept) :: t.1, t.2)

/-- The loop under `clk_mutex` in the NOP path: every shard that gets a NOP
has its queue timestamp bumped and its done-list cleared. -/
def nop_bump (to_nop : List Bool) (num_shards : Nat) (qts : qtimestamp_t)
    (done_reqs : List (List (Nat × prog_type))) : qtimestamp_t × List (List (Nat × prog_type)) :=
  (List.range num_shards).foldl
    (fun acc shard_id =>
      if bit_get to_nop shard_id then (vec_incr acc.1 shard_id, acc.2.set shard_id [])
      else acc)
    (qts, done_reqs)

/-- The loop that sends one `VT_NOP` to every shard whose `to_nop` bit is
set.  It reads the frontier as it was under `tx_prog_mutex`. -/
def nop_messages (c : Consts) (vts : timestamper) (vclk : vclock_t) (qts : qtimestamp_t)
    (req_id : Nat) (done_reqs : List (List (Nat × prog_type))) : List sent :=
  (List.range c.NUM_SHARDS).filterMap
    (fun shard_id =>
      if bit_get vts.to_nop shard_id then
        some (shard_id + c.SHARD_ID_INCR,
          message.VT_NOP c.vt_id vclk qts req_id (done_reqs.getD shard_id [])
            vts.max_done_id vts.max_done_clk vts.pend_prog_queue.length vts.shard_node_count)
      else none)

/-- The NOP path of one timer iteration; the flag is `nop_sent`.  The two
`assert`s on clock sizes sit in the sending loop, so they are evaluated only
when a message is sent. -/
def timer_nop (c : Consts) (vts : timestamper) (req_id : Nat) :
    Option (timestamper × List sent × Bool) :=
  if vts.to_nop.any id then
    let vclk1 := increment_clock c vts.vclk
    let bumped := nop_bump vts.to_nop c.NUM_SHARDS vts.qts vts.timer_done_reqs
    let ledger := nop_ledger vts.to_nop c.NUM_SHARDS vts.done_reqs bumped.2 []
    let msgs := nop_messages c vts vclk1 bumped.1 req_id ledger.2
    if msgs ≠ [] ∧ ¬ (vclk1.length = c.NUM_VTS ∧ vts.max_done_clk.length = c.NUM_VTS) then none
    else
      some ({ vts with
              vclk := vclk1
              timer_vclk := vclk1
              qts := bumped.1
              timer_done_reqs := ledger.2
              done_reqs := ledger.1
              to_nop := vts.to_nop.map (fun _ => false) },
            msgs, true)
  else some (vts, [], false)

/-- The clock-gossip path of one timer iteration. -/
def timer_gossip (c : Consts) (vts : timestamper) (nop_sent : Bool) : timestamper × List sent :=
  if vts.clock_update_acks = c.NUM_VTS - 1 ∧ c.NUM_VTS > 1 then
    let timer_vclk1 := if nop_sent then vts.timer_vclk else vts.vclk
    ({ vts with clock_update_acks := 0, timer_vclk := timer_vclk1 },
     ((List.range c.NUM_VTS).filter (fun i => decide (i ≠ c.vt_id))).map
       (fun i => (i, message.VT_CLOCK_UPDATE c.vt_id (vec_get timer_vclk1 c.vt_id))))
  else (vts, [])

/-- One iteration of the loop of `timer_function`, after the sleep.
`req_id` is what `generate_id()` returns when the NOP path runs. -/
def timer_function (c : Consts) (vts : timestamper) (req_id : Nat) :
    Option (timestamper × List sent) :=
  match timer_nop c vts req_id with
  | none => none
  | some (vts1, msgs, nop_sent) =>
    some ((timer_gossip c vts1 nop_sent).1, msgs ++ (timer_gossip c vts1 nop_sent).2)

/-! ## Server loop -/

/-- The `VT_CLOCK_UPDATE` case of `server_loop`. -/
def vt_clock_update (vts : timestamper) (rec_vtid rec_clock : Nat) : timestamper × List sent :=
  ({ vts with vclk := update_clock vts.vclk rec_vtid rec_clock },
   [(rec_vtid, message.VT_CLOCK_UPDATE_ACK)])

/-- The `VT_CLOCK_UPDATE_ACK` case of `server_loop`, with its assertion. -/
def vt_clock_update_ack (c : Consts) (vts : timestamper) : Option timestamper :=
  if vts.clock_update_acks + 1 < c.NUM_VTS then
    some { vts with clock_update_acks := vts.clock_update_acks + 1 }
  else none

/-- The `VT_NOP_ACK` case of `server_loop`.  The index `sender - SHARD_ID_INCR`
is unsigned; `bitset::set` throws when it is out of range. -/
def vt_nop_ack (c : Consts) (vts : timestamper) (sender shard_node_count : Nat) :
    Option timestamper :=
  if sender < c.SHARD_ID_INCR then none
  else if sender - c.SHARD_ID_INCR < c.NUM_SHARDS then
    some { vts with
      shard_node_count := vts.shard_node_count.set (sender - c.SHARD_ID_INCR) shard_node_count
      to_nop := bit_set vts.to_nop (sender - c.SHARD_ID_INCR) }
  else none

/-- What a worker thread or the timer thread can be asked to do.  The
arguments are what the source unpacks from the message, together with the
answers of the collaborators that are outside this development: whether
`unpack_tx` accepted the transaction, the name-mapper results, and the id
that `generate_id()` returns. -/
inductive event where
  | CLIENT_TX_INIT (tx : pending_tx)
  | CLIENT_TX_INIT_rejected (sender : Nat)
  | TX_DONE (tx_id : Nat)
  | CLIENT_NODE_PROG_REQ (pType : prog_type) (initial_args : List (Nat × Nat)) (sender : Nat)
      (results : List (Nat × Nat)) (req_id : Nat)
  | NODE_PROG_RETURN (type : prog_type) (req_id : Nat) (payload : Nat)
  | VT_CLOCK_UPDATE (rec_vtid : Nat) (rec_clock : Nat)
  | VT_CLOCK_UPDATE_ACK
  | VT_NOP_ACK (sender : Nat) (shard_node_count : Nat)
  | timer_tick (req_id : Nat)
deriving DecidableEq, Repr

/-- One handled event: the `switch` of `server_loop`, or one iteration of
`timer_function`. -/
def step (c : Consts) (vts : timestamper) : event → Option (timestamper × List sent)
  | .CLIENT_TX_INIT tx =>
    match begin_transaction c vts tx with
    | none => none
    | some (vts1, _, msgs) => some (vts1, msgs)
  | .CLIENT_TX_INIT_rejected sender => some (vts, [(sender, message.CLIENT_TX_FAIL)])
  | .TX_DONE tx_id => end_transaction vts tx_id
  | .CLIENT_NODE_PROG_REQ pType initial_args sender results req_id =>
    unpack_and_start_coord c vts pType initial_args sender results req_id
  | .NODE_PROG_RETURN type req_id payload => node_prog_return c vts type req_id payload
  | .VT_CLOCK_UPDATE rec_vtid rec_clock => some (vt_clock_update vts rec_vtid rec_clock)
  | .VT_CLOCK_UPDATE_ACK =>
    match vt_clock_update_ack c vts with
    | none => none
    | some vts1 => some (vts1, [])
  | .VT_NOP_ACK sender shard_node_count =>
    match vt_nop_ack c vts sender shard_node_count with
    | none => none
    | some vts1 => some (vts1, [])
  | .timer_tick req_id => timer_function c vts req_id

/-- A sequential run: the events are handled one after the other; the
messages sent are collected in order. -/
def run (c : Consts) : timestamper → List event → Option (timestamper × List sent)
  | vts, [] => some (vts, [])
  | vts, e :: es =>
    match step c vts e with
    | none => none
    | some (vts1, msgs1) =>
      match run c vts1 es with
      | none => none
      | some (vts2, msgs2) => some (vts2, msgs1 ++ msgs2)

/-! ## Runs of the frontier tracker

The claims about the frontier speak of sequences of program admissions and
calls of `mark_req_finished`; `frontier_run` runs exactly these two
operations. -/

/-- A program admission (id, client and clock of the timestamp, as
`register_prog` records them) or a call of `mark_req_finished`. -/
inductive frontier_op where
  | register (req_id : Nat) (clientID : Nat) (clock : vclock_t)
  | mark (req_id : Nat)
deriving DecidableEq, Repr

/-- One operation of the frontier tracker. -/
def frontier_step (vts : timestamper) : frontier_op → Option timestamper
  | .register req_id clientID clock => some (register_prog vts req_id clientID clock)
  | .mark req_id => mark_req_finished vts req_id

/-- A sequence of operations of the frontier tracker. -/
def frontier_run : timestamper → List frontier_op → Option timestamper
  | vts, [] => some vts
  | vts, o :: os =>
    match frontier_step vts o with
    | none => none
    | some vts1 => frontier_run vts1 os

/-- The programs registered by a sequence, in order, with what was recorded. -/
def registered : List frontier_op → List (Nat × current_prog)
  | [] => []
  | .register req_id clientID clock :: os =>
    (req_id, { client := clientID, vclk := clock }) :: registered os
  | .mark _ :: os => registered os

/-- The ids passed to `mark_req_finished` by a sequence. -/
def marked : List frontier_op → List Nat
  | [] => []
  | .register _ _ _ :: os => marked os
  | .mark req_id :: os => req_id :: marked os

/-- The sequences the claims are about, given the ids registered (`reg`) and
marked (`mk`) so far: every registered id is larger than all ids registered
before, and every call of `mark_req_finished` is on a registered id that was
not marked before. -/
def valid_from : List Nat → List Nat → List frontier_op → Bool
  | _, _, [] => true
  | reg, mk, .register req_id _ _ :: os =>
    reg.all (fun x => decide (x < req_id)) && valid_from (req_id :: reg) mk os
  | reg, mk, .mark req_id :: os =>
    decide (req_id ∈ reg) && decide (req_id ∉ mk) && valid_from reg (req_id :: mk) os

/-- The frontier the spec describes: `r` is a registered id such that every
registered id up to `r` has been marked finished. -/
def all_older_marked (reg mk : List Nat) (r : Nat) : Prop :=
  r ∈ reg ∧ ∀ x ∈ reg, x ≤ r → x ∈ mk

/-! ## Invariant of the frontier tracker

`G` lists every program registered so far with what `register_prog`
recorded for it. -/

/-- The part of the invariant about the queues and the registry. -/
structure QInv (G : List (Nat × current_prog)) (vts : timestamper) : Prop where
  pend_nodup : vts.pend_prog_queue.Nodup
  done_nodup : vts.done_prog_queue.Nodup
  pend_reg : ∀ x ∈ vts.pend_prog_queue, x ∈ G.map Prod.fst
  seen_reg : ∀ x ∈ vts.seen_done_id, x ∈ G.map Prod.fst
  done_iff : ∀ x, x ∈ vts.done_prog_queue ↔ x ∈ vts.pend_prog_queue ∧ x ∈ vts.seen_done_id
  outst : ∀ x, map_find vts.outstanding_progs x =
    if x ∈ vts.pend_prog_queue then map_find G x else none

/-- Nothing has been retired yet. -/
def FrontL (G : List (Nat × current_prog)) (m0 : Nat) (vts : timestamper) : Prop :=
  vts.max_done_id = m0 ∧ ∀ x ∈ G.map Prod.fst, x ∈ vts.pend_prog_queue

/-- Something has been retired: `max_done_id` is a registered program that
left the queue, the retired programs are the registered ones up to it, and
all of them were marked. -/
def FrontR (G : List (Nat × current_prog)) (vts : timestamper) : Prop :=
  vts.max_done_id ∉ vts.pend_prog_queue ∧
  (∃ p, map_find G vts.max_done_id = some p ∧ p.vclk = vts.max_done_clk) ∧
  (∀ x ∈ G.map Prod.fst, x ∉ vts.pend_prog_queue ↔ x ≤ vts.max_done_id) ∧
  (∀ x ∈ G.map Prod.fst, x ≤ vts.max_done_id → x ∈ vts.seen_done_id)

/-- The head of `pend_prog_queue` has not been marked. -/
def FTop (vts : timestamper) : Prop :=
  ∀ t, pq_top vts.pend_prog_queue = some t → t ∉ vts.seen_done_id

/-- The invariant between two operations of the frontier tracker. -/
def FInv (G : List (Nat × current_prog)) (m0 : Nat) (vts : timestamper) : Prop :=
  QInv G vts ∧ (FrontL G m0 vts ∨ FrontR G vts) ∧ FTop vts

/-- The scenario of two programs whose replies arrive out of order: ids 10
and 11 are admitted, 11 is marked first, then 10. -/
def two_progs_out_of_order : List frontier_op :=
  [.register 10 7 [1, 0], .register 11 7 [2, 0], .mark 11, .mark 10]

/-! ## What each handler touches -/

/-- The two states agree outside the frontier tracker. -/
def same_rest (a b : timestamper) : Prop :=
  a.vclk = b.vclk ∧ a.qts = b.qts ∧ a.outstanding_tx = b.outstanding_tx ∧
  a.done_reqs = b.done_reqs ∧ a.to_nop = b.to_nop ∧
  a.clock_update_acks = b.clock_update_acks ∧ a.shard_node_count = b.shard_node_count ∧
  a.timer_vclk = b.timer_vclk ∧ a.timer_done_reqs = b.timer_done_reqs

/-- The two states agree on the frontier tracker. -/
def same_frontier (a b : timestamper) : Prop :=
  a.outstanding_progs = b.outstanding_progs ∧ a.pend_prog_queue = b.pend_prog_queue ∧
  a.done_prog_queue = b.done_prog_queue ∧ a.seen_done_id = b.seen_done_id ∧
  a.max_done_id = b.max_done_id ∧ a.max_done_clk = b.max_done_clk

/-- A state reached by a program admission, a shard reply and nothing else. -/
def one_prog_pending : timestamper := register_prog (init ⟨2, 2, 2, 0⟩ 0 [0, 0]) 10 7 [1, 0]

/-- The state `one_prog_pending` after the reply for program 10. -/
def one_prog_retired : timestamper :=
  { one_prog_pending with
    outstanding_progs := []
    pend_prog_queue := []
    seen_done_id := [10]
    max_done_id := 10
    max_done_clk := [1, 0]
    done_reqs := [(prog_type.REACHABILITY, [(10, [false, false])])] }

/-! ## The invariant along runs of the whole server -/

/-- The ids of the node programs admitted by a run, in order. -/
def prog_ids : List event → List Nat
  | [] => []
  | .CLIENT_NODE_PROG_REQ _ _ _ _ req_id :: es => req_id :: prog_ids es
  | .CLIENT_TX_INIT _ :: es => prog_ids es
  | .CLIENT_TX_INIT_rejected _ :: es => prog_ids es
  | .TX_DONE _ :: es => prog_ids es
  | .NODE_PROG_RETURN _ _ _ :: es => prog_ids es
  | .VT_CLOCK_UPDATE _ _ :: es => prog_ids es
  | .VT_CLOCK_UPDATE_ACK :: es => prog_ids es
  | .VT_NOP_ACK _ _ :: es => prog_ids es
  | .timer_tick _ :: es => prog_ids es

/-- The order on vector clocks: no entry is smaller. -/
def vclk_le (a b : vclock_t) : Prop := ∀ i, vec_get a i ≤ vec_get b i

/-- The vector clock after one handled event. -/
def vclk_after (c : Consts) (vts : timestamper) : event → vclock_t
  | .CLIENT_TX_INIT _ => increment_clock c vts.vclk
  | .CLIENT_NODE_PROG_REQ _ _ _ _ _ => increment_clock c vts.vclk
  | .timer_tick _ => if vts.to_nop.any id then increment_clock c vts.vclk else vts.vclk
  | .VT_CLOCK_UPDATE rec_vtid rec_clock => update_clock vts.vclk rec_vtid rec_clock
  | .CLIENT_TX_INIT_rejected _ => vts.vclk
  | .TX_DONE _ => vts.vclk
  | .NODE_PROG_RETURN _ _ _ => vts.vclk
  | .VT_CLOCK_UPDATE_ACK => vts.vclk
  | .VT_NOP_ACK _ _ => vts.vclk

/-- Later registered programs carry larger ids and clocks that are no
smaller. -/
def clock_sorted (G : List (Nat × current_prog)) : Prop :=
  G.Pairwise (fun a b => a.1 < b.1 ∧ vclk_le a.2.vclk b.2.vclk)

/-- The part of the invariant about clocks: `clk0` is the initial
`max_done_clk`. -/
structure CInv (G : List (Nat × current_prog)) (clk0 : vclock_t) (vts : timestamper) : Prop where
  sorted : clock_sorted G
  bound : ∀ kv ∈ G, vclk_le kv.2.vclk vts.vclk
  clk : vts.max_done_clk = clk0 ∨
    ∃ p, map_find G vts.max_done_id = some p ∧ p.vclk = vts.max_done_clk

/-- The order in which shards are meant to see frontiers. -/
def frontier_le (a b : Nat × vclock_t) : Prop := a.1 ≤ b.1 ∧ vclk_le a.2 b.2

/-! ## Frontiers carried by NOP messages -/

/-- The frontier `(max_done_id, max_done_clk)` a message carries; only
`VT_NOP` carries one. -/
def msg_frontier : message → Option (Nat × vclock_t)
  | .VT_NOP _ _ _ _ _ max_done_id max_done_clk _ _ => some (max_done_id, max_done_clk)
  | .TX_INIT _ _ _ _ _ => none
  | .CLIENT_TX_DONE => none
  | .CLIENT_TX_FAIL => none
  | .VT_CLOCK_UPDATE _ _ => none
  | .VT_CLOCK_UPDATE_ACK => none
  | .NODE_PROG _ _ _ _ _ _ => none
  | .NODE_PROG_RETURN _ => none

/-- The frontiers carried by the `VT_NOP` messages of a run, in send order. -/
def nop_frontiers (msgs : List sent) : List (Nat × vclock_t) :=
  msgs.filterMap (fun m => msg_frontier m.2)

/-- A run with two NOP rounds around the retirement of program 10: shards
are 2 and 3, the second round goes to shard 2 only. -/
def nop_demo : List event :=
  [.timer_tick 1, .CLIENT_NODE_PROG_REQ .REACHABILITY [(5, 0)] 7 [(5, 2)] 10,
   .NODE_PROG_RETURN .REACHABILITY 10 0, .VT_NOP_ACK 2 4, .timer_tick 11]

/-- The outcome of `nop_demo`. -/
def nop_demo_result : timestamper × List sent :=
  (run ⟨2, 2, 2, 0⟩ (init ⟨2, 2, 2, 0⟩ 0 [0, 0]) nop_demo).getD (init ⟨2, 2, 2, 0⟩ 0 [0, 0], [])

/-- Ids 10, 11 and 12 are admitted; 12 and then 10 are marked, which retires
10 and leaves 11 pending with 12 waiting behind it. -/
def three_progs_one_retired : List frontier_op :=
  [.register 10 7 [1, 0], .register 11 7 [2, 0], .register 12 8 [3, 0], .mark 12, .mark 10]

/-- The state after `three_progs_one_retired`. -/
def three_progs_state : timestamper :=
  (frontier_run (init ⟨2, 2, 2, 0⟩ 0 [0, 0]) three_progs_one_retired).getD
    (init ⟨2, 2, 2, 0⟩ 0 [0, 0])

/-- Programs 10, 11 and 12 are admitted, a transaction and a timer tick are
handled in between, and the replies for 12 and 11 arrive before any reply
for 10. -/
def replies_out_of_order : List event :=
  [.CLIENT_NODE_PROG_REQ .REACHABILITY [(5, 0)] 7 [(5, 2)] 10,
   .CLIENT_NODE_PROG_REQ .DIJKSTRA [(6, 0)] 7 [(6, 3)] 11,
   .CLIENT_TX_INIT ⟨1, 9, [], [⟨1, 2, []⟩]⟩,
   .CLIENT_NODE_PROG_REQ .REACHABILITY [(5, 1)] 8 [(5, 2)] 12,
   .NODE_PROG_RETURN .REACHABILITY 12 0, .timer_tick 13, .NODE_PROG_RETURN .DIJKSTRA 11 0]

/-- The outcome of `replies_out_of_order`. -/
def replies_out_of_order_result : timestamper × List sent :=
  (run ⟨2, 2, 2, 0⟩ (init ⟨2, 2, 2, 0⟩ 0 [0, 0]) replies_out_of_order).getD
    (init ⟨2, 2, 2, 0⟩ 0 [0, 0], [])

/-- The sequence `three_progs_one_retired` without its last call. -/
def three_progs_before : List frontier_op :=
  [.register 10 7 [1, 0], .register 11 7 [2, 0], .register 12 8 [3, 0], .mark 12]

/-- The writes of a transaction as the first loop of `begin_transaction`
leaves them, in closed form. -/
def stamp (c : Consts) : qtimestamp_t → List pending_update → List pending_update
  | _, [] => []
  | q, w :: ws =>
    { w with qts := vec_incr q (w.loc1 - c.SHARD_ID_INCR) } ::
      stamp c (vec_incr q (w.loc1 - c.SHARD_ID_INCR)) ws

/-- The queue timestamps after the first loop of `begin_transaction`, in
closed form. -/
def final_qts (c : Consts) : qtimestamp_t → List pending_update → qtimestamp_t
  | q, [] => q
  | q, w :: ws => final_qts c (vec_incr q (w.loc1 - c.SHARD_ID_INCR)) ws

/-- The shard index of a write is one that `qts.at` accepts. -/
def in_range (c : Consts) (n : Nat) (w : pending_update) : Prop :=
  c.SHARD_ID_INCR ≤ w.loc1 ∧ w.loc1 - c.SHARD_ID_INCR < n

/-- A transaction with three writes: shard 0, shard 1, shard 0 (shards are
numbered from `SHARD_ID_INCR = 2`). -/
def three_writes : pending_tx := ⟨1, 9, [], [⟨1, 2, []⟩, ⟨2, 3, []⟩, ⟨3, 2, []⟩]⟩

/-! ## Queue timestamps of the events scheduled at a shard -/

/-- The queue timestamps `qts[shard]` that a message assigns to the events it
schedules at `shard`: one per write of a `TX_INIT` sent to the shard, one for
a `VT_NOP` sent to the shard, none otherwise. -/
def msg_qts_events (c : Consts) (shard : Nat) : sent → List Nat
  | (dest, .TX_INIT _ _ _ _ writes) =>
    if dest = shard + c.SHARD_ID_INCR then writes.map (fun w => vec_get w.qts shard) else []
  | (dest, .VT_NOP _ _ qts _ _ _ _ _ _) =>
    if dest = shard + c.SHARD_ID_INCR then [vec_get qts shard] else []
  | (_, .CLIENT_TX_DONE) => []
  | (_, .CLIENT_TX_FAIL) => []
  | (_, .VT_CLOCK_UPDATE _ _) => []
  | (_, .VT_CLOCK_UPDATE_ACK) => []
  | (_, .NODE_PROG _ _ _ _ _ _) => []
  | (_, .NODE_PROG_RETURN _) => []

/-- The queue timestamps of the events scheduled at `shard` by a sequence of
sent messages, in send order. -/
def scheduled_qts (c : Consts) (shard : Nat) : List sent → List Nat
  | [] => []
  | m :: ms => msg_qts_events c shard m ++ scheduled_qts c shard ms

/-- A message that schedules nothing at a shard. -/
def is_control : message → Prop
  | .TX_INIT _ _ _ _ _ => False
  | .VT_NOP _ _ _ _ _ _ _ _ _ => False
  | .CLIENT_TX_DONE => True
  | .CLIENT_TX_FAIL => True
  | .VT_CLOCK_UPDATE _ _ => True
  | .VT_CLOCK_UPDATE_ACK => True
  | .NODE_PROG _ _ _ _ _ _ => True
  | .NODE_PROG_RETURN _ => True

/-- Two transactions and two NOP rounds on two shards (numbered from 2). -/
def qts_demo : List event :=
  [.CLIENT_TX_INIT ⟨1, 9, [], [⟨1, 2, []⟩, ⟨2, 3, []⟩, ⟨3, 2, []⟩]⟩, .timer_tick 2,
   .CLIENT_TX_INIT ⟨3, 9, [], [⟨4, 2, []⟩]⟩, .VT_NOP_ACK 2 0, .timer_tick 4]

/-- The outcome of `qts_demo`. -/
def qts_demo_result : timestamper × List sent :=
  (run ⟨2, 2, 2, 0⟩ (init ⟨2, 2, 2, 0⟩ 0 [0, 0]) qts_demo).getD (init ⟨2, 2, 2, 0⟩ 0 [0, 0], [])

/-! ## The local clock entry -/

/-- The timestamp an event hands out: `tx.timestamp` for a transaction, the
`req_timestamp` of a node program (the value of `vts->vclk` right after the
increment), and the `vclk` local of `timer_function` that the NOPs carry. -/
def handed_out (c : Consts) (vts : timestamper) : event → Option vclock_t
  | .CLIENT_TX_INIT tx => (begin_transaction c vts tx).map (fun r => r.2.1.timestamp)
  | .CLIENT_NODE_PROG_REQ pType initial_args sender results req_id =>
    (unpack_and_start_coord c vts pType initial_args sender results req_id).map
      (fun r => r.1.vclk)
  | .timer_tick req_id =>
    if vts.to_nop.any id then (timer_function c vts req_id).map (fun r => r.1.timer_vclk)
    else none
  | .CLIENT_TX_INIT_rejected _ => none
  | .TX_DONE _ => none
  | .NODE_PROG_RETURN _ _ _ => none
  | .VT_CLOCK_UPDATE _ _ => none
  | .VT_CLOCK_UPDATE_ACK => none
  | .VT_NOP_ACK _ _ => none

/-- The timestamps handed out along a run, in order. -/
def timestamps (c : Consts) : timestamper → List event → List vclock_t
  | _, [] => []
  | vts, e :: es =>
    match step c vts e with
    | none => []
    | some (s, _) => (handed_out c vts e).toList ++ timestamps c s es

/-! ## Counting what was scheduled at a shard -/

/-- The number of writes that target `shard` among the transactions admitted
by a run. -/
def writes_to (c : Consts) (shard : Nat) : List event → Nat
  | [] => 0
  | .CLIENT_TX_INIT tx :: es =>
    tx.writes.countP (fun w => decide (w.loc1 = shard + c.SHARD_ID_INCR)) + writes_to c shard es
  | .CLIENT_NODE_PROG_REQ _ _ _ _ _ :: es => writes_to c shard es
  | .CLIENT_TX_INIT_rejected _ :: es => writes_to c shard es
  | .TX_DONE _ :: es => writes_to c shard es
  | .NODE_PROG_RETURN _ _ _ :: es => writes_to c shard es
  | .VT_CLOCK_UPDATE _ _ :: es => writes_to c shard es
  | .VT_CLOCK_UPDATE_ACK :: es => writes_to c shard es
  | .VT_NOP_ACK _ _ :: es => writes_to c shard es
  | .timer_tick _ :: es => writes_to c shard es

/-- The message is a `VT_NOP` sent to `shard`. -/
def is_nop_to (c : Consts) (shard : Nat) : sent → Bool
  | (dest, .VT_NOP _ _ _ _ _ _ _ _ _) => decide (dest = shard + c.SHARD_ID_INCR)
  | (_, .TX_INIT _ _ _ _ _) => false
  | (_, .CLIENT_TX_DONE) => false
  | (_, .CLIENT_TX_FAIL) => false
  | (_, .VT_CLOCK_UPDATE _ _) => false
  | (_, .VT_CLOCK_UPDATE_ACK) => false
  | (_, .NODE_PROG _ _ _ _ _ _) => false
  | (_, .NODE_PROG_RETURN _) => false

/-- The number of `VT_NOP` messages sent to `shard`; a timer iteration sends
a shard at most one, so this is the number of iterations that sent it one. -/
def nops_to (c : Consts) (shard : Nat) (msgs : List sent) : Nat :=
  msgs.countP (is_nop_to c shard)

/-- The first end-to-end scenario of the spec: two VTs, two shards, one
transaction with a write on shard 0 and a write on shard 1. -/
def scenario_one : List event :=
  [.CLIENT_TX_INIT ⟨1, 9, [], [⟨1, 0, []⟩, ⟨2, 1, []⟩]⟩]

/-- The outcome of `scenario_one` with `SHARD_ID_INCR = 0`. -/
def scenario_one_result : timestamper × List sent :=
  (run ⟨2, 2, 0, 0⟩ (init ⟨2, 2, 0, 0⟩ 0 [0, 0]) scenario_one).getD
    (init ⟨2, 2, 0, 0⟩ 0 [0, 0], [])

/-- The fourth end-to-end scenario of the spec: the local state has
`vclk[1] = 40`. -/
def peer_clock_at_40 : timestamper := { init ⟨2, 2, 2, 0⟩ 0 [0, 0] with vclk := [7, 40] }

/-- The body of the loop of `send_tx_batches` for one shard: the `TX_INIT`
for a non-empty batch, nothing for an empty one. -/
def tx_init_for (c : Consts) (timestamp : vclock_t) (tx_id : Nat) :
    List pending_update → Option sent
  | [] => none
  | w0 :: ws => some (w0.loc1, message.TX_INIT c.vt_id timestamp w0.qts tx_id (w0 :: ws))

/-- A transaction with writes on two shards, one of them written twice. -/
def two_shard_tx : pending_tx := ⟨5, 9, [], [⟨1, 3, []⟩, ⟨2, 2, []⟩, ⟨3, 3, []⟩]⟩

/-- A state in which transaction 5 of client 9 waits for two shards. -/
def tx_waits_for_two : timestamper :=
  { init ⟨2, 2, 2, 0⟩ 0 [0, 0] with outstanding_tx := [(4, ⟨8, 1⟩), (5, ⟨9, 2⟩)] }

/-- The number of `TX_DONE` messages for transaction `tx_id` in a sequence of
events. -/
def tx_dones (tx_id : Nat) (t : List event) : Nat :=
  (t.filter (fun e => decide (e = event.TX_DONE tx_id))).length

/-- The `comm.send` of the `NODE_PROG_RETURN` case of `server_loop`.  The
reply is forwarded right after the lookup in `outstanding_progs` and before
`mark_req_finished` is called, so it has been sent whether or not an
assertion of `mark_req_finished` then fails. -/
def node_prog_return_sends (vts : timestamper) (req_id payload : Nat) : List sent :=
  match map_find vts.outstanding_progs req_id with
  | some prog => [(prog.client, message.NODE_PROG_RETURN payload)]
  | none => []

/-- How many times a reply for program `id` is forwarded to a client while the
events `t` are handled from `vts`, the handler that fails (if one does)
included. -/
def forwarded_replies (c : Consts) : timestamper → List event → Nat → Nat
  | _, [], _ => 0
  | vts, e :: es, id =>
    (match e with
      | .NODE_PROG_RETURN _ req_id payload =>
        if req_id = id then (node_prog_return_sends vts req_id payload).length else 0
      | _ => 0) +
    (match step c vts e with
      | some (vts1, _) => forwarded_replies c vts1 es id
      | none => 0)

/-- Programs 10 and 11 are admitted and the reply for 11 arrives: 11 is
counted in `seen_done_id` and waits behind 10 in `outstanding_progs`. -/
def reply_counted_not_retired : List event :=
  [.CLIENT_NODE_PROG_REQ .REACHABILITY [(5, 0)] 7 [(5, 2)] 10,
   .CLIENT_NODE_PROG_REQ .DIJKSTRA [(6, 0)] 7 [(6, 3)] 11,
   .NODE_PROG_RETURN .DIJKSTRA 11 0]

/-- The state after `reply_counted_not_retired`. -/
def reply_counted_state : timestamper :=
  ((run ⟨2, 2, 2, 0⟩ (init ⟨2, 2, 2, 0⟩ 0 [0, 0]) reply_counted_not_retired).getD
    (init ⟨2, 2, 2, 0⟩ 0 [0, 0], [])).1

/-- Programs 10 and 11 are admitted and the reply for 10 arrives. -/
def first_reply_arrives : List event :=
  [.CLIENT_NODE_PROG_REQ .REACHABILITY [(5, 0)] 7 [(5, 2)] 10,
   .CLIENT_NODE_PROG_REQ .DIJKSTRA [(6, 0)] 7 [(6, 3)] 11,
   .NODE_PROG_RETURN .REACHABILITY 10 0]

/-- The outcome of `first_reply_arrives`. -/
def first_reply_arrives_result : timestamper × List sent :=
  (run ⟨2, 2, 2, 0⟩ (init ⟨2, 2, 2, 0⟩ 0 [0, 0]) first_reply_arrives).getD
    (init ⟨2, 2, 2, 0⟩ 0 [0, 0], [])

/-- What the innermost loop of the ledger pass does to the bitset of one
reply: the bit of every shard that gets a NOP is set. -/
def nop_reply_bits (to_nop : List Bool) (num_shards : Nat) (bits : List Bool) : List Bool :=
  (List.range num_shards).foldl
    (fun b shard_id =>
      if bit_get to_nop shard_id ∧ ¬ bit_get b shard_id then bit_set b shard_id else b)
    bits

/-- The request ids of a ledger, over all program types, in iteration order. -/
def ledger_ids : List (prog_type × List (Nat × List Bool)) → List Nat
  | [] => []
  | (_, replies) :: rest => replies.map Prod.fst ++ ledger_ids rest

/-- The entries of a ledger as (request id, program type, bitset). -/
def ledger_entries :
    List (prog_type × List (Nat × List Bool)) → List (Nat × prog_type × List Bool)
  | [] => []
  | (type, replies) :: rest =>
    replies.map (fun e => (e.1, type, e.2)) ++ ledger_entries rest

/-- The (request id, program type) pairs of the ledger entries whose bit
`shard` is 0, in iteration order. -/
def entries_missing_shard (shard : Nat) :
    List (prog_type × List (Nat × List Bool)) → List (Nat × prog_type)
  | [] => []
  | (type, replies) :: rest =>
    (replies.filter (fun e => !bit_get e.2 shard)).map (fun e => (e.1, type)) ++
      entries_missing_shard shard rest

/-- The ledger after a NOP tick in the words of the specification: every
entry gets the bits of the masked shards set, and the entries whose bitset is
then complete are dropped. -/
def ledger_after_tick (to_nop : List Bool) (num_shards : Nat)
    (ledger : List (prog_type × List (Nat × List Bool))) :
    List (prog_type × List (Nat × List Bool)) :=
  ledger.map (fun tm =>
    (tm.1, (tm.2.map (fun e => (e.1, nop_reply_bits to_nop num_shards e.2))).filter
      (fun e => !bits_all num_shards e.2)))

/-- A state whose ledger holds three requests with distinct ids, with a NOP
due for shard 0 only. -/
def three_done_reqs : timestamper :=
  { init ⟨2, 2, 2, 0⟩ 0 [0, 0] with
    done_reqs := [(.REACHABILITY, [(5, [false, true]), (7, [false, false])]),
                  (.DIJKSTRA, [(6, [true, false])])]
    to_nop := [true, false] }

/-- The done-list that a message carries to shard `shard`: the list packed in
a `VT_NOP` sent to that shard, empty for every other message. -/
def done_list_of (c : Consts) (shard : Nat) : sent → List (Nat × prog_type)
  | (dest, .VT_NOP _ _ _ _ done _ _ _ _) => if dest = shard + c.SHARD_ID_INCR then done else []
  | (_, .TX_INIT _ _ _ _ _) => []
  | (_, .CLIENT_TX_DONE) => []
  | (_, .CLIENT_TX_FAIL) => []
  | (_, .VT_CLOCK_UPDATE _ _) => []
  | (_, .VT_CLOCK_UPDATE_ACK) => []
  | (_, .NODE_PROG _ _ _ _ _ _) => []
  | (_, .NODE_PROG_RETURN _) => []

/-- How often the pair `p` has been included in the done-lists sent to shard
`shard`, over the messages `msgs`. -/
def done_list_count (c : Consts) (shard : Nat) (p : Nat × prog_type) (msgs : List sent) : Nat :=
  (msgs.map (fun m => (done_list_of c shard m).count p)).sum

/-- The ledger and the done-lists sent so far agree: no id occurs twice in
the ledger, every id in it has been counted in `seen_done_id`, the bitsets and
the timer's vector of done-lists have `NUM_SHARDS` places, an entry has been
listed for a shard once if its bit for the shard is set and never otherwise,
and a pair with no entry has been listed for no shard, or once for every
shard. -/
def LedgerInv (c : Consts) (s : timestamper) (msgs : List sent) : Prop :=
  (ledger_ids s.done_reqs).Nodup ∧
  (∀ x ∈ ledger_ids s.done_reqs, x ∈ s.seen_done_id) ∧
  (∀ x ∈ ledger_entries s.done_reqs, x.2.2.length = c.NUM_SHARDS) ∧
  s.timer_done_reqs.length = c.NUM_SHARDS ∧
  (∀ x ∈ ledger_entries s.done_reqs, ∀ sh, sh < c.NUM_SHARDS →
    done_list_count c sh (x.1, x.2.1) msgs = if bit_get x.2.2 sh then 1 else 0) ∧
  (∀ p : Nat × prog_type, (∀ bits, (p.1, p.2, bits) ∉ ledger_entries s.done_reqs) →
    (∀ sh, sh < c.NUM_SHARDS → done_list_count c sh p msgs = 0) ∨
    (p.1 ∈ s.seen_done_id ∧ ∀ sh, sh < c.NUM_SHARDS → done_list_count c sh p msgs = 1))

/-- Program 10 is admitted, its reply arrives, and the timer fires while both
shards are due a NOP. -/
def reply_then_tick : List event :=
  [.CLIENT_NODE_PROG_REQ .REACHABILITY [(5, 0)] 7 [(5, 2)] 10,
   .NODE_PROG_RETURN .REACHABILITY 10 0, .timer_tick 13]

/-- The outcome of `reply_then_tick`. -/
def reply_then_tick_result : timestamper × List sent :=
  (run ⟨2, 2, 2, 0⟩ (init ⟨2, 2, 2, 0⟩ 0 [0, 0]) reply_then_tick).getD
    (init ⟨2, 2, 2, 0⟩ 0 [0, 0], [])

/-- The message is a `VT_CLOCK_UPDATE`. -/
def is_clock_update : sent → Bool
  | (_, .VT_CLOCK_UPDATE _ _) => true
  | (_, .VT_NOP _ _ _ _ _ _ _ _ _) => false
  | (_, .TX_INIT _ _ _ _ _) => false
  | (_, .CLIENT_TX_DONE) => false
  | (_, .CLIENT_TX_FAIL) => false
  | (_, .VT_CLOCK_UPDATE_ACK) => false
  | (_, .NODE_PROG _ _ _ _ _ _) => false
  | (_, .NODE_PROG_RETURN _) => false

/-- The `VT_CLOCK_UPDATE` messages among `msgs`, in the order sent. -/
def clock_updates (msgs : List sent) : List sent := msgs.filter is_clock_update

/-- The ids of the other timestampers, in the order of the gossip loop. -/
def peer_vts (c : Consts) : List Nat :=
  (List.range c.NUM_VTS).filter (fun i => decide (i ≠ c.vt_id))

/-- A state with no NOP due and the round of clock acknowledgements complete
(one peer, one acknowledgement). -/
def idle_acks_complete : timestamper :=
  { init ⟨2, 2, 2, 0⟩ 0 [0, 0] with
    vclk := [4, 1]
    to_nop := [false, false]
    clock_update_acks := 1 }

/-- A state in which shard 0 has not acknowledged its last NOP and shard 1 is
due one. -/
def shard_one_due : timestamper :=
  { init ⟨2, 2, 2, 0⟩ 0 [0, 0] with to_nop := [false, true] }

/-- Two timer iterations with a transaction admission in between and no
`VT_NOP_ACK`. -/
def ticks_without_ack : List event :=
  [.timer_tick 13, .CLIENT_TX_INIT ⟨1, 9, [], [⟨1, 2, []⟩]⟩, .timer_tick 14]

/-- The outcome of `ticks_without_ack` from `shard_one_due`. -/
def ticks_without_ack_result : timestamper × List sent :=
  (run ⟨2, 2, 2, 0⟩ shard_one_due ticks_without_ack).getD (shard_one_due, [])

/-- The shard that `request_element_mappings[handle]` gives after the results
of the name mapper have been emplaced into the map: the location of the first
result for the handle, and 0 (the value `operator[]` inserts) for a handle the
mapper returned nothing for. -/
def request_mapping (results : List (Nat × Nat)) (handle : Nat) : Nat :=
  (map_find (results.foldl (fun m kv => map_emplace m kv.1 kv.2) []) handle).getD 0

/-- The loop that fills `initial_batches` for a regular node program, for a
given way `loc` to find the shard of an argument. -/
def group_batches (loc : Nat × Nat → Nat) (initial_args : List (Nat × Nat)) :
    List (Nat × List (Nat × Nat)) :=
  initial_args.foldl (fun m arg => batch_add m (loc arg) arg) []

/-- A request for three start nodes, two of them on shard 3. -/
def three_start_nodes : List (Nat × Nat) := [(5, 0), (6, 1), (7, 2)]

/-- The answer of the name mapper for `three_start_nodes`. -/
def three_start_nodes_mapping : List (Nat × Nat) := [(5, 3), (6, 2), (7, 3)]

/-- Programs 10 and 11 are admitted and the reply for 11 arrives first. -/
def two_admitted_one_reply : List event :=
  [.CLIENT_NODE_PROG_REQ .REACHABILITY [(5, 0)] 7 [(5, 2)] 10,
   .CLIENT_NODE_PROG_REQ .DIJKSTRA [(6, 0)] 7 [(6, 3)] 11,
   .NODE_PROG_RETURN .DIJKSTRA 11 0]

/-- The outcome of `two_admitted_one_reply`. -/
def two_admitted_one_reply_result : timestamper × List sent :=
  (run ⟨2, 2, 2, 0⟩ (init ⟨2, 2, 2, 0⟩ 0 [0, 0]) two_admitted_one_reply).getD
    (init ⟨2, 2, 2, 0⟩ 0 [0, 0], [])

/-- The values of the assertions that the `while` loop of `mark_req_finished`
evaluates, in the order of evaluation: in every iteration first
`max_done_id < pend_prog_queue.top()`, then that `outstanding_progs` holds the
id being retired.  The log ends with the first assertion that fails. -/
def mark_req_finished_loop_asserts : Nat → timestamper → List Bool
  | fuel, vts =>
    match pq_top vts.pend_prog_queue, pq_top vts.done_prog_queue with
    | some p, some d =>
      if p = d then
        match fuel with
        | 0 => []
        | fuel + 1 =>
          if vts.max_done_id < p then
            match map_find vts.outstanding_progs p with
            | none => [true, false]
            | some prog =>
              true :: true :: mark_req_finished_loop_asserts fuel
                { vts with
                  max_done_id := p
                  max_done_clk := prog.vclk
                  pend_prog_queue := pq_pop vts.pend_prog_queue
                  done_prog_queue := pq_pop vts.done_prog_queue
                  outstanding_progs := map_erase vts.outstanding_progs p }
          else [false]
      else []
    | _, _ => []

/-- The values of the two assertions of `mark_req_finished` on the frontier
(`max_done_id < pend_prog_queue.top()` and `outstanding_progs` holds the id
being retired) at every point where one call evaluates them: in the first
retirement, then in the iterations of the loop. -/
def mark_req_finished_asserts (vts : timestamper) (req_id : Nat) : List Bool :=
  if req_id ∈ vts.seen_done_id then []
  else
    let vts1 := { vts with seen_done_id := req_id :: vts.seen_done_id }
    match pq_top vts1.pend_prog_queue with
    | none => []
    | some top =>
      if top = req_id then
        if vts1.max_done_id < top then
          match map_find vts1.outstanding_progs req_id with
          | none => [true, false]
          | some prog =>
            let vts2 := { vts1 with
              max_done_id := req_id
              max_done_clk := prog.vclk
              pend_prog_queue := pq_pop vts1.pend_prog_queue
              outstanding_progs := map_erase vts1.outstanding_progs req_id }
            true :: true :: mark_req_finished_loop_asserts vts2.pend_prog_queue.length vts2
        else [false]
      else []

/-! ## Program state of a shard (`db/state/program_state.h`) -/

/-- A `std::shared_ptr<node_prog::Node_State_Base>`: `none` is the null
pointer, `some a` points to the state `a`. -/
abbrev node_state_ptr := Option Nat

/-- The type `state::node_map`: node id to state. -/
abbrev node_map := List (Nat × node_state_ptr)

/-- The type `state::req_map`: request id to the node map of the request. -/
abbrev req_map := List (Nat × node_map)

/-- The type `state::prog_map`: program type to request map. -/
abbrev prog_map := List (prog_type × req_map)

/-- The fields of `state::program_state` (the mutex and the condition
variable apart). -/
structure program_state where
  prog_state : prog_map
  req_list : List (Nat × List Nat)
  completed_id : Nat
  done_ids : List Nat
deriving DecidableEq, Repr

/-- `prog_map::find`; `prog_map::at` throws where this gives `none`. -/
def prog_map_find : prog_map → prog_type → Option req_map
  | [], _ => none
  | (k, v) :: m, t => if k = t then some v else prog_map_find m t

/-- `prog_map::emplace`: inserts only when the key is absent. -/
def prog_map_emplace (m : prog_map) (t : prog_type) (v : req_map) : prog_map :=
  match prog_map_find m t with
  | some _ => m
  | none => m ++ [(t, v)]

/-- A write through the reference that `prog_state.at(t)` returns. -/
def prog_map_assign (m : prog_map) (t : prog_type) (v : req_map) : prog_map :=
  m.map (fun kv => if kv.1 = t then (kv.1, v) else kv)

/-- The statement `m[key] = v` on an `unordered_map`: assigns to the entry of
the key, inserting it when it is absent. -/
def map_put {β : Type} (m : List (Nat × β)) (key : Nat) (v : β) : List (Nat × β) :=
  if (map_find m key).isSome then map_assign m key v else m ++ [(key, v)]

/-- `unordered_set::emplace`. -/
def set_emplace (s : List Nat) (x : Nat) : List Nat := if x ∈ s then s else s ++ [x]

/-- The constructor `program_state::program_state()`: `completed_id` is 0 and
seven program types get an empty request map, in this order. -/
def new_program_state : program_state where
  prog_state :=
    [prog_type.REACHABILITY, prog_type.N_HOP_REACHABILITY, prog_type.TRIANGLE_COUNT,
      prog_type.CLUSTERING, prog_type.DIJKSTRA, prog_type.READ_NODE_PROPS,
      prog_type.READ_EDGES_PROPS].foldl (fun m t => prog_map_emplace m t []) []
  req_list := []
  completed_id := 0
  done_ids := []

/-- The method `check_done_nolock`. -/
def program_state.check_done_nolock (ps : program_state) (req_id : Nat) : Bool :=
  decide (req_id ∈ ps.done_ids)

/-- The method `check_done_request`: `check_done_nolock` under the mutex. -/
def program_state.check_done_request (ps : program_state) (req_id : Nat) : Bool :=
  ps.check_done_nolock req_id

/-- The method `state_exists_nolock`; `none` when the assertion that
`prog_state` has the program type fails. -/
def program_state.state_exists_nolock (ps : program_state) (t : prog_type)
    (req_id node_id : Nat) : Option Bool :=
  match prog_map_find ps.prog_state t with
  | none => none
  | some rmap =>
    match map_find rmap req_id with
    | none => some false
    | some nmap =>
      match map_find nmap node_id with
      | none => some false
      | some _ => some true

/-- The method `state_exists`: `state_exists_nolock` under the mutex. -/
def program_state.state_exists (ps : program_state) (t : prog_type) (req_id node_id : Nat) :
    Option Bool :=
  ps.state_exists_nolock t req_id node_id

/-- The method `get_state`: the stored pointer when the state exists, the null
pointer otherwise; `none` when it does not return (failed assertion, or `at`
throws). -/
def program_state.get_state (ps : program_state) (t : prog_type) (req_id node_id : Nat) :
    Option node_state_ptr :=
  match ps.state_exists_nolock t req_id node_id with
  | none => none
  | some true =>
    match prog_map_find ps.prog_state t with
    | none => none
    | some rmap =>
      match map_find rmap req_id with
      | none => none
      | some nmap => map_find nmap node_id
  | some false => some none

/-- The method `put_state`; `none` when `prog_state.at(t)` throws. -/
def program_state.put_state (ps : program_state) (t : prog_type) (req_id node_id : Nat)
    (new_state : node_state_ptr) : Option program_state :=
  if ps.check_done_nolock req_id then some ps
  else
    match prog_map_find ps.prog_state t with
    | none => none
    | some rmap =>
      let rmap1 : req_map :=
        match map_find rmap req_id with
        | some nmap => map_assign rmap req_id (map_put nmap node_id new_state)
        | none => map_emplace rmap req_id [(node_id, new_state)]
      let req_list1 :=
        if (map_find ps.req_list node_id).isSome then ps.req_list
        else map_emplace ps.req_list node_id []
      some { ps with
        prog_state := prog_map_assign ps.prog_state t rmap1
        req_list := map_assign req_list1 node_id
          (set_emplace ((map_find req_list1 node_id).getD []) req_id) }

/-- The loop of `done_requests` over the nodes of one request: the request
leaves the list of each node, and a node whose list is empty leaves
`req_list`; `none` when `req_list.at(node_id)` throws. -/
def done_requests_nodes (req_id : Nat) :
    List (Nat × List Nat) → List Nat → Option (List (Nat × List Nat))
  | req_list, [] => some req_list
  | req_list, node_id :: rest =>
    match map_find req_list node_id with
    | none => none
    | some reqs =>
      let reqs1 := reqs.filter (fun r => decide (r ≠ req_id))
      done_requests_nodes req_id
        (if reqs1.isEmpty then map_erase req_list node_id
         else map_assign req_list node_id reqs1)
        rest

/-- One iteration of the loop of `done_requests`. -/
def program_state.done_request (ps : program_state) (p : Nat × prog_type) :
    Option program_state :=
  match prog_map_find ps.prog_state p.2 with
  | none => none
  | some rmap =>
    match map_find rmap p.1 with
    | none => some { ps with done_ids := set_emplace ps.done_ids p.1 }
    | some nmap =>
      match done_requests_nodes p.1 ps.req_list (nmap.map Prod.fst) with
      | none => none
      | some req_list1 =>
        some { ps with
          done_ids := set_emplace ps.done_ids p.1
          req_list := req_list1
          prog_state := prog_map_assign ps.prog_state p.2 (map_erase rmap p.1) }

/-- The method `done_requests`. -/
def program_state.done_requests : program_state → List (Nat × prog_type) → Option program_state
  | ps, [] => some ps
  | ps, p :: rest =>
    match ps.done_request p with
    | none => none
    | some ps1 => ps1.done_requests rest

/-- The state that a triple of program type, request and node has in the
maps, if the lookups `prog_state.at(t).at(req_id)->at(node_id)` all succeed. -/
def program_state.stored (ps : program_state) (t : prog_type) (req_id node_id : Nat) :
    Option node_state_ptr :=
  match prog_map_find ps.prog_state t with
  | none => none
  | some rmap =>
    match map_find rmap req_id with
    | none => none
    | some nmap => map_find nmap node_id

/-- A program state right after construction in which request 4 has been
reported done and request 1 holds state 5 at node 2. -/
def one_done_one_live : program_state :=
  (((new_program_state.put_state .REACHABILITY 1 2 (some 5)).getD
      new_program_state).done_requests [(4, .DIJKSTRA)]).getD
    new_program_state

/-- A transaction of client 9 without writes. -/
def empty_tx : pending_tx := ⟨7, 9, [], []⟩

/-! ## Properties of an element (`db/element.cc`)

`db/property.h` is not part of this development: the class `db::property` is
a type parameter `P`, and the members of it that `element.cc` calls are the
fields of `property_ops`. -/

/-- The members of `db::property` used by `element.cc`: the fields `key` and
`value`, `operator==`, `is_deleted()` and `update_del_time(tdel)` (which
changes the property it is called on). -/
structure property_ops (P : Type) where
  key : P → String
  value : P → String
  eq : P → P → Bool
  is_deleted : P → Bool
  update_del_time : P → vclock_t → P

/-- The function `element::add_property(prop)` of the default build, on the
vector `properties`: the result and the vector afterwards. -/
def add_property {P : Type} (ops : property_ops P) (properties : List P) (prop : P) :
    Bool × List P :=
  let exists_ := properties.any (fun p => ops.eq p prop && !ops.is_deleted p)
  if exists_ then (false, properties) else (true, properties ++ [prop])

/-- The function `element::delete_property(key, tdel)` of the default build:
the loop over `properties`, started with the current value of `found`. -/
def delete_property_loop {P : Type} (ops : property_ops P) (key : String) (tdel : vclock_t) :
    List P → Bool → Bool × List P
  | [], found => (found, [])
  | p :: ps, found =>
    if ops.key p = key ∧ ops.is_deleted p = false then
      let r := delete_property_loop ops key tdel ps true
      (r.1, ops.update_del_time p tdel :: r.2)
    else
      let r := delete_property_loop ops key tdel ps found
      (r.1, p :: r.2)

/-- The function `element::delete_property(key, tdel)` of the default build. -/
def delete_property {P : Type} (ops : property_ops P) (properties : List P) (key : String)
    (tdel : vclock_t) : Bool × List P :=
  delete_property_loop ops key tdel properties false

/-- The function `element::delete_property(key, value, tdel)` of the default
build: the first property with the key and the value that is not deleted gets
the deletion time. -/
def delete_property_value {P : Type} (ops : property_ops P) (key value : String)
    (tdel : vclock_t) : List P → Bool × List P
  | [] => (false, [])
  | p :: ps =>
    if ops.key p = key ∧ ops.value p = value ∧ ops.is_deleted p = false then
      (true, ops.update_del_time p tdel :: ps)
    else
      let r := delete_property_value ops key value tdel ps
      (r.1, p :: r.2)

/-- The first loop of `element::remove_property(key)` of the default build:
the positions `del_pos` of the properties with the key, counted from `pos`. -/
def remove_property_positions {P : Type} (ops : property_ops P) (key : String) :
    List P → Nat → List Nat
  | [], _ => []
  | p :: ps, pos =>
    if ops.key p = key then pos :: remove_property_positions ops key ps (pos + 1)
    else remove_property_positions ops key ps (pos + 1)

/-- The call `v.erase(v.begin() + dp)` on a vector; it has no defined result
(`none`) unless `dp` is the position of an element. -/
def vector_erase {α : Type} (v : List α) (dp : Nat) : Option (List α) :=
  if dp < v.length then some (v.eraseIdx dp) else none

/-- The second loop of `element::remove_property(key)` of the default build:
one `erase` per recorded position, in the order of `del_pos`. -/
def remove_property_erase {α : Type} : List Nat → List α → Option (List α)
  | [], v => some v
  | dp :: rest, v =>
    match vector_erase v dp with
    | none => none
    | some v1 => remove_property_erase rest v1

/-- The function `element::remove_property(key)` of the default build. -/
def remove_property {P : Type} (ops : property_ops P) (properties : List P) (key : String) :
    Option (List P) :=
  remove_property_erase (remove_property_positions ops key properties 0) properties

/-- `std::unordered_map<std::string, ..>::find` on the property map of the
build with `weaver_large_property_maps_`. -/
def property_map_find {β : Type} : List (String × β) → String → Option β
  | [], _ => none
  | (k, v) :: m, key => if k = key then some v else property_map_find m key

/-- A write through the iterator that `properties.find(key)` returns. -/
def property_map_assign {β : Type} (m : List (String × β)) (key : String) (v : β) :
    List (String × β) :=
  m.map (fun kv => if kv.1 = key then (kv.1, v) else kv)

/-- The function `element::add_property(prop)` of the build with
`weaver_large_property_maps_`. -/
def add_property_map {P : Type} (ops : property_ops P) (properties : List (String × List P))
    (prop : P) : Bool × List (String × List P) :=
  match property_map_find properties (ops.key prop) with
  | none => (true, properties ++ [(ops.key prop, [prop])])
  | some vec =>
    let exists_ := vec.any (fun p => ops.eq p prop && !ops.is_deleted p)
    if exists_ then (false, properties)
    else (true, property_map_assign properties (ops.key prop) (vec ++ [prop]))

/-- The function `element::delete_property(key, tdel)` of the build with
`weaver_large_property_maps_`. -/
def delete_property_map {P : Type} (ops : property_ops P) (properties : List (String × List P))
    (key : String) (tdel : vclock_t) : Bool × List (String × List P) :=
  match property_map_find properties key with
  | none => (false, properties)
  | some vec =>
    (true, property_map_assign properties key
      (vec.map (fun p => if ops.is_deleted p = false then ops.update_del_time p tdel else p)))

/-- The function `element::remove_property(key)` of the build with
`weaver_large_property_maps_`. -/
def remove_property_map {β : Type} (properties : List (String × β)) (key : String) :
    List (String × β) :=
  properties.filter (fun kv => decide (kv.1 ≠ key))

/-- A property as a key, a value and a deletion time that is absent until
`update_del_time` sets it: an instance to evaluate the functions on. -/
structure plain_property where
  key : String
  value : String
  del_time : Option vclock_t
deriving DecidableEq, Repr

/-- The members of `plain_property`: two properties are equal when their keys
and values are, and a property is deleted when it has a deletion time. -/
def plain_ops : property_ops plain_property where
  key := fun p => p.key
  value := fun p => p.value
  eq := fun a b => decide (a.key = b.key) && decide (a.value = b.value)
  is_deleted := fun p => p.del_time.isSome
  update_del_time := fun p tdel => { p with del_time := some tdel }

/-- Three properties: two with the key `color`, then one with the key `size`. -/
def two_colors_one_size : List plain_property :=
  [⟨"color", "red", none⟩, ⟨"color", "blue", none⟩, ⟨"size", "big", none⟩]

/-- The property `color = red`, not deleted. -/
def red : plain_property := ⟨"color", "red", none⟩

/-- The inner loop of `delete_node_state` for one request: in the first
program type, in the iteration order of `prog_state`, whose request map has
the request, the node is erased from the node map of the request. -/
def delete_node_state_req (node_id req_id : Nat) : prog_map → prog_map
  | [] => []
  | (t, rmap) :: rest =>
    match map_find rmap req_id with
    | some nmap => (t, map_assign rmap req_id (map_erase nmap node_id)) :: rest
    | none => (t, rmap) :: delete_node_state_req node_id req_id rest

/-- The method `delete_node_state`. -/
def program_state.delete_node_state (ps : program_state) (node_id : Nat) : program_state :=
  { ps with
    prog_state :=
      match map_find ps.req_list node_id with
      | some reqs =>
        reqs.foldl (fun m req_id => delete_node_state_req node_id req_id m) ps.prog_state
      | none => ps.prog_state
    req_list := map_erase ps.req_list node_id }

/-- The program types with a `case` in the `switch` of `unpack` (and of
`size` and `pack`). -/
def unpack_handles : prog_type → Bool
  | .REACHABILITY => true
  | .DIJKSTRA => true
  | .CLUSTERING => true
  | .READ_NODE_PROPS => true
  | .READ_EDGES_PROPS => true
  | .READ_N_EDGES => true
  | _ => false

/-- The loop of `unpack` over the entries of the buffer, each a program type,
a request id and the packed state (a number stands for its content).
`new_entry` is the local that keeps its value from one iteration to the next
when the type has no `case`.  The result is `none` when `prog_state.at(type)`
or `req_list.at(node_id)` throws. -/
def unpack_loop (node_id : Nat) :
    program_state → node_state_ptr → List (prog_type × Nat × Nat) → Option program_state
  | ps, _, [] => some ps
  | ps, new_entry, (type, req_id, packed) :: rest =>
    let new_entry1 : node_state_ptr := if unpack_handles type then some packed else new_entry
    match prog_map_find ps.prog_state type with
    | none => none
    | some rmap =>
      let rmap1 : req_map :=
        if (map_find rmap req_id).isSome then rmap else map_emplace rmap req_id []
      let rmap2 : req_map :=
        map_assign rmap1 req_id
          (map_emplace ((map_find rmap1 req_id).getD []) node_id new_entry1)
      match map_find ps.req_list node_id with
      | none => none
      | some reqs =>
        unpack_loop node_id
          { ps with
            prog_state := prog_map_assign ps.prog_state type rmap2
            req_list := map_assign ps.req_list node_id (set_emplace reqs req_id) }
          new_entry1 rest

/-- The method `unpack`; `none` also when the assertion that `req_list` has
no entry for the node fails. -/
def program_state.unpack (ps : program_state) (node_id : Nat)
    (entries : List (prog_type × Nat × Nat)) : Option program_state :=
  if (map_find ps.req_list node_id).isSome then none
  else unpack_loop node_id { ps with req_list := map_emplace ps.req_list node_id [] } none entries

/-- A call of one of the methods `put_state`, `delete_node_state` and
`done_requests`. -/
inductive program_state_call where
  | put_state (t : prog_type) (req_id node_id : Nat) (new_state : node_state_ptr)
  | delete_node_state (node_id : Nat)
  | done_requests (reqs : List (Nat × prog_type))
deriving DecidableEq, Repr

/-- The object after one call; `none` when the call throws. -/
def program_state.call (ps : program_state) : program_state_call → Option program_state
  | .put_state t req_id node_id new_state => ps.put_state t req_id node_id new_state
  | .delete_node_state node_id => some (ps.delete_node_state node_id)
  | .done_requests reqs => ps.done_requests reqs

/-- The object after a sequence of calls. -/
def program_state.calls : program_state → List program_state_call → Option program_state
  | ps, [] => some ps
  | ps, c :: rest =>
    match ps.call c with
    | none => none
    | some ps1 => ps1.calls rest

/-- A call uses every request id under the program type `ty` gives it. -/
def typed_by (ty : Nat → prog_type) : program_state_call → Prop
  | .put_state t req_id _ _ => t = ty req_id
  | .delete_node_state _ => True
  | .done_requests reqs => ∀ p ∈ reqs, p.2 = ty p.1

/-- The program types a call names. -/
def call_types : program_state_call → List prog_type
  | .put_state t _ _ _ => [t]
  | .delete_node_state _ => []
  | .done_requests reqs => reqs.map Prod.snd

/-- The invariant of `program_state` behind its two indexes: a request map
holds a request only under the type of the request, the node ids of a node
map are distinct, and `req_list` lists a request at a node exactly when a
state is stored for the pair. -/
structure PSInv (ty : Nat → prog_type) (ps : program_state) : Prop where
  typed : ∀ t rmap r, (t, rmap) ∈ ps.prog_state → (map_find rmap r).isSome = true → t = ty r
  nodes : ∀ t rmap r nmap, (t, rmap) ∈ ps.prog_state → map_find rmap r = some nmap →
    (nmap.map Prod.fst).Nodup
  index : ∀ r n, r ∈ (map_find ps.req_list n).getD [] ↔ ∃ t, (ps.stored t r n).isSome = true

/-- Three calls: request 1 (a reachability program) stores state at nodes 2
and 3, then node 2 is deleted. -/
def two_puts_one_delete : List program_state_call :=
  [.put_state .REACHABILITY 1 2 (some 5), .put_state .REACHABILITY 1 3 (some 6),
   .delete_node_state 2]

/-- The object after request 1 has been reported done. -/
def request_one_done : program_state :=
  (new_program_state.done_requests [(1, .REACHABILITY)]).getD new_program_state

/-- What `delete_node_state` does to the request map that has the request:
the node is erased from the node map of the request. -/
def erase_node_in_req (node_id req_id : Nat) (rmap : req_map) : req_map :=
  match map_find rmap req_id with
  | some nmap => map_assign rmap req_id (map_erase nmap node_id)
  | none => rmap

/-- The lookups `prog_state.at(t).at(req_id)->at(node_id)` on a program map. -/
def prog_map_stored (m : prog_map) (t : prog_type) (req_id node_id : Nat) :
    Option node_state_ptr :=
  match prog_map_find m t with
  | none => none
  | some rmap =>
    match map_find rmap req_id with
    | none => none
    | some nmap => map_find nmap node_id

/-! ## Reachability program (`node_prog/reach_program.h`)

The headers of `db::element::remote_node`, `db::element::edge` and
`common::property` are not part of this development: the three classes are
the type parameters `RN`, `E` and `P`, and the members of them that the
program calls are the fields of `reach_ops`. -/

/-- The fields of `node_prog::reach_params`. -/
structure reach_params (RN P : Type) where
  mode : Bool
  prev_node : RN
  dest : RN
  edge_props : List P
  reachable : Bool
deriving DecidableEq, Repr

/-- The fields of `node_prog::reach_node_state`; `out_count` is a 32-bit
counter. -/
structure reach_node_state (RN : Type) where
  visited : Bool
  prev_node : RN
  out_count : Nat
  reachable : Bool
deriving DecidableEq, Repr

/-- The members of `remote_node` and `edge` used by `reach_node_program`:
`operator==` on remote nodes, and of an edge the field `nbr`,
`get_creat_time()`, `get_del_time()` and `has_property(prop)`. -/
structure reach_ops (RN E P : Type) where
  eq : RN → RN → Bool
  nbr : E → RN
  get_creat_time : E → Nat
  get_del_time : E → Nat
  has_property : E → P → Bool

/-- The body of the loop of `reach_node_program` up to its last `if`: the
value of `traverse_edge` for one edge.  It starts as "created at or before
`req_id` and deleted after it" and is set to false when the edge lacks a
property of `params.edge_props`. -/
def reach_traverse_edge {RN E P : Type} (ops : reach_ops RN E P) (req_id : Nat)
    (params : reach_params RN P) (e : E) : Bool :=
  let traverse_edge :=
    decide (ops.get_creat_time e ≤ req_id) && decide (ops.get_del_time e > req_id)
  if params.edge_props.all (fun prop => ops.has_property e prop) then traverse_edge else false

/-- The loop of `reach_node_program` over `n.out_edges`: each traversed edge
adds a request for its neighbour to `next` and one to `state.out_count`. -/
def reach_out_edges {RN E P : Type} (ops : reach_ops RN E P) (req_id : Nat)
    (params : reach_params RN P) :
    List E → List (RN × reach_params RN P) → Nat → List (RN × reach_params RN P) × Nat
  | [], next, out_count => (next, out_count)
  | e :: es, next, out_count =>
    if reach_traverse_edge ops req_id params e then
      reach_out_edges ops req_id params es (next ++ [(ops.nbr e, params)])
        ((out_count + 1) % 2 ^ 32)
    else reach_out_edges ops req_id params es next out_count

/-- The function `reach_node_program`, for the node `rn` with out-edges
`out_edges`: the returned vector `next`, and `params` and `state` as the
call leaves them. -/
def reach_node_program {RN E P : Type} (ops : reach_ops RN E P) (req_id : Nat)
    (out_edges : List E) (rn : RN) (params : reach_params RN P) (state : reach_node_state RN) :
    List (RN × reach_params RN P) × reach_params RN P × reach_node_state RN :=
  let state1 : reach_node_state RN := { state with prev_node := params.prev_node }
  let params1 : reach_params RN P := { params with prev_node := rn }
  if params1.mode = false then
    if ops.eq params1.dest rn then
      let params2 : reach_params RN P := { params1 with mode := true, reachable := true }
      ([(state1.prev_node, params2)], params2, state1)
    else if state1.visited = false then
      let state2 : reach_node_state RN := { state1 with visited := true }
      let r := reach_out_edges ops req_id params1 out_edges [] state2.out_count
      let state3 : reach_node_state RN := { state2 with out_count := r.2 }
      if state3.out_count = 0 then
        let params2 : reach_params RN P := { params1 with mode := true, reachable := false }
        (r.1 ++ [(state3.prev_node, params2)], params2, state3)
      else (r.1, params1, state3)
    else
      let params2 : reach_params RN P := { params1 with mode := true, reachable := false }
      ([(state1.prev_node, params2)], params2, state1)
  else
    if (decide (state1.out_count = 0) || params1.reachable) && !state1.reachable then
      let state2 : reach_node_state RN :=
        { state1 with reachable := state1.reachable || params1.reachable }
      ([(state1.prev_node, params1)], params1, state2)
    else ([], params1, state1)

/-- An edge with a neighbour id, a creation and a deletion time and a list of
properties: an instance to evaluate the program on. -/
structure plain_edge where
  nbr : Nat
  creat_time : Nat
  del_time : Nat
  props : List String
deriving DecidableEq, Repr

/-- The members of `plain_edge`; remote nodes are numbers. -/
def plain_reach_ops : reach_ops Nat plain_edge String where
  eq := fun a b => decide (a = b)
  nbr := fun e => e.nbr
  get_creat_time := fun e => e.creat_time
  get_del_time := fun e => e.del_time
  has_property := fun e prop => decide (prop ∈ e.props)

/-- A reachability request for destination 9 as node 1 sends it. -/
def request_from_one : reach_params Nat String := ⟨false, 1, 9, [], false⟩

/-- The state of node 2 after `request_from_one` arrived there and was
propagated along the one out-edge of node 2, to node 3. -/
def node_two_visited : reach_node_state Nat :=
  (reach_node_program plain_reach_ops 5 [⟨3, 0, 10, []⟩] 2 request_from_one
    ⟨false, 0, 0, false⟩).2.2

/-- The reply that node 3 sends back to node 2: destination 9 is reachable. -/
def reply_from_three : reach_params Nat String := ⟨true, 3, 9, [], true⟩

/-! # Theorems -/

/-! ## Container lemmas -/

theorem pq_top_some {q : List Nat} {m : Nat} :
    pq_top q = some m ↔ m ∈ q ∧ ∀ b ∈ q, m ≤ b := by
  unfold pq_top
  exact List.min?_eq_some_iff'

theorem pq_top_none {q : List Nat} : pq_top q = none ↔ q = [] := by
  unfold pq_top
  exact List.min?_eq_none_iff

theorem pq_pop_of_top {q : List Nat} {m : Nat} (h : pq_top q = some m) : pq_pop q = q.erase m := by
  simp [pq_pop, h]

theorem map_find_erase {β : Type} (m : List (Nat × β)) (k x : Nat) :
    map_find (map_erase m k) x = if x = k then none else map_find m x := by
  induction m with
  | nil => simp [map_erase, map_find]
  | cons kv m ih =>
    obtain ⟨a, b⟩ := kv
    unfold map_erase at ih ⊢
    by_cases hak : a = k
    · subst hak
      by_cases hx : x = a
      · subst hx
        simpa [List.filter_cons] using ih
      · have hx2 : ¬ a = x := fun h => hx h.symm
        simp only [List.filter_cons, ne_eq, not_true_eq_false, decide_False, Bool.false_eq_true,
          if_false, ih, hx, map_find, hx2]
    · by_cases hx : x = k
      · subst hx
        simp only [if_true] at ih
        simp [List.filter_cons, hak, map_find]
        simpa using ih
      · simp only [hx, if_false] at ih
        have ih2 : map_find (List.filter (fun kv => !decide (kv.1 = k)) m) x = map_find m x := by
          simpa using ih
        simp [List.filter_cons, hak, map_find, ih2, hx]

theorem map_find_append {β : Type} (m n : List (Nat × β)) (x : Nat) :
    map_find (m ++ n) x = match map_find m x with
      | some v => some v
      | none => map_find n x := by
  induction m with
  | nil => simp [map_find]
  | cons kv m ih =>
    obtain ⟨a, b⟩ := kv
    by_cases h : a = x
    · simp [map_find, h]
    · simp [map_find, h, ih]

theorem map_find_emplace {β : Type} (m : List (Nat × β)) (k x : Nat) (v : β)
    (h : map_find m k = none) :
    map_find (map_emplace m k v) x = if x = k then some v else map_find m x := by
  unfold map_emplace
  rw [h]
  simp only [map_find_append]
  by_cases hx : x = k
  · subst hx
    simp [h, map_find]
  · have hx2 : ¬ k = x := fun e => hx e.symm
    cases hm : map_find m x <;> simp [map_find, hx, hx2]

theorem map_find_isSome {β : Type} (m : List (Nat × β)) (x : Nat) :
    (map_find m x).isSome ↔ x ∈ m.map Prod.fst := by
  induction m with
  | nil => simp [map_find]
  | cons kv m ih =>
    obtain ⟨a, b⟩ := kv
    by_cases h : a = x
    · simp [map_find, h]
    · have h2 : ¬ x = a := fun e => h e.symm
      simp [map_find, h, h2, ih]

theorem map_find_none {β : Type} (m : List (Nat × β)) (x : Nat) :
    map_find m x = none ↔ x ∉ m.map Prod.fst := by
  rw [← map_find_isSome]
  cases map_find m x <;> simp

theorem retire_inv {G : List (Nat × current_prog)} {m0 : Nat} {u : timestamper} {p : Nat}
    {prog : current_prog}
    (hn : u.pend_prog_queue.Nodup) (hdn : u.done_prog_queue.Nodup)
    (hpr : ∀ x ∈ u.pend_prog_queue, x ∈ G.map Prod.fst)
    (hsr : ∀ x ∈ u.seen_done_id, x ∈ G.map Prod.fst)
    (hd : ∀ x, x ≠ p → (x ∈ u.done_prog_queue ↔ x ∈ u.pend_prog_queue ∧ x ∈ u.seen_done_id))
    (ho : ∀ x, map_find u.outstanding_progs x =
      if x ∈ u.pend_prog_queue then map_find G x else none)
    (hp : p ∈ u.pend_prog_queue) (hmin : ∀ b ∈ u.pend_prog_queue, p ≤ b)
    (hps : p ∈ u.seen_done_id) (hf : FrontL G m0 u ∨ FrontR G u)
    (hprog : map_find G p = some prog) :
    QInv G { u with
      max_done_id := p
      max_done_clk := prog.vclk
      pend_prog_queue := u.pend_prog_queue.erase p
      done_prog_queue := u.done_prog_queue.erase p
      outstanding_progs := map_erase u.outstanding_progs p } ∧
    FrontR G { u with
      max_done_id := p
      max_done_clk := prog.vclk
      pend_prog_queue := u.pend_prog_queue.erase p
      done_prog_queue := u.done_prog_queue.erase p
      outstanding_progs := map_erase u.outstanding_progs p } := by
  have hpk : p ∈ G.map Prod.fst := hpr p hp
  refine ⟨⟨hn.erase p, hdn.erase p, ?_, hsr, ?_, ?_⟩, ?_, ⟨prog, hprog, rfl⟩, ?_, ?_⟩
  · intro x hx
    exact hpr x (List.mem_of_mem_erase hx)
  · intro x
    show x ∈ u.done_prog_queue.erase p ↔ x ∈ u.pend_prog_queue.erase p ∧ x ∈ u.seen_done_id
    rw [hdn.mem_erase_iff, hn.mem_erase_iff]
    constructor
    · rintro ⟨h1, h2⟩
      exact ⟨⟨h1, ((hd x h1).1 h2).1⟩, ((hd x h1).1 h2).2⟩
    · rintro ⟨⟨h1, h2⟩, h3⟩
      exact ⟨h1, (hd x h1).2 ⟨h2, h3⟩⟩
  · intro x
    show map_find (map_erase u.outstanding_progs p) x =
      if x ∈ u.pend_prog_queue.erase p then map_find G x else none
    have hmem : x ∈ u.pend_prog_queue.erase p ↔ x ≠ p ∧ x ∈ u.pend_prog_queue :=
      hn.mem_erase_iff
    rw [map_find_erase]
    by_cases hx : x = p
    · have hnm : x ∉ u.pend_prog_queue.erase p := by
        rw [hmem]
        simp [hx]
      rw [if_pos hx, if_neg hnm]
    · simp [hx, ho x, hmem]
  · show p ∉ u.pend_prog_queue.erase p
    rw [hn.mem_erase_iff]
    simp
  · intro x hx
    show x ∉ u.pend_prog_queue.erase p ↔ x ≤ p
    rw [hn.mem_erase_iff]
    rcases hf with ⟨_, hall⟩ | ⟨_, _, hiff, _⟩
    · constructor
      · intro h
        by_cases hxp : x = p
        · omega
        · exact absurd ⟨hxp, hall x hx⟩ h
      · intro hle h
        have := hmin x h.2
        exact h.1 (by omega)
    · have hlt : ¬ p ≤ u.max_done_id := fun h => ((hiff p hpk).2 h) hp
      constructor
      · intro h
        by_cases hxp : x = p
        · omega
        · have : x ∉ u.pend_prog_queue := fun hm => h ⟨hxp, hm⟩
          have := (hiff x hx).1 this
          omega
      · intro hle h
        have := hmin x h.2
        exact h.1 (by omega)
  · intro x hx hle
    have hle : x ≤ p := hle
    show x ∈ u.seen_done_id
    by_cases hm : x ∈ u.pend_prog_queue
    · have := hmin x hm
      have : x = p := by omega
      rw [this]
      exact hps
    · rcases hf with ⟨_, hall⟩ | ⟨_, _, hiff, hseen⟩
      · exact absurd (hall x hx) hm
      · exact hseen x hx ((hiff x hx).1 hm)

theorem ftop_of_exit {G : List (Nat × current_prog)} {u : timestamper} (hq : QInv G u)
    (hexit : ∀ p d, pq_top u.pend_prog_queue = some p → pq_top u.done_prog_queue = some d → p ≠ d) :
    FTop u := by
  intro t ht hseen
  have htop := pq_top_some.1 ht
  have hdone : t ∈ u.done_prog_queue := (hq.done_iff t).2 ⟨htop.1, hseen⟩
  cases hd : pq_top u.done_prog_queue with
  | none =>
    rw [pq_top_none.1 hd] at hdone
    simp at hdone
  | some d =>
    have hdtop := pq_top_some.1 hd
    have h1 : d ≤ t := hdtop.2 t hdone
    have h2 : t ≤ d := htop.2 d ((hq.done_iff d).1 hdtop.1).1
    exact hexit t d ht hd (by omega)

theorem loop_spec {G : List (Nat × current_prog)} :
    ∀ (fuel : Nat) (u : timestamper), QInv G u → FrontR G u →
      u.pend_prog_queue.length ≤ fuel →
      ∃ s, mark_req_finished_loop fuel u = some s ∧ QInv G s ∧ FrontR G s ∧ FTop s ∧
        s.seen_done_id = u.seen_done_id ∧ u.max_done_id ≤ s.max_done_id := by
  intro fuel
  induction fuel with
  | zero =>
    intro u hq hf hlen
    have hnil : u.pend_prog_queue = [] := List.length_eq_zero.mp (Nat.le_zero.mp hlen)
    have hp : pq_top u.pend_prog_queue = none := pq_top_none.2 hnil
    refine ⟨u, ?_, hq, hf, ?_, rfl, le_refl _⟩
    · unfold mark_req_finished_loop
      rw [hp]
    · intro t ht
      rw [hp] at ht
      cases ht
  | succ n ih =>
    intro u hq hf hlen
    cases hp : pq_top u.pend_prog_queue with
    | none =>
      refine ⟨u, ?_, hq, hf, ?_, rfl, le_refl _⟩
      · unfold mark_req_finished_loop
        rw [hp]
      · intro t ht
        rw [hp] at ht
        cases ht
    | some p =>
      cases hd : pq_top u.done_prog_queue with
      | none =>
        refine ⟨u, ?_, hq, hf, ?_, rfl, le_refl _⟩
        · unfold mark_req_finished_loop
          rw [hp, hd]
        · apply ftop_of_exit hq
          intro p' d' _ hd'
          rw [hd] at hd'
          cases hd'
      | some d =>
        by_cases hpd : p = d
        · subst hpd
          have hptop := pq_top_some.1 hp
          have hdtop := pq_top_some.1 hd
          have hpk : p ∈ G.map Prod.fst := hq.pend_reg p hptop.1
          have hlt : u.max_done_id < p := by
            have : ¬ p ≤ u.max_done_id := fun h => ((hf.2.2.1 p hpk).2 h) hptop.1
            omega
          obtain ⟨prog, hprog⟩ := Option.isSome_iff_exists.1 ((map_find_isSome G p).2 hpk)
          have hout : map_find u.outstanding_progs p = some prog := by
            rw [hq.outst p, if_pos hptop.1, hprog]
          have hret := @retire_inv G 0 u p prog hq.pend_nodup hq.done_nodup hq.pend_reg hq.seen_reg
            (fun x _ => hq.done_iff x) hq.outst hptop.1 hptop.2
            ((hq.done_iff p).1 hdtop.1).2 (Or.inr hf) hprog
          have hlen2 : (u.pend_prog_queue.erase p).length ≤ n := by
            rw [List.length_erase_of_mem hptop.1]
            omega
          obtain ⟨s, hs, hqs, hfs, hts, hseen, hmax⟩ := ih _ hret.1 hret.2 hlen2
          refine ⟨s, ?_, hqs, hfs, hts, hseen, ?_⟩
          · unfold mark_req_finished_loop
            rw [hp, hd]
            simp only [if_true, hlt, hout, pq_pop_of_top hp, pq_pop_of_top hd]
            exact hs
          · have : p ≤ s.max_done_id := hmax
            omega
        · refine ⟨u, ?_, hq, hf, ?_, rfl, le_refl _⟩
          · unfold mark_req_finished_loop
            rw [hp, hd]
            simp [hpd]
          · apply ftop_of_exit hq
            intro p' d' hp' hd'
            rw [hp] at hp'
            rw [hd] at hd'
            cases hp'
            cases hd'
            exact hpd

theorem map_find_snoc {β : Type} (G : List (Nat × β)) (n x : Nat) (v : β)
    (h : n ∉ G.map Prod.fst) :
    map_find (G ++ [(n, v)]) x = if x = n then some v else map_find G x := by
  have hnone : map_find G n = none := (map_find_none G n).2 h
  have := map_find_emplace G n x v hnone
  simpa [map_emplace, hnone] using this

theorem finv_init (c : Consts) (m0 : Nat) (clk0 : vclock_t) : FInv [] m0 (init c m0 clk0) := by
  refine ⟨⟨?_, ?_, ?_, ?_, ?_, ?_⟩, Or.inl ⟨rfl, ?_⟩, ?_⟩ <;> simp [init, map_find, FTop, pq_top]

theorem register_spec {G : List (Nat × current_prog)} {m0 : Nat} {vts : timestamper}
    {n client : Nat} {clk : vclock_t} (h : FInv G m0 vts) (hnew : ∀ x ∈ G.map Prod.fst, x < n) :
    FInv (G ++ [(n, { client := client, vclk := clk })]) m0 (register_prog vts n client clk) := by
  obtain ⟨hq, hf, ht⟩ := h
  have hnk : n ∉ G.map Prod.fst := fun hm => Nat.lt_irrefl n (hnew n hm)
  have hnp : n ∉ vts.pend_prog_queue := fun hm => hnk (hq.pend_reg n hm)
  have hns : n ∉ vts.seen_done_id := fun hm => hnk (hq.seen_reg n hm)
  have hkeys : ∀ x, x ∈ (G ++ [(n, ({ client := client, vclk := clk } : current_prog))]).map Prod.fst ↔
      x ∈ G.map Prod.fst ∨ x = n := by
    intro x
    simp
  have hon : map_find vts.outstanding_progs n = none := by
    rw [hq.outst n, if_neg hnp]
  refine ⟨⟨?_, hq.done_nodup, ?_, ?_, ?_, ?_⟩, ?_, ?_⟩
  · show (n :: vts.pend_prog_queue).Nodup
    exact List.nodup_cons.2 ⟨hnp, hq.pend_nodup⟩
  · intro x hx
    have hx : x ∈ n :: vts.pend_prog_queue := hx
    rw [hkeys]
    rcases List.mem_cons.1 hx with h1 | h1
    · exact Or.inr h1
    · exact Or.inl (hq.pend_reg x h1)
  · intro x hx
    rw [hkeys]
    exact Or.inl (hq.seen_reg x hx)
  · intro x
    show x ∈ vts.done_prog_queue ↔ x ∈ n :: vts.pend_prog_queue ∧ x ∈ vts.seen_done_id
    rw [hq.done_iff x, List.mem_cons]
    constructor
    · rintro ⟨h1, h2⟩
      exact ⟨Or.inr h1, h2⟩
    · rintro ⟨h1 | h1, h2⟩
      · rw [h1] at h2
        exact absurd h2 hns
      · exact ⟨h1, h2⟩
  · intro x
    show map_find (map_emplace vts.outstanding_progs n _) x =
      if x ∈ n :: vts.pend_prog_queue then map_find (G ++ [(n, _)]) x else none
    rw [map_find_emplace _ _ _ _ hon, map_find_snoc G n x _ hnk]
    by_cases hx : x = n
    · simp [hx]
    · simp [hx, hq.outst x]
  · rcases hf with ⟨h1, h2⟩ | ⟨h1, ⟨p, hp1, hp2⟩, h3, h4⟩
    · left
      refine ⟨h1, ?_⟩
      intro x hx
      show x ∈ n :: vts.pend_prog_queue
      rcases (hkeys x).1 hx with h | h
      · exact List.mem_cons_of_mem _ (h2 x h)
      · rw [h]
        exact List.mem_cons_self _ _
    · right
      have hmk : vts.max_done_id ∈ G.map Prod.fst := by
        rw [← map_find_isSome, hp1]
        rfl
      have hmlt : vts.max_done_id < n := hnew _ hmk
      refine ⟨?_, ⟨p, ?_, hp2⟩, ?_, ?_⟩
      · show vts.max_done_id ∉ n :: vts.pend_prog_queue
        intro hm
        rcases List.mem_cons.1 hm with h | h
        · omega
        · exact h1 h
      · show map_find (G ++ [(n, _)]) vts.max_done_id = some p
        rw [map_find_snoc G n _ _ hnk, if_neg (by omega), hp1]
      · intro x hx
        show x ∉ n :: vts.pend_prog_queue ↔ x ≤ vts.max_done_id
        rcases (hkeys x).1 hx with h | h
        · have hxn : x ≠ n := fun e => hnk (e ▸ h)
          rw [← h3 x h]
          simp [hxn]
        · subst h
          constructor
          · intro hc
            exact absurd (List.mem_cons_self _ _) hc
          · intro hc
            omega
      · intro x hx hle
        have hle : x ≤ vts.max_done_id := hle
        show x ∈ vts.seen_done_id
        rcases (hkeys x).1 hx with h | h
        · exact h4 x h hle
        · omega
  · intro t htop
    have htop : pq_top (n :: vts.pend_prog_queue) = some t := htop
    show t ∉ vts.seen_done_id
    have h1 := pq_top_some.1 htop
    rcases List.mem_cons.1 h1.1 with h | h
    · rw [h]
      exact hns
    · apply ht t
      exact pq_top_some.2 ⟨h, fun b hb => h1.2 b (List.mem_cons_of_mem _ hb)⟩

theorem mem_pend_of_unmarked {G : List (Nat × current_prog)} {m0 : Nat} {vts : timestamper}
    {id : Nat} (h : FInv G m0 vts) (hreg : id ∈ G.map Prod.fst) (hns : id ∉ vts.seen_done_id) :
    id ∈ vts.pend_prog_queue := by
  obtain ⟨_, hf, _⟩ := h
  rcases hf with ⟨_, h2⟩ | ⟨_, _, h3, h4⟩
  · exact h2 id hreg
  · by_contra hc
    exact hns (h4 id hreg ((h3 id hreg).1 hc))

theorem mark_fail {vts : timestamper} {id : Nat} (htop : pq_top vts.pend_prog_queue = some id)
    (hlt : ¬ vts.max_done_id < id) : mark_req_finished vts id = none := by
  unfold mark_req_finished
  by_cases hs : id ∈ vts.seen_done_id
  · simp [hs]
  · simp [hs, htop, hlt]

/-- The effect of `mark_req_finished` on a registered, unmarked id. -/
theorem mark_spec {G : List (Nat × current_prog)} {m0 : Nat} {vts : timestamper} {id : Nat}
    (h : FInv G m0 vts) (hreg : id ∈ G.map Prod.fst) (hns : id ∉ vts.seen_done_id)
    (hassert : pq_top vts.pend_prog_queue = some id → vts.max_done_id < id) :
    ∃ s, mark_req_finished vts id = some s ∧ FInv G m0 s ∧
      s.seen_done_id = id :: vts.seen_done_id ∧ vts.max_done_id ≤ s.max_done_id ∧
      ((s.max_done_id = vts.max_done_id ∧ s.max_done_clk = vts.max_done_clk) ∨
        (FrontR G s ∧ vts.max_done_id < s.max_done_id)) := by
  have hpend := mem_pend_of_unmarked h hreg hns
  obtain ⟨hq, hf, ht⟩ := h
  have hnd : id ∉ vts.done_prog_queue := fun hm => hns ((hq.done_iff id).1 hm).2
  cases hp : pq_top vts.pend_prog_queue with
  | none =>
    rw [pq_top_none.1 hp] at hpend
    simp at hpend
  | some t =>
    have htop := pq_top_some.1 hp
    by_cases hti : t = id
    · subst hti
      have hlt := hassert hp
      obtain ⟨prog, hprog⟩ := Option.isSome_iff_exists.1 ((map_find_isSome G t).2 hreg)
      have hout : map_find vts.outstanding_progs t = some prog := by
        rw [hq.outst t, if_pos hpend, hprog]
      have hf1 : FrontL G m0 { vts with seen_done_id := t :: vts.seen_done_id } ∨
          FrontR G { vts with seen_done_id := t :: vts.seen_done_id } := by
        rcases hf with hl | ⟨h1, h2, h3, h4⟩
        · exact Or.inl hl
        · exact Or.inr ⟨h1, h2, h3, fun x hx hle => List.mem_cons_of_mem _ (h4 x hx hle)⟩
      have hret := @retire_inv G m0 { vts with seen_done_id := t :: vts.seen_done_id }
        t prog hq.pend_nodup hq.done_nodup hq.pend_reg
        (by
          intro x hx
          rcases List.mem_cons.1 hx with e | e
          · rw [e]; exact hreg
          · exact hq.seen_reg x e)
        (by
          intro x hx
          show x ∈ vts.done_prog_queue ↔ x ∈ vts.pend_prog_queue ∧ x ∈ t :: vts.seen_done_id
          rw [hq.done_iff x]
          simp [hx])
        hq.outst hpend htop.2 (List.mem_cons_self _ _) hf1 hprog
      simp only [List.erase_of_not_mem hnd] at hret
      obtain ⟨s, hs, hqs, hfs, hts, hseen, hmax⟩ := loop_spec _ _ hret.1 hret.2 (le_refl _)
      have hmax : t ≤ s.max_done_id := hmax
      refine ⟨s, ?_, ⟨hqs, Or.inr hfs, hts⟩, hseen, by omega, Or.inr ⟨hfs, by omega⟩⟩
      unfold mark_req_finished
      simp only [hns, if_false, hp, if_true, hlt, hout, pq_pop_of_top hp]
      exact hs
    · refine ⟨{ vts with
          seen_done_id := id :: vts.seen_done_id
          done_prog_queue := pq_emplace vts.done_prog_queue id }, ?_, ⟨⟨hq.pend_nodup, ?_, hq.pend_reg,
          ?_, ?_, hq.outst⟩, ?_, ?_⟩, rfl, le_refl _, Or.inl ⟨rfl, rfl⟩⟩
      · unfold mark_req_finished
        simp [hns, hp, hti]
      · show (id :: vts.done_prog_queue).Nodup
        exact List.nodup_cons.2 ⟨hnd, hq.done_nodup⟩
      · intro x hx
        rcases List.mem_cons.1 hx with e | e
        · rw [e]; exact hreg
        · exact hq.seen_reg x e
      · intro x
        show x ∈ id :: vts.done_prog_queue ↔ x ∈ vts.pend_prog_queue ∧ x ∈ id :: vts.seen_done_id
        rw [List.mem_cons, List.mem_cons, hq.done_iff x]
        constructor
        · rintro (e | ⟨h1, h2⟩)
          · rw [e]; exact ⟨hpend, Or.inl rfl⟩
          · exact ⟨h1, Or.inr h2⟩
        · rintro ⟨h1, e | h2⟩
          · exact Or.inl e
          · exact Or.inr ⟨h1, h2⟩
      · rcases hf with hl | ⟨h1, h2, h3, h4⟩
        · exact Or.inl hl
        · exact Or.inr ⟨h1, h2, h3, fun x hx hle => List.mem_cons_of_mem _ (h4 x hx hle)⟩
      · intro t2 ht2 hm
        have ht2 : pq_top vts.pend_prog_queue = some t2 := ht2
        rw [hp] at ht2
        cases ht2
        rcases List.mem_cons.1 hm with e | e
        · exact hti e
        · exact ht t hp e

theorem assert_ok {G : List (Nat × current_prog)} {m0 : Nat} {vts : timestamper} {id : Nat}
    (h : FInv G m0 vts) (hm0 : ∀ x ∈ G.map Prod.fst, m0 < x) (hpend : id ∈ vts.pend_prog_queue) :
    vts.max_done_id < id := by
  obtain ⟨hq, hf, _⟩ := h
  have hk := hq.pend_reg id hpend
  rcases hf with ⟨h1, _⟩ | ⟨_, _, h3, _⟩
  · rw [h1]
    exact hm0 id hk
  · have : ¬ id ≤ vts.max_done_id := fun hle => ((h3 id hk).2 hle) hpend
    omega

theorem mark_spec_of_some {G : List (Nat × current_prog)} {m0 : Nat} {vts s : timestamper}
    {id : Nat} (h : FInv G m0 vts) (hreg : id ∈ G.map Prod.fst) (hns : id ∉ vts.seen_done_id)
    (hs : mark_req_finished vts id = some s) :
    FInv G m0 s ∧ s.seen_done_id = id :: vts.seen_done_id ∧
      vts.max_done_id ≤ s.max_done_id ∧
      ((s.max_done_id = vts.max_done_id ∧ s.max_done_clk = vts.max_done_clk) ∨
        (FrontR G s ∧ vts.max_done_id < s.max_done_id)) := by
  by_cases hassert : pq_top vts.pend_prog_queue = some id → vts.max_done_id < id
  · obtain ⟨s2, hs2, hpost⟩ := mark_spec h hreg hns hassert
    rw [hs] at hs2
    cases hs2
    exact hpost
  · have hc : pq_top vts.pend_prog_queue = some id ∧ ¬ vts.max_done_id < id := by
      constructor
      · by_contra hn
        exact hassert (fun e => absurd e hn)
      · intro hlt
        exact hassert (fun _ => hlt)
    rw [mark_fail hc.1 hc.2] at hs
    cases hs

/-- Along a valid sequence the invariant is kept, the marked ids are the ids
in `seen_done_id`, and the run does not abort when every registered id
exceeds the initial `max_done_id`. -/
theorem frontier_run_spec :
    ∀ (t : List frontier_op) (G : List (Nat × current_prog)) (m0 : Nat) (vts : timestamper)
      (reg mk : List Nat),
      FInv G m0 vts → (∀ x, x ∈ reg ↔ x ∈ G.map Prod.fst) →
      (∀ x, x ∈ mk ↔ x ∈ vts.seen_done_id) → valid_from reg mk t = true →
      ((∀ x ∈ (G ++ registered t).map Prod.fst, m0 < x) → ∃ s, frontier_run vts t = some s) ∧
      (∀ s, frontier_run vts t = some s →
        FInv (G ++ registered t) m0 s ∧
        (∀ x, x ∈ s.seen_done_id ↔ x ∈ mk ∨ x ∈ marked t) ∧
        vts.max_done_id ≤ s.max_done_id) := by
  intro t
  induction t with
  | nil =>
    intro G m0 vts reg mk hinv _ hmk _
    refine ⟨fun _ => ⟨vts, rfl⟩, ?_⟩
    intro s hs
    simp only [frontier_run, Option.some.injEq] at hs
    subst hs
    simp only [registered, List.append_nil, marked, List.not_mem_nil, or_false]
    exact ⟨hinv, fun x => (hmk x).symm, le_refl _⟩
  | cons o os ih =>
    intro G m0 vts reg mk hinv hreg hmk hvalid
    cases o with
    | register n client clk =>
      simp only [valid_from, Bool.and_eq_true, List.all_eq_true, decide_eq_true_eq] at hvalid
      have hnew : ∀ x ∈ G.map Prod.fst, x < n := fun x hx => hvalid.1 x ((hreg x).2 hx)
      have hinv1 := @register_spec G m0 vts n client clk hinv hnew
      have hreg1 : ∀ x, x ∈ n :: reg ↔
          x ∈ (G ++ [(n, ({ client := client, vclk := clk } : current_prog))]).map Prod.fst := by
        intro x
        simp only [List.mem_cons, List.map_append, List.map_cons, List.map_nil, List.mem_append,
          List.mem_singleton, hreg x]
        tauto
      have hmk1 : ∀ x, x ∈ mk ↔ x ∈ (register_prog vts n client clk).seen_done_id := hmk
      have := ih _ m0 _ _ mk hinv1 hreg1 hmk1 hvalid.2
      simp only [List.append_assoc, List.singleton_append] at this
      simpa only [frontier_run, frontier_step, registered, marked] using this
    | mark id =>
      simp only [valid_from, Bool.and_eq_true, decide_eq_true_eq] at hvalid
      obtain ⟨⟨hidreg, hidmk⟩, hrest⟩ := hvalid
      have hidk : id ∈ G.map Prod.fst := (hreg id).1 hidreg
      have hids : id ∉ vts.seen_done_id := fun hm => hidmk ((hmk id).2 hm)
      constructor
      · intro hm0
        have hm0G : ∀ x ∈ G.map Prod.fst, m0 < x := by
          intro x hx
          apply hm0 x
          simp only [List.map_append, List.mem_append]
          exact Or.inl hx
        obtain ⟨s1, hs1, hinv1, hseen1, _, _⟩ := mark_spec hinv hidk hids
          (fun htop => assert_ok hinv hm0G (pq_top_some.1 htop).1)
        have hmk1 : ∀ x, x ∈ id :: mk ↔ x ∈ s1.seen_done_id := by
          intro x
          rw [hseen1, List.mem_cons, List.mem_cons, hmk x]
        obtain ⟨s, hs⟩ := (ih G m0 s1 reg (id :: mk) hinv1 hreg hmk1 hrest).1 hm0
        exact ⟨s, by simpa only [frontier_run, frontier_step, hs1] using hs⟩
      · intro s hs
        simp only [frontier_run, frontier_step] at hs
        cases hs1 : mark_req_finished vts id with
        | none =>
          rw [hs1] at hs
          cases hs
        | some s1 =>
          rw [hs1] at hs
          obtain ⟨hinv1, hseen1, hmax1, _⟩ := mark_spec_of_some hinv hidk hids hs1
          have hmk1 : ∀ x, x ∈ id :: mk ↔ x ∈ s1.seen_done_id := by
            intro x
            rw [hseen1, List.mem_cons, List.mem_cons, hmk x]
          obtain ⟨h1, h2, h3⟩ := (ih G m0 s1 reg (id :: mk) hinv1 hreg hmk1 hrest).2 s hs
          refine ⟨h1, ?_, le_trans hmax1 h3⟩
          intro x
          rw [h2 x]
          simp only [marked, List.mem_cons]
          tauto

theorem max_done_mem_of_frontR {G : List (Nat × current_prog)} {vts : timestamper}
    (h : FrontR G vts) : vts.max_done_id ∈ G.map Prod.fst := by
  obtain ⟨_, ⟨p, hp, _⟩, _, _⟩ := h
  rw [← map_find_isSome, hp]
  rfl

/-- The head of the pending queue is unmarked, so no pending id can have all
registered ids up to it marked. -/
theorem pend_not_all_marked {G : List (Nat × current_prog)} {m0 : Nat} {vts : timestamper}
    {r : Nat} (h : FInv G m0 vts) (hr : r ∈ vts.pend_prog_queue)
    (hall : ∀ x ∈ G.map Prod.fst, x ≤ r → x ∈ vts.seen_done_id) : False := by
  obtain ⟨hq, _, ht⟩ := h
  cases hp : pq_top vts.pend_prog_queue with
  | none =>
    rw [pq_top_none.1 hp] at hr
    simp at hr
  | some t =>
    have htop := pq_top_some.1 hp
    exact ht t hp (hall t (hq.pend_reg t htop.1) (htop.2 r hr))

theorem frontier_of_inv {G : List (Nat × current_prog)} {m0 : Nat} {s : timestamper}
    {mk : List Nat} (h : FInv G m0 s) (hmk : ∀ x, x ∈ s.seen_done_id ↔ x ∈ mk) :
    (∀ r, all_older_marked (G.map Prod.fst) mk r →
      all_older_marked (G.map Prod.fst) mk s.max_done_id ∧ r ≤ s.max_done_id) ∧
    ((∀ x ∈ G.map Prod.fst, (∀ y ∈ G.map Prod.fst, x ≤ y) → x ∉ mk) → s.max_done_id = m0) := by
  have hfront := h.2.1
  constructor
  · rintro r ⟨hr, hall⟩
    have hall2 : ∀ x ∈ G.map Prod.fst, x ≤ r → x ∈ s.seen_done_id :=
      fun x hx hle => (hmk x).2 (hall x hx hle)
    rcases hfront with ⟨_, h2⟩ | hR
    · exact absurd (pend_not_all_marked h (h2 r hr) hall2) id
    · have hmem := max_done_mem_of_frontR hR
      obtain ⟨_, _, h3, h4⟩ := hR
      refine ⟨⟨hmem, fun x hx hle => (hmk x).1 (h4 x hx hle)⟩, ?_⟩
      by_contra hc
      have hrp : r ∈ s.pend_prog_queue := by
        by_contra hn
        exact hc ((h3 r hr).1 hn)
      exact pend_not_all_marked h hrp hall2
  · intro hmin
    rcases hfront with ⟨h1, _⟩ | hR
    · exact h1
    · have hmem := max_done_mem_of_frontR hR
      obtain ⟨_, _, _, h4⟩ := hR
      cases hp : pq_top (G.map Prod.fst) with
      | none =>
        rw [pq_top_none.1 hp] at hmem
        simp at hmem
      | some m =>
        have htop := pq_top_some.1 hp
        have := hmin m htop.1 htop.2
        exact absurd ((hmk m).1 (h4 m htop.1 (htop.2 _ hmem))) this

/-! ## Frontier exactness -/

/-- C1: run from the initial state, a sequence of admissions with strictly
increasing ids and of `mark_req_finished` calls on registered, not yet marked
ids leaves `max_done_id` at the largest registered id `r` such that every
registered id up to `r` has been marked; when the smallest registered id is
unmarked, `max_done_id` still has its initial value.  This holds after every
such sequence, so in particular after each call of `mark_req_finished`.  The
run does not abort when the registered ids exceed the initial `max_done_id`
(the relation the first assertion of `mark_req_finished` checks). -/
theorem frontier_exact (c : Consts) (m0 : Nat) (clk0 : vclock_t) (t : List frontier_op)
    (hvalid : valid_from [] [] t = true) :
    ((∀ x ∈ (registered t).map Prod.fst, m0 < x) →
      ∃ s, frontier_run (init c m0 clk0) t = some s) ∧
    (∀ s, frontier_run (init c m0 clk0) t = some s →
      (∀ r, all_older_marked ((registered t).map Prod.fst) (marked t) r →
        all_older_marked ((registered t).map Prod.fst) (marked t) s.max_done_id ∧
        r ≤ s.max_done_id) ∧
      ((∀ x ∈ (registered t).map Prod.fst,
          (∀ y ∈ (registered t).map Prod.fst, x ≤ y) → x ∉ marked t) →
        s.max_done_id = m0)) := by
  have hspec := frontier_run_spec t [] m0 (init c m0 clk0) [] [] (finv_init c m0 clk0)
    (by simp) (by simp [init]) hvalid
  simp only [List.nil_append, List.not_mem_nil, false_or] at hspec
  refine ⟨hspec.1, ?_⟩
  intro s hs
  obtain ⟨hinv, hseen, _⟩ := hspec.2 s hs
  exact frontier_of_inv hinv hseen

theorem frontier_exact_witness :
    valid_from [] [] two_progs_out_of_order = true ∧
    (((∀ x ∈ (registered two_progs_out_of_order).map Prod.fst, 0 < x) →
      ∃ s, frontier_run (init ⟨2, 2, 2, 0⟩ 0 [0, 0]) two_progs_out_of_order = some s) ∧
    (∀ s, frontier_run (init ⟨2, 2, 2, 0⟩ 0 [0, 0]) two_progs_out_of_order = some s →
      (∀ r, all_older_marked ((registered two_progs_out_of_order).map Prod.fst)
          (marked two_progs_out_of_order) r →
        all_older_marked ((registered two_progs_out_of_order).map Prod.fst)
          (marked two_progs_out_of_order) s.max_done_id ∧
        r ≤ s.max_done_id) ∧
      ((∀ x ∈ (registered two_progs_out_of_order).map Prod.fst,
          (∀ y ∈ (registered two_progs_out_of_order).map Prod.fst, x ≤ y) →
            x ∉ marked two_progs_out_of_order) →
        s.max_done_id = 0))) :=
  ⟨by decide, frontier_exact ⟨2, 2, 2, 0⟩ 0 [0, 0] two_progs_out_of_order (by decide)⟩

/-- The run of `two_progs_out_of_order`: both programs are retired, the
frontier is program 11 with the clock of its admission. -/
theorem two_progs_out_of_order_run :
    (frontier_run (init ⟨2, 2, 2, 0⟩ 0 [0, 0]) two_progs_out_of_order).map
    (fun s => (s.max_done_id, s.max_done_clk, s.pend_prog_queue, s.done_prog_queue)) =
    some (11, [2, 0], [], []) := by decide

theorem loop_frame : ∀ (fuel : Nat) (u s : timestamper),
    mark_req_finished_loop fuel u = some s →
    u.max_done_id ≤ s.max_done_id ∧ same_rest s u ∧ s.seen_done_id = u.seen_done_id := by
  have hrefl : ∀ (u s : timestamper), some u = some s →
      u.max_done_id ≤ s.max_done_id ∧ same_rest s u ∧ s.seen_done_id = u.seen_done_id := by
    intro u s h
    cases h
    exact ⟨le_refl _, by simp [same_rest], rfl⟩
  intro fuel
  induction fuel with
  | zero =>
    intro u s h
    unfold mark_req_finished_loop at h
    cases hp : pq_top u.pend_prog_queue with
    | none =>
      simp only [hp] at h
      exact hrefl u s h
    | some p =>
      cases hd : pq_top u.done_prog_queue with
      | none =>
        simp only [hp, hd] at h
        exact hrefl u s h
      | some d =>
        simp only [hp, hd] at h
        by_cases hpd : p = d
        · simp [hpd] at h
        · simp only [hpd, if_false] at h
          exact hrefl u s h
  | succ n ih =>
    intro u s h
    unfold mark_req_finished_loop at h
    cases hp : pq_top u.pend_prog_queue with
    | none =>
      simp only [hp] at h
      exact hrefl u s h
    | some p =>
      cases hd : pq_top u.done_prog_queue with
      | none =>
        simp only [hp, hd] at h
        exact hrefl u s h
      | some d =>
        simp only [hp, hd] at h
        by_cases hpd : p = d
        · simp only [hpd, if_true] at h
          by_cases hlt : u.max_done_id < d
          · simp only [hlt, if_true] at h
            cases hm : map_find u.outstanding_progs d with
            | none => simp [hm] at h
            | some prog =>
              simp only [hm] at h
              obtain ⟨h1, h2, h3⟩ := ih _ s h
              have h1 : d ≤ s.max_done_id := h1
              exact ⟨by omega, h2, h3⟩
          · simp [hlt] at h
        · simp only [hpd, if_false] at h
          exact hrefl u s h

theorem mark_frame {vts s : timestamper} {id : Nat} (h : mark_req_finished vts id = some s) :
    vts.max_done_id ≤ s.max_done_id ∧ same_rest s vts ∧
    s.seen_done_id = id :: vts.seen_done_id ∧ id ∉ vts.seen_done_id := by
  unfold mark_req_finished at h
  by_cases hns : id ∈ vts.seen_done_id
  · simp [hns] at h
  · simp only [hns, if_false] at h
    cases hp : pq_top vts.pend_prog_queue with
    | none => simp [hp] at h
    | some t =>
      simp only [hp] at h
      by_cases hti : t = id
      · simp only [hti, if_true] at h
        by_cases hlt : vts.max_done_id < id
        · simp only [hlt, if_true] at h
          cases hm : map_find vts.outstanding_progs id with
          | none => simp [hm] at h
          | some prog =>
            simp only [hm] at h
            obtain ⟨h1, h2, h3⟩ := loop_frame _ _ s h
            have h1 : id ≤ s.max_done_id := h1
            exact ⟨by omega, h2, h3, hns⟩
        · simp [hlt] at h
      · simp only [hti, if_false, Option.some.injEq] at h
        subst h
        exact ⟨le_refl _, by simp [same_rest], rfl, hns⟩

theorem begin_transaction_shape {c : Consts} {vts s : timestamper} {tx tx1 : pending_tx}
    {msgs : List sent} (h : begin_transaction c vts tx = some (s, tx1, msgs)) :
    ∃ qts1 tx_vec written,
      begin_transaction_loop c tx.writes vts.qts (List.replicate c.NUM_SHARDS []) [] =
        some (qts1, tx_vec, written) ∧
      s = { vts with
            qts := qts1
            vclk := increment_clock c vts.vclk
            outstanding_tx := map_emplace vts.outstanding_tx tx.id
              { client := tx.client_id, count := count_shards tx_vec c.NUM_SHARDS } } ∧
      tx1 = { tx with timestamp := increment_clock c vts.vclk, writes := written } ∧
      msgs = send_tx_batches c (increment_clock c vts.vclk) tx.id tx_vec := by
  unfold begin_transaction at h
  cases hl : begin_transaction_loop c tx.writes vts.qts (List.replicate c.NUM_SHARDS []) [] with
  | none => simp [hl] at h
  | some r =>
    obtain ⟨qts1, tx_vec, written⟩ := r
    simp only [hl, Option.some.injEq, Prod.mk.injEq] at h
    exact ⟨qts1, tx_vec, written, rfl, h.1.symm, h.2.1.symm, h.2.2.symm⟩

theorem end_transaction_shape {vts s : timestamper} {tx_id : Nat} {msgs : List sent}
    (h : end_transaction vts tx_id = some (s, msgs)) :
    ∃ o, s = { vts with outstanding_tx := o } := by
  unfold end_transaction at h
  cases hf : map_find vts.outstanding_tx tx_id with
  | none => simp [hf] at h
  | some e =>
    simp only [hf] at h
    by_cases hz : (e.count + (2 ^ 32 - 1)) % 2 ^ 32 = 0
    · simp only [hz, if_true, Option.some.injEq, Prod.mk.injEq] at h
      exact ⟨_, h.1.symm⟩
    · simp only [hz, if_false, Option.some.injEq, Prod.mk.injEq] at h
      exact ⟨_, h.1.symm⟩

theorem unpack_and_start_coord_shape {c : Consts} {vts s : timestamper} {pType : prog_type}
    {initial_args : List (Nat × Nat)} {clientID : Nat} {results : List (Nat × Nat)}
    {req_id : Nat} {msgs : List sent}
    (h : unpack_and_start_coord c vts pType initial_args clientID results req_id =
      some (s, msgs)) :
    s = register_prog { vts with vclk := increment_clock c vts.vclk } req_id clientID
      (increment_clock c vts.vclk) := by
  unfold unpack_and_start_coord at h
  cases hs : scan_initial_args initial_args.length initial_args [] with
  | none => simp [hs] at h
  | some r =>
    obtain ⟨g, mtg⟩ := r
    simp only [hs] at h
    split at h
    · cases h
    · split at h
      · simp only [Option.some.injEq, Prod.mk.injEq] at h
        exact h.1.symm
      · cases h

theorem node_prog_return_shape {c : Consts} {vts s : timestamper} {type : prog_type}
    {req_id payload : Nat} {msgs : List sent}
    (h : node_prog_return c vts type req_id payload = some (s, msgs)) :
    (map_find vts.outstanding_progs req_id = none ∧ s = vts ∧ msgs = []) ∨
    (∃ prog, map_find vts.outstanding_progs req_id = some prog ∧
      mark_req_finished
        { vts with done_reqs := ledger_emplace c.NUM_SHARDS vts.done_reqs type req_id }
        req_id = some s ∧
      msgs = [(prog.client, message.NODE_PROG_RETURN payload)]) := by
  unfold node_prog_return at h
  cases hf : map_find vts.outstanding_progs req_id with
  | none =>
    simp only [hf, Option.some.injEq, Prod.mk.injEq] at h
    exact Or.inl ⟨rfl, h.1.symm, h.2.symm⟩
  | some prog =>
    simp only [hf] at h
    cases hm : mark_req_finished
        { vts with done_reqs := ledger_emplace c.NUM_SHARDS vts.done_reqs type req_id }
        req_id with
    | none => simp [hm] at h
    | some s2 =>
      simp only [hm, Option.some.injEq, Prod.mk.injEq] at h
      exact Or.inr ⟨prog, rfl, by rw [← h.1], h.2.symm⟩

theorem timer_nop_shape {c : Consts} {vts s : timestamper} {req_id : Nat} {msgs : List sent}
    {nop_sent : Bool} (h : timer_nop c vts req_id = some (s, msgs, nop_sent)) :
    (s = vts ∧ msgs = [] ∧ nop_sent = false ∧ vts.to_nop.any id = false) ∨
    (vts.to_nop.any id = true ∧ nop_sent = true ∧
      s = { vts with
            vclk := increment_clock c vts.vclk
            timer_vclk := increment_clock c vts.vclk
            qts := (nop_bump vts.to_nop c.NUM_SHARDS vts.qts vts.timer_done_reqs).1
            timer_done_reqs := (nop_ledger vts.to_nop c.NUM_SHARDS vts.done_reqs
              (nop_bump vts.to_nop c.NUM_SHARDS vts.qts vts.timer_done_reqs).2 []).2
            done_reqs := (nop_ledger vts.to_nop c.NUM_SHARDS vts.done_reqs
              (nop_bump vts.to_nop c.NUM_SHARDS vts.qts vts.timer_done_reqs).2 []).1
            to_nop := vts.to_nop.map (fun _ => false) } ∧
      msgs = nop_messages c vts (increment_clock c vts.vclk)
        (nop_bump vts.to_nop c.NUM_SHARDS vts.qts vts.timer_done_reqs).1 req_id
        (nop_ledger vts.to_nop c.NUM_SHARDS vts.done_reqs
          (nop_bump vts.to_nop c.NUM_SHARDS vts.qts vts.timer_done_reqs).2 []).2) := by
  unfold timer_nop at h
  by_cases hany : vts.to_nop.any id = true
  · simp only [hany, if_true] at h
    split at h
    · cases h
    · simp only [Option.some.injEq, Prod.mk.injEq] at h
      exact Or.inr ⟨hany, h.2.2.symm, h.1.symm, h.2.1.symm⟩
  · simp only [hany, Bool.false_eq_true, if_false, Option.some.injEq, Prod.mk.injEq] at h
    exact Or.inl ⟨h.1.symm, h.2.1.symm, h.2.2.symm, by simpa using hany⟩

theorem timer_gossip_shape (c : Consts) (vts : timestamper) (nop_sent : Bool) :
    ∃ a tv, (timer_gossip c vts nop_sent).1 =
      { vts with clock_update_acks := a, timer_vclk := tv } := by
  unfold timer_gossip
  split
  · exact ⟨_, _, rfl⟩
  · exact ⟨vts.clock_update_acks, vts.timer_vclk, rfl⟩

theorem timer_function_shape {c : Consts} {vts s : timestamper} {req_id : Nat}
    {msgs : List sent} (h : timer_function c vts req_id = some (s, msgs)) :
    ∃ s1 msgs1 nop_sent, timer_nop c vts req_id = some (s1, msgs1, nop_sent) ∧
      s = (timer_gossip c s1 nop_sent).1 ∧ msgs = msgs1 ++ (timer_gossip c s1 nop_sent).2 := by
  unfold timer_function at h
  cases hn : timer_nop c vts req_id with
  | none => simp [hn] at h
  | some r =>
    obtain ⟨s1, msgs1, nop_sent⟩ := r
    simp only [hn, Option.some.injEq, Prod.mk.injEq] at h
    exact ⟨s1, msgs1, nop_sent, rfl, h.1.symm, h.2.symm⟩

theorem timer_function_frontier {c : Consts} {vts s : timestamper} {req_id : Nat}
    {msgs : List sent} (h : timer_function c vts req_id = some (s, msgs)) :
    same_frontier s vts := by
  obtain ⟨s1, msgs1, nop_sent, hn, hs, _⟩ := timer_function_shape h
  obtain ⟨a, tv, hg⟩ := timer_gossip_shape c s1 nop_sent
  rw [hg] at hs
  rcases timer_nop_shape hn with ⟨h1, _⟩ | ⟨_, _, h1, _⟩
  · subst hs
    subst h1
    simp [same_frontier]
  · subst hs
    subst h1
    simp [same_frontier]

/-- How one handled event acts on the frontier tracker: it leaves it alone,
registers a program, or marks an outstanding program finished. -/
theorem step_frontier {c : Consts} {vts s : timestamper} {e : event} {msgs : List sent}
    (h : step c vts e = some (s, msgs)) :
    same_frontier s vts ∨
    (∃ pType args sender results id,
      e = .CLIENT_NODE_PROG_REQ pType args sender results id ∧
      s = register_prog { vts with vclk := increment_clock c vts.vclk } id sender
        (increment_clock c vts.vclk)) ∨
    (∃ type id payload prog,
      e = .NODE_PROG_RETURN type id payload ∧
      map_find vts.outstanding_progs id = some prog ∧
      mark_req_finished
        { vts with done_reqs := ledger_emplace c.NUM_SHARDS vts.done_reqs type id } id =
        some s) := by
  cases e with
  | CLIENT_TX_INIT tx =>
    left
    simp only [step] at h
    cases hb : begin_transaction c vts tx with
    | none => simp [hb] at h
    | some r =>
      obtain ⟨s1, tx1, m1⟩ := r
      simp only [hb, Option.some.injEq, Prod.mk.injEq] at h
      obtain ⟨_, _, _, _, hs, _, _⟩ := begin_transaction_shape hb
      rw [← h.1, hs]
      simp [same_frontier]
  | CLIENT_TX_INIT_rejected sender =>
    left
    simp only [step, Option.some.injEq, Prod.mk.injEq] at h
    rw [← h.1]
    simp [same_frontier]
  | TX_DONE tx_id =>
    left
    simp only [step] at h
    obtain ⟨o, hs⟩ := end_transaction_shape h
    rw [hs]
    simp [same_frontier]
  | CLIENT_NODE_PROG_REQ pType args sender results id =>
    right
    left
    simp only [step] at h
    exact ⟨pType, args, sender, results, id, rfl, unpack_and_start_coord_shape h⟩
  | NODE_PROG_RETURN type id payload =>
    simp only [step] at h
    rcases node_prog_return_shape h with ⟨_, hs, _⟩ | ⟨prog, h1, h2, _⟩
    · left
      rw [hs]
      simp [same_frontier]
    · right
      right
      exact ⟨type, id, payload, prog, rfl, h1, h2⟩
  | VT_CLOCK_UPDATE rec_vtid rec_clock =>
    left
    simp only [step, vt_clock_update, Option.some.injEq, Prod.mk.injEq] at h
    rw [← h.1]
    simp [same_frontier]
  | VT_CLOCK_UPDATE_ACK =>
    left
    simp only [step, vt_clock_update_ack] at h
    split at h
    · cases h
    · rename_i s1 heq
      split at heq
      · simp only [Option.some.injEq] at heq
        simp only [Option.some.injEq, Prod.mk.injEq] at h
        rw [← h.1, ← heq]
        simp [same_frontier]
      · cases heq
  | VT_NOP_ACK sender cnt =>
    left
    simp only [step, vt_nop_ack] at h
    split at h
    · cases h
    · rename_i s1 heq
      split at heq
      · cases heq
      · split at heq
        · simp only [Option.some.injEq] at heq
          simp only [Option.some.injEq, Prod.mk.injEq] at h
          rw [← h.1, ← heq]
          simp [same_frontier]
        · cases heq
  | timer_tick req_id =>
    left
    simp only [step] at h
    exact timer_function_frontier h

/-! ## The frontier never moves back -/

/-- C3: `max_done_id` is non-decreasing.  From every state, every handled
event (transaction admission and completion, program admission, shard reply,
clock gossip, NOP acknowledgement, timer tick) and every direct call of
`mark_req_finished` that completes leaves `max_done_id` at least as large as
it was. -/
theorem max_done_id_nondecreasing (c : Consts) (vts s : timestamper)
    (h : (∃ e msgs, step c vts e = some (s, msgs)) ∨
      (∃ req_id, mark_req_finished vts req_id = some s)) :
    vts.max_done_id ≤ s.max_done_id := by
  rcases h with ⟨e, msgs, h⟩ | ⟨req_id, h⟩
  · rcases step_frontier h with hf | ⟨_, _, _, _, _, _, hs⟩ | ⟨_, _, _, _, _, _, hm⟩
    · exact le_of_eq hf.2.2.2.2.1.symm
    · rw [hs]
      exact le_refl _
    · exact (mark_frame hm).1
  · exact (mark_frame h).1

theorem max_done_id_nondecreasing_witness :
    ((∃ e msgs, step ⟨2, 2, 2, 0⟩ one_prog_pending e = some (one_prog_retired, msgs)) ∨
      (∃ req_id, mark_req_finished one_prog_pending req_id = some one_prog_retired)) ∧
    one_prog_pending.max_done_id ≤ one_prog_retired.max_done_id :=
  ⟨Or.inl ⟨.NODE_PROG_RETURN .REACHABILITY 10 0, [(7, .NODE_PROG_RETURN 0)], by decide⟩,
   max_done_id_nondecreasing ⟨2, 2, 2, 0⟩ one_prog_pending one_prog_retired
     (Or.inl ⟨.NODE_PROG_RETURN .REACHABILITY 10 0, [(7, .NODE_PROG_RETURN 0)], by decide⟩)⟩

theorem finv_congr {G : List (Nat × current_prog)} {m0 : Nat} {a b : timestamper}
    (hsame : same_frontier b a) (h : FInv G m0 a) : FInv G m0 b := by
  obtain ⟨e1, e2, e3, e4, e5, e6⟩ := hsame
  obtain ⟨hq, hf, ht⟩ := h
  refine ⟨⟨?_, ?_, ?_, ?_, ?_, ?_⟩, ?_, ?_⟩
  · rw [e2]; exact hq.pend_nodup
  · rw [e3]; exact hq.done_nodup
  · rw [e2]; exact hq.pend_reg
  · rw [e4]; exact hq.seen_reg
  · rw [e2, e3, e4]; exact hq.done_iff
  · rw [e1, e2]; exact hq.outst
  · unfold FrontL FrontR at *
    rw [e2, e4, e5, e6]
    exact hf
  · unfold FTop at *
    rw [e2, e4]
    exact ht

/-- One handled event keeps the invariant; an admission extends the list of
registered programs by the admitted one. -/
theorem step_finv {c : Consts} {G : List (Nat × current_prog)} {m0 : Nat}
    {vts s : timestamper} {e : event} {msgs : List sent} (hinv : FInv G m0 vts)
    (h : step c vts e = some (s, msgs))
    (hnew : ∀ id ∈ prog_ids [e], ∀ x ∈ G.map Prod.fst, x < id) :
    ∃ ext, FInv (G ++ ext) m0 s ∧ ext.map Prod.fst = prog_ids [e] ∧
      (∀ kv ∈ ext, kv.2.vclk = s.vclk ∧ s.vclk = increment_clock c vts.vclk) ∧
      ((s.max_done_id = vts.max_done_id ∧ s.max_done_clk = vts.max_done_clk) ∨
        (FrontR G s ∧ vts.max_done_id < s.max_done_id)) := by
  rcases step_frontier h with hf | ⟨pType, args, sender, results, id, he, hs⟩ |
      ⟨type, id, payload, prog, he, hout, hm⟩
  · refine ⟨[], ?_, ?_, by simp, Or.inl ⟨hf.2.2.2.2.1, hf.2.2.2.2.2⟩⟩
    · rw [List.append_nil]
      exact finv_congr hf hinv
    · have hno : prog_ids [e] = [] := by
        cases e with
        | CLIENT_NODE_PROG_REQ pType args sender results id =>
          exfalso
          simp only [step] at h
          have hs := unpack_and_start_coord_shape h
          have := hf.2.1
          rw [hs] at this
          simp [register_prog, pq_emplace] at this
        | _ => rfl
      simp [hno]
  · subst he
    have hnew2 : ∀ x ∈ G.map Prod.fst, x < id := hnew id (by simp [prog_ids])
    have hinv1 : FInv G m0 { vts with vclk := increment_clock c vts.vclk } :=
      finv_congr (by simp [same_frontier]) hinv
    have := @register_spec G m0 _ id sender (increment_clock c vts.vclk) hinv1 hnew2
    rw [← hs] at this
    refine ⟨[(id, { client := sender, vclk := increment_clock c vts.vclk })], this, ?_, ?_,
      Or.inl ?_⟩
    · simp [prog_ids]
    · intro kv hkv
      simp only [List.mem_singleton] at hkv
      rw [hkv, hs]
      simp [register_prog]
    · rw [hs]
      simp [register_prog]
  · subst he
    have hinv1 : FInv G m0
        { vts with done_reqs := ledger_emplace c.NUM_SHARDS vts.done_reqs type id } :=
      finv_congr (by simp [same_frontier]) hinv
    have hidk : id ∈ G.map Prod.fst := by
      have h1 := hinv.1.outst id
      rw [hout] at h1
      by_cases hp : id ∈ vts.pend_prog_queue
      · exact hinv.1.pend_reg id hp
      · rw [if_neg hp] at h1
        cases h1
    have hns := (mark_frame hm).2.2.2
    obtain ⟨h1, _, _, h4⟩ := mark_spec_of_some hinv1 hidk hns hm
    refine ⟨[], ?_, by simp [prog_ids], by simp, h4⟩
    rw [List.append_nil]
    exact h1

/-! ## Vectors of counters -/

theorem vec_get_set (v : List Nat) (i j a : Nat) :
    vec_get (v.set i a) j = if j = i ∧ i < v.length then a else vec_get v j := by
  unfold vec_get
  simp only [List.getD_eq_getElem?_getD, List.getElem?_set]
  by_cases h : i = j
  · subst h
    by_cases h2 : i < v.length
    · simp [h2]
    · have h3 : v[i]? = none := List.getElem?_eq_none (by omega)
      simp [h2, h3]
  · have : ¬ j = i := fun e => h e.symm
    simp [h, this]

theorem vec_get_incr (v : List Nat) (i j : Nat) :
    vec_get (vec_incr v i) j = if j = i ∧ i < v.length then vec_get v i + 1 else vec_get v j := by
  unfold vec_incr
  exact vec_get_set v i j _

theorem vec_incr_length (v : List Nat) (i : Nat) : (vec_incr v i).length = v.length := by
  simp [vec_incr]

theorem vclk_le_refl (a : vclock_t) : vclk_le a a := fun _ => le_refl _

theorem vclk_le_trans {a b d : vclock_t} (h1 : vclk_le a b) (h2 : vclk_le b d) : vclk_le a d :=
  fun i => le_trans (h1 i) (h2 i)

theorem vclk_le_increment (c : Consts) (v : vclock_t) : vclk_le v (increment_clock c v) := by
  intro i
  unfold increment_clock
  rw [vec_get_incr]
  split
  · rename_i h
    rw [h.1]
    omega
  · exact le_refl _

theorem vclk_le_update (v : vclock_t) (vt k : Nat) : vclk_le v (update_clock v vt k) := by
  intro i
  unfold update_clock
  rw [vec_get_set]
  split
  · rename_i h
    rw [h.1]
    exact le_max_left _ _
  · exact le_refl _

theorem step_vclk {c : Consts} {vts s : timestamper} {e : event} {msgs : List sent}
    (h : step c vts e = some (s, msgs)) : s.vclk = vclk_after c vts e := by
  cases e with
  | CLIENT_TX_INIT tx =>
    simp only [step] at h
    cases hb : begin_transaction c vts tx with
    | none => simp [hb] at h
    | some r =>
      obtain ⟨s1, tx1, m1⟩ := r
      simp only [hb, Option.some.injEq, Prod.mk.injEq] at h
      obtain ⟨_, _, _, _, hs, _, _⟩ := begin_transaction_shape hb
      rw [← h.1, hs]
      rfl
  | CLIENT_TX_INIT_rejected sender =>
    simp only [step, Option.some.injEq, Prod.mk.injEq] at h
    rw [← h.1]
    rfl
  | TX_DONE tx_id =>
    simp only [step] at h
    obtain ⟨o, hs⟩ := end_transaction_shape h
    rw [hs]
    rfl
  | CLIENT_NODE_PROG_REQ pType args sender results id =>
    simp only [step] at h
    rw [unpack_and_start_coord_shape h]
    rfl
  | NODE_PROG_RETURN type id payload =>
    simp only [step] at h
    rcases node_prog_return_shape h with ⟨_, hs, _⟩ | ⟨prog, _, h2, _⟩
    · rw [hs]
      rfl
    · exact (mark_frame h2).2.1.1
  | VT_CLOCK_UPDATE rec_vtid rec_clock =>
    simp only [step, vt_clock_update, Option.some.injEq, Prod.mk.injEq] at h
    rw [← h.1]
    rfl
  | VT_CLOCK_UPDATE_ACK =>
    simp only [step, vt_clock_update_ack] at h
    split at h
    · cases h
    · rename_i s1 heq
      split at heq
      · simp only [Option.some.injEq] at heq
        simp only [Option.some.injEq, Prod.mk.injEq] at h
        rw [← h.1, ← heq]
        rfl
      · cases heq
  | VT_NOP_ACK sender cnt =>
    simp only [step, vt_nop_ack] at h
    split at h
    · cases h
    · rename_i s1 heq
      split at heq
      · cases heq
      · split at heq
        · simp only [Option.some.injEq] at heq
          simp only [Option.some.injEq, Prod.mk.injEq] at h
          rw [← h.1, ← heq]
          rfl
        · cases heq
  | timer_tick req_id =>
    simp only [step] at h
    obtain ⟨s1, msgs1, nop_sent, hn, hs, _⟩ := timer_function_shape h
    obtain ⟨a, tv, hg⟩ := timer_gossip_shape c s1 nop_sent
    rw [hg] at hs
    rcases timer_nop_shape hn with ⟨h1, _, _, hany⟩ | ⟨hany, _, h1, _⟩
    · subst hs
      subst h1
      simp [vclk_after, hany]
    · subst hs
      subst h1
      simp [vclk_after, hany]

theorem step_vclk_le {c : Consts} {vts s : timestamper} {e : event} {msgs : List sent}
    (h : step c vts e = some (s, msgs)) : vclk_le vts.vclk s.vclk := by
  rw [step_vclk h]
  cases e <;> simp only [vclk_after]
  case timer_tick => split <;> first | exact vclk_le_increment c _ | exact vclk_le_refl _
  all_goals first | exact vclk_le_increment c _ | exact vclk_le_refl _ | exact vclk_le_update _ _ _

/-! ## Clocks of the registered programs -/

theorem map_find_mem {β : Type} {G : List (Nat × β)} {x : Nat} {p : β}
    (h : map_find G x = some p) : (x, p) ∈ G := by
  induction G with
  | nil => simp [map_find] at h
  | cons kv G ih =>
    obtain ⟨a, b⟩ := kv
    by_cases hax : a = x
    · simp only [map_find, hax, if_true, Option.some.injEq] at h
      rw [hax, h]
      exact List.mem_cons_self _ _
    · simp only [map_find, hax, if_false] at h
      exact List.mem_cons_of_mem _ (ih h)

theorem map_find_append_some {β : Type} {G : List (Nat × β)} (ext : List (Nat × β)) {x : Nat}
    {p : β} (h : map_find G x = some p) : map_find (G ++ ext) x = some p := by
  rw [map_find_append, h]

theorem clock_sorted_lookup {G : List (Nat × current_prog)} (hs : clock_sorted G) {x y : Nat}
    {p q : current_prog} (hp : (x, p) ∈ G) (hq : (y, q) ∈ G) (hxy : x < y) :
    vclk_le p.vclk q.vclk := by
  induction G with
  | nil => simp at hp
  | cons a G ih =>
    have hs2 := List.pairwise_cons.1 hs
    rcases List.mem_cons.1 hp with e1 | e1 <;> rcases List.mem_cons.1 hq with e2 | e2
    · rw [← e1] at e2
      have : y = x := congrArg Prod.fst e2
      omega
    · have := hs2.1 (y, q) e2
      rw [← e1] at this
      exact this.2
    · have := hs2.1 (x, p) e1
      rw [← e2] at this
      have := this.1
      simp only at this
      omega
    · exact ih hs2.2 e1 e2

theorem frontier_le_refl (a : Nat × vclock_t) : frontier_le a a := ⟨le_refl _, vclk_le_refl _⟩

theorem frontier_le_trans {a b d : Nat × vclock_t} (h1 : frontier_le a b) (h2 : frontier_le b d) :
    frontier_le a d := ⟨le_trans h1.1 h2.1, vclk_le_trans h1.2 h2.2⟩

theorem prog_ids_single_length (e : event) : (prog_ids [e]).length ≤ 1 := by
  cases e <;> simp [prog_ids]

theorem prog_ids_cons (e : event) (es : List event) :
    prog_ids (e :: es) = prog_ids [e] ++ prog_ids es := by
  cases e <;> simp [prog_ids]

theorem step_rinv {c : Consts} {G : List (Nat × current_prog)} {m0 : Nat} {clk0 : vclock_t}
    {vts s : timestamper} {e : event} {msgs : List sent} (hz : ∀ v, vclk_le clk0 v)
    (hinv : FInv G m0 vts) (hc : CInv G clk0 vts) (h : step c vts e = some (s, msgs))
    (hnew : ∀ id ∈ prog_ids [e], ∀ x ∈ G.map Prod.fst, x < id) :
    ∃ ext, FInv (G ++ ext) m0 s ∧ CInv (G ++ ext) clk0 s ∧ ext.map Prod.fst = prog_ids [e] ∧
      frontier_le (vts.max_done_id, vts.max_done_clk) (s.max_done_id, s.max_done_clk) := by
  obtain ⟨ext, hF, hkeys, hextclk, hdisj⟩ := step_finv hinv h hnew
  have hmono := step_vclk_le h
  refine ⟨ext, hF, ⟨?_, ?_, ?_⟩, hkeys, ?_⟩
  · unfold clock_sorted
    rw [List.pairwise_append]
    refine ⟨hc.sorted, ?_, ?_⟩
    · have hlen : ext.length ≤ 1 := by
        have := prog_ids_single_length e
        rw [← hkeys, List.length_map] at this
        exact this
      match ext, hlen with
      | [], _ => exact List.Pairwise.nil
      | [a], _ => exact List.pairwise_singleton _ _
      | _ :: _ :: _, hl => simp at hl
    · intro a ha b hb
      constructor
      · apply hnew b.1
        · rw [← hkeys]
          exact List.mem_map_of_mem _ hb
        · exact List.mem_map_of_mem _ ha
      · rw [(hextclk b hb).1]
        exact vclk_le_trans (hc.bound a ha) hmono
  · intro kv hkv
    rcases List.mem_append.1 hkv with h1 | h1
    · exact vclk_le_trans (hc.bound kv h1) hmono
    · rw [(hextclk kv h1).1]
      exact vclk_le_refl _
  · rcases hdisj with ⟨h1, h2⟩ | ⟨hR, _⟩
    · rcases hc.clk with h3 | ⟨p, hp1, hp2⟩
      · left
        rw [h2, h3]
      · right
        refine ⟨p, ?_, ?_⟩
        · rw [h1]
          exact map_find_append_some ext hp1
        · rw [h2]
          exact hp2
    · right
      obtain ⟨_, ⟨p, hp1, hp2⟩, _, _⟩ := hR
      exact ⟨p, map_find_append_some ext hp1, hp2⟩
  · rcases hdisj with ⟨h1, h2⟩ | ⟨hR, hlt⟩
    · rw [h1, h2]
      exact frontier_le_refl _
    · refine ⟨Nat.le_of_lt hlt, ?_⟩
      obtain ⟨_, ⟨p, hp1, hp2⟩, _, _⟩ := hR
      show vclk_le vts.max_done_clk s.max_done_clk
      rcases hc.clk with h3 | ⟨q, hq1, hq2⟩
      · rw [h3]
        exact hz _
      · rw [← hp2, ← hq2]
        exact clock_sorted_lookup hc.sorted (map_find_mem hq1) (map_find_mem hp1) hlt

theorem foldl_mem_inv {α β : Type} (P : β → Prop) (f : List β → α → List β)
    (hf : ∀ acc a, (∀ m ∈ acc, P m) → ∀ m ∈ f acc a, P m) :
    ∀ (l : List α) (acc : List β), (∀ m ∈ acc, P m) → ∀ m ∈ l.foldl f acc, P m := by
  intro l
  induction l with
  | nil =>
    intro acc h
    exact h
  | cons a l ih =>
    intro acc h
    exact ih (f acc a) (hf acc a h)

theorem send_tx_batches_frontier (c : Consts) (ts : vclock_t) (tx_id : Nat)
    (tx_vec : List (List pending_update)) :
    ∀ m ∈ send_tx_batches c ts tx_id tx_vec, msg_frontier m.2 = none := by
  unfold send_tx_batches
  refine foldl_mem_inv (fun (m : sent) => msg_frontier m.2 = none) _ ?_ _ _ ?_
  · intro acc i hacc m hm
    split at hm
    · exact hacc m hm
    · rcases List.mem_append.1 hm with h1 | h1
      · exact hacc m h1
      · simp only [List.mem_singleton] at h1
        rw [h1]
        rfl
  · simp

theorem timer_gossip_frontier (c : Consts) (vts : timestamper) (nop_sent : Bool) :
    ∀ m ∈ (timer_gossip c vts nop_sent).2, msg_frontier m.2 = none := by
  intro m hm
  unfold timer_gossip at hm
  split at hm
  · simp only [List.mem_map] at hm
    obtain ⟨i, _, hi⟩ := hm
    rw [← hi]
    rfl
  · simp at hm

theorem nop_messages_frontier (c : Consts) (vts : timestamper) (vclk : vclock_t)
    (qts : qtimestamp_t) (req_id : Nat) (done_reqs : List (List (Nat × prog_type))) :
    ∀ m ∈ nop_messages c vts vclk qts req_id done_reqs,
      msg_frontier m.2 = some (vts.max_done_id, vts.max_done_clk) := by
  intro m hm
  unfold nop_messages at hm
  simp only [List.mem_filterMap] at hm
  obtain ⟨i, _, hi⟩ := hm
  split at hi
  · simp only [Option.some.injEq] at hi
    rw [← hi]
    rfl
  · cases hi

/-- Every `VT_NOP` sent while handling one event carries the frontier as it
was when the event started. -/
theorem step_msgs_frontier {c : Consts} {vts s : timestamper} {e : event} {msgs : List sent}
    (h : step c vts e = some (s, msgs)) :
    ∀ f ∈ nop_frontiers msgs, f = (vts.max_done_id, vts.max_done_clk) := by
  have key : ∀ m ∈ msgs, msg_frontier m.2 = none ∨
      msg_frontier m.2 = some (vts.max_done_id, vts.max_done_clk) := by
    cases e with
    | CLIENT_TX_INIT tx =>
      simp only [step] at h
      cases hb : begin_transaction c vts tx with
      | none => simp [hb] at h
      | some r =>
        obtain ⟨s1, tx1, m1⟩ := r
        simp only [hb, Option.some.injEq, Prod.mk.injEq] at h
        obtain ⟨_, _, _, _, _, _, hm⟩ := begin_transaction_shape hb
        intro m hmem
        rw [← h.2, hm] at hmem
        exact Or.inl (send_tx_batches_frontier _ _ _ _ m hmem)
    | CLIENT_TX_INIT_rejected sender =>
      simp only [step, Option.some.injEq, Prod.mk.injEq] at h
      intro m hmem
      rw [← h.2] at hmem
      simp only [List.mem_singleton] at hmem
      rw [hmem]
      exact Or.inl rfl
    | TX_DONE tx_id =>
      simp only [step] at h
      unfold end_transaction at h
      intro m hmem
      cases hf : map_find vts.outstanding_tx tx_id with
      | none => simp [hf] at h
      | some e =>
        simp only [hf] at h
        split at h
        · simp only [Option.some.injEq, Prod.mk.injEq] at h
          rw [← h.2] at hmem
          simp only [List.mem_singleton] at hmem
          rw [hmem]
          exact Or.inl rfl
        · simp only [Option.some.injEq, Prod.mk.injEq] at h
          rw [← h.2] at hmem
          simp at hmem
    | CLIENT_NODE_PROG_REQ pType args sender results id =>
      simp only [step] at h
      unfold unpack_and_start_coord at h
      intro m hmem
      cases hs : scan_initial_args args.length args [] with
      | none => simp [hs] at h
      | some r =>
        obtain ⟨g, mtg⟩ := r
        simp only [hs] at h
        split at h
        · cases h
        · split at h
          · simp only [Option.some.injEq, Prod.mk.injEq] at h
            rw [← h.2] at hmem
            simp only [List.mem_map] at hmem
            obtain ⟨b, _, hb⟩ := hmem
            rw [← hb]
            exact Or.inl rfl
          · cases h
    | NODE_PROG_RETURN type id payload =>
      simp only [step] at h
      intro m hmem
      rcases node_prog_return_shape h with ⟨_, _, hm⟩ | ⟨prog, _, _, hm⟩
      · rw [hm] at hmem
        simp at hmem
      · rw [hm] at hmem
        simp only [List.mem_singleton] at hmem
        rw [hmem]
        exact Or.inl rfl
    | VT_CLOCK_UPDATE rec_vtid rec_clock =>
      simp only [step, vt_clock_update, Option.some.injEq, Prod.mk.injEq] at h
      intro m hmem
      rw [← h.2] at hmem
      simp only [List.mem_singleton] at hmem
      rw [hmem]
      exact Or.inl rfl
    | VT_CLOCK_UPDATE_ACK =>
      simp only [step] at h
      intro m hmem
      split at h
      · cases h
      · simp only [Option.some.injEq, Prod.mk.injEq] at h
        rw [← h.2] at hmem
        simp at hmem
    | VT_NOP_ACK sender cnt =>
      simp only [step] at h
      intro m hmem
      split at h
      · cases h
      · simp only [Option.some.injEq, Prod.mk.injEq] at h
        rw [← h.2] at hmem
        simp at hmem
    | timer_tick req_id =>
      simp only [step] at h
      obtain ⟨s1, msgs1, nop_sent, hn, _, hm⟩ := timer_function_shape h
      intro m hmem
      rw [hm] at hmem
      rcases List.mem_append.1 hmem with h1 | h1
      · rcases timer_nop_shape hn with ⟨_, h2, _⟩ | ⟨_, _, _, h2⟩
        · rw [h2] at h1
          simp at h1
        · rw [h2] at h1
          exact Or.inr (nop_messages_frontier _ _ _ _ _ _ m h1)
      · exact Or.inl (timer_gossip_frontier _ _ _ m h1)
  intro f hf
  unfold nop_frontiers at hf
  simp only [List.mem_filterMap] at hf
  obtain ⟨m, hm, hmf⟩ := hf
  rcases key m hm with h1 | h1
  · rw [h1] at hmf
    cases hmf
  · rw [h1] at hmf
    cases hmf
    rfl

theorem run_cons {c : Consts} {vts s : timestamper} {e : event} {es : List event}
    {msgs : List sent} (h : run c vts (e :: es) = some (s, msgs)) :
    ∃ s1 m1 m2, step c vts e = some (s1, m1) ∧ run c s1 es = some (s, m2) ∧
      msgs = m1 ++ m2 := by
  simp only [run] at h
  cases hs : step c vts e with
  | none => simp [hs] at h
  | some r =>
    obtain ⟨s1, m1⟩ := r
    simp only [hs] at h
    cases hr : run c s1 es with
    | none => simp [hr] at h
    | some r2 =>
      obtain ⟨s2, m2⟩ := r2
      simp only [hr, Option.some.injEq, Prod.mk.injEq] at h
      exact ⟨s1, m1, m2, rfl, by rw [← h.1, hr], h.2.symm⟩

/-- Along a run whose program ids increase, the invariants are kept, the
frontier only grows, and the frontiers carried by the NOP messages are
ordered. -/
theorem run_rinv {c : Consts} {m0 : Nat} {clk0 : vclock_t} (hz : ∀ v, vclk_le clk0 v) :
    ∀ (t : List event) (G : List (Nat × current_prog)) (vts s : timestamper)
      (msgs : List sent),
      FInv G m0 vts → CInv G clk0 vts → run c vts t = some (s, msgs) →
      (prog_ids t).Pairwise (fun a b => a < b) →
      (∀ id ∈ prog_ids t, ∀ x ∈ G.map Prod.fst, x < id) →
      (∃ ext, FInv (G ++ ext) m0 s ∧ CInv (G ++ ext) clk0 s ∧
        ext.map Prod.fst = prog_ids t) ∧
      frontier_le (vts.max_done_id, vts.max_done_clk) (s.max_done_id, s.max_done_clk) ∧
      (nop_frontiers msgs).Pairwise frontier_le ∧
      ∀ f ∈ nop_frontiers msgs, frontier_le (vts.max_done_id, vts.max_done_clk) f := by
  intro t
  induction t with
  | nil =>
    intro G vts s msgs hF hC hrun _ _
    simp only [run, Option.some.injEq, Prod.mk.injEq] at hrun
    rw [← hrun.1, ← hrun.2]
    refine ⟨⟨[], ?_, ?_, rfl⟩, frontier_le_refl _, ?_, ?_⟩
    · rw [List.append_nil]; exact hF
    · rw [List.append_nil]; exact hC
    · simp [nop_frontiers]
    · simp [nop_frontiers]
  | cons e es ih =>
    intro G vts s msgs hF hC hrun hsorted hnew
    obtain ⟨s1, m1, m2, hstep, hrest, hmsgs⟩ := run_cons hrun
    rw [prog_ids_cons] at hsorted hnew
    have hsorted2 := List.pairwise_append.1 hsorted
    have hnew1 : ∀ id ∈ prog_ids [e], ∀ x ∈ G.map Prod.fst, x < id :=
      fun id hid => hnew id (List.mem_append_left _ hid)
    obtain ⟨ext1, hF1, hC1, hk1, hle1⟩ := step_rinv hz hF hC hstep hnew1
    have hnew2 : ∀ id ∈ prog_ids es, ∀ x ∈ (G ++ ext1).map Prod.fst, x < id := by
      intro id hid x hx
      rw [List.map_append, List.mem_append] at hx
      rcases hx with hx | hx
      · exact hnew id (List.mem_append_right _ hid) x hx
      · rw [hk1] at hx
        exact hsorted2.2.2 x hx id hid
    obtain ⟨⟨ext2, hF2, hC2, hk2⟩, hle2, hpw2, hall2⟩ :=
      ih (G ++ ext1) s1 s m2 hF1 hC1 hrest hsorted2.2.1 hnew2
    have hm1 := step_msgs_frontier hstep
    refine ⟨⟨ext1 ++ ext2, ?_, ?_, ?_⟩, frontier_le_trans hle1 hle2, ?_, ?_⟩
    · rw [← List.append_assoc]; exact hF2
    · rw [← List.append_assoc]; exact hC2
    · rw [List.map_append, hk1, hk2, ← prog_ids_cons, prog_ids_cons]
    · rw [hmsgs]
      unfold nop_frontiers
      rw [List.filterMap_append, List.pairwise_append]
      refine ⟨?_, hpw2, ?_⟩
      · apply List.pairwise_of_forall_mem_list
        intro a ha b hb
        rw [hm1 a ha, hm1 b hb]
        exact frontier_le_refl _
      · intro a ha b hb
        rw [hm1 a ha]
        exact frontier_le_trans hle1 (hall2 b hb)
    · intro f hf
      rw [hmsgs] at hf
      unfold nop_frontiers at hf
      rw [List.filterMap_append, List.mem_append] at hf
      rcases hf with hf | hf
      · rw [hm1 f hf]
        exact frontier_le_refl _
      · exact frontier_le_trans hle1 (hall2 f hf)

theorem cinv_init (c : Consts) (m0 : Nat) (clk0 : vclock_t) : CInv [] clk0 (init c m0 clk0) := by
  refine ⟨List.Pairwise.nil, ?_, Or.inl rfl⟩
  intro kv hkv
  simp at hkv

theorem vclk_le_of_zero {clk0 : vclock_t} (h : ∀ i, vec_get clk0 i = 0) (v : vclock_t) :
    vclk_le clk0 v := by
  intro i
  rw [h i]
  exact Nat.zero_le _

/-! ## Shards see the frontier grow -/

/-- C7: in every sequential run from the initial state (transactions,
program admissions with increasing ids, shard replies, clock updates,
acknowledgements, timer ticks, in any order), the frontiers carried by the
`VT_NOP` messages are ordered as they are sent: a later NOP never carries a
smaller `max_done_id`, nor a `max_done_clk` that is smaller in some entry.
The initial `max_done_clk` is all zero. -/
theorem nop_frontiers_nondecreasing (c : Consts) (m0 : Nat) (clk0 : vclock_t) (t : List event)
    (s : timestamper) (msgs : List sent) (hclk0 : ∀ i, vec_get clk0 i = 0)
    (hids : (prog_ids t).Pairwise (fun a b => a < b))
    (hrun : run c (init c m0 clk0) t = some (s, msgs)) :
    (nop_frontiers msgs).Pairwise frontier_le :=
  (run_rinv (vclk_le_of_zero hclk0) t [] (init c m0 clk0) s msgs (finv_init c m0 clk0)
    (cinv_init c m0 clk0) hrun hids (by simp)).2.2.1

theorem nop_frontiers_nondecreasing_witness :
    ((∀ i, vec_get [0, 0] i = 0) ∧ (prog_ids nop_demo).Pairwise (fun a b => a < b) ∧
      run ⟨2, 2, 2, 0⟩ (init ⟨2, 2, 2, 0⟩ 0 [0, 0]) nop_demo =
        some (nop_demo_result.1, nop_demo_result.2)) ∧
    (nop_frontiers nop_demo_result.2).Pairwise frontier_le :=
  have h0 : ∀ i, vec_get [0, 0] i = 0 := by
    intro i
    match i with
    | 0 => rfl
    | 1 => rfl
    | _ + 2 => rfl
  ⟨⟨h0, by decide, by decide⟩,
   nop_frontiers_nondecreasing ⟨2, 2, 2, 0⟩ 0 [0, 0] nop_demo nop_demo_result.1
     nop_demo_result.2 h0 (by decide) (by decide)⟩

/-- The frontiers that the NOP messages of `nop_demo` carry. -/
theorem nop_demo_frontiers :
    nop_frontiers nop_demo_result.2 = [(0, [0, 0]), (0, [0, 0]), (10, [2, 0])] := by
  decide

/-! ## Retirement is contiguous -/

/-- C2: in every state reached by admissions with increasing ids and calls
of `mark_req_finished` on registered, unmarked ids, if `max_done_id` was set
by a retirement (it no longer has its initial value, or it names a registered
program that has left `pend_prog_queue`), then every registered id below it
has been passed to `mark_req_finished`. -/
theorem retired_after_all_older_marked (c : Consts) (m0 : Nat) (clk0 : vclock_t)
    (t : List frontier_op) (s : timestamper) (hvalid : valid_from [] [] t = true)
    (hrun : frontier_run (init c m0 clk0) t = some s)
    (hret : s.max_done_id ≠ m0 ∨
      (s.max_done_id ∈ (registered t).map Prod.fst ∧ s.max_done_id ∉ s.pend_prog_queue)) :
    ∀ x ∈ (registered t).map Prod.fst, x < s.max_done_id → x ∈ marked t := by
  have hspec := frontier_run_spec t [] m0 (init c m0 clk0) [] [] (finv_init c m0 clk0)
    (by simp) (by simp [init]) hvalid
  simp only [List.nil_append, List.not_mem_nil, false_or] at hspec
  obtain ⟨hinv, hseen, _⟩ := hspec.2 s hrun
  intro x hx hlt
  rw [← hseen x]
  rcases hinv.2.1 with ⟨h1, h2⟩ | ⟨_, _, _, h4⟩
  · rcases hret with hr | ⟨hr1, hr2⟩
    · exact absurd h1 hr
    · exact absurd (h2 _ hr1) hr2
  · exact h4 x hx (Nat.le_of_lt hlt)

theorem retired_after_all_older_marked_witness :
    (valid_from [] [] two_progs_out_of_order = true ∧
      frontier_run (init ⟨2, 2, 2, 0⟩ 0 [0, 0]) two_progs_out_of_order =
        some ((frontier_run (init ⟨2, 2, 2, 0⟩ 0 [0, 0]) two_progs_out_of_order).getD
          (init ⟨2, 2, 2, 0⟩ 0 [0, 0])) ∧
      ((frontier_run (init ⟨2, 2, 2, 0⟩ 0 [0, 0]) two_progs_out_of_order).getD
        (init ⟨2, 2, 2, 0⟩ 0 [0, 0])).max_done_id ≠ 0) ∧
    ∀ x ∈ (registered two_progs_out_of_order).map Prod.fst,
      x < ((frontier_run (init ⟨2, 2, 2, 0⟩ 0 [0, 0]) two_progs_out_of_order).getD
        (init ⟨2, 2, 2, 0⟩ 0 [0, 0])).max_done_id → x ∈ marked two_progs_out_of_order :=
  ⟨⟨by decide, by decide, by decide⟩,
   retired_after_all_older_marked ⟨2, 2, 2, 0⟩ 0 [0, 0] two_progs_out_of_order _ (by decide)
     (by decide) (Or.inl (by decide))⟩

/-! ## Nothing at or below the frontier stays queued -/

/-- C4: after every sequence of admissions with increasing ids (all above
the initial `max_done_id`) and of calls of `mark_req_finished` on registered,
unmarked ids, so in particular right after each such call, every id in
`pend_prog_queue` and every id in `done_prog_queue` is larger than
`max_done_id`. -/
theorem queues_above_frontier (c : Consts) (m0 : Nat) (clk0 : vclock_t)
    (t : List frontier_op) (s : timestamper) (hvalid : valid_from [] [] t = true)
    (hm0 : ∀ x ∈ (registered t).map Prod.fst, m0 < x)
    (hrun : frontier_run (init c m0 clk0) t = some s) :
    ∀ x, x ∈ s.pend_prog_queue ∨ x ∈ s.done_prog_queue → s.max_done_id < x := by
  have hspec := frontier_run_spec t [] m0 (init c m0 clk0) [] [] (finv_init c m0 clk0)
    (by simp) (by simp [init]) hvalid
  simp only [List.nil_append, List.not_mem_nil, false_or] at hspec
  obtain ⟨hinv, _, _⟩ := hspec.2 s hrun
  intro x hx
  have hp : x ∈ s.pend_prog_queue := by
    rcases hx with h | h
    · exact h
    · exact ((hinv.1.done_iff x).1 h).1
  exact assert_ok hinv hm0 hp

theorem queues_above_frontier_witness :
    (valid_from [] [] three_progs_one_retired = true ∧
      (∀ x ∈ (registered three_progs_one_retired).map Prod.fst, 0 < x) ∧
      frontier_run (init ⟨2, 2, 2, 0⟩ 0 [0, 0]) three_progs_one_retired =
        some three_progs_state) ∧
    ∀ x, x ∈ three_progs_state.pend_prog_queue ∨ x ∈ three_progs_state.done_prog_queue →
      three_progs_state.max_done_id < x :=
  ⟨⟨by decide, by decide, by decide⟩,
   queues_above_frontier ⟨2, 2, 2, 0⟩ 0 [0, 0] three_progs_one_retired three_progs_state
     (by decide) (by decide) (by decide)⟩

/-- The queues and the frontier after `three_progs_one_retired`. -/
theorem three_progs_state_eq :
    (three_progs_state.max_done_id, three_progs_state.max_done_clk,
      three_progs_state.pend_prog_queue, three_progs_state.done_prog_queue,
      three_progs_state.outstanding_progs.map Prod.fst) =
    (10, [1, 0], [12, 11], [12], [11, 12]) := by
  decide

/-! ## The done queue holds pending ids only -/

/-- Along a run of the server whose program ids increase, the invariant of
the frontier tracker is kept. -/
theorem run_finv {c : Consts} {m0 : Nat} :
    ∀ (t : List event) (G : List (Nat × current_prog)) (vts s : timestamper)
      (msgs : List sent),
      FInv G m0 vts → run c vts t = some (s, msgs) →
      (prog_ids t).Pairwise (fun a b => a < b) →
      (∀ id ∈ prog_ids t, ∀ x ∈ G.map Prod.fst, x < id) →
      ∃ ext, FInv (G ++ ext) m0 s ∧ ext.map Prod.fst = prog_ids t := by
  intro t
  induction t with
  | nil =>
    intro G vts s msgs hF hrun _ _
    simp only [run, Option.some.injEq, Prod.mk.injEq] at hrun
    rw [← hrun.1]
    refine ⟨[], ?_, rfl⟩
    rw [List.append_nil]
    exact hF
  | cons e es ih =>
    intro G vts s msgs hF hrun hsorted hnew
    obtain ⟨s1, m1, m2, hstep, hrest, _⟩ := run_cons hrun
    rw [prog_ids_cons] at hsorted hnew
    have hsorted2 := List.pairwise_append.1 hsorted
    have hnew1 : ∀ id ∈ prog_ids [e], ∀ x ∈ G.map Prod.fst, x < id :=
      fun id hid => hnew id (List.mem_append_left _ hid)
    obtain ⟨ext1, hF1, hk1, _, _⟩ := step_finv hF hstep hnew1
    have hnew2 : ∀ id ∈ prog_ids es, ∀ x ∈ (G ++ ext1).map Prod.fst, x < id := by
      intro id hid x hx
      rw [List.map_append, List.mem_append] at hx
      rcases hx with hx | hx
      · exact hnew id (List.mem_append_right _ hid) x hx
      · rw [hk1] at hx
        exact hsorted2.2.2 x hx id hid
    obtain ⟨ext2, hF2, hk2⟩ := ih (G ++ ext1) s1 s m2 hF1 hrest hsorted2.2.1 hnew2
    refine ⟨ext1 ++ ext2, ?_, ?_⟩
    · rw [← List.append_assoc]; exact hF2
    · rw [List.map_append, hk1, hk2, ← prog_ids_cons, prog_ids_cons]

/-- C5: in every state the server reaches from the initial state (by any
sequence of handled events in which the admitted program ids increase),
every id in `done_prog_queue` is also in `pend_prog_queue`. -/
theorem done_queue_subset_pend_queue (c : Consts) (m0 : Nat) (clk0 : vclock_t)
    (t : List event) (s : timestamper) (msgs : List sent)
    (hids : (prog_ids t).Pairwise (fun a b => a < b))
    (hrun : run c (init c m0 clk0) t = some (s, msgs)) :
    ∀ x ∈ s.done_prog_queue, x ∈ s.pend_prog_queue := by
  obtain ⟨ext, hF, _⟩ := run_finv t [] (init c m0 clk0) s msgs (finv_init c m0 clk0) hrun hids
    (by simp)
  intro x hx
  exact ((hF.1.done_iff x).1 hx).1

theorem done_queue_subset_pend_queue_witness :
    ((prog_ids replies_out_of_order).Pairwise (fun a b => a < b) ∧
      run ⟨2, 2, 2, 0⟩ (init ⟨2, 2, 2, 0⟩ 0 [0, 0]) replies_out_of_order =
        some (replies_out_of_order_result.1, replies_out_of_order_result.2)) ∧
    ∀ x ∈ replies_out_of_order_result.1.done_prog_queue,
      x ∈ replies_out_of_order_result.1.pend_prog_queue :=
  ⟨⟨by decide, by decide⟩,
   done_queue_subset_pend_queue ⟨2, 2, 2, 0⟩ 0 [0, 0] replies_out_of_order
     replies_out_of_order_result.1 replies_out_of_order_result.2 (by decide) (by decide)⟩

/-- The queues after `replies_out_of_order`: two replies wait behind 10. -/
theorem replies_out_of_order_queues :
    (replies_out_of_order_result.1.pend_prog_queue,
      replies_out_of_order_result.1.done_prog_queue,
      replies_out_of_order_result.1.max_done_id) = ([12, 11, 10], [11, 12], 0) := by
  decide

/-! ## The clock of the frontier -/

/-- C6: let a valid sequence of admissions and marks be followed by a call
of `mark_req_finished` on a registered, unmarked id.  If the call changes
`max_done_id`, then `max_done_clk` is afterwards the clock recorded at the
admission of the program that `max_done_id` now names, and that program has
no entry in `outstanding_progs` any more.  Every id that sits in
`done_prog_queue` afterwards (marked, not yet retired) still has its entry in
`outstanding_progs`, as recorded at its admission. -/
theorem frontier_clock_and_registry (c : Consts) (m0 : Nat) (clk0 : vclock_t)
    (t : List frontier_op) (req_id : Nat) (s0 s : timestamper)
    (hvalid : valid_from [] [] t = true)
    (hreg : req_id ∈ (registered t).map Prod.fst) (hnew : req_id ∉ marked t)
    (hrun : frontier_run (init c m0 clk0) t = some s0)
    (hmark : mark_req_finished s0 req_id = some s) :
    (s.max_done_id ≠ s0.max_done_id →
      (∃ client, (s.max_done_id, { client := client, vclk := s.max_done_clk }) ∈ registered t) ∧
      map_find s.outstanding_progs s.max_done_id = none) ∧
    (∀ x ∈ s.done_prog_queue,
      ∃ p, map_find s.outstanding_progs x = some p ∧ (x, p) ∈ registered t) := by
  have hspec := frontier_run_spec t [] m0 (init c m0 clk0) [] [] (finv_init c m0 clk0)
    (by simp) (by simp [init]) hvalid
  simp only [List.nil_append, List.not_mem_nil, false_or] at hspec
  obtain ⟨hinv0, hseen0, _⟩ := hspec.2 s0 hrun
  have hns : req_id ∉ s0.seen_done_id := fun hm => hnew ((hseen0 req_id).1 hm)
  obtain ⟨hinv, _, _, hdisj⟩ := mark_spec_of_some hinv0 hreg hns hmark
  constructor
  · intro hne
    rcases hdisj with ⟨h1, _⟩ | ⟨hR, _⟩
    · exact absurd h1 hne
    · obtain ⟨hnp, ⟨p, hp1, hp2⟩, _, _⟩ := hR
      refine ⟨⟨p.client, ?_⟩, ?_⟩
      · have := map_find_mem hp1
        rw [← hp2]
        exact this
      · rw [hinv.1.outst, if_neg hnp]
  · intro x hx
    have hxp : x ∈ s.pend_prog_queue := ((hinv.1.done_iff x).1 hx).1
    have hxk := hinv.1.pend_reg x hxp
    obtain ⟨p, hp⟩ := Option.isSome_iff_exists.1 ((map_find_isSome _ x).2 hxk)
    refine ⟨p, ?_, map_find_mem hp⟩
    rw [hinv.1.outst, if_pos hxp, hp]

theorem frontier_clock_and_registry_witness :
    (valid_from [] [] three_progs_before = true ∧
      10 ∈ (registered three_progs_before).map Prod.fst ∧ 10 ∉ marked three_progs_before ∧
      frontier_run (init ⟨2, 2, 2, 0⟩ 0 [0, 0]) three_progs_before =
        some ((frontier_run (init ⟨2, 2, 2, 0⟩ 0 [0, 0]) three_progs_before).getD
          (init ⟨2, 2, 2, 0⟩ 0 [0, 0])) ∧
      mark_req_finished ((frontier_run (init ⟨2, 2, 2, 0⟩ 0 [0, 0]) three_progs_before).getD
          (init ⟨2, 2, 2, 0⟩ 0 [0, 0])) 10 = some three_progs_state) ∧
    ((three_progs_state.max_done_id ≠
        ((frontier_run (init ⟨2, 2, 2, 0⟩ 0 [0, 0]) three_progs_before).getD
          (init ⟨2, 2, 2, 0⟩ 0 [0, 0])).max_done_id →
      (∃ client, (three_progs_state.max_done_id,
          ({ client := client, vclk := three_progs_state.max_done_clk } : current_prog)) ∈
        registered three_progs_before) ∧
      map_find three_progs_state.outstanding_progs three_progs_state.max_done_id = none) ∧
    (∀ x ∈ three_progs_state.done_prog_queue,
      ∃ p, map_find three_progs_state.outstanding_progs x = some p ∧
        (x, p) ∈ registered three_progs_before)) :=
  ⟨⟨by decide, by decide, by decide, by decide, by decide⟩,
   frontier_clock_and_registry ⟨2, 2, 2, 0⟩ 0 [0, 0] three_progs_before 10 _ three_progs_state
     (by decide) (by decide) (by decide) (by decide) (by decide)⟩

/-! ## Queue timestamps of the writes of a transaction -/

theorem getD_set {α : Type} (l : List α) (j i : Nat) (a d : α) :
    (l.set j a).getD i d = if i = j ∧ j < l.length then a else l.getD i d := by
  simp only [List.getD_eq_getElem?_getD, List.getElem?_set]
  by_cases h : j = i
  · subst h
    by_cases h2 : j < l.length
    · simp [h2]
    · have h3 : l[j]? = none := List.getElem?_eq_none (by omega)
      simp [h2, h3]
  · have : ¬ i = j := fun e => h e.symm
    simp [h, this]

theorem begin_transaction_loop_char (c : Consts) :
    ∀ (ws : List pending_update) (q : qtimestamp_t) (tv : List (List pending_update))
      (wr : List pending_update)
      (res : qtimestamp_t × List (List pending_update) × List pending_update),
      begin_transaction_loop c ws q tv wr = some res →
      (∀ w ∈ ws, in_range c q.length w) ∧ res.1 = final_qts c q ws ∧
      res.2.2 = wr ++ stamp c q ws ∧ res.2.1.length = tv.length ∧
      (∀ i, i < tv.length → res.2.1.getD i [] =
        tv.getD i [] ++ (stamp c q ws).filter (fun w => decide (w.loc1 - c.SHARD_ID_INCR = i))) := by
  intro ws
  induction ws with
  | nil =>
    intro q tv wr res h
    simp only [begin_transaction_loop, Option.some.injEq] at h
    subst h
    simp [stamp, final_qts]
  | cons w ws ih =>
    intro q tv wr res h
    simp only [begin_transaction_loop] at h
    by_cases h1 : w.loc1 < c.SHARD_ID_INCR
    · simp [h1] at h
    · simp only [h1, if_false] at h
      by_cases h2 : w.loc1 - c.SHARD_ID_INCR < q.length
      · simp only [h2, if_true] at h
        obtain ⟨i1, i2, i3, i4, i5⟩ := ih _ _ _ _ h
        rw [vec_incr_length] at i1
        refine ⟨?_, ?_, ?_, ?_, ?_⟩
        · intro u hu
          rcases List.mem_cons.1 hu with e | e
          · rw [e]
            exact ⟨by omega, h2⟩
          · exact i1 u e
        · simpa [final_qts] using i2
        · simpa [stamp] using i3
        · simpa using i4
        · intro i hi
          have := i5 i (by simpa using hi)
          rw [this, getD_set]
          by_cases hij : i = w.loc1 - c.SHARD_ID_INCR
          · have hlt : w.loc1 - c.SHARD_ID_INCR < tv.length := by omega
            have hd : (w.loc1 - c.SHARD_ID_INCR = i) := hij.symm
            simp [stamp, hij, hlt, List.filter_cons]
          · have hd : ¬ (w.loc1 - c.SHARD_ID_INCR = i) := fun e => hij e.symm
            simp [stamp, hij, hd, List.filter_cons]
      · simp [h2] at h

theorem begin_transaction_loop_total (c : Consts) :
    ∀ (ws : List pending_update) (q : qtimestamp_t) (tv : List (List pending_update))
      (wr : List pending_update),
      (∀ w ∈ ws, in_range c q.length w) →
      ∃ res, begin_transaction_loop c ws q tv wr = some res := by
  intro ws
  induction ws with
  | nil =>
    intro q tv wr _
    exact ⟨_, rfl⟩
  | cons w ws ih =>
    intro q tv wr h
    have hw := h w (List.mem_cons_self _ _)
    have h1 : ¬ w.loc1 < c.SHARD_ID_INCR := by
      have := hw.1
      omega
    simp only [begin_transaction_loop, h1, if_false, hw.2, if_true]
    apply ih
    intro u hu
    have := h u (List.mem_cons_of_mem _ hu)
    unfold in_range at this ⊢
    rw [vec_incr_length]
    exact this

theorem stamp_length (c : Consts) :
    ∀ (ws : List pending_update) (q : qtimestamp_t), (stamp c q ws).length = ws.length := by
  intro ws
  induction ws with
  | nil => intro q; rfl
  | cons w ws ih => intro q; simp [stamp, ih]

/-- The snapshot on the `i`-th write: at every shard `t`, the value before
the transaction plus the number of writes up to the `i`-th that target `t`. -/
theorem stamp_getElem (c : Consts) :
    ∀ (ws : List pending_update) (q : qtimestamp_t) (i : Nat) (w1 : pending_update),
      (∀ w ∈ ws, in_range c q.length w) → (stamp c q ws)[i]? = some w1 →
      ∃ w, ws[i]? = some w ∧ w1.handle = w.handle ∧ w1.loc1 = w.loc1 ∧
        ∀ t, vec_get w1.qts t = vec_get q t +
          (ws.take (i + 1)).countP (fun u => decide (u.loc1 = t + c.SHARD_ID_INCR)) := by
  intro ws
  induction ws with
  | nil =>
    intro q i w1 _ h
    simp [stamp] at h
  | cons w ws ih =>
    intro q i w1 hr h
    have hw := hr w (List.mem_cons_self _ _)
    have hstep : ∀ t, vec_get (vec_incr q (w.loc1 - c.SHARD_ID_INCR)) t =
        vec_get q t + if w.loc1 = t + c.SHARD_ID_INCR then 1 else 0 := by
      intro t
      rw [vec_get_incr]
      obtain ⟨ha, hb⟩ := hw
      by_cases ht : w.loc1 = t + c.SHARD_ID_INCR
      · have : t = w.loc1 - c.SHARD_ID_INCR := by omega
        rw [if_pos ⟨this, hb⟩, if_pos ht, ← this]
      · have : ¬ t = w.loc1 - c.SHARD_ID_INCR := by omega
        rw [if_neg (fun hc => this hc.1), if_neg ht]
        rfl
    cases i with
    | zero =>
      simp only [stamp, List.getElem?_cons_zero, Option.some.injEq] at h
      subst h
      refine ⟨w, List.getElem?_cons_zero, rfl, rfl, ?_⟩
      intro t
      rw [hstep t]
      simp [List.countP_cons]
    | succ k =>
      simp only [stamp, List.getElem?_cons_succ] at h
      have hr2 : ∀ u ∈ ws, in_range c (vec_incr q (w.loc1 - c.SHARD_ID_INCR)).length u := by
        intro u hu
        have := hr u (List.mem_cons_of_mem _ hu)
        unfold in_range at this ⊢
        rw [vec_incr_length]
        exact this
      obtain ⟨u, hu1, hu2, hu3, hu4⟩ := ih _ k w1 hr2 h
      refine ⟨u, by simpa using hu1, hu2, hu3, ?_⟩
      intro t
      rw [hu4 t, hstep t]
      simp only [List.take_succ_cons, List.countP_cons]
      by_cases ht : w.loc1 = t + c.SHARD_ID_INCR
      · simp [ht]
        omega
      · simp [ht]

theorem begin_transaction_writes {c : Consts} {vts s : timestamper} {tx tx1 : pending_tx}
    {msgs : List sent} (h : begin_transaction c vts tx = some (s, tx1, msgs)) :
    (∀ w ∈ tx.writes, in_range c vts.qts.length w) ∧ tx1.writes = stamp c vts.qts tx.writes ∧
    s.qts = final_qts c vts.qts tx.writes := by
  obtain ⟨qts1, tx_vec, written, hl, hs, htx, _⟩ := begin_transaction_shape h
  obtain ⟨h1, h2, h3, _, _⟩ := begin_transaction_loop_char c _ _ _ _ _ hl
  refine ⟨h1, ?_, ?_⟩
  · rw [htx]
    simpa using h3
  · rw [hs]
    exact h2

/-- C10: `begin_transaction` accepts every transaction whose writes name
shards that `qts` has an entry for, and the snapshot it records on the `i`-th
write holds, at every shard `t`, the value of `qts[t]` before the admission
plus the number of writes among the first `i` (the `i`-th included) that
target `t`.  At the shard of the write itself this is one more than the
entry of the vector the increment started from (the `qts` before the
admission for the first write, the snapshot of the write before it
otherwise). -/
theorem write_snapshots (c : Consts) (vts : timestamper) (tx : pending_tx)
    (hloc : ∀ w ∈ tx.writes,
      c.SHARD_ID_INCR ≤ w.loc1 ∧ w.loc1 - c.SHARD_ID_INCR < vts.qts.length) :
    ∃ s tx1 msgs, begin_transaction c vts tx = some (s, tx1, msgs) ∧
      tx1.writes.length = tx.writes.length ∧
      ∀ i w1, tx1.writes[i]? = some w1 →
        ∃ w, tx.writes[i]? = some w ∧ w1.handle = w.handle ∧ w1.loc1 = w.loc1 ∧
          (∀ t, vec_get w1.qts t = vec_get vts.qts t +
            (tx.writes.take (i + 1)).countP (fun u => decide (u.loc1 = t + c.SHARD_ID_INCR))) ∧
          (∀ prev, (i = 0 ∧ prev = vts.qts) ∨
              (∃ j wp, i = j + 1 ∧ tx1.writes[j]? = some wp ∧ prev = wp.qts) →
            vec_get w1.qts (w.loc1 - c.SHARD_ID_INCR) =
              vec_get prev (w.loc1 - c.SHARD_ID_INCR) + 1) := by
  obtain ⟨res, hres⟩ := begin_transaction_loop_total c tx.writes vts.qts
    (List.replicate c.NUM_SHARDS []) [] hloc
  obtain ⟨qts1, tx_vec, written⟩ := res
  have hbt : ∃ s tx1 msgs, begin_transaction c vts tx = some (s, tx1, msgs) := by
    unfold begin_transaction
    rw [hres]
    exact ⟨_, _, _, rfl⟩
  obtain ⟨s, tx1, msgs, hb⟩ := hbt
  obtain ⟨_, hw, _⟩ := begin_transaction_writes hb
  refine ⟨s, tx1, msgs, hb, ?_, ?_⟩
  · rw [hw, stamp_length]
  · intro i w1 hi
    rw [hw] at hi
    obtain ⟨w, hw1, hw2, hw3, hw4⟩ := stamp_getElem c tx.writes vts.qts i w1 hloc hi
    refine ⟨w, hw1, hw2, hw3, hw4, ?_⟩
    have hwm : w ∈ tx.writes := List.getElem?_mem hw1
    have hown : w.loc1 = (w.loc1 - c.SHARD_ID_INCR) + c.SHARD_ID_INCR := by
      have := (hloc w hwm).1
      omega
    have hcount : (tx.writes.take (i + 1)).countP
        (fun u => decide (u.loc1 = (w.loc1 - c.SHARD_ID_INCR) + c.SHARD_ID_INCR)) =
        (tx.writes.take i).countP
          (fun u => decide (u.loc1 = (w.loc1 - c.SHARD_ID_INCR) + c.SHARD_ID_INCR)) + 1 := by
      rw [List.take_succ, hw1, List.countP_append]
      simp [List.countP_cons, ← hown]
    intro prev hprev
    rw [hw4, hcount]
    rcases hprev with ⟨h0, hp⟩ | ⟨j, wp, hj, hwp, hp⟩
    · rw [hp, h0]
      simp
    · rw [hw] at hwp
      obtain ⟨_, _, _, _, hp4⟩ := stamp_getElem c tx.writes vts.qts j wp hloc hwp
      rw [hp, hp4, hj]
      omega

theorem write_snapshots_witness :
    (∀ w ∈ three_writes.writes, 2 ≤ w.loc1 ∧ w.loc1 - 2 < [4, 7].length) ∧
    ∃ s tx1 msgs,
      begin_transaction ⟨2, 2, 2, 0⟩ { init ⟨2, 2, 2, 0⟩ 0 [0, 0] with qts := [4, 7] }
        three_writes = some (s, tx1, msgs) ∧
      tx1.writes.length = three_writes.writes.length ∧
      ∀ i w1, tx1.writes[i]? = some w1 →
        ∃ w, three_writes.writes[i]? = some w ∧ w1.handle = w.handle ∧ w1.loc1 = w.loc1 ∧
          (∀ t, vec_get w1.qts t = vec_get [4, 7] t +
            (three_writes.writes.take (i + 1)).countP (fun u => decide (u.loc1 = t + 2))) ∧
          (∀ prev, (i = 0 ∧ prev = [4, 7]) ∨
              (∃ j wp, i = j + 1 ∧ tx1.writes[j]? = some wp ∧ prev = wp.qts) →
            vec_get w1.qts (w.loc1 - 2) = vec_get prev (w.loc1 - 2) + 1) :=
  ⟨by decide,
   write_snapshots ⟨2, 2, 2, 0⟩ { init ⟨2, 2, 2, 0⟩ 0 [0, 0] with qts := [4, 7] } three_writes
     (by decide)⟩

/-- The snapshots recorded on `three_writes` from `qts = [4, 7]`. -/
theorem three_writes_snapshots :
    (begin_transaction ⟨2, 2, 2, 0⟩ { init ⟨2, 2, 2, 0⟩ 0 [0, 0] with qts := [4, 7] }
      three_writes).map (fun r => (r.2.1.writes.map (fun w => w.qts), r.1.qts)) =
    some ([[5, 7], [5, 8], [6, 8]], [6, 8]) := by
  decide

theorem scheduled_qts_append (c : Consts) (shard : Nat) (a b : List sent) :
    scheduled_qts c shard (a ++ b) = scheduled_qts c shard a ++ scheduled_qts c shard b := by
  induction a with
  | nil => rfl
  | cons m a ih => simp [scheduled_qts, ih]

theorem scheduled_qts_control (c : Consts) (shard : Nat) (msgs : List sent)
    (h : ∀ m ∈ msgs, is_control m.2) : scheduled_qts c shard msgs = [] := by
  induction msgs with
  | nil => rfl
  | cons m msgs ih =>
    have hm := h m (List.mem_cons_self _ _)
    have hrest := ih (fun x hx => h x (List.mem_cons_of_mem _ hx))
    obtain ⟨dest, body⟩ := m
    cases body <;> simp_all [scheduled_qts, msg_qts_events, is_control]

theorem timer_gossip_control (c : Consts) (vts : timestamper) (nop_sent : Bool) :
    ∀ m ∈ (timer_gossip c vts nop_sent).2, is_control m.2 := by
  intro m hm
  unfold timer_gossip at hm
  split at hm
  · simp only [List.mem_map] at hm
    obtain ⟨i, _, hi⟩ := hm
    rw [← hi]
    trivial
  · simp at hm

/-- Which handler an event runs, as far as queue timestamps go: a
transaction admission, a timer iteration, or a handler that leaves `qts`
alone and sends neither `TX_INIT` nor `VT_NOP`. -/
theorem step_qts_shape {c : Consts} {vts s : timestamper} {e : event} {msgs : List sent}
    (h : step c vts e = some (s, msgs)) :
    (∃ tx tx1, e = .CLIENT_TX_INIT tx ∧ begin_transaction c vts tx = some (s, tx1, msgs)) ∨
    (∃ req_id, e = .timer_tick req_id ∧ timer_function c vts req_id = some (s, msgs)) ∨
    (s.qts = vts.qts ∧ s.to_nop.length = vts.to_nop.length ∧ ∀ m ∈ msgs, is_control m.2) := by
  cases e with
  | CLIENT_TX_INIT tx =>
    left
    simp only [step] at h
    cases hb : begin_transaction c vts tx with
    | none => simp [hb] at h
    | some r =>
      obtain ⟨s1, tx1, m1⟩ := r
      simp only [hb, Option.some.injEq, Prod.mk.injEq] at h
      exact ⟨tx, tx1, rfl, by rw [← h.1, ← h.2, hb]⟩
  | timer_tick req_id =>
    right
    left
    exact ⟨req_id, rfl, h⟩
  | CLIENT_TX_INIT_rejected sender =>
    right
    right
    simp only [step, Option.some.injEq, Prod.mk.injEq] at h
    rw [← h.1, ← h.2]
    refine ⟨rfl, rfl, ?_⟩
    intro m hm
    simp only [List.mem_singleton] at hm
    rw [hm]
    trivial
  | TX_DONE tx_id =>
    right
    right
    simp only [step] at h
    obtain ⟨o, hs⟩ := end_transaction_shape h
    refine ⟨by rw [hs], by rw [hs], ?_⟩
    unfold end_transaction at h
    intro m hmem
    cases hf : map_find vts.outstanding_tx tx_id with
    | none => simp [hf] at h
    | some e =>
      simp only [hf] at h
      split at h
      · simp only [Option.some.injEq, Prod.mk.injEq] at h
        rw [← h.2] at hmem
        simp only [List.mem_singleton] at hmem
        rw [hmem]
        trivial
      · simp only [Option.some.injEq, Prod.mk.injEq] at h
        rw [← h.2] at hmem
        simp at hmem
  | CLIENT_NODE_PROG_REQ pType args sender results id =>
    right
    right
    simp only [step] at h
    have hs := unpack_and_start_coord_shape h
    refine ⟨by rw [hs]; rfl, by rw [hs]; rfl, ?_⟩
    unfold unpack_and_start_coord at h
    intro m hmem
    cases hsc : scan_initial_args args.length args [] with
    | none => simp [hsc] at h
    | some r =>
      obtain ⟨g, mtg⟩ := r
      simp only [hsc] at h
      split at h
      · cases h
      · split at h
        · simp only [Option.some.injEq, Prod.mk.injEq] at h
          rw [← h.2] at hmem
          simp only [List.mem_map] at hmem
          obtain ⟨b, _, hb⟩ := hmem
          rw [← hb]
          trivial
        · cases h
  | NODE_PROG_RETURN type id payload =>
    right
    right
    simp only [step] at h
    rcases node_prog_return_shape h with ⟨_, hs, hm⟩ | ⟨prog, _, h2, hm⟩
    · rw [hs, hm]
      exact ⟨rfl, rfl, by simp⟩
    · have hfr := (mark_frame h2).2.1
      refine ⟨hfr.2.1, by rw [hfr.2.2.2.2.1], ?_⟩
      intro m hmem
      rw [hm] at hmem
      simp only [List.mem_singleton] at hmem
      rw [hmem]
      trivial
  | VT_CLOCK_UPDATE rec_vtid rec_clock =>
    right
    right
    simp only [step, vt_clock_update, Option.some.injEq, Prod.mk.injEq] at h
    rw [← h.1, ← h.2]
    refine ⟨rfl, rfl, ?_⟩
    intro m hm
    simp only [List.mem_singleton] at hm
    rw [hm]
    trivial
  | VT_CLOCK_UPDATE_ACK =>
    right
    right
    simp only [step, vt_clock_update_ack] at h
    split at h
    · cases h
    · rename_i s1 heq
      split at heq
      · simp only [Option.some.injEq] at heq
        simp only [Option.some.injEq, Prod.mk.injEq] at h
        rw [← h.1, ← heq, ← h.2]
        exact ⟨rfl, rfl, by simp⟩
      · cases heq
  | VT_NOP_ACK sender cnt =>
    right
    right
    simp only [step, vt_nop_ack] at h
    split at h
    · cases h
    · rename_i s1 heq
      split at heq
      · cases heq
      · split at heq
        · simp only [Option.some.injEq] at heq
          simp only [Option.some.injEq, Prod.mk.injEq] at h
          rw [← h.1, ← heq, ← h.2]
          exact ⟨rfl, by simp [bit_set], by simp⟩
        · cases heq

theorem scheduled_send_tx_batches (c : Consts) (ts : vclock_t) (tx_id : Nat)
    (tv : List (List pending_update)) (shard : Nat)
    (hloc : ∀ i, ∀ w ∈ tv.getD i [], w.loc1 = i + c.SHARD_ID_INCR) :
    scheduled_qts c shard (send_tx_batches c ts tx_id tv) =
      if shard < c.NUM_SHARDS then (tv.getD shard []).map (fun w => vec_get w.qts shard)
      else [] := by
  unfold send_tx_batches
  generalize c.NUM_SHARDS = n
  induction n with
  | zero => simp [scheduled_qts]
  | succ n ih =>
    rw [List.range_succ, List.foldl_append]
    simp only [List.foldl_cons, List.foldl_nil]
    cases hn : tv.getD n [] with
    | nil =>
      simp only []
      rw [ih]
      by_cases h1 : shard < n
      · have : shard < n + 1 := by omega
        simp [h1, this]
      · by_cases h2 : shard = n
        · subst h2
          have hn2 : tv[shard]?.getD [] = [] := by
            rw [← List.getD_eq_getElem?_getD]
            exact hn
          simp [hn2]
        · have : ¬ shard < n + 1 := by omega
          simp [h1, this]
    | cons w0 ws =>
      simp only []
      rw [scheduled_qts_append, ih]
      have hw0 : w0.loc1 = n + c.SHARD_ID_INCR := hloc n w0 (by rw [hn]; exact List.mem_cons_self _ _)
      by_cases h1 : shard < n
      · have h3 : shard < n + 1 := by omega
        have h4 : ¬ (n + c.SHARD_ID_INCR = shard + c.SHARD_ID_INCR) := by omega
        simp [h1, h3, scheduled_qts, msg_qts_events, hw0, h4]
      · by_cases h2 : shard = n
        · subst h2
          have hn2 : tv[shard]?.getD [] = w0 :: ws := by
            rw [← List.getD_eq_getElem?_getD]
            exact hn
          simp [scheduled_qts, msg_qts_events, hw0, hn2]
        · have h3 : ¬ shard < n + 1 := by omega
          have h4 : ¬ (n + c.SHARD_ID_INCR = shard + c.SHARD_ID_INCR) := by omega
          simp [h1, h3, scheduled_qts, msg_qts_events, hw0, h4]

theorem scheduled_nop_messages (c : Consts) (vts : timestamper) (vclk : vclock_t)
    (qts : qtimestamp_t) (req_id : Nat) (dr : List (List (Nat × prog_type))) (shard : Nat) :
    scheduled_qts c shard (nop_messages c vts vclk qts req_id dr) =
      if shard < c.NUM_SHARDS ∧ bit_get vts.to_nop shard = true then [vec_get qts shard]
      else [] := by
  unfold nop_messages
  generalize c.NUM_SHARDS = n
  induction n with
  | zero => simp [scheduled_qts]
  | succ n ih =>
    rw [List.range_succ, List.filterMap_append, scheduled_qts_append, ih]
    by_cases hb : bit_get vts.to_nop n = true
    · by_cases h1 : shard < n
      · have h3 : shard < n + 1 := by omega
        have h4 : ¬ (n + c.SHARD_ID_INCR = shard + c.SHARD_ID_INCR) := by omega
        simp [List.filterMap_cons, hb, h1, h3, scheduled_qts, msg_qts_events, h4]
      · by_cases h2 : shard = n
        · subst h2
          simp [List.filterMap_cons, hb, scheduled_qts, msg_qts_events]
        · have h3 : ¬ shard < n + 1 := by omega
          have h4 : ¬ (n + c.SHARD_ID_INCR = shard + c.SHARD_ID_INCR) := by omega
          simp [List.filterMap_cons, hb, h1, h3, scheduled_qts, msg_qts_events, h4]
    · by_cases h1 : shard < n
      · have h3 : shard < n + 1 := by omega
        simp [List.filterMap_cons, hb, h1, h3, scheduled_qts]
      · by_cases h2 : shard = n
        · subst h2
          simp [List.filterMap_cons, hb, scheduled_qts]
        · have h3 : ¬ shard < n + 1 := by omega
          simp [List.filterMap_cons, hb, h1, h3, scheduled_qts]

theorem nop_bump_get (to_nop : List Bool) (qts : qtimestamp_t)
    (dr : List (List (Nat × prog_type))) (shard : Nat) :
    ∀ n, n ≤ qts.length →
      (nop_bump to_nop n qts dr).1.length = qts.length ∧
      vec_get (nop_bump to_nop n qts dr).1 shard =
        vec_get qts shard + if shard < n ∧ bit_get to_nop shard = true then 1 else 0 := by
  intro n
  induction n with
  | zero =>
    intro _
    simp [nop_bump]
  | succ n ih =>
    intro hn
    obtain ⟨ih1, ih2⟩ := ih (by omega)
    unfold nop_bump at ih1 ih2 ⊢
    rw [List.range_succ, List.foldl_append]
    simp only [List.foldl_cons, List.foldl_nil]
    by_cases hb : bit_get to_nop n = true
    · simp only [hb, if_true]
      refine ⟨by rw [vec_incr_length, ih1], ?_⟩
      rw [vec_get_incr, ih1]
      by_cases h2 : shard = n
      · subst h2
        have hlt : shard < qts.length := by omega
        simp [hlt, hb, ih2]
      · have h3 : (shard < n + 1) ↔ (shard < n) := by omega
        simp [h2, ih2, h3]
    · simp only [hb, Bool.false_eq_true, if_false]
      refine ⟨ih1, ?_⟩
      rw [ih2]
      by_cases h2 : shard = n
      · subst h2
        simp [hb]
      · have h3 : (shard < n + 1) ↔ (shard < n) := by omega
        simp [h3]

theorem stamp_loc (c : Consts) :
    ∀ (ws : List pending_update) (q : qtimestamp_t) (w1 : pending_update),
      w1 ∈ stamp c q ws → ∃ w ∈ ws, w1.loc1 = w.loc1 := by
  intro ws
  induction ws with
  | nil =>
    intro q w1 h
    simp [stamp] at h
  | cons w ws ih =>
    intro q w1 h
    simp only [stamp, List.mem_cons] at h
    rcases h with e | e
    · exact ⟨w, List.mem_cons_self _ _, by rw [e]⟩
    · obtain ⟨u, hu, hl⟩ := ih _ w1 e
      exact ⟨u, List.mem_cons_of_mem _ hu, hl⟩

/-- The values a transaction assigns at one shard: they increase from write
to write, start above the value before the transaction and end at the value
after it. -/
theorem stamp_events (c : Consts) (shard : Nat) :
    ∀ (ws : List pending_update) (q : qtimestamp_t),
      (∀ w ∈ ws, in_range c q.length w) →
      (final_qts c q ws).length = q.length ∧
      vec_get q shard ≤ vec_get (final_qts c q ws) shard ∧
      (((stamp c q ws).filter (fun w => decide (w.loc1 - c.SHARD_ID_INCR = shard))).map
        (fun w => vec_get w.qts shard)).Pairwise (fun a b => a < b) ∧
      ∀ v ∈ ((stamp c q ws).filter (fun w => decide (w.loc1 - c.SHARD_ID_INCR = shard))).map
          (fun w => vec_get w.qts shard),
        vec_get q shard < v ∧ v ≤ vec_get (final_qts c q ws) shard := by
  intro ws
  induction ws with
  | nil =>
    intro q _
    simp [stamp, final_qts]
  | cons w ws ih =>
    intro q hr
    have hw := hr w (List.mem_cons_self _ _)
    have hr2 : ∀ u ∈ ws, in_range c (vec_incr q (w.loc1 - c.SHARD_ID_INCR)).length u := by
      intro u hu
      have := hr u (List.mem_cons_of_mem _ hu)
      unfold in_range at this ⊢
      rw [vec_incr_length]
      exact this
    obtain ⟨i1, i2, i3, i4⟩ := ih _ hr2
    rw [vec_incr_length] at i1
    have hq : vec_get (vec_incr q (w.loc1 - c.SHARD_ID_INCR)) shard =
        vec_get q shard + if w.loc1 - c.SHARD_ID_INCR = shard then 1 else 0 := by
      rw [vec_get_incr]
      by_cases ht : w.loc1 - c.SHARD_ID_INCR = shard
      · rw [if_pos ⟨ht.symm, hw.2⟩, if_pos ht, ht]
      · rw [if_neg (fun hc => ht hc.1.symm), if_neg ht]
        rfl
    by_cases ht : w.loc1 - c.SHARD_ID_INCR = shard
    · subst ht
      rw [if_pos rfl] at hq
      rw [hq] at i2 i4
      have hfil : (stamp c q (w :: ws)).filter
          (fun u => decide (u.loc1 - c.SHARD_ID_INCR = w.loc1 - c.SHARD_ID_INCR)) =
          { w with qts := vec_incr q (w.loc1 - c.SHARD_ID_INCR) } ::
            (stamp c (vec_incr q (w.loc1 - c.SHARD_ID_INCR)) ws).filter
              (fun u => decide (u.loc1 - c.SHARD_ID_INCR = w.loc1 - c.SHARD_ID_INCR)) := by
        simp [stamp, List.filter_cons]
      rw [hfil]
      simp only [List.map_cons, List.pairwise_cons, List.mem_cons, final_qts]
      refine ⟨i1, by omega, ⟨?_, i3⟩, ?_⟩
      · intro v hv
        have := (i4 v hv).1
        rw [hq]
        exact this
      · intro v hv
        rcases hv with e | e
        · rw [e, hq]
          exact ⟨by omega, i2⟩
        · have := i4 v e
          exact ⟨by omega, this.2⟩
    · rw [if_neg ht] at hq
      rw [hq] at i2 i4
      have hfil : (stamp c q (w :: ws)).filter
          (fun u => decide (u.loc1 - c.SHARD_ID_INCR = shard)) =
          (stamp c (vec_incr q (w.loc1 - c.SHARD_ID_INCR)) ws).filter
            (fun u => decide (u.loc1 - c.SHARD_ID_INCR = shard)) := by
        simp [stamp, List.filter_cons, ht]
      rw [hfil]
      simp only [final_qts]
      exact ⟨i1, by omega, i3, fun v hv => ⟨by have := (i4 v hv).1; omega, (i4 v hv).2⟩⟩

theorem getD_replicate_nil {α : Type} (n i : Nat) :
    (List.replicate n ([] : List α)).getD i [] = [] := by
  rw [List.getD_eq_getElem?_getD, List.getElem?_replicate]
  split <;> rfl

/-- One handled event and the queue timestamps of one shard: the events it
schedules at the shard get increasing values, all above `qts[shard]` as it
was and none above `qts[shard]` as it is afterwards. -/
theorem step_qts {c : Consts} {vts s : timestamper} {e : event} {msgs : List sent}
    {shard : Nat} (hwf : vts.qts.length = c.NUM_SHARDS) (hs : shard < c.NUM_SHARDS)
    (h : step c vts e = some (s, msgs)) :
    s.qts.length = c.NUM_SHARDS ∧ vec_get vts.qts shard ≤ vec_get s.qts shard ∧
    (scheduled_qts c shard msgs).Pairwise (fun a b => a < b) ∧
    ∀ v ∈ scheduled_qts c shard msgs, vec_get vts.qts shard < v ∧ v ≤ vec_get s.qts shard := by
  rcases step_qts_shape h with ⟨tx, tx1, _, hb⟩ | ⟨req_id, _, ht⟩ | ⟨hq, _, hctl⟩
  · obtain ⟨qts1, tx_vec, written, hl, hsq, _, hm⟩ := begin_transaction_shape hb
    obtain ⟨h1, h2, h3, h4, h5⟩ := begin_transaction_loop_char c _ _ _ _ _ hl
    simp only [List.length_replicate] at h4 h5
    simp only at h2
    have hsq2 : s.qts = final_qts c vts.qts tx.writes := by
      rw [hsq]
      exact h2
    have htv : tx_vec.getD shard [] = (stamp c vts.qts tx.writes).filter
        (fun w => decide (w.loc1 - c.SHARD_ID_INCR = shard)) := by
      have := h5 shard hs
      rw [getD_replicate_nil] at this
      simpa using this
    have hloc : ∀ i, ∀ w ∈ tx_vec.getD i [], w.loc1 = i + c.SHARD_ID_INCR := by
      intro i w hw
      by_cases hi : i < c.NUM_SHARDS
      · have := h5 i hi
        rw [getD_replicate_nil] at this
        rw [this] at hw
        simp only [List.nil_append, List.mem_filter, decide_eq_true_eq] at hw
        obtain ⟨u, hu, hlu⟩ := stamp_loc c _ _ w hw.1
        have := (h1 u hu).1
        omega
      · have hlen : tx_vec.length ≤ i := by
          have : tx_vec.length = c.NUM_SHARDS := h4
          omega
        rw [List.getD_eq_default _ _ hlen] at hw
        simp at hw
    have hsched := scheduled_send_tx_batches c (increment_clock c vts.vclk) tx.id tx_vec shard hloc
    rw [if_pos hs, htv] at hsched
    obtain ⟨e1, e2, e3, e4⟩ := stamp_events c shard tx.writes vts.qts h1
    rw [hm, hsched, hsq2]
    exact ⟨by rw [e1, hwf], e2, e3, e4⟩
  · obtain ⟨s1, msgs1, nop_sent, hn, hsg, hm⟩ := timer_function_shape ht
    obtain ⟨a, tv, hg⟩ := timer_gossip_shape c s1 nop_sent
    have hgc := scheduled_qts_control c shard _ (timer_gossip_control c s1 nop_sent)
    rw [hg] at hsg
    rcases timer_nop_shape hn with ⟨h1, h2, _, _⟩ | ⟨_, _, h1, h2⟩
    · rw [hm, scheduled_qts_append, hgc, h2, hsg, h1]
      simp [scheduled_qts, hwf]
    · obtain ⟨b1, b2⟩ := nop_bump_get vts.to_nop vts.qts vts.timer_done_reqs shard c.NUM_SHARDS
        (by omega)
      rw [hm, scheduled_qts_append, hgc, h2, scheduled_nop_messages, List.append_nil, hsg, h1]
      simp only
      rw [b1, b2]
      refine ⟨hwf, by omega, ?_, ?_⟩
      · split
        · exact List.pairwise_singleton _ _
        · exact List.Pairwise.nil
      · intro v hv
        split at hv
        · rename_i hc
          simp only [List.mem_singleton] at hv
          rw [hv, if_pos hc]
          omega
        · simp at hv
  · rw [scheduled_qts_control c shard msgs hctl, hq]
    exact ⟨hwf, le_refl _, List.Pairwise.nil, by simp⟩

/-- Along a run, the queue timestamps assigned to the events scheduled at
one shard increase in send order. -/
theorem run_qts {c : Consts} {shard : Nat} (hs : shard < c.NUM_SHARDS) :
    ∀ (t : List event) (vts s : timestamper) (msgs : List sent),
      vts.qts.length = c.NUM_SHARDS → run c vts t = some (s, msgs) →
      vec_get vts.qts shard ≤ vec_get s.qts shard ∧
      (scheduled_qts c shard msgs).Pairwise (fun a b => a < b) ∧
      ∀ v ∈ scheduled_qts c shard msgs, vec_get vts.qts shard < v ∧ v ≤ vec_get s.qts shard := by
  intro t
  induction t with
  | nil =>
    intro vts s msgs _ hrun
    simp only [run, Option.some.injEq, Prod.mk.injEq] at hrun
    rw [← hrun.1, ← hrun.2]
    simp [scheduled_qts]
  | cons e es ih =>
    intro vts s msgs hwf hrun
    obtain ⟨s1, m1, m2, hstep, hrest, hmsgs⟩ := run_cons hrun
    obtain ⟨a1, a2, a3, a4⟩ := step_qts hwf hs hstep
    obtain ⟨b2, b3, b4⟩ := ih s1 s m2 a1 hrest
    rw [hmsgs, scheduled_qts_append]
    refine ⟨le_trans a2 b2, ?_, ?_⟩
    · rw [List.pairwise_append]
      refine ⟨a3, b3, ?_⟩
      intro x hx y hy
      have := (a4 x hx).2
      have := (b4 y hy).1
      omega
    · intro v hv
      rcases List.mem_append.1 hv with h1 | h1
      · have := a4 v h1
        omega
      · have := b4 v h1
        omega

/-! ## Queue timestamps increase per shard -/

/-- C8: in every run from the initial state, for every shard, the `qts[s]`
values assigned to the events this VT schedules at the shard (each write of
a `TX_INIT` sent to it, each `VT_NOP` sent to it) increase strictly in the
order the events are sent. -/
theorem qts_strictly_increasing (c : Consts) (m0 : Nat) (clk0 : vclock_t) (t : List event)
    (s : timestamper) (msgs : List sent) (shard : Nat) (hshard : shard < c.NUM_SHARDS)
    (hrun : run c (init c m0 clk0) t = some (s, msgs)) :
    (scheduled_qts c shard msgs).Pairwise (fun a b => a < b) :=
  (run_qts hshard t (init c m0 clk0) s msgs (by simp [init]) hrun).2.1

theorem qts_strictly_increasing_witness :
    ((0 : Nat) < (⟨2, 2, 2, 0⟩ : Consts).NUM_SHARDS ∧
      run ⟨2, 2, 2, 0⟩ (init ⟨2, 2, 2, 0⟩ 0 [0, 0]) qts_demo =
        some (qts_demo_result.1, qts_demo_result.2)) ∧
    (scheduled_qts ⟨2, 2, 2, 0⟩ 0 qts_demo_result.2).Pairwise (fun a b => a < b) :=
  ⟨⟨by decide, by decide⟩,
   qts_strictly_increasing ⟨2, 2, 2, 0⟩ 0 [0, 0] qts_demo qts_demo_result.1 qts_demo_result.2 0
     (by decide) (by decide)⟩

/-- The queue timestamps scheduled at the two shards by `qts_demo`. -/
theorem qts_demo_scheduled :
    (scheduled_qts ⟨2, 2, 2, 0⟩ 0 qts_demo_result.2,
      scheduled_qts ⟨2, 2, 2, 0⟩ 1 qts_demo_result.2) = ([1, 2, 3, 4, 5], [1, 2]) := by
  decide

theorem step_vclk_length {c : Consts} {vts s : timestamper} {e : event} {msgs : List sent}
    (h : step c vts e = some (s, msgs)) : s.vclk.length = vts.vclk.length := by
  rw [step_vclk h]
  cases e <;> simp only [vclk_after, increment_clock, update_clock, vec_incr, List.length_set]
  case timer_tick => split <;> simp

/-- The timestamps handed out by `nop_demo` (a NOP round, a program, a NOP
round) and by `qts_demo` (transaction, NOP round, transaction, NOP round). -/
theorem timestamps_demo :
    (timestamps ⟨2, 2, 2, 0⟩ (init ⟨2, 2, 2, 0⟩ 0 [0, 0]) nop_demo,
      timestamps ⟨2, 2, 2, 0⟩ (init ⟨2, 2, 2, 0⟩ 0 [0, 0]) qts_demo) =
    ([[1, 0], [2, 0], [3, 0]], [[1, 0], [2, 0], [3, 0], [4, 0]]) := by
  decide

/-! ## Queue timestamps count the scheduled events -/

theorem final_qts_get (c : Consts) (shard : Nat) :
    ∀ (ws : List pending_update) (q : qtimestamp_t),
      (∀ w ∈ ws, in_range c q.length w) →
      vec_get (final_qts c q ws) shard =
        vec_get q shard + ws.countP (fun w => decide (w.loc1 = shard + c.SHARD_ID_INCR)) := by
  intro ws
  induction ws with
  | nil =>
    intro q _
    simp [final_qts]
  | cons w ws ih =>
    intro q hr
    have hw := hr w (List.mem_cons_self _ _)
    have hr2 : ∀ u ∈ ws, in_range c (vec_incr q (w.loc1 - c.SHARD_ID_INCR)).length u := by
      intro u hu
      have := hr u (List.mem_cons_of_mem _ hu)
      unfold in_range at this ⊢
      rw [vec_incr_length]
      exact this
    simp only [final_qts]
    rw [ih _ hr2, vec_get_incr, List.countP_cons]
    obtain ⟨ha, hb⟩ := hw
    by_cases ht : w.loc1 = shard + c.SHARD_ID_INCR
    · have e : shard = w.loc1 - c.SHARD_ID_INCR := by omega
      rw [if_pos ⟨e, hb⟩, ← e]
      simp [ht]
      omega
    · have e : ¬ shard = w.loc1 - c.SHARD_ID_INCR := by omega
      rw [if_neg (fun hc => e hc.1)]
      simp [ht]

theorem nops_to_append (c : Consts) (shard : Nat) (a b : List sent) :
    nops_to c shard (a ++ b) = nops_to c shard a + nops_to c shard b := by
  simp [nops_to, List.countP_append]

theorem nops_to_zero (c : Consts) (shard : Nat) (msgs : List sent)
    (h : ∀ m ∈ msgs, is_nop_to c shard m = false) : nops_to c shard msgs = 0 := by
  unfold nops_to
  rw [List.countP_eq_zero]
  intro m hm
  rw [h m hm]
  simp

theorem is_nop_to_control (c : Consts) (shard : Nat) (m : sent) (h : is_control m.2) :
    is_nop_to c shard m = false := by
  obtain ⟨dest, body⟩ := m
  cases body <;> simp_all [is_nop_to, is_control]

theorem send_tx_batches_no_nop (c : Consts) (shard : Nat) (ts : vclock_t) (tx_id : Nat)
    (tx_vec : List (List pending_update)) :
    ∀ m ∈ send_tx_batches c ts tx_id tx_vec, is_nop_to c shard m = false := by
  unfold send_tx_batches
  refine foldl_mem_inv (fun (m : sent) => is_nop_to c shard m = false) _ ?_ _ _ ?_
  · intro acc i hacc m hm
    split at hm
    · exact hacc m hm
    · rcases List.mem_append.1 hm with h1 | h1
      · exact hacc m h1
      · simp only [List.mem_singleton] at h1
        rw [h1]
        rfl
  · simp

theorem nops_to_nop_messages (c : Consts) (vts : timestamper) (vclk : vclock_t)
    (qts : qtimestamp_t) (req_id : Nat) (dr : List (List (Nat × prog_type))) (shard : Nat) :
    nops_to c shard (nop_messages c vts vclk qts req_id dr) =
      if shard < c.NUM_SHARDS ∧ bit_get vts.to_nop shard = true then 1 else 0 := by
  unfold nop_messages
  generalize c.NUM_SHARDS = n
  induction n with
  | zero => simp [nops_to]
  | succ n ih =>
    rw [List.range_succ, List.filterMap_append, nops_to_append, ih]
    by_cases hb : bit_get vts.to_nop n = true
    · by_cases h1 : shard < n
      · have h3 : shard < n + 1 := by omega
        have h4 : ¬ (n + c.SHARD_ID_INCR = shard + c.SHARD_ID_INCR) := by omega
        simp [List.filterMap_cons, hb, h1, h3, nops_to, is_nop_to, h4]
      · by_cases h2 : shard = n
        · subst h2
          simp [List.filterMap_cons, hb, nops_to, is_nop_to]
        · have h3 : ¬ shard < n + 1 := by omega
          have h4 : ¬ (n + c.SHARD_ID_INCR = shard + c.SHARD_ID_INCR) := by omega
          simp [List.filterMap_cons, hb, h1, h3, nops_to, is_nop_to, h4]
    · by_cases h1 : shard < n
      · have h3 : shard < n + 1 := by omega
        simp [List.filterMap_cons, hb, h1, h3, nops_to]
      · by_cases h2 : shard = n
        · subst h2
          simp [List.filterMap_cons, hb, nops_to]
        · have h3 : ¬ shard < n + 1 := by omega
          simp [List.filterMap_cons, hb, h1, h3, nops_to]

theorem nop_bump_unset (to_nop : List Bool) (qts : qtimestamp_t)
    (dr : List (List (Nat × prog_type))) (shard : Nat) (hb : bit_get to_nop shard = false) :
    ∀ n, vec_get (nop_bump to_nop n qts dr).1 shard = vec_get qts shard := by
  intro n
  induction n with
  | zero => simp [nop_bump]
  | succ n ih =>
    unfold nop_bump at ih ⊢
    rw [List.range_succ, List.foldl_append]
    simp only [List.foldl_cons, List.foldl_nil]
    by_cases hn : bit_get to_nop n = true
    · simp only [hn, if_true]
      rw [vec_get_incr]
      have hne : ¬ shard = n := by
        intro e
        rw [e, hn] at hb
        cases hb
      rw [if_neg (fun hc => hne hc.1)]
      exact ih
    · simp only [hn, Bool.false_eq_true, if_false]
      exact ih

theorem writes_to_cons (c : Consts) (shard : Nat) (e : event) (es : List event) :
    writes_to c shard (e :: es) = writes_to c shard [e] + writes_to c shard es := by
  cases e <;> simp [writes_to]

theorem begin_transaction_qts_count {c : Consts} {vts s : timestamper} {tx tx1 : pending_tx}
    {msgs : List sent} (shard : Nat) (hb : begin_transaction c vts tx = some (s, tx1, msgs)) :
    vec_get s.qts shard = vec_get vts.qts shard +
      tx.writes.countP (fun w => decide (w.loc1 = shard + c.SHARD_ID_INCR)) ∧
    nops_to c shard msgs = 0 := by
  obtain ⟨hr, _, hsq⟩ := begin_transaction_writes hb
  obtain ⟨_, _, _, _, _, _, hm⟩ := begin_transaction_shape hb
  rw [hsq, final_qts_get c shard _ _ hr, hm,
    nops_to_zero c shard _ (send_tx_batches_no_nop c shard _ _ _)]
  exact ⟨rfl, rfl⟩

theorem timer_function_qts_count {c : Consts} {vts s : timestamper} {req_id : Nat}
    {msgs : List sent} {shard : Nat} (hwf : vts.qts.length = c.NUM_SHARDS)
    (ht : timer_function c vts req_id = some (s, msgs)) :
    vec_get s.qts shard = vec_get vts.qts shard + nops_to c shard msgs := by
  obtain ⟨s1, msgs1, nop_sent, hn, hsg, hm⟩ := timer_function_shape ht
  obtain ⟨a, tv, hg⟩ := timer_gossip_shape c s1 nop_sent
  have hgc : nops_to c shard (timer_gossip c s1 nop_sent).2 = 0 :=
    nops_to_zero c shard _
      (fun m hm => is_nop_to_control c shard m (timer_gossip_control c s1 nop_sent m hm))
  rw [hg] at hsg
  rw [hm, nops_to_append, hgc]
  rcases timer_nop_shape hn with ⟨h1, h2, _, _⟩ | ⟨_, _, h1, h2⟩
  · rw [h2, hsg, h1]
    simp [nops_to]
  · obtain ⟨_, b2⟩ := nop_bump_get vts.to_nop vts.qts vts.timer_done_reqs shard c.NUM_SHARDS
      (by omega)
    rw [h2, nops_to_nop_messages, hsg, h1]
    simp only
    rw [b2]
    omega

/-- One handled event and the count behind `qts[shard]`: the entry grows by
the number of writes the event admits for the shard plus the number of NOPs
it sends to the shard. -/
theorem step_qts_count {c : Consts} {vts s : timestamper} {e : event} {msgs : List sent}
    {shard : Nat} (hwf : vts.qts.length = c.NUM_SHARDS) (hs : shard < c.NUM_SHARDS)
    (h : step c vts e = some (s, msgs)) :
    s.qts.length = c.NUM_SHARDS ∧
    vec_get s.qts shard =
      vec_get vts.qts shard + writes_to c shard [e] + nops_to c shard msgs := by
  have hlen := (@step_qts c vts s e msgs shard hwf hs h).1
  refine ⟨hlen, ?_⟩
  have hother : (∀ tx, e ≠ .CLIENT_TX_INIT tx) → (∀ r, e ≠ .timer_tick r) →
      writes_to c shard [e] = 0 →
      vec_get s.qts shard =
        vec_get vts.qts shard + writes_to c shard [e] + nops_to c shard msgs := by
    intro h1 h2 hw
    rcases step_qts_shape h with ⟨tx, _, he, _⟩ | ⟨req_id, he, _⟩ | ⟨hq, _, hctl⟩
    · exact absurd he (h1 tx)
    · exact absurd he (h2 req_id)
    · rw [hq, hw, nops_to_zero c shard msgs (fun m hm => is_nop_to_control c shard m (hctl m hm))]
      rfl
  cases e with
  | CLIENT_TX_INIT tx =>
    simp only [step] at h
    cases hb : begin_transaction c vts tx with
    | none => simp [hb] at h
    | some r =>
      obtain ⟨s1, tx1, m1⟩ := r
      simp only [hb, Option.some.injEq, Prod.mk.injEq] at h
      obtain ⟨h1, h2⟩ := begin_transaction_qts_count shard hb
      rw [← h.1, ← h.2, h1, h2]
      simp [writes_to]
  | timer_tick req_id =>
    simp only [step] at h
    rw [timer_function_qts_count hwf h]
    simp [writes_to]
  | CLIENT_TX_INIT_rejected sender => exact hother (by simp) (by simp) rfl
  | TX_DONE tx_id => exact hother (by simp) (by simp) rfl
  | CLIENT_NODE_PROG_REQ pType args sender results id => exact hother (by simp) (by simp) rfl
  | NODE_PROG_RETURN type id payload => exact hother (by simp) (by simp) rfl
  | VT_CLOCK_UPDATE rec_vtid rec_clock => exact hother (by simp) (by simp) rfl
  | VT_CLOCK_UPDATE_ACK => exact hother (by simp) (by simp) rfl
  | VT_NOP_ACK sender cnt => exact hother (by simp) (by simp) rfl

theorem run_qts_count {c : Consts} {shard : Nat} (hs : shard < c.NUM_SHARDS) :
    ∀ (t : List event) (vts s : timestamper) (msgs : List sent),
      vts.qts.length = c.NUM_SHARDS → run c vts t = some (s, msgs) →
      vec_get s.qts shard = vec_get vts.qts shard + writes_to c shard t + nops_to c shard msgs := by
  intro t
  induction t with
  | nil =>
    intro vts s msgs _ hrun
    simp only [run, Option.some.injEq, Prod.mk.injEq] at hrun
    rw [← hrun.1, ← hrun.2]
    simp [writes_to, nops_to]
  | cons e es ih =>
    intro vts s msgs hwf hrun
    obtain ⟨s1, m1, m2, hstep, hrest, hmsgs⟩ := run_cons hrun
    obtain ⟨a1, a2⟩ := @step_qts_count c vts s1 e m1 shard hwf hs hstep
    have hw := writes_to_cons c shard e es
    rw [ih s1 s m2 a1 hrest, a2, hmsgs, nops_to_append]
    omega

theorem vec_get_replicate_zero (n i : Nat) : vec_get (List.replicate n 0) i = 0 := by
  unfold vec_get
  rw [List.getD_eq_getElem?_getD, List.getElem?_replicate]
  split <;> rfl

/-- C11: from the initial state (all queue timestamps zero), after every run
of the server, `qts[s]` is the number of writes for shard `s` in the admitted
transactions plus the number of `VT_NOP` messages sent to `s` (one per timer
iteration that sent `s` a NOP).  A timer iteration leaves `qts[s]` alone when
the `to_nop` bit of `s` is not set, and an admission leaves it alone when
none of its writes targets `s`. -/
theorem qts_counts_events (c : Consts) (m0 : Nat) (clk0 : vclock_t) (t : List event)
    (s : timestamper) (msgs : List sent) (shard : Nat) (hshard : shard < c.NUM_SHARDS)
    (hrun : run c (init c m0 clk0) t = some (s, msgs)) :
    vec_get s.qts shard = writes_to c shard t + nops_to c shard msgs ∧
    (∀ (vts s1 : timestamper) (req_id : Nat) (msgs1 : List sent),
      timer_function c vts req_id = some (s1, msgs1) → bit_get vts.to_nop shard = false →
      vec_get s1.qts shard = vec_get vts.qts shard) ∧
    (∀ (vts s1 : timestamper) (tx tx1 : pending_tx) (msgs1 : List sent),
      begin_transaction c vts tx = some (s1, tx1, msgs1) →
      (∀ w ∈ tx.writes, w.loc1 ≠ shard + c.SHARD_ID_INCR) →
      vec_get s1.qts shard = vec_get vts.qts shard) := by
  refine ⟨?_, ?_, ?_⟩
  · rw [run_qts_count hshard t (init c m0 clk0) s msgs (by simp [init]) hrun]
    simp [init, vec_get_replicate_zero]
  · intro vts s1 req_id msgs1 ht hb
    obtain ⟨s2, msgs2, nop_sent, hn, hsg, _⟩ := timer_function_shape ht
    obtain ⟨a, tv, hg⟩ := timer_gossip_shape c s2 nop_sent
    rw [hg] at hsg
    rcases timer_nop_shape hn with ⟨h1, _, _, _⟩ | ⟨_, _, h1, _⟩
    · rw [hsg, h1]
    · rw [hsg, h1]
      exact nop_bump_unset vts.to_nop vts.qts vts.timer_done_reqs shard hb c.NUM_SHARDS
  · intro vts s1 tx tx1 msgs1 hb hno
    rw [(begin_transaction_qts_count shard hb).1]
    have : tx.writes.countP (fun w => decide (w.loc1 = shard + c.SHARD_ID_INCR)) = 0 := by
      rw [List.countP_eq_zero]
      intro w hw
      simpa using hno w hw
    omega

theorem qts_counts_events_witness :
    ((0 : Nat) < (⟨2, 2, 0, 0⟩ : Consts).NUM_SHARDS ∧
      run ⟨2, 2, 0, 0⟩ (init ⟨2, 2, 0, 0⟩ 0 [0, 0]) scenario_one =
        some (scenario_one_result.1, scenario_one_result.2)) ∧
    (vec_get scenario_one_result.1.qts 0 =
        writes_to ⟨2, 2, 0, 0⟩ 0 scenario_one + nops_to ⟨2, 2, 0, 0⟩ 0 scenario_one_result.2 ∧
      (∀ (vts s1 : timestamper) (req_id : Nat) (msgs1 : List sent),
        timer_function ⟨2, 2, 0, 0⟩ vts req_id = some (s1, msgs1) →
        bit_get vts.to_nop 0 = false → vec_get s1.qts 0 = vec_get vts.qts 0) ∧
      (∀ (vts s1 : timestamper) (tx tx1 : pending_tx) (msgs1 : List sent),
        begin_transaction ⟨2, 2, 0, 0⟩ vts tx = some (s1, tx1, msgs1) →
        (∀ w ∈ tx.writes, w.loc1 ≠ 0 + (⟨2, 2, 0, 0⟩ : Consts).SHARD_ID_INCR) →
        vec_get s1.qts 0 = vec_get vts.qts 0)) :=
  ⟨⟨by decide, by decide⟩,
   qts_counts_events ⟨2, 2, 0, 0⟩ 0 [0, 0] scenario_one scenario_one_result.1
     scenario_one_result.2 0 (by decide) (by decide)⟩

/-- The clocks after the first scenario of the spec: `vclk = [1, 0]` and
`qts = [1, 1]`. -/
theorem scenario_one_clocks :
    (scenario_one_result.1.vclk, scenario_one_result.1.qts) = ([1, 0], [1, 1]) := by
  decide

/-! ## Clock updates from peers -/

theorem update_clock_twice (v : vclock_t) (vt k k2 : Nat) (h : k2 ≤ k) :
    update_clock (update_clock v vt k) vt k2 = update_clock v vt k := by
  unfold update_clock
  rw [vec_get_set, List.set_set]
  by_cases hlt : vt < v.length
  · rw [if_pos ⟨rfl, hlt⟩]
    congr 1
    omega
  · rw [List.set_eq_of_length_le (by omega), List.set_eq_of_length_le (by omega)]

/-- C12: handling `VT_CLOCK_UPDATE(peer_vt, value)` sets `vclk[peer_vt]` to
the maximum of its old value and `value` and leaves every other entry alone,
so the entry never decreases; handling the same update a second time, or an
update with a smaller value afterwards, changes nothing.  The handler
answers with one `VT_CLOCK_UPDATE_ACK` to `peer_vt`. -/
theorem clock_update_is_max (vts : timestamper) (peer_vt value : Nat)
    (hpeer : peer_vt < vts.vclk.length) :
    vec_get (vt_clock_update vts peer_vt value).1.vclk peer_vt =
      max (vec_get vts.vclk peer_vt) value ∧
    (∀ i, i ≠ peer_vt → vec_get (vt_clock_update vts peer_vt value).1.vclk i = vec_get vts.vclk i) ∧
    vec_get vts.vclk peer_vt ≤ vec_get (vt_clock_update vts peer_vt value).1.vclk peer_vt ∧
    (vt_clock_update (vt_clock_update vts peer_vt value).1 peer_vt value).1 =
      (vt_clock_update vts peer_vt value).1 ∧
    (∀ smaller, smaller ≤ value →
      (vt_clock_update (vt_clock_update vts peer_vt value).1 peer_vt smaller).1 =
        (vt_clock_update vts peer_vt value).1) ∧
    (vt_clock_update vts peer_vt value).2 = [(peer_vt, message.VT_CLOCK_UPDATE_ACK)] := by
  have hget : vec_get (update_clock vts.vclk peer_vt value) peer_vt =
      max (vec_get vts.vclk peer_vt) value := by
    unfold update_clock
    rw [vec_get_set, if_pos ⟨rfl, hpeer⟩]
  refine ⟨hget, ?_, ?_, ?_, ?_, rfl⟩
  · intro i hi
    show vec_get (update_clock vts.vclk peer_vt value) i = vec_get vts.vclk i
    unfold update_clock
    rw [vec_get_set, if_neg (fun hc => hi hc.1)]
  · show vec_get vts.vclk peer_vt ≤ vec_get (update_clock vts.vclk peer_vt value) peer_vt
    rw [hget]
    exact le_max_left _ _
  · simp only [vt_clock_update]
    rw [update_clock_twice _ _ _ _ (le_refl _)]
  · intro smaller hs
    simp only [vt_clock_update]
    rw [update_clock_twice _ _ _ _ hs]

theorem clock_update_is_max_witness :
    1 < peer_clock_at_40.vclk.length ∧
    (vec_get (vt_clock_update peer_clock_at_40 1 42).1.vclk 1 =
      max (vec_get peer_clock_at_40.vclk 1) 42 ∧
    (∀ i, i ≠ 1 →
      vec_get (vt_clock_update peer_clock_at_40 1 42).1.vclk i = vec_get peer_clock_at_40.vclk i) ∧
    vec_get peer_clock_at_40.vclk 1 ≤ vec_get (vt_clock_update peer_clock_at_40 1 42).1.vclk 1 ∧
    (vt_clock_update (vt_clock_update peer_clock_at_40 1 42).1 1 42).1 =
      (vt_clock_update peer_clock_at_40 1 42).1 ∧
    (∀ smaller, smaller ≤ 42 →
      (vt_clock_update (vt_clock_update peer_clock_at_40 1 42).1 1 smaller).1 =
        (vt_clock_update peer_clock_at_40 1 42).1) ∧
    (vt_clock_update peer_clock_at_40 1 42).2 = [(1, message.VT_CLOCK_UPDATE_ACK)]) :=
  ⟨by decide, clock_update_is_max peer_clock_at_40 1 42 (by decide)⟩

/-- The fourth scenario of the spec: value 42 raises `vclk[1]` from 40 to 42,
and value 41 afterwards leaves 42. -/
theorem clock_update_42_then_41 :
    (vt_clock_update peer_clock_at_40 1 42).1.vclk = [7, 42] ∧
    (vt_clock_update (vt_clock_update peer_clock_at_40 1 42).1 1 41).1.vclk = [7, 42] := by
  decide

/-! ## Replies for unknown ids -/

/-- C16: a `NODE_PROG_RETURN` for an id with no entry in `outstanding_progs`
leaves the whole object as it was (registry, both queues, `seen_done_id`, the
frontier and the ledger included) and sends nothing. -/
theorem stale_node_prog_return_dropped (c : Consts) (vts : timestamper) (type : prog_type)
    (req_id payload : Nat) (hstale : map_find vts.outstanding_progs req_id = none) :
    node_prog_return c vts type req_id payload = some (vts, []) ∧
    step c vts (.NODE_PROG_RETURN type req_id payload) = some (vts, []) := by
  have h : node_prog_return c vts type req_id payload = some (vts, []) := by
    unfold node_prog_return
    rw [hstale]
  exact ⟨h, h⟩

theorem stale_node_prog_return_dropped_witness :
    map_find one_prog_retired.outstanding_progs 10 = none ∧
    (node_prog_return ⟨2, 2, 2, 0⟩ one_prog_retired .REACHABILITY 10 0 =
        some (one_prog_retired, []) ∧
      step ⟨2, 2, 2, 0⟩ one_prog_retired (.NODE_PROG_RETURN .REACHABILITY 10 0) =
        some (one_prog_retired, [])) :=
  ⟨by decide, stale_node_prog_return_dropped ⟨2, 2, 2, 0⟩ one_prog_retired .REACHABILITY 10 0
    (by decide)⟩

/-- C15 (as amended): a `TX_DONE` for an id with no entry in `outstanding_tx`
is not dropped.  The lookup `outstanding_tx.at(tx_id)` throws, so the handler
fails; nothing is sent and no state is written before that. -/
theorem tx_done_unknown_id_fails (c : Consts) (vts : timestamper) (tx_id : Nat)
    (hstale : map_find vts.outstanding_tx tx_id = none) :
    end_transaction vts tx_id = none ∧ step c vts (.TX_DONE tx_id) = none := by
  have h : end_transaction vts tx_id = none := by
    unfold end_transaction
    rw [hstale]
  exact ⟨h, h⟩

theorem tx_done_unknown_id_fails_witness :
    map_find (init ⟨2, 2, 2, 0⟩ 0 [0, 0]).outstanding_tx 7 = none ∧
    (end_transaction (init ⟨2, 2, 2, 0⟩ 0 [0, 0]) 7 = none ∧
      step ⟨2, 2, 2, 0⟩ (init ⟨2, 2, 2, 0⟩ 0 [0, 0]) (.TX_DONE 7) = none) :=
  ⟨by decide, tx_done_unknown_id_fails ⟨2, 2, 2, 0⟩ (init ⟨2, 2, 2, 0⟩ 0 [0, 0]) 7 (by decide)⟩

/-- A `TX_DONE` for id 7 in the initial state, where no transaction is
outstanding, is not handled as a dropped reply. -/
theorem tx_done_stale_not_dropped :
    step ⟨2, 2, 2, 0⟩ (init ⟨2, 2, 2, 0⟩ 0 [0, 0]) (.TX_DONE 7) ≠
      some (init ⟨2, 2, 2, 0⟩ 0 [0, 0], []) := by
  decide

/-! ## Fan-out of a transaction -/

theorem send_tx_batches_eq (c : Consts) (ts : vclock_t) (tx_id : Nat)
    (tv : List (List pending_update)) :
    send_tx_batches c ts tx_id tv =
      (List.range c.NUM_SHARDS).filterMap (fun i => tx_init_for c ts tx_id (tv.getD i [])) := by
  unfold send_tx_batches
  generalize c.NUM_SHARDS = n
  induction n with
  | zero => rfl
  | succ n ih =>
    rw [List.range_succ, List.foldl_append, List.filterMap_append, ih]
    simp only [List.foldl_cons, List.foldl_nil, List.filterMap_cons, List.filterMap_nil]
    cases tv.getD n [] with
    | nil => simp [tx_init_for]
    | cons w0 ws => simp [tx_init_for]

theorem count_shards_eq (tv : List (List pending_update)) (n : Nat) :
    count_shards tv n =
      ((List.range n).filter (fun i => !(tv.getD i []).isEmpty)).length := by
  unfold count_shards
  induction n with
  | zero => rfl
  | succ n ih =>
    rw [List.range_succ, List.foldl_append, List.filter_append, List.length_append, ih]
    simp only [List.foldl_cons, List.foldl_nil, List.filter_cons, List.filter_nil]
    cases tv.getD n [] with
    | nil => simp
    | cons w0 ws => simp

theorem stamp_map_loc1 (c : Consts) :
    ∀ (ws : List pending_update) (q : qtimestamp_t),
      (stamp c q ws).map (fun w => w.loc1) = ws.map (fun w => w.loc1) := by
  intro ws
  induction ws with
  | nil => intro q; rfl
  | cons w ws ih => intro q; simp [stamp, ih]

/-- The batches that the first loop of `begin_transaction` builds: the batch
of shard `i` is non-empty exactly when some write targets `i`, and every
write in it targets `i`. -/
theorem tx_vec_batches {c : Consts} {ws : List pending_update} {q : qtimestamp_t}
    {res : qtimestamp_t × List (List pending_update) × List pending_update}
    (h : begin_transaction_loop c ws q (List.replicate c.NUM_SHARDS []) [] = some res) :
    (∀ i, ∀ w ∈ res.2.1.getD i [], w.loc1 = i + c.SHARD_ID_INCR) ∧
    (∀ i, i < c.NUM_SHARDS →
      (res.2.1.getD i [] ≠ [] ↔ ∃ w ∈ ws, w.loc1 = i + c.SHARD_ID_INCR)) := by
  obtain ⟨h1, _, _, h4, h5⟩ := begin_transaction_loop_char c _ _ _ _ _ h
  simp only [List.length_replicate] at h4 h5
  have hget : ∀ i, i < c.NUM_SHARDS → res.2.1.getD i [] =
      (stamp c q ws).filter (fun w => decide (w.loc1 - c.SHARD_ID_INCR = i)) := by
    intro i hi
    have := h5 i hi
    rw [getD_replicate_nil] at this
    simpa using this
  constructor
  · intro i w hw
    by_cases hi : i < c.NUM_SHARDS
    · rw [hget i hi] at hw
      simp only [List.mem_filter, decide_eq_true_eq] at hw
      obtain ⟨u, hu, hlu⟩ := stamp_loc c _ _ w hw.1
      have := (h1 u hu).1
      omega
    · have hlen : res.2.1.length ≤ i := by omega
      rw [List.getD_eq_default _ _ hlen] at hw
      simp at hw
  · intro i hi
    rw [hget i hi]
    constructor
    · intro hne
      obtain ⟨w, hw⟩ := List.exists_mem_of_ne_nil _ hne
      simp only [List.mem_filter, decide_eq_true_eq] at hw
      obtain ⟨u, hu, hlu⟩ := stamp_loc c _ _ w hw.1
      have := (h1 u hu).1
      exact ⟨u, hu, by omega⟩
    · rintro ⟨w, hw, hl⟩
      have hmem : w.loc1 ∈ (stamp c q ws).map (fun u => u.loc1) := by
        rw [stamp_map_loc1]
        exact List.mem_map_of_mem _ hw
      obtain ⟨u, hu, hul⟩ := List.mem_map.1 hmem
      intro hnil
      have : u ∈ (stamp c q ws).filter (fun w => decide (w.loc1 - c.SHARD_ID_INCR = i)) := by
        simp only [List.mem_filter, decide_eq_true_eq]
        exact ⟨hu, by omega⟩
      rw [hnil] at this
      simp at this

theorem send_tx_batches_dests (c : Consts) (ts : vclock_t) (tx_id : Nat)
    (tv : List (List pending_update))
    (hloc : ∀ i, ∀ w ∈ tv.getD i [], w.loc1 = i + c.SHARD_ID_INCR) :
    (send_tx_batches c ts tx_id tv).map Prod.fst =
      ((List.range c.NUM_SHARDS).filter (fun i => !(tv.getD i []).isEmpty)).map
        (fun i => i + c.SHARD_ID_INCR) := by
  rw [send_tx_batches_eq]
  generalize c.NUM_SHARDS = n
  induction n with
  | zero => rfl
  | succ n ih =>
    rw [List.range_succ, List.filterMap_append, List.filter_append, List.map_append,
      List.map_append, ih]
    congr 1
    simp only [List.filterMap_cons, List.filterMap_nil, List.filter_cons, List.filter_nil]
    cases hn : tv.getD n [] with
    | nil => simp [tx_init_for]
    | cons w0 ws =>
      have := hloc n w0 (by rw [hn]; exact List.mem_cons_self _ _)
      simp [tx_init_for, this]

theorem mem_send_tx_batches {c : Consts} {ts : vclock_t} {tx_id : Nat}
    {tv : List (List pending_update)} {m : sent} (hm : m ∈ send_tx_batches c ts tx_id tv) :
    ∃ i w0 ws, i < c.NUM_SHARDS ∧ tv.getD i [] = w0 :: ws ∧
      m = (w0.loc1, message.TX_INIT c.vt_id ts w0.qts tx_id (w0 :: ws)) := by
  rw [send_tx_batches_eq, List.mem_filterMap] at hm
  obtain ⟨i, hi, hmi⟩ := hm
  cases hn : tv.getD i [] with
  | nil =>
    rw [hn] at hmi
    simp [tx_init_for] at hmi
  | cons w0 ws =>
    rw [hn] at hmi
    simp only [tx_init_for, Option.some.injEq] at hmi
    exact ⟨i, w0, ws, List.mem_range.1 hi, hn, hmi.symm⟩

/-- C13: `begin_transaction` admits every transaction with a fresh id whose
writes name existing shards.  The count it registers in `outstanding_tx` is
the number of distinct shards its writes target; it sends that many messages,
to pairwise distinct destinations, which are exactly the shards targeted by
some write; each message is a `TX_INIT` for this transaction that carries
writes of its destination shard only.  When all writes of a non-empty
transaction target one shard the count is 1. -/
theorem fanout_is_distinct_shards (c : Consts) (vts : timestamper) (tx : pending_tx)
    (hwf : vts.qts.length = c.NUM_SHARDS)
    (hfresh : map_find vts.outstanding_tx tx.id = none)
    (hloc : ∀ w ∈ tx.writes,
      c.SHARD_ID_INCR ≤ w.loc1 ∧ w.loc1 - c.SHARD_ID_INCR < c.NUM_SHARDS) :
    ∃ s tx1 msgs, begin_transaction c vts tx = some (s, tx1, msgs) ∧
      map_find s.outstanding_tx tx.id =
        some { client := tx.client_id,
               count := ((tx.writes.map (fun w => w.loc1)).dedup).length } ∧
      msgs.length = ((tx.writes.map (fun w => w.loc1)).dedup).length ∧
      (msgs.map Prod.fst).Nodup ∧
      (∀ d, d ∈ msgs.map Prod.fst ↔ ∃ w ∈ tx.writes, w.loc1 = d) ∧
      (∀ m ∈ msgs, ∃ q ws, m.2 = message.TX_INIT c.vt_id tx1.timestamp q tx.id ws ∧
        ws ≠ [] ∧ ∀ w ∈ ws, w.loc1 = m.1) ∧
      (tx.writes ≠ [] → (∀ w ∈ tx.writes, ∀ u ∈ tx.writes, w.loc1 = u.loc1) →
        ((tx.writes.map (fun w => w.loc1)).dedup).length = 1) := by
  have hloc2 : ∀ w ∈ tx.writes, in_range c vts.qts.length w := by
    intro w hw
    unfold in_range
    rw [hwf]
    exact hloc w hw
  obtain ⟨res, hres⟩ := begin_transaction_loop_total c tx.writes vts.qts
    (List.replicate c.NUM_SHARDS []) [] hloc2
  obtain ⟨hbl, hbne⟩ := tx_vec_batches hres
  obtain ⟨qts1, tx_vec, written⟩ := res
  simp only at hbl hbne
  have hb : begin_transaction c vts tx = some
      ({ vts with
          qts := qts1
          vclk := increment_clock c vts.vclk
          outstanding_tx := map_emplace vts.outstanding_tx tx.id
            { client := tx.client_id, count := count_shards tx_vec c.NUM_SHARDS } },
       { tx with timestamp := increment_clock c vts.vclk, writes := written },
       send_tx_batches c (increment_clock c vts.vclk) tx.id tx_vec) := by
    unfold begin_transaction
    rw [hres]
  have hdests := send_tx_batches_dests c (increment_clock c vts.vclk) tx.id tx_vec hbl
  have hnodup : ((send_tx_batches c (increment_clock c vts.vclk) tx.id tx_vec).map
      Prod.fst).Nodup := by
    rw [hdests]
    apply List.Nodup.map
    · intro a b hab
      simp only at hab
      omega
    · exact (List.nodup_range _).filter _
  have hmem : ∀ d, d ∈ (send_tx_batches c (increment_clock c vts.vclk) tx.id tx_vec).map
      Prod.fst ↔ ∃ w ∈ tx.writes, w.loc1 = d := by
    intro d
    rw [hdests]
    simp only [List.mem_map, List.mem_filter, List.mem_range, Bool.not_eq_true',
      List.isEmpty_eq_false]
    constructor
    · rintro ⟨i, ⟨hi, hne⟩, rfl⟩
      exact (hbne i hi).1 hne
    · rintro ⟨w, hw, rfl⟩
      have hr := hloc w hw
      refine ⟨w.loc1 - c.SHARD_ID_INCR, ⟨hr.2, ?_⟩, by omega⟩
      exact (hbne _ hr.2).2 ⟨w, hw, by omega⟩
  have hperm : ((send_tx_batches c (increment_clock c vts.vclk) tx.id tx_vec).map
      Prod.fst).Perm ((tx.writes.map (fun w => w.loc1)).dedup) := by
    rw [List.perm_ext_iff_of_nodup hnodup (List.nodup_dedup _)]
    intro d
    rw [hmem d, List.mem_dedup, List.mem_map]
  have hlen : (send_tx_batches c (increment_clock c vts.vclk) tx.id tx_vec).length =
      ((tx.writes.map (fun w => w.loc1)).dedup).length := by
    rw [← hperm.length_eq, List.length_map]
  have hcount : count_shards tx_vec c.NUM_SHARDS =
      ((tx.writes.map (fun w => w.loc1)).dedup).length := by
    rw [count_shards_eq, ← hlen, ← List.length_map _ Prod.fst, hdests, List.length_map]
  refine ⟨_, _, _, hb, ?_, hlen, hnodup, hmem, ?_, ?_⟩
  · show map_find (map_emplace vts.outstanding_tx tx.id _) tx.id = _
    rw [map_find_emplace _ _ _ _ hfresh, if_pos rfl, hcount]
  · intro m hm
    obtain ⟨i, w0, ws, hi, hget, hmeq⟩ := mem_send_tx_batches hm
    refine ⟨w0.qts, w0 :: ws, by rw [hmeq], by simp, ?_⟩
    intro w hw
    rw [hmeq]
    have h1 := hbl i w (by rw [hget]; exact hw)
    have h2 := hbl i w0 (by rw [hget]; exact List.mem_cons_self _ _)
    show w.loc1 = w0.loc1
    omega
  · intro hne hsame
    obtain ⟨w, hw⟩ := List.exists_mem_of_ne_nil _ hne
    have hd : (tx.writes.map (fun w => w.loc1)).dedup = [w.loc1] := by
      have h1 : ([w.loc1] : List Nat).Nodup := List.nodup_singleton _
      have hp : ((tx.writes.map (fun w => w.loc1)).dedup).Perm [w.loc1] := by
        rw [List.perm_ext_iff_of_nodup (List.nodup_dedup _) h1]
        intro d
        rw [List.mem_dedup, List.mem_map, List.mem_singleton]
        constructor
        · rintro ⟨u, hu, rfl⟩
          exact hsame u hu w hw
        · intro e
          exact ⟨w, hw, e.symm⟩
      exact List.perm_singleton.1 hp
    rw [hd]
    rfl

theorem fanout_is_distinct_shards_witness :
    ((init ⟨2, 2, 2, 0⟩ 0 [0, 0]).qts.length = (⟨2, 2, 2, 0⟩ : Consts).NUM_SHARDS ∧
      map_find (init ⟨2, 2, 2, 0⟩ 0 [0, 0]).outstanding_tx two_shard_tx.id = none ∧
      (∀ w ∈ two_shard_tx.writes, (⟨2, 2, 2, 0⟩ : Consts).SHARD_ID_INCR ≤ w.loc1 ∧
        w.loc1 - (⟨2, 2, 2, 0⟩ : Consts).SHARD_ID_INCR < (⟨2, 2, 2, 0⟩ : Consts).NUM_SHARDS)) ∧
    ∃ s tx1 msgs,
      begin_transaction ⟨2, 2, 2, 0⟩ (init ⟨2, 2, 2, 0⟩ 0 [0, 0]) two_shard_tx =
        some (s, tx1, msgs) ∧
      map_find s.outstanding_tx two_shard_tx.id =
        some { client := two_shard_tx.client_id,
               count := ((two_shard_tx.writes.map (fun w => w.loc1)).dedup).length } ∧
      msgs.length = ((two_shard_tx.writes.map (fun w => w.loc1)).dedup).length ∧
      (msgs.map Prod.fst).Nodup ∧
      (∀ d, d ∈ msgs.map Prod.fst ↔ ∃ w ∈ two_shard_tx.writes, w.loc1 = d) ∧
      (∀ m ∈ msgs, ∃ q ws,
        m.2 = message.TX_INIT (⟨2, 2, 2, 0⟩ : Consts).vt_id tx1.timestamp q two_shard_tx.id ws ∧
        ws ≠ [] ∧ ∀ w ∈ ws, w.loc1 = m.1) ∧
      (two_shard_tx.writes ≠ [] →
        (∀ w ∈ two_shard_tx.writes, ∀ u ∈ two_shard_tx.writes, w.loc1 = u.loc1) →
        ((two_shard_tx.writes.map (fun w => w.loc1)).dedup).length = 1) :=
  ⟨⟨by decide, by decide, by decide⟩,
   fanout_is_distinct_shards ⟨2, 2, 2, 0⟩ (init ⟨2, 2, 2, 0⟩ 0 [0, 0]) two_shard_tx
     (by decide) (by decide) (by decide)⟩

/-- The admission of `two_shard_tx`: count 2, one `TX_INIT` to shard id 2 with
one write and one to shard id 3 with two writes. -/
theorem two_shard_tx_admission :
    (begin_transaction ⟨2, 2, 2, 0⟩ (init ⟨2, 2, 2, 0⟩ 0 [0, 0]) two_shard_tx).map
      (fun r => (map_find r.1.outstanding_tx 5, r.2.2)) =
    some (some ⟨9, 2⟩,
      [(2, message.TX_INIT 0 [1, 0] [1, 1] 5 [⟨2, 2, [1, 1]⟩]),
       (3, message.TX_INIT 0 [1, 0] [0, 1] 5 [⟨1, 3, [0, 1]⟩, ⟨3, 3, [1, 2]⟩])]) := by
  decide

/-! ## Completion of a transaction -/

theorem map_find_assign {β : Type} (m : List (Nat × β)) (k x : Nat) (v : β) :
    map_find (map_assign m k v) x =
      if x = k then (map_find m k).map (fun _ => v) else map_find m x := by
  induction m with
  | nil => simp [map_assign, map_find]
  | cons kv m ih =>
    obtain ⟨a, b⟩ := kv
    unfold map_assign at ih ⊢
    rw [List.map_cons]
    by_cases hak : a = k
    · have hh : (if (a, b).1 = k then ((a, b).1, v) else (a, b)) = (a, v) := by simp [hak]
      rw [hh]
      by_cases hx : x = k
      · have hax : a = x := by omega
        simp [map_find, hax, hx, hak]
      · have hax : ¬ a = x := by omega
        simp only [map_find, hax, if_false, ih, hx]
    · have hh : (if (a, b).1 = k then ((a, b).1, v) else (a, b)) = (a, b) := by simp [hak]
      rw [hh]
      by_cases hx : x = k
      · subst hx
        simp only [map_find, hak, if_false]
        rw [ih]
        simp
      · by_cases hax : a = x
        · simp [map_find, hax, hx]
        · simp only [map_find, hax, if_false, ih, hx]

theorem end_transaction_last {vts : timestamper} {tx_id client : Nat}
    (h : map_find vts.outstanding_tx tx_id = some ⟨client, 1⟩) :
    end_transaction vts tx_id =
      some ({ vts with outstanding_tx := map_erase vts.outstanding_tx tx_id },
            [(client, message.CLIENT_TX_DONE)]) := by
  unfold end_transaction
  rw [h]
  have he : (1 + (2 ^ 32 - 1)) % 2 ^ 32 = 0 := by norm_num
  simp only [he, if_true]

theorem end_transaction_more {vts : timestamper} {tx_id client k : Nat}
    (h : map_find vts.outstanding_tx tx_id = some ⟨client, k + 2⟩) (hk : k + 2 < 2 ^ 32) :
    end_transaction vts tx_id =
      some ({ vts with
              outstanding_tx := map_assign vts.outstanding_tx tx_id ⟨client, k + 1⟩ }, []) := by
  unfold end_transaction
  rw [h]
  have he : (k + 2 + (2 ^ 32 - 1)) % 2 ^ 32 = k + 1 := by omega
  simp only [he]
  rw [if_neg (by omega)]

theorem run_cons_of_step {c : Consts} {vts s1 s2 : timestamper} {e : event} {es : List event}
    {m1 m2 : List sent} (h1 : step c vts e = some (s1, m1))
    (h2 : run c s1 es = some (s2, m2)) : run c vts (e :: es) = some (s2, m1 ++ m2) := by
  simp only [run, h1, h2]

theorem tx_done_run_partial (c : Consts) (tx_id client : Nat) :
    ∀ (j k : Nat) (vts : timestamper),
      map_find vts.outstanding_tx tx_id = some ⟨client, k⟩ → j < k → k < 2 ^ 32 →
      ∃ s, run c vts (List.replicate j (.TX_DONE tx_id)) = some (s, []) ∧
        map_find s.outstanding_tx tx_id = some ⟨client, k - j⟩ := by
  intro j
  induction j with
  | zero =>
    intro k vts h _ _
    exact ⟨vts, rfl, by simpa using h⟩
  | succ j ih =>
    intro k vts h hj hk
    obtain ⟨k2, rfl⟩ : ∃ k2, k = k2 + 2 := ⟨k - 2, by omega⟩
    have hstep := end_transaction_more h hk
    have hfind : map_find (map_assign vts.outstanding_tx tx_id
        (⟨client, k2 + 1⟩ : current_tx)) tx_id = some ⟨client, k2 + 1⟩ := by
      rw [map_find_assign, if_pos rfl, h]
      rfl
    obtain ⟨s, hs, hf⟩ := ih (k2 + 1)
      { vts with outstanding_tx := map_assign vts.outstanding_tx tx_id ⟨client, k2 + 1⟩ }
      hfind (by omega) (by omega)
    refine ⟨s, ?_, ?_⟩
    · rw [List.replicate_succ]
      have hr := run_cons_of_step (show step c vts (.TX_DONE tx_id) = _ from hstep) hs
      simpa only [List.nil_append] using hr
    · rw [hf]
      congr 2
      omega

theorem tx_done_run_full (c : Consts) (tx_id client : Nat) :
    ∀ (k : Nat) (vts : timestamper),
      map_find vts.outstanding_tx tx_id = some ⟨client, k + 1⟩ → k + 1 < 2 ^ 32 →
      ∃ s, run c vts (List.replicate (k + 1) (.TX_DONE tx_id)) =
          some (s, [(client, message.CLIENT_TX_DONE)]) ∧
        map_find s.outstanding_tx tx_id = none := by
  intro k
  induction k with
  | zero =>
    intro vts h _
    have hstep := end_transaction_last h
    refine ⟨{ vts with outstanding_tx := map_erase vts.outstanding_tx tx_id }, ?_, ?_⟩
    · rw [List.replicate_succ, List.replicate_zero]
      have hr := run_cons_of_step (show step c vts (.TX_DONE tx_id) = _ from hstep)
        (show run c _ [] = some (_, []) from rfl)
      simpa only [List.append_nil] using hr
    · show map_find (map_erase vts.outstanding_tx tx_id) tx_id = none
      rw [map_find_erase, if_pos rfl]
  | succ k ih =>
    intro vts h hk
    have hstep := end_transaction_more h hk
    have hfind : map_find (map_assign vts.outstanding_tx tx_id
        (⟨client, k + 1⟩ : current_tx)) tx_id = some ⟨client, k + 1⟩ := by
      rw [map_find_assign, if_pos rfl, h]
      rfl
    obtain ⟨s, hs, hf⟩ := ih
      { vts with outstanding_tx := map_assign vts.outstanding_tx tx_id ⟨client, k + 1⟩ }
      hfind (by omega)
    refine ⟨s, ?_, hf⟩
    rw [List.replicate_succ]
    have hr := run_cons_of_step (show step c vts (.TX_DONE tx_id) = _ from hstep) hs
    simpa only [List.nil_append] using hr

theorem map_emplace_of_some {β : Type} {m : List (Nat × β)} {k : Nat} {v w : β}
    (h : map_find m k = some w) : map_emplace m k v = m := by
  unfold map_emplace
  rw [h]

theorem map_find_emplace_other {β : Type} (m : List (Nat × β)) (k x : Nat) (v : β)
    (hx : x ≠ k) : map_find (map_emplace m k v) x = map_find m x := by
  cases hk : map_find m k with
  | some w => rw [map_emplace_of_some hk]
  | none => rw [map_find_emplace m k x v hk, if_neg hx]

/-- What one handled event does to `outstanding_tx`: only an admission and a
`TX_DONE` write it. -/
theorem step_outstanding_tx {c : Consts} {vts s : timestamper} {e : event} {msgs : List sent}
    (h : step c vts e = some (s, msgs)) :
    (∃ tx cnt, e = .CLIENT_TX_INIT tx ∧
      s.outstanding_tx = map_emplace vts.outstanding_tx tx.id ⟨tx.client_id, cnt⟩) ∨
    (∃ id, e = .TX_DONE id) ∨
    s.outstanding_tx = vts.outstanding_tx := by
  cases e with
  | CLIENT_TX_INIT tx =>
    left
    simp only [step] at h
    cases hb : begin_transaction c vts tx with
    | none => simp [hb] at h
    | some r =>
      obtain ⟨s1, tx1, m1⟩ := r
      simp only [hb, Option.some.injEq, Prod.mk.injEq] at h
      obtain ⟨_, tx_vec, _, _, hs, _, _⟩ := begin_transaction_shape hb
      refine ⟨tx, count_shards tx_vec c.NUM_SHARDS, rfl, ?_⟩
      rw [← h.1, hs]
  | CLIENT_TX_INIT_rejected sender =>
    right; right
    simp only [step, Option.some.injEq, Prod.mk.injEq] at h
    rw [← h.1]
  | TX_DONE tx_id => exact Or.inr (Or.inl ⟨tx_id, rfl⟩)
  | CLIENT_NODE_PROG_REQ pType args sender results id =>
    right; right
    simp only [step] at h
    rw [unpack_and_start_coord_shape h]
    rfl
  | NODE_PROG_RETURN type id payload =>
    right; right
    simp only [step] at h
    rcases node_prog_return_shape h with ⟨_, hs, _⟩ | ⟨prog, _, h2, _⟩
    · rw [hs]
    · exact (mark_frame h2).2.1.2.2.1
  | VT_CLOCK_UPDATE rec_vtid rec_clock =>
    right; right
    simp only [step, vt_clock_update, Option.some.injEq, Prod.mk.injEq] at h
    rw [← h.1]
  | VT_CLOCK_UPDATE_ACK =>
    right; right
    simp only [step, vt_clock_update_ack] at h
    by_cases hc : vts.clock_update_acks + 1 < c.NUM_VTS
    · simp only [hc, if_true, Option.some.injEq, Prod.mk.injEq] at h
      rw [← h.1]
    · simp [hc] at h
  | VT_NOP_ACK sender cnt =>
    right; right
    simp only [step, vt_nop_ack] at h
    by_cases h1 : sender < c.SHARD_ID_INCR
    · simp [h1] at h
    · by_cases h2 : sender - c.SHARD_ID_INCR < c.NUM_SHARDS
      · simp only [h1, h2, if_true, if_false, Option.some.injEq, Prod.mk.injEq] at h
        rw [← h.1]
      · simp [h1, h2] at h
  | timer_tick req_id =>
    right; right
    simp only [step] at h
    obtain ⟨s1, msgs1, nop_sent, hn, hs, _⟩ := timer_function_shape h
    obtain ⟨a, tv, hg⟩ := timer_gossip_shape c s1 nop_sent
    rw [hg] at hs
    rcases timer_nop_shape hn with ⟨h1, _⟩ | ⟨_, _, h1, _⟩
    · subst hs
      subst h1
      rfl
    · subst hs
      subst h1
      rfl

/-- An event other than `TX_DONE(tx_id)` leaves the entry of `tx_id` alone. -/
theorem step_tx_entry_other {c : Consts} {vts s : timestamper} {e : event} {msgs : List sent}
    {tx_id : Nat} {ent : current_tx}
    (h : step c vts e = some (s, msgs)) (hent : map_find vts.outstanding_tx tx_id = some ent)
    (hne : e ≠ .TX_DONE tx_id) : map_find s.outstanding_tx tx_id = some ent := by
  rcases step_outstanding_tx h with ⟨tx, cnt, _, ho⟩ | ⟨id, he⟩ | ho
  · rw [ho]
    by_cases hid : tx_id = tx.id
    · rw [← hid, map_emplace_of_some hent]
      exact hent
    · rw [map_find_emplace_other _ _ _ _ hid]
      exact hent
  · subst he
    have hid : tx_id ≠ id := fun e => hne (by rw [e])
    simp only [step] at h
    unfold end_transaction at h
    cases hf : map_find vts.outstanding_tx id with
    | none => simp [hf] at h
    | some e1 =>
      simp only [hf] at h
      by_cases hz : (e1.count + (2 ^ 32 - 1)) % 2 ^ 32 = 0
      · simp only [hz, if_true, Option.some.injEq, Prod.mk.injEq] at h
        rw [← h.1]
        show map_find (map_erase vts.outstanding_tx id) tx_id = some ent
        rw [map_find_erase, if_neg hid]
        exact hent
      · simp only [hz, if_false, Option.some.injEq, Prod.mk.injEq] at h
        rw [← h.1]
        show map_find (map_assign vts.outstanding_tx id _) tx_id = some ent
        rw [map_find_assign, if_neg hid]
        exact hent
  · rw [ho]
    exact hent

theorem tx_dones_cons (tx_id : Nat) (e : event) (es : List event) :
    tx_dones tx_id (e :: es) = (if e = .TX_DONE tx_id then 1 else 0) + tx_dones tx_id es := by
  unfold tx_dones
  by_cases h : e = .TX_DONE tx_id
  · simp [List.filter_cons, h]
    omega
  · simp [List.filter_cons, h]

/-- Through every interleaving with other events, the entry of a transaction
loses one from its count per `TX_DONE` for it, as long as fewer than `k` have
arrived. -/
theorem run_tx_entry (c : Consts) (tx_id client : Nat) :
    ∀ (t : List event) (k : Nat) (vts s : timestamper) (msgs : List sent),
      map_find vts.outstanding_tx tx_id = some ⟨client, k⟩ → k < 2 ^ 32 →
      run c vts t = some (s, msgs) → tx_dones tx_id t < k →
      map_find s.outstanding_tx tx_id = some ⟨client, k - tx_dones tx_id t⟩ := by
  intro t
  induction t with
  | nil =>
    intro k vts s msgs hent _ hrun _
    simp only [run, Option.some.injEq, Prod.mk.injEq] at hrun
    rw [← hrun.1]
    simpa [tx_dones] using hent
  | cons e es ih =>
    intro k vts s msgs hent hk hrun hcount
    obtain ⟨s1, m1, m2, hstep, hrest, _⟩ := run_cons hrun
    rw [tx_dones_cons] at hcount ⊢
    by_cases he : e = .TX_DONE tx_id
    · subst he
      rw [if_pos rfl] at hcount ⊢
      obtain ⟨k2, rfl⟩ : ∃ k2, k = k2 + 2 := ⟨k - 2, by omega⟩
      have hs1 := end_transaction_more hent hk
      have hstep2 : end_transaction vts tx_id = some (s1, m1) := hstep
      rw [hs1] at hstep2
      simp only [Option.some.injEq, Prod.mk.injEq] at hstep2
      have hent1 : map_find s1.outstanding_tx tx_id = some ⟨client, k2 + 1⟩ := by
        rw [← hstep2.1]
        show map_find (map_assign vts.outstanding_tx tx_id _) tx_id = _
        rw [map_find_assign, if_pos rfl, hent]
        rfl
      have := ih (k2 + 1) s1 s m2 hent1 (by omega) hrest (by omega)
      rw [this]
      congr 2
      omega
    · rw [if_neg he] at hcount ⊢
      have hent1 := step_tx_entry_other hstep hent he
      have := ih k s1 s m2 hent1 hk hrest (by omega)
      rw [this]
      congr 2
      omega

/-- C14: a transaction registered with remaining count `k >= 1` for `client`.
Through every sequence of events, as long as fewer than `k` `TX_DONE` for it
have arrived its entry holds `k` minus their number; each of the first `k - 1`
lowers the count by one and sends nothing; the `k`-th sends exactly one
`CLIENT_TX_DONE`, to `client`, and erases the entry; and `k` such messages in
a row are handled without failure and produce that one message. -/
theorem tx_done_countdown (c : Consts) (vts : timestamper) (tx_id client k : Nat)
    (hentry : map_find vts.outstanding_tx tx_id = some ⟨client, k⟩)
    (hk1 : 1 ≤ k) (hk2 : k < 2 ^ 32) :
    (∀ t s msgs, run c vts t = some (s, msgs) → tx_dones tx_id t < k →
      map_find s.outstanding_tx tx_id = some ⟨client, k - tx_dones tx_id t⟩) ∧
    (∀ t s msgs, run c vts t = some (s, msgs) → tx_dones tx_id t + 1 < k →
      step c s (.TX_DONE tx_id) =
        some ({ s with outstanding_tx :=
                  map_assign s.outstanding_tx tx_id ⟨client, k - tx_dones tx_id t - 1⟩ }, []) ∧
      map_find (map_assign s.outstanding_tx tx_id
          (⟨client, k - tx_dones tx_id t - 1⟩ : current_tx)) tx_id =
        some ⟨client, k - tx_dones tx_id t - 1⟩) ∧
    (∀ t s msgs, run c vts t = some (s, msgs) → tx_dones tx_id t + 1 = k →
      step c s (.TX_DONE tx_id) =
        some ({ s with outstanding_tx := map_erase s.outstanding_tx tx_id },
              [(client, message.CLIENT_TX_DONE)]) ∧
      map_find (map_erase s.outstanding_tx tx_id) tx_id = none) ∧
    (∀ j, j < k → ∃ s, run c vts (List.replicate j (.TX_DONE tx_id)) = some (s, []) ∧
      map_find s.outstanding_tx tx_id = some ⟨client, k - j⟩) ∧
    (∃ s, run c vts (List.replicate k (.TX_DONE tx_id)) =
        some (s, [(client, message.CLIENT_TX_DONE)]) ∧
      map_find s.outstanding_tx tx_id = none) := by
  refine ⟨?_, ?_, ?_, ?_, ?_⟩
  · intro t s msgs hrun hc
    exact run_tx_entry c tx_id client t k vts s msgs hentry hk2 hrun hc
  · intro t s msgs hrun hc
    have hent := run_tx_entry c tx_id client t k vts s msgs hentry hk2 hrun (by omega)
    obtain ⟨m, hm⟩ : ∃ m, k - tx_dones tx_id t = m + 2 := ⟨k - tx_dones tx_id t - 2, by omega⟩
    rw [hm] at hent
    have h1 : k - tx_dones tx_id t - 1 = m + 1 := by omega
    rw [h1]
    refine ⟨end_transaction_more hent (by omega), ?_⟩
    rw [map_find_assign, if_pos rfl, hent]
    rfl
  · intro t s msgs hrun hc
    have hent := run_tx_entry c tx_id client t k vts s msgs hentry hk2 hrun (by omega)
    have h1 : k - tx_dones tx_id t = 1 := by omega
    rw [h1] at hent
    refine ⟨end_transaction_last hent, ?_⟩
    rw [map_find_erase, if_pos rfl]
  · intro j hj
    exact tx_done_run_partial c tx_id client j k vts hentry hj hk2
  · obtain ⟨k2, rfl⟩ : ∃ k2, k = k2 + 1 := ⟨k - 1, by omega⟩
    exact tx_done_run_full c tx_id client k2 vts hentry hk2

theorem tx_done_countdown_witness :
    map_find tx_waits_for_two.outstanding_tx 5 = some ⟨9, 2⟩ ∧
    (∃ s, run ⟨2, 2, 2, 0⟩ tx_waits_for_two (List.replicate 2 (.TX_DONE 5)) =
        some (s, [(9, message.CLIENT_TX_DONE)]) ∧
      map_find s.outstanding_tx 5 = none) :=
  ⟨by decide,
   (tx_done_countdown ⟨2, 2, 2, 0⟩ tx_waits_for_two 5 9 2 (by decide) (by decide)
      (by norm_num)).2.2.2.2⟩

/-- The scenario of the specification: after the first acknowledgement one
shard remains and nothing is sent; the second one notifies the client and
erases the entry. -/
theorem tx_done_two_acks :
    (run ⟨2, 2, 2, 0⟩ tx_waits_for_two [.TX_DONE 5]).map
        (fun r => (map_find r.1.outstanding_tx 5, r.2)) = some (some ⟨9, 1⟩, []) ∧
    (run ⟨2, 2, 2, 0⟩ tx_waits_for_two [.TX_DONE 5, .TX_DONE 5]).map
        (fun r => (map_find r.1.outstanding_tx 5, r.2)) =
      some (none, [(9, message.CLIENT_TX_DONE)]) := by
  constructor <;> decide

/-! ## Forwarding of shard replies -/

theorem step_seen_mono {c : Consts} {vts s : timestamper} {e : event} {msgs : List sent}
    (h : step c vts e = some (s, msgs)) {x : Nat} (hx : x ∈ vts.seen_done_id) :
    x ∈ s.seen_done_id := by
  rcases step_frontier h with hf | ⟨_, _, _, _, _, _, hs⟩ | ⟨_, id, _, _, _, _, hm⟩
  · rw [hf.2.2.2.1]
    exact hx
  · rw [hs]
    exact hx
  · rw [(mark_frame hm).2.2.1]
    exact List.mem_cons_of_mem _ hx

theorem node_prog_return_sends_length (vts : timestamper) (req_id payload : Nat) :
    (node_prog_return_sends vts req_id payload).length ≤ 1 := by
  unfold node_prog_return_sends
  cases map_find vts.outstanding_progs req_id <;> simp

/-- On a run that completes, a reply for `id` is forwarded at most once, and
not at all when `id` was counted before the run. -/
theorem forwarded_replies_le (c : Consts) (id : Nat) :
    ∀ (t : List event) (vts s : timestamper) (msgs : List sent),
      run c vts t = some (s, msgs) →
      forwarded_replies c vts t id ≤ if id ∈ vts.seen_done_id then 0 else 1 := by
  intro t
  induction t with
  | nil =>
    intro vts s msgs _
    simp [forwarded_replies]
  | cons e es ih =>
    intro vts s msgs hrun
    obtain ⟨s1, m1, m2, hstep, hrest, _⟩ := run_cons hrun
    have hih := ih s1 s m2 hrest
    have hmono : id ∈ vts.seen_done_id → id ∈ s1.seen_done_id := fun hx => step_seen_mono hstep hx
    have hrest0 : (match step c vts e with
        | some (vts1, _) => forwarded_replies c vts1 es id
        | none => 0) = forwarded_replies c s1 es id := by
      rw [hstep]
    have hgen : ∀ n, n = 0 →
        n + forwarded_replies c s1 es id ≤ if id ∈ vts.seen_done_id then 0 else 1 := by
      intro n hn
      subst hn
      by_cases hx : id ∈ vts.seen_done_id
      · rw [if_pos (hmono hx)] at hih
        rw [if_pos hx]
        omega
      · rw [if_neg hx]
        split at hih <;> omega
    unfold forwarded_replies
    rw [hrest0]
    cases e with
    | NODE_PROG_RETURN type req_id payload =>
      by_cases hid : req_id = id
      · subst hid
        simp only [if_true]
        have hstep2 : node_prog_return c vts type req_id payload = some (s1, m1) := hstep
        rcases node_prog_return_shape hstep2 with ⟨hnone, _, _⟩ | ⟨prog, _, hm, _⟩
        · apply hgen
          unfold node_prog_return_sends
          rw [hnone]
          rfl
        · obtain ⟨_, _, hseen, hnot⟩ := mark_frame hm
          have hnot2 : req_id ∉ vts.seen_done_id := hnot
          have hin : req_id ∈ s1.seen_done_id := by
            rw [hseen]
            exact List.mem_cons_self _ _
          rw [if_pos hin] at hih
          rw [if_neg hnot2]
          have := node_prog_return_sends_length vts req_id payload
          omega
      · simp only [hid, if_false]
        exact hgen 0 rfl
    | CLIENT_TX_INIT tx => exact hgen 0 rfl
    | CLIENT_TX_INIT_rejected sender => exact hgen 0 rfl
    | TX_DONE tx_id => exact hgen 0 rfl
    | CLIENT_NODE_PROG_REQ pType args sender results rid => exact hgen 0 rfl
    | VT_CLOCK_UPDATE v k => exact hgen 0 rfl
    | VT_CLOCK_UPDATE_ACK => exact hgen 0 rfl
    | VT_NOP_ACK sender cnt => exact hgen 0 rfl
    | timer_tick rid => exact hgen 0 rfl

/-- C17 (as amended): a shard reply is forwarded to the client exactly when
its id is in `outstanding_progs`; `seen_done_id` is not looked at before the
reply is sent.  A reply for an id that is in `outstanding_progs` and already in
`seen_done_id` is forwarded and then fails the first assertion of
`mark_req_finished`, so the handler does not complete.  On every run that
completes, the reply of each program is forwarded at most once, and never for
an id that was counted before the run. -/
theorem reply_forwarded_iff_outstanding (c : Consts) (vts s : timestamper) (t : List event)
    (msgs : List sent) (id : Nat) (hrun : run c vts t = some (s, msgs)) :
    forwarded_replies c vts t id ≤ 1 ∧
    (id ∈ vts.seen_done_id → forwarded_replies c vts t id = 0) ∧
    (∀ (w : timestamper) (payload : Nat),
      (node_prog_return_sends w id payload ≠ [] ↔ (map_find w.outstanding_progs id).isSome) ∧
      (∀ prog, map_find w.outstanding_progs id = some prog →
        node_prog_return_sends w id payload =
          [(prog.client, message.NODE_PROG_RETURN payload)])) ∧
    (∀ (w w1 : timestamper) (type : prog_type) (payload : Nat) (out : List sent),
      node_prog_return c w type id payload = some (w1, out) →
      out = node_prog_return_sends w id payload) ∧
    (∀ (w : timestamper) (type : prog_type) (payload : Nat),
      (map_find w.outstanding_progs id).isSome → id ∈ w.seen_done_id →
      node_prog_return_sends w id payload ≠ [] ∧
      node_prog_return c w type id payload = none ∧
      step c w (.NODE_PROG_RETURN type id payload) = none) := by
  have hle := forwarded_replies_le c id t vts s msgs hrun
  refine ⟨?_, ?_, ?_, ?_, ?_⟩
  · split at hle <;> omega
  · intro hx
    rw [if_pos hx] at hle
    omega
  · intro w payload
    unfold node_prog_return_sends
    cases hf : map_find w.outstanding_progs id with
    | none => simp
    | some prog => simp
  · intro w w1 type payload out h
    unfold node_prog_return_sends
    rcases node_prog_return_shape h with ⟨hnone, _, hout⟩ | ⟨prog, hsome, _, hout⟩
    · rw [hnone, hout]
    · rw [hsome, hout]
  · intro w type payload hsome hseen
    have hfail : node_prog_return c w type id payload = none := by
      unfold node_prog_return
      cases hf : map_find w.outstanding_progs id with
      | none => simp [hf] at hsome
      | some prog =>
        have hm : mark_req_finished
            { w with done_reqs := ledger_emplace c.NUM_SHARDS w.done_reqs type id } id = none := by
          unfold mark_req_finished
          rw [if_pos hseen]
        simp only [hm]
    refine ⟨?_, hfail, hfail⟩
    unfold node_prog_return_sends
    cases hf : map_find w.outstanding_progs id with
    | none => simp [hf] at hsome
    | some prog => simp

theorem reply_forwarded_iff_outstanding_witness :
    run ⟨2, 2, 2, 0⟩ (init ⟨2, 2, 2, 0⟩ 0 [0, 0]) first_reply_arrives =
      some (first_reply_arrives_result.1, first_reply_arrives_result.2) ∧
    forwarded_replies ⟨2, 2, 2, 0⟩ (init ⟨2, 2, 2, 0⟩ 0 [0, 0]) first_reply_arrives 10 ≤ 1 :=
  ⟨by decide,
   (reply_forwarded_iff_outstanding ⟨2, 2, 2, 0⟩ (init ⟨2, 2, 2, 0⟩ 0 [0, 0])
      first_reply_arrives_result.1 first_reply_arrives first_reply_arrives_result.2 10 (by decide)).1⟩

/-- Program 11 has been counted (it is in `seen_done_id`) and is still in
`outstanding_progs` behind program 10.  A second reply for 11 is forwarded to
client 7 all the same, and the handler then fails in `mark_req_finished`; with
it the reply for 11 has been forwarded twice. -/
theorem second_reply_is_forwarded :
    run ⟨2, 2, 2, 0⟩ (init ⟨2, 2, 2, 0⟩ 0 [0, 0]) reply_counted_not_retired =
      some (reply_counted_state, [(2, message.NODE_PROG .REACHABILITY false 0 [1, 0] 10 [(5, 0)]),
        (3, message.NODE_PROG .DIJKSTRA false 0 [2, 0] 11 [(6, 0)]),
        (7, message.NODE_PROG_RETURN 0)]) ∧
    11 ∈ reply_counted_state.seen_done_id ∧
    (map_find reply_counted_state.outstanding_progs 11).isSome = true ∧
    node_prog_return_sends reply_counted_state 11 0 = [(7, message.NODE_PROG_RETURN 0)] ∧
    node_prog_return ⟨2, 2, 2, 0⟩ reply_counted_state .DIJKSTRA 11 0 = none ∧
    forwarded_replies ⟨2, 2, 2, 0⟩ (init ⟨2, 2, 2, 0⟩ 0 [0, 0])
      (reply_counted_not_retired ++ [.NODE_PROG_RETURN .DIJKSTRA 11 0]) 11 = 2 := by
  refine ⟨by decide, by decide, by decide, by decide, by decide, by decide⟩

/-! ## The ledger pass of the timer -/

theorem nop_reply_shards_succ (to_nop : List Bool) (id : Nat) (type : prog_type) (n : Nat)
    (bits : List Bool) (dr : List (List (Nat × prog_type))) :
    nop_reply_shards to_nop id type (n + 1) bits dr =
      if bit_get to_nop n ∧ ¬ bit_get (nop_reply_shards to_nop id type n bits dr).1 n then
        (bit_set (nop_reply_shards to_nop id type n bits dr).1 n,
         (nop_reply_shards to_nop id type n bits dr).2.set n
           ((nop_reply_shards to_nop id type n bits dr).2.getD n [] ++ [(id, type)]))
      else nop_reply_shards to_nop id type n bits dr := by
  unfold nop_reply_shards
  rw [List.range_succ, List.foldl_append]
  rfl

theorem nop_reply_bits_succ (to_nop : List Bool) (n : Nat) (bits : List Bool) :
    nop_reply_bits to_nop (n + 1) bits =
      if bit_get to_nop n ∧ ¬ bit_get (nop_reply_bits to_nop n bits) n then
        bit_set (nop_reply_bits to_nop n bits) n
      else nop_reply_bits to_nop n bits := by
  unfold nop_reply_bits
  rw [List.range_succ, List.foldl_append]
  rfl

theorem nop_reply_shards_fst (to_nop : List Bool) (id : Nat) (type : prog_type)
    (bits : List Bool) (dr : List (List (Nat × prog_type))) :
    ∀ n, (nop_reply_shards to_nop id type n bits dr).1 = nop_reply_bits to_nop n bits := by
  intro n
  induction n with
  | zero => rfl
  | succ n ih =>
    rw [nop_reply_shards_succ, nop_reply_bits_succ]
    by_cases hc : bit_get to_nop n ∧ ¬ bit_get (nop_reply_bits to_nop n bits) n
    · rw [if_pos hc, if_pos (by rw [ih]; exact hc)]
      show bit_set (nop_reply_shards to_nop id type n bits dr).1 n = _
      rw [ih]
    · rw [if_neg hc, if_neg (by rw [ih]; exact hc)]
      exact ih

theorem bit_get_set (b : List Bool) (i j : Nat) :
    bit_get (bit_set b i) j = if j = i ∧ i < b.length then true else bit_get b j := by
  unfold bit_get bit_set
  exact getD_set b i j true false

theorem nop_reply_bits_length (to_nop : List Bool) (bits : List Bool) :
    ∀ n, (nop_reply_bits to_nop n bits).length = bits.length := by
  intro n
  induction n with
  | zero => rfl
  | succ n ih =>
    rw [nop_reply_bits_succ]
    split
    · simp [bit_set, ih]
    · exact ih

theorem nop_reply_bits_above (to_nop : List Bool) (bits : List Bool) :
    ∀ n j, n ≤ j → bit_get (nop_reply_bits to_nop n bits) j = bit_get bits j := by
  intro n
  induction n with
  | zero =>
    intro j _
    rfl
  | succ n ih =>
    intro j hj
    rw [nop_reply_bits_succ]
    split
    · rw [bit_get_set, if_neg (by omega)]
      exact ih j (by omega)
    · exact ih j (by omega)

/-- The bitset after the innermost loop: the old bits, and those of the
shards below `n` that get a NOP. -/
theorem nop_reply_bits_get (to_nop : List Bool) (bits : List Bool) (i : Nat)
    (hi : i < bits.length) :
    ∀ n, bit_get (nop_reply_bits to_nop n bits) i =
      (bit_get bits i || (decide (i < n) && bit_get to_nop i)) := by
  intro n
  induction n with
  | zero => simp [nop_reply_bits]
  | succ n ih =>
    rw [nop_reply_bits_succ]
    have hlen := nop_reply_bits_length to_nop bits n
    by_cases hin : i = n
    · subst hin
      have hab := nop_reply_bits_above to_nop bits i i (le_refl _)
      by_cases hc : bit_get to_nop i ∧ ¬ bit_get (nop_reply_bits to_nop i bits) i
      · rw [if_pos hc, bit_get_set, if_pos ⟨rfl, by omega⟩]
        simp [hc.1]
      · rw [if_neg hc, hab]
        rw [hab] at hc
        cases h1 : bit_get bits i <;> cases h2 : bit_get to_nop i <;> simp_all
    · have hd : decide (i < n + 1) = decide (i < n) := by
        by_cases h : i < n
        · simp [h, Nat.lt_succ_of_lt h]
        · have : ¬ i < n + 1 := by omega
          simp [h, this]
      rw [hd, ← ih]
      split
      · rw [bit_get_set, if_neg (fun h => hin h.1)]
      · rfl

theorem nop_reply_shards_snd (to_nop : List Bool) (id : Nat) (type : prog_type)
    (bits : List Bool) (dr : List (List (Nat × prog_type))) (s : Nat) (hs : s < dr.length) :
    ∀ n, (nop_reply_shards to_nop id type n bits dr).2.length = dr.length ∧
      (nop_reply_shards to_nop id type n bits dr).2.getD s [] =
        dr.getD s [] ++
          if s < n ∧ bit_get to_nop s = true ∧ bit_get bits s = false then [(id, type)]
          else [] := by
  intro n
  induction n with
  | zero => simp [nop_reply_shards]
  | succ n ih =>
    rw [nop_reply_shards_succ]
    have hfst := nop_reply_shards_fst to_nop id type bits dr n
    have hab := nop_reply_bits_above to_nop bits n n (le_refl _)
    rw [hfst, hab]
    by_cases hc : bit_get to_nop n ∧ ¬ bit_get bits n
    · rw [if_pos hc]
      refine ⟨by simp [ih.1], ?_⟩
      show ((nop_reply_shards to_nop id type n bits dr).2.set n _).getD s [] = _
      rw [getD_set]
      by_cases hsn : s = n
      · subst hsn
        rw [if_pos ⟨rfl, by rw [ih.1]; exact hs⟩, ih.2]
        have h1 : ¬ (s < s ∧ bit_get to_nop s = true ∧ bit_get bits s = false) := by omega
        have h2 : s < s + 1 ∧ bit_get to_nop s = true ∧ bit_get bits s = false :=
          ⟨by omega, hc.1, by simpa using hc.2⟩
        rw [if_neg h1, if_pos h2]
        simp
      · rw [if_neg (fun h => hsn h.1), ih.2]
        have : (s < n + 1 ∧ bit_get to_nop s = true ∧ bit_get bits s = false) ↔
            (s < n ∧ bit_get to_nop s = true ∧ bit_get bits s = false) := by
          constructor
          · rintro ⟨h1, h2⟩
            exact ⟨by omega, h2⟩
          · rintro ⟨h1, h2⟩
            exact ⟨by omega, h2⟩
        simp only [this]
    · rw [if_neg hc]
      refine ⟨ih.1, ?_⟩
      rw [ih.2]
      have : (s < n + 1 ∧ bit_get to_nop s = true ∧ bit_get bits s = false) ↔
          (s < n ∧ bit_get to_nop s = true ∧ bit_get bits s = false) := by
        constructor
        · rintro ⟨h1, h2, h3⟩
          refine ⟨?_, h2, h3⟩
          by_contra hlt
          have hsn : s = n := by omega
          subst hsn
          exact hc ⟨h2, by simp [h3]⟩
        · rintro ⟨h1, h2⟩
          exact ⟨by omega, h2⟩
      simp only [this]

/-- The loop over the replies of one type, in closed form. -/
theorem nop_replies_spec (to_nop : List Bool) (type : prog_type) (n : Nat) :
    ∀ (replies : List (Nat × List Bool)) (dr : List (List (Nat × prog_type))) (del : List Nat),
      (nop_replies to_nop type n replies dr del).1 =
        replies.map (fun e => (e.1, nop_reply_bits to_nop n e.2)) ∧
      (nop_replies to_nop type n replies dr del).2.1.length = dr.length ∧
      (∀ s, s < dr.length →
        (nop_replies to_nop type n replies dr del).2.1.getD s [] =
          dr.getD s [] ++
            if s < n ∧ bit_get to_nop s = true then
              (replies.filter (fun e => !bit_get e.2 s)).map (fun e => (e.1, type))
            else []) ∧
      (nop_replies to_nop type n replies dr del).2.2 =
        del ++ ((replies.map (fun e => (e.1, nop_reply_bits to_nop n e.2))).filter
          (fun e => bits_all n e.2)).map Prod.fst := by
  intro replies
  induction replies with
  | nil =>
    intro dr del
    simp [nop_replies]
  | cons e rest ih =>
    intro dr del
    obtain ⟨id, bits⟩ := e
    have hfst := nop_reply_shards_fst to_nop id type bits dr n
    have hlen : (nop_reply_shards to_nop id type n bits dr).2.length = dr.length := by
      cases hd : dr with
      | nil => 
        subst hd
        clear hfst ih
        induction n with
        | zero => rfl
        | succ n ihn =>
          rw [nop_reply_shards_succ]
          split
          · simp [ihn]
          · exact ihn
      | cons d ds =>
        rw [← hd]
        exact (nop_reply_shards_snd to_nop id type bits dr 0 (by rw [hd]; simp) n).1
    obtain ⟨h1, h2, h3, h4⟩ := ih (nop_reply_shards to_nop id type n bits dr).2
      (if bits_all n (nop_reply_shards to_nop id type n bits dr).1 then del ++ [id] else del)
    unfold nop_replies
    refine ⟨?_, ?_, ?_, ?_⟩
    · show (id, (nop_reply_shards to_nop id type n bits dr).1) :: _ = _
      rw [h1, hfst]
      rfl
    · show (nop_replies to_nop type n rest _ _).2.1.length = _
      rw [h2, hlen]
    · intro s hs
      show (nop_replies to_nop type n rest _ _).2.1.getD s [] = _
      rw [h3 s (by rw [hlen]; exact hs), (nop_reply_shards_snd to_nop id type bits dr s hs n).2]
      by_cases hm : s < n ∧ bit_get to_nop s = true
      · simp only [if_pos hm]
        by_cases hb : bit_get bits s = false
        · rw [if_pos ⟨hm.1, hm.2, hb⟩]
          simp [List.filter_cons, hb]
        · rw [if_neg (fun h => hb h.2.2)]
          have hb2 : bit_get bits s = true := by simpa using hb
          simp [List.filter_cons, hb2]
      · simp only [if_neg hm]
        rw [if_neg (fun h => hm ⟨h.1, h.2.1⟩)]
        simp
    · show (nop_replies to_nop type n rest _ _).2.2 = _
      rw [h4, hfst]
      by_cases ha : bits_all n (nop_reply_bits to_nop n bits) = true
      · simp [List.filter_cons, ha]
      · simp [List.filter_cons, ha]

theorem foldl_map_erase {β : Type} (dels : List Nat) :
    ∀ (m : List (Nat × β)),
      dels.foldl (fun m del => map_erase m del) m = m.filter (fun e => decide (e.1 ∉ dels)) := by
  induction dels with
  | nil =>
    intro m
    simp
  | cons d ds ih =>
    intro m
    rw [List.foldl_cons, ih]
    unfold map_erase
    rw [List.filter_filter]
    congr 1
    funext e
    by_cases h1 : e.1 = d <;> by_cases h2 : e.1 ∈ ds <;> simp [h1, h2]

theorem mem_foldl_map_erase {β : Type} {dels : List Nat} {m : List (Nat × β)} {x : Nat × β}
    (h : x ∈ dels.foldl (fun m del => map_erase m del) m) : x ∈ m := by
  rw [foldl_map_erase] at h
  exact (List.mem_filter.1 h).1

theorem nop_replies_length (to_nop : List Bool) (type : prog_type) (n : Nat)
    (replies : List (Nat × List Bool)) (dr : List (List (Nat × prog_type))) (del : List Nat) :
    (nop_replies to_nop type n replies dr del).2.1.length = dr.length :=
  (nop_replies_spec to_nop type n replies dr del).2.1

/-- The done-lists that the ledger pass leaves for a shard: what was there,
followed (for a shard that gets a NOP) by the entries whose bit was 0. -/
theorem nop_ledger_snd (to_nop : List Bool) (n : Nat) :
    ∀ (L : List (prog_type × List (Nat × List Bool))) (dr : List (List (Nat × prog_type)))
      (del : List Nat),
      (nop_ledger to_nop n L dr del).2.length = dr.length ∧
      ∀ s, s < dr.length →
        (nop_ledger to_nop n L dr del).2.getD s [] =
          dr.getD s [] ++
            if s < n ∧ bit_get to_nop s = true then entries_missing_shard s L else [] := by
  intro L
  induction L with
  | nil =>
    intro dr del
    simp [nop_ledger, entries_missing_shard]
  | cons tm rest ih =>
    intro dr del
    obtain ⟨type, replies⟩ := tm
    obtain ⟨_, hlen, hget, _⟩ := nop_replies_spec to_nop type n replies dr del
    obtain ⟨h1, h2⟩ := ih (nop_replies to_nop type n replies dr del).2.1
      (nop_replies to_nop type n replies dr del).2.2
    unfold nop_ledger
    refine ⟨?_, ?_⟩
    · show (nop_ledger to_nop n rest _ _).2.length = _
      rw [h1, hlen]
    · intro s hs
      show (nop_ledger to_nop n rest _ _).2.getD s [] = _
      rw [h2 s (by rw [hlen]; exact hs), hget s hs]
      by_cases hm : s < n ∧ bit_get to_nop s = true
      · simp only [if_pos hm, entries_missing_shard, List.append_assoc]
      · simp only [if_neg hm, List.append_nil]

theorem ledger_ids_eq (L : List (prog_type × List (Nat × List Bool))) :
    ledger_ids L = (ledger_entries L).map (fun x => x.1) := by
  induction L with
  | nil => rfl
  | cons tm rest ih =>
    obtain ⟨type, replies⟩ := tm
    simp only [ledger_ids, ledger_entries, List.map_append, List.map_map, ih]
    rfl

theorem ledger_entries_after_tick (to_nop : List Bool) (n : Nat)
    (L : List (prog_type × List (Nat × List Bool))) :
    ledger_entries (ledger_after_tick to_nop n L) =
      ((ledger_entries L).map (fun x => (x.1, x.2.1, nop_reply_bits to_nop n x.2.2))).filter
        (fun x => !bits_all n x.2.2) := by
  induction L with
  | nil => rfl
  | cons tm rest ih =>
    obtain ⟨type, replies⟩ := tm
    have ih2 : ledger_entries (List.map (fun tm =>
        (tm.1, (tm.2.map (fun e => (e.1, nop_reply_bits to_nop n e.2))).filter
          (fun e => !bits_all n e.2))) rest) = _ := ih
    simp only [ledger_after_tick, List.map_cons, ledger_entries, List.map_append,
      List.filter_append, ih2]
    congr 1
    induction replies with
    | nil => rfl
    | cons e es ihe =>
      by_cases ha : bits_all n (nop_reply_bits to_nop n e.2) = true
      · simp [List.filter_cons, ha]
        simpa using ihe
      · simp [List.filter_cons, ha]
        simpa using ihe

/-- When no request id occurs twice in the ledger, the ledger pass erases
exactly the entries whose updated bitset is complete. -/
theorem nop_ledger_fst (to_nop : List Bool) (n : Nat) :
    ∀ (L : List (prog_type × List (Nat × List Bool))) (dr : List (List (Nat × prog_type)))
      (del : List Nat),
      (ledger_ids L).Nodup → (∀ x ∈ del, x ∉ ledger_ids L) →
      (nop_ledger to_nop n L dr del).1 = ledger_after_tick to_nop n L := by
  intro L
  induction L with
  | nil =>
    intro dr del _ _
    rfl
  | cons tm rest ih =>
    intro dr del hnd hdel
    obtain ⟨type, replies⟩ := tm
    obtain ⟨hmap, _, _, hdels⟩ := nop_replies_spec to_nop type n replies dr del
    simp only [ledger_ids] at hnd hdel
    obtain ⟨hnd1, hnd2, hdisj⟩ := List.nodup_append.1 hnd
    have hrest := ih (nop_replies to_nop type n replies dr del).2.1
      (nop_replies to_nop type n replies dr del).2.2 hnd2 (by
        intro x hx
        rw [hdels] at hx
        rcases List.mem_append.1 hx with hx | hx
        · exact fun h => hdel x hx (List.mem_append_right _ h)
        · intro h
          obtain ⟨e, he, rfl⟩ := List.mem_map.1 hx
          have he2 := (List.mem_filter.1 he).1
          obtain ⟨e0, he0, rfl⟩ := List.mem_map.1 he2
          exact hdisj (List.mem_map_of_mem Prod.fst he0) h)
    unfold nop_ledger
    show ((type, _) :: (nop_ledger to_nop n rest _ _).1) = _
    rw [hrest, foldl_map_erase, hmap, hdels]
    simp only [ledger_after_tick, List.map_cons]
    congr 2
    apply List.filter_congr
    intro e he
    have hkeys : ((replies.map (fun e => (e.1, nop_reply_bits to_nop n e.2))).map
        Prod.fst).Nodup := by
      rw [List.map_map]
      exact hnd1
    have he1 : e.1 ∈ replies.map Prod.fst := by
      obtain ⟨e0, he0, rfl⟩ := List.mem_map.1 he
      exact List.mem_map.2 ⟨e0, he0, rfl⟩
    have hnot : e.1 ∉ del := fun h => hdel e.1 h (List.mem_append_left _ he1)
    by_cases ha : bits_all n e.2 = true
    · have hin : e.1 ∈ del ++ List.map Prod.fst (List.filter (fun e => bits_all n e.2)
          (List.map (fun e => (e.1, nop_reply_bits to_nop n e.2)) replies)) :=
        List.mem_append_right _ (List.mem_map_of_mem Prod.fst (List.mem_filter.2 ⟨he, ha⟩))
      simp [hin, ha]
    · have hout : e.1 ∉ del ++ List.map Prod.fst (List.filter (fun e => bits_all n e.2)
          (List.map (fun e => (e.1, nop_reply_bits to_nop n e.2)) replies)) := by
        intro h
        rcases List.mem_append.1 h with h | h
        · exact hnot h
        · obtain ⟨e2, he2, hk⟩ := List.mem_map.1 h
          obtain ⟨he3, ha2⟩ := List.mem_filter.1 he2
          have : e2 = e := List.inj_on_of_nodup_map hkeys he3 he hk
          rw [this] at ha2
          exact ha ha2
      simp [hout, ha]

/-- Whatever the ids are, an entry that the ledger pass leaves in the ledger
is an entry of before with the bits of the masked shards set. -/
theorem nop_ledger_entries_sub (to_nop : List Bool) (n : Nat) :
    ∀ (L : List (prog_type × List (Nat × List Bool))) (dr : List (List (Nat × prog_type)))
      (del : List Nat) (x : Nat × prog_type × List Bool),
      x ∈ ledger_entries (nop_ledger to_nop n L dr del).1 →
      ∃ y ∈ ledger_entries L, x = (y.1, y.2.1, nop_reply_bits to_nop n y.2.2) := by
  intro L
  induction L with
  | nil =>
    intro dr del x hx
    simp [nop_ledger, ledger_entries] at hx
  | cons tm rest ih =>
    intro dr del x hx
    obtain ⟨type, replies⟩ := tm
    obtain ⟨hmap, _, _, _⟩ := nop_replies_spec to_nop type n replies dr del
    unfold nop_ledger at hx
    simp only [ledger_entries] at hx ⊢
    rcases List.mem_append.1 hx with hx | hx
    · obtain ⟨e, he, rfl⟩ := List.mem_map.1 hx
      have he2 := mem_foldl_map_erase he
      rw [hmap] at he2
      obtain ⟨e0, he0, rfl⟩ := List.mem_map.1 he2
      exact ⟨(e0.1, type, e0.2), List.mem_append_left _
        (List.mem_map.2 ⟨e0, he0, rfl⟩), rfl⟩
    · obtain ⟨y, hy, hxy⟩ := ih _ _ x hx
      exact ⟨y, List.mem_append_right _ hy, hxy⟩

theorem nop_bump_snd (to_nop : List Bool) (qts : qtimestamp_t)
    (dr : List (List (Nat × prog_type))) (s : Nat) :
    ∀ n, (nop_bump to_nop n qts dr).2.length = dr.length ∧
      (nop_bump to_nop n qts dr).2.getD s [] =
        if s < n ∧ bit_get to_nop s = true then [] else dr.getD s [] := by
  intro n
  induction n with
  | zero => simp [nop_bump]
  | succ n ih =>
    have hsucc : nop_bump to_nop (n + 1) qts dr =
        if bit_get to_nop n then
          (vec_incr (nop_bump to_nop n qts dr).1 n, (nop_bump to_nop n qts dr).2.set n [])
        else nop_bump to_nop n qts dr := by
      unfold nop_bump
      rw [List.range_succ, List.foldl_append]
      rfl
    rw [hsucc]
    by_cases hb : bit_get to_nop n = true
    · rw [if_pos hb]
      refine ⟨by simp [ih.1], ?_⟩
      show ((nop_bump to_nop n qts dr).2.set n []).getD s [] = _
      rw [getD_set]
      by_cases hsn : s = n
      · subst hsn
        have h2 : s < s + 1 ∧ bit_get to_nop s = true := ⟨by omega, hb⟩
        rw [if_pos h2]
        by_cases hl : s < (nop_bump to_nop s qts dr).2.length
        · rw [if_pos ⟨rfl, hl⟩]
        · rw [if_neg (fun h => hl h.2), ih.2, if_neg (by omega)]
          rw [ih.1] at hl
          rw [List.getD_eq_getElem?_getD, List.getElem?_eq_none (by omega)]
          rfl
      · rw [if_neg (fun h => hsn h.1), ih.2]
        have : (s < n + 1 ∧ bit_get to_nop s = true) ↔ (s < n ∧ bit_get to_nop s = true) := by
          constructor
          · rintro ⟨h1, h2⟩
            exact ⟨by omega, h2⟩
          · rintro ⟨h1, h2⟩
            exact ⟨by omega, h2⟩
        simp only [this]
    · rw [if_neg hb]
      refine ⟨ih.1, ?_⟩
      rw [ih.2]
      have : (s < n + 1 ∧ bit_get to_nop s = true) ↔ (s < n ∧ bit_get to_nop s = true) := by
        constructor
        · rintro ⟨h1, h2⟩
          refine ⟨?_, h2⟩
          by_contra hlt
          have hsn : s = n := by omega
          subst hsn
          exact hb h2
        · rintro ⟨h1, h2⟩
          exact ⟨by omega, h2⟩
      simp only [this]

theorem mem_nop_messages (c : Consts) (vts : timestamper) (vclk : vclock_t)
    (qts : qtimestamp_t) (req_id : Nat) (dr : List (List (Nat × prog_type))) (x : sent) :
    x ∈ nop_messages c vts vclk qts req_id dr ↔
      ∃ sh, sh < c.NUM_SHARDS ∧ bit_get vts.to_nop sh = true ∧
        x = (sh + c.SHARD_ID_INCR,
          message.VT_NOP c.vt_id vclk qts req_id (dr.getD sh [])
            vts.max_done_id vts.max_done_clk vts.pend_prog_queue.length
            vts.shard_node_count) := by
  unfold nop_messages
  rw [List.mem_filterMap]
  constructor
  · rintro ⟨sh, hsh, hx⟩
    by_cases hb : bit_get vts.to_nop sh = true
    · simp only [hb, if_true, Option.some.injEq] at hx
      exact ⟨sh, List.mem_range.1 hsh, hb, hx.symm⟩
    · simp [hb] at hx
  · rintro ⟨sh, hsh, hb, hx⟩
    exact ⟨sh, List.mem_range.2 hsh, by simp [hb, hx]⟩

/-- A timer iteration with a NOP to send completes when the two clocks have
the size that the assertions in the sending loop ask for. -/
theorem timer_function_nop_total (c : Consts) (vts : timestamper) (req_id : Nat)
    (hany : vts.to_nop.any id = true) (hclk : vts.vclk.length = c.NUM_VTS)
    (hmdc : vts.max_done_clk.length = c.NUM_VTS) :
    ∃ s msgs, timer_function c vts req_id = some (s, msgs) ∧
      s.done_reqs = (nop_ledger vts.to_nop c.NUM_SHARDS vts.done_reqs
        (nop_bump vts.to_nop c.NUM_SHARDS vts.qts vts.timer_done_reqs).2 []).1 ∧
      s.timer_done_reqs = (nop_ledger vts.to_nop c.NUM_SHARDS vts.done_reqs
        (nop_bump vts.to_nop c.NUM_SHARDS vts.qts vts.timer_done_reqs).2 []).2 ∧
      s.qts = (nop_bump vts.to_nop c.NUM_SHARDS vts.qts vts.timer_done_reqs).1 ∧
      (∀ x, x ∈ nop_messages c vts (increment_clock c vts.vclk)
          (nop_bump vts.to_nop c.NUM_SHARDS vts.qts vts.timer_done_reqs).1 req_id
          (nop_ledger vts.to_nop c.NUM_SHARDS vts.done_reqs
            (nop_bump vts.to_nop c.NUM_SHARDS vts.qts vts.timer_done_reqs).2 []).2 →
        x ∈ msgs) ∧
      (∀ x ∈ msgs, x ∈ nop_messages c vts (increment_clock c vts.vclk)
          (nop_bump vts.to_nop c.NUM_SHARDS vts.qts vts.timer_done_reqs).1 req_id
          (nop_ledger vts.to_nop c.NUM_SHARDS vts.done_reqs
            (nop_bump vts.to_nop c.NUM_SHARDS vts.qts vts.timer_done_reqs).2 []).2 ∨
        ∃ d v k, x = (d, message.VT_CLOCK_UPDATE v k)) := by
  have hlen : (increment_clock c vts.vclk).length = c.NUM_VTS := by
    unfold increment_clock
    rw [vec_incr_length, hclk]
  have hnop : ∃ s1 msgs1, timer_nop c vts req_id = some (s1, msgs1, true) := by
    unfold timer_nop
    rw [if_pos hany]
    simp only [hlen, hmdc, and_self, not_true_eq_false, and_false, if_false]
    exact ⟨_, _, rfl⟩
  obtain ⟨s1, msgs1, hn⟩ := hnop
  have htf : timer_function c vts req_id =
      some ((timer_gossip c s1 true).1, msgs1 ++ (timer_gossip c s1 true).2) := by
    unfold timer_function
    rw [hn]
  obtain ⟨a, tv, hg⟩ := timer_gossip_shape c s1 true
  rcases timer_nop_shape hn with ⟨_, _, hf, _⟩ | ⟨_, _, hs1, hm1⟩
  · cases hf
  · refine ⟨_, _, htf, ?_, ?_, ?_, ?_, ?_⟩
    · rw [hg, hs1]
    · rw [hg, hs1]
    · rw [hg, hs1]
    · intro x hx
      rw [← hm1] at hx
      exact List.mem_append_left _ hx
    · intro x hx
      rcases List.mem_append.1 hx with hx | hx
      · left
        rw [← hm1]
        exact hx
      · right
        unfold timer_gossip at hx
        split at hx
        · obtain ⟨i, _, rfl⟩ := List.mem_map.1 hx
          exact ⟨_, _, _, rfl⟩
        · simp at hx

/-! ## Erasure from the ledger -/

theorem bits_all_iff (n : Nat) (bits : List Bool) :
    bits_all n bits = true ↔ ∀ i, i < n → bit_get bits i = true := by
  unfold bits_all
  rw [List.all_eq_true]
  constructor
  · intro h i hi
    exact h i (List.mem_range.2 hi)
  · intro h i hi
    exact h i (List.mem_range.1 hi)

/-! ## The done-list of a NOP -/

theorem entries_missing_shard_eq (shard : Nat) (L : List (prog_type × List (Nat × List Bool))) :
    entries_missing_shard shard L =
      ((ledger_entries L).filter (fun x => !bit_get x.2.2 shard)).map
        (fun x => (x.1, x.2.1)) := by
  induction L with
  | nil => rfl
  | cons tm rest ih =>
    obtain ⟨type, replies⟩ := tm
    simp only [entries_missing_shard, ledger_entries, List.filter_append, List.map_append, ih]
    congr 1
    induction replies with
    | nil => rfl
    | cons e es ihe =>
      by_cases hb : bit_get e.2 shard = true
      · simp [List.filter_cons, hb]
        simpa using ihe
      · simp [List.filter_cons, hb]
        simpa using ihe

/-- C19: a timer iteration in a state where shard `shard` is due a NOP.  The
iteration completes; the `VT_NOP` it sends to the shard carries as done-list
exactly the (request id, program type) pairs of the ledger entries whose bit
`shard` was 0 when the iteration started, in iteration order, each as often as
the ledger holds it (once, the pairs of a ledger being distinct), and nothing
from earlier iterations; afterwards bit `shard` is set in every entry that is
still in the ledger, and an entry that is not was erased with a complete
bitset when no id occurs twice in the ledger. -/
theorem nop_done_list_exact (c : Consts) (vts : timestamper) (req_id shard : Nat)
    (hshard : shard < c.NUM_SHARDS) (hmask : bit_get vts.to_nop shard = true)
    (hclk : vts.vclk.length = c.NUM_VTS) (hmdc : vts.max_done_clk.length = c.NUM_VTS)
    (hdr : vts.timer_done_reqs.length = c.NUM_SHARDS)
    (hbits : ∀ x ∈ ledger_entries vts.done_reqs, x.2.2.length = c.NUM_SHARDS) :
    ∃ s msgs, timer_function c vts req_id = some (s, msgs) ∧
      (shard + c.SHARD_ID_INCR,
        message.VT_NOP c.vt_id (increment_clock c vts.vclk) s.qts req_id
          (entries_missing_shard shard vts.done_reqs) vts.max_done_id vts.max_done_clk
          vts.pend_prog_queue.length vts.shard_node_count) ∈ msgs ∧
      (∀ v clk q r done m mc k nc,
        (shard + c.SHARD_ID_INCR, message.VT_NOP v clk q r done m mc k nc) ∈ msgs →
        done = entries_missing_shard shard vts.done_reqs) ∧
      (∀ p, p ∈ entries_missing_shard shard vts.done_reqs ↔
        ∃ bits, (p.1, p.2, bits) ∈ ledger_entries vts.done_reqs ∧ bit_get bits shard = false) ∧
      (((ledger_entries vts.done_reqs).map (fun x => (x.1, x.2.1))).Nodup →
        (entries_missing_shard shard vts.done_reqs).Nodup) ∧
      (∀ x ∈ ledger_entries vts.done_reqs,
        bit_get (nop_reply_bits vts.to_nop c.NUM_SHARDS x.2.2) shard = true) ∧
      (∀ x ∈ ledger_entries s.done_reqs, bit_get x.2.2 shard = true) ∧
      ((ledger_ids vts.done_reqs).Nodup → ∀ x ∈ ledger_entries vts.done_reqs,
        (x.1, x.2.1, nop_reply_bits vts.to_nop c.NUM_SHARDS x.2.2) ∈ ledger_entries s.done_reqs ∨
        bits_all c.NUM_SHARDS (nop_reply_bits vts.to_nop c.NUM_SHARDS x.2.2) = true) := by
  have hany : vts.to_nop.any id = true := by
    rw [List.any_eq_true]
    refine ⟨true, ?_, rfl⟩
    unfold bit_get at hmask
    rw [List.getD_eq_getElem?_getD] at hmask
    cases hg : vts.to_nop[shard]? with
    | none => simp [hg] at hmask
    | some b =>
      simp only [hg, Option.getD_some] at hmask
      subst hmask
      exact List.getElem?_mem hg
  obtain ⟨s, msgs, htf, hL, hT, hQ, hin, hout⟩ :=
    timer_function_nop_total c vts req_id hany hclk hmdc
  have hbump := (nop_bump_snd vts.to_nop vts.qts vts.timer_done_reqs shard c.NUM_SHARDS)
  rw [if_pos ⟨hshard, hmask⟩] at hbump
  have hled := (nop_ledger_snd vts.to_nop c.NUM_SHARDS vts.done_reqs
    (nop_bump vts.to_nop c.NUM_SHARDS vts.qts vts.timer_done_reqs).2 []).2 shard
    (by rw [hbump.1, hdr]; exact hshard)
  rw [hbump.2, if_pos ⟨hshard, hmask⟩, List.nil_append] at hled
  have hupd : ∀ x ∈ ledger_entries vts.done_reqs,
      bit_get (nop_reply_bits vts.to_nop c.NUM_SHARDS x.2.2) shard = true := by
    intro x hx
    rw [nop_reply_bits_get vts.to_nop x.2.2 shard (by rw [hbits x hx]; exact hshard)]
    simp [hshard, hmask]
  refine ⟨s, msgs, htf, ?_, ?_, ?_, ?_, hupd, ?_, ?_⟩
  · apply hin
    rw [mem_nop_messages]
    exact ⟨shard, hshard, hmask, by rw [hled, hQ]⟩
  · intro v clk q r done m mc k nc hmem
    rcases hout _ hmem with h | ⟨d, v2, k2, h⟩
    · rw [mem_nop_messages] at h
      obtain ⟨sh, _, _, heq⟩ := h
      simp only [Prod.mk.injEq, message.VT_NOP.injEq] at heq
      have hsh : shard = sh := by omega
      subst hsh
      rw [heq.2.2.2.2.2.1, hled]
    · simp at h
  · intro p
    rw [entries_missing_shard_eq, List.mem_map]
    constructor
    · rintro ⟨x, hx, rfl⟩
      obtain ⟨hx1, hx2⟩ := List.mem_filter.1 hx
      exact ⟨x.2.2, hx1, by simpa using hx2⟩
    · rintro ⟨bits, hm, hb⟩
      exact ⟨(p.1, p.2, bits), List.mem_filter.2 ⟨hm, by simp [hb]⟩, rfl⟩
  · intro hnd
    rw [entries_missing_shard_eq]
    exact hnd.sublist (List.Sublist.map _ (List.filter_sublist _))
  · intro x hx
    rw [hL] at hx
    obtain ⟨y, hy, rfl⟩ := nop_ledger_entries_sub vts.to_nop c.NUM_SHARDS vts.done_reqs _ _ x hx
    exact hupd y hy
  · intro hids x hx
    have hfst := nop_ledger_fst vts.to_nop c.NUM_SHARDS vts.done_reqs
      (nop_bump vts.to_nop c.NUM_SHARDS vts.qts vts.timer_done_reqs).2 [] hids (by simp)
    rw [hL, hfst, ledger_entries_after_tick]
    by_cases ha : bits_all c.NUM_SHARDS (nop_reply_bits vts.to_nop c.NUM_SHARDS x.2.2) = true
    · exact Or.inr ha
    · exact Or.inl (List.mem_filter.2 ⟨List.mem_map.2 ⟨x, hx, rfl⟩, by simpa using ha⟩)

theorem nop_done_list_exact_witness :
    (bit_get three_done_reqs.to_nop 0 = true ∧
      ∀ x ∈ ledger_entries three_done_reqs.done_reqs, x.2.2.length = 2) ∧
    ∃ s msgs, timer_function ⟨2, 2, 2, 0⟩ three_done_reqs 13 = some (s, msgs) ∧
      (2, message.VT_NOP 0 [1, 0] s.qts 13 [(5, .REACHABILITY), (7, .REACHABILITY)]
        0 [0, 0] 0 [0, 0]) ∈ msgs := by
  refine ⟨by decide, ?_⟩
  obtain ⟨s, msgs, h1, h2, _⟩ := nop_done_list_exact ⟨2, 2, 2, 0⟩ three_done_reqs 13 0
    (by decide) (by decide) (by decide) (by decide) (by decide) (by decide)
  exact ⟨s, msgs, h1, h2⟩

/-- The scenario of the specification with three shards: an entry with bits
`000`; a tick for shards 0 and 2 lists it for both and leaves bits `101`; a
tick for shard 1 alone lists it there and erases it. -/
theorem nop_ticks_fill_bitset :
    nop_ledger [true, false, true] 3 [(.REACHABILITY, [(5, [false, false, false])])]
        [[], [], []] [] =
      ([(.REACHABILITY, [(5, [true, false, true])])],
       [[(5, .REACHABILITY)], [], [(5, .REACHABILITY)]]) ∧
    nop_ledger [false, true, false] 3 [(.REACHABILITY, [(5, [true, false, true])])]
        [[], [], []] [] =
      ([(.REACHABILITY, [])], [[], [(5, .REACHABILITY)], []]) := by
  constructor <;> decide

/-! ## Done-lists over a run -/

theorem done_list_of_not_nop (c : Consts) (shard : Nat) (m : sent)
    (h : is_nop_to c shard m = false) : done_list_of c shard m = [] := by
  obtain ⟨dest, body⟩ := m
  cases body <;> simp_all [is_nop_to, done_list_of]

theorem done_list_count_append (c : Consts) (shard : Nat) (p : Nat × prog_type)
    (a b : List sent) :
    done_list_count c shard p (a ++ b) =
      done_list_count c shard p a + done_list_count c shard p b := by
  simp [done_list_count, List.sum_append]

theorem done_list_count_zero (c : Consts) (shard : Nat) (p : Nat × prog_type) (msgs : List sent)
    (h : ∀ m ∈ msgs, is_nop_to c shard m = false) : done_list_count c shard p msgs = 0 := by
  induction msgs with
  | nil => rfl
  | cons m ms ih =>
    have h1 := done_list_of_not_nop c shard m (h m (List.mem_cons_self _ _))
    have h2 := ih (fun x hx => h x (List.mem_cons_of_mem _ hx))
    unfold done_list_count at h2 ⊢
    simp only [List.map_cons, List.sum_cons, h1, h2]
    rfl

theorem done_list_count_nop_messages (c : Consts) (vts : timestamper) (vclk : vclock_t)
    (qts : qtimestamp_t) (req_id : Nat) (dr : List (List (Nat × prog_type))) (shard : Nat)
    (p : Nat × prog_type) :
    done_list_count c shard p (nop_messages c vts vclk qts req_id dr) =
      if shard < c.NUM_SHARDS ∧ bit_get vts.to_nop shard = true then
        (dr.getD shard []).count p
      else 0 := by
  unfold nop_messages
  generalize c.NUM_SHARDS = n
  induction n with
  | zero => simp [done_list_count]
  | succ n ih =>
    rw [List.range_succ, List.filterMap_append, done_list_count_append, ih]
    by_cases hb : bit_get vts.to_nop n = true
    · have hlast : done_list_count c shard p (List.filterMap (fun shard_id =>
          if bit_get vts.to_nop shard_id = true then
            some (shard_id + c.SHARD_ID_INCR,
              message.VT_NOP c.vt_id vclk qts req_id (dr.getD shard_id [])
                vts.max_done_id vts.max_done_clk vts.pend_prog_queue.length
                vts.shard_node_count)
          else none) [n]) = if n = shard then (dr.getD shard []).count p else 0 := by
        simp only [List.filterMap_cons, hb, if_true, List.filterMap_nil, done_list_count,
          List.map_cons, List.map_nil, List.sum_cons, List.sum_nil, done_list_of, add_zero]
        by_cases hns : n = shard
        · subst hns
          simp
        · have : ¬ n + c.SHARD_ID_INCR = shard + c.SHARD_ID_INCR := by omega
          simp [hns, this]
      rw [hlast]
      by_cases h1 : shard < n
      · have h2 : ¬ n = shard := by omega
        have h3 : shard < n + 1 := by omega
        simp [h1, h2, h3]
      · by_cases h2 : n = shard
        · subst h2
          simp [hb]
        · have h3 : ¬ shard < n + 1 := by omega
          simp [h1, h2, h3]
    · have hlast : done_list_count c shard p (List.filterMap (fun shard_id =>
          if bit_get vts.to_nop shard_id = true then
            some (shard_id + c.SHARD_ID_INCR,
              message.VT_NOP c.vt_id vclk qts req_id (dr.getD shard_id [])
                vts.max_done_id vts.max_done_clk vts.pend_prog_queue.length
                vts.shard_node_count)
          else none) [n]) = 0 := by
        simp [hb, done_list_count]
      rw [hlast]
      by_cases h1 : shard < n
      · have h3 : shard < n + 1 := by omega
        simp [h1, h3]
      · by_cases h2 : n = shard
        · subst h2
          simp [hb]
        · have h3 : ¬ shard < n + 1 := by omega
          simp [h1, h3]

/-- What one handled event does to the ledger and the timer's done-lists: it
leaves them alone and sends no NOP, or it is a reply for an outstanding
program that enters the ledger, or it is a timer iteration that sends NOPs. -/
theorem step_ledger_shape {c : Consts} {vts s : timestamper} {e : event} {msgs : List sent}
    (h : step c vts e = some (s, msgs)) :
    (s.done_reqs = vts.done_reqs ∧ s.timer_done_reqs = vts.timer_done_reqs ∧
      ∀ sh, ∀ m ∈ msgs, is_nop_to c sh m = false) ∨
    (∃ type id, id ∉ vts.seen_done_id ∧ s.seen_done_id = id :: vts.seen_done_id ∧
      s.done_reqs = ledger_emplace c.NUM_SHARDS vts.done_reqs type id ∧
      s.timer_done_reqs = vts.timer_done_reqs ∧
      ∀ sh, ∀ m ∈ msgs, is_nop_to c sh m = false) ∨
    (∃ req_id gm, vts.to_nop.any id = true ∧
      s.done_reqs = (nop_ledger vts.to_nop c.NUM_SHARDS vts.done_reqs
        (nop_bump vts.to_nop c.NUM_SHARDS vts.qts vts.timer_done_reqs).2 []).1 ∧
      s.timer_done_reqs = (nop_ledger vts.to_nop c.NUM_SHARDS vts.done_reqs
        (nop_bump vts.to_nop c.NUM_SHARDS vts.qts vts.timer_done_reqs).2 []).2 ∧
      msgs = nop_messages c vts (increment_clock c vts.vclk)
        (nop_bump vts.to_nop c.NUM_SHARDS vts.qts vts.timer_done_reqs).1 req_id
        (nop_ledger vts.to_nop c.NUM_SHARDS vts.done_reqs
          (nop_bump vts.to_nop c.NUM_SHARDS vts.qts vts.timer_done_reqs).2 []).2 ++ gm ∧
      (∀ sh, ∀ m ∈ gm, is_nop_to c sh m = false)) := by
  have hctl : (∀ m ∈ msgs, is_control m.2) → ∀ sh, ∀ m ∈ msgs, is_nop_to c sh m = false :=
    fun hc sh m hm => is_nop_to_control c sh m (hc m hm)
  have hother : (∀ req_id, e ≠ .timer_tick req_id) →
      ∀ sh, ∀ m ∈ msgs, is_nop_to c sh m = false := by
    intro hne
    rcases step_qts_shape h with ⟨tx, tx1, _, hb⟩ | ⟨req_id, he, _⟩ | ⟨_, _, hc⟩
    · obtain ⟨_, tx_vec, _, _, _, _, hm⟩ := begin_transaction_shape hb
      intro sh m hmem
      rw [hm] at hmem
      exact send_tx_batches_no_nop c sh _ _ _ m hmem
    · exact absurd he (hne req_id)
    · exact hctl hc
  cases e with
  | CLIENT_TX_INIT tx =>
    left
    refine ⟨?_, ?_, hother (by intro r; simp)⟩
    all_goals
      simp only [step] at h
      cases hb : begin_transaction c vts tx with
      | none => simp [hb] at h
      | some r =>
        obtain ⟨s1, tx1, m1⟩ := r
        simp only [hb, Option.some.injEq, Prod.mk.injEq] at h
        obtain ⟨_, _, _, _, hs, _, _⟩ := begin_transaction_shape hb
        rw [← h.1, hs]
  | CLIENT_TX_INIT_rejected sender =>
    left
    refine ⟨?_, ?_, hother (by intro r; simp)⟩
    all_goals
      simp only [step, Option.some.injEq, Prod.mk.injEq] at h
      rw [← h.1]
  | TX_DONE tx_id =>
    left
    refine ⟨?_, ?_, hother (by intro r; simp)⟩
    all_goals
      simp only [step] at h
      obtain ⟨o, hs⟩ := end_transaction_shape h
      rw [hs]
  | CLIENT_NODE_PROG_REQ pType args sender results id =>
    left
    refine ⟨?_, ?_, hother (by intro r; simp)⟩
    all_goals
      simp only [step] at h
      rw [unpack_and_start_coord_shape h]
      rfl
  | NODE_PROG_RETURN type id payload =>
    have hm := hother (by intro r; simp)
    simp only [step] at h
    rcases node_prog_return_shape h with ⟨_, hs, _⟩ | ⟨prog, _, h2, _⟩
    · left
      rw [hs]
      exact ⟨rfl, rfl, hm⟩
    · right
      left
      obtain ⟨_, hrest, hseen, hnot⟩ := mark_frame h2
      exact ⟨type, id, hnot, hseen, hrest.2.2.2.1, hrest.2.2.2.2.2.2.2.2, hm⟩
  | VT_CLOCK_UPDATE rec_vtid rec_clock =>
    left
    refine ⟨?_, ?_, hother (by intro r; simp)⟩
    all_goals
      simp only [step, vt_clock_update, Option.some.injEq, Prod.mk.injEq] at h
      rw [← h.1]
  | VT_CLOCK_UPDATE_ACK =>
    left
    refine ⟨?_, ?_, hother (by intro r; simp)⟩
    all_goals
      simp only [step, vt_clock_update_ack] at h
      by_cases hc : vts.clock_update_acks + 1 < c.NUM_VTS
      · simp only [hc, if_true, Option.some.injEq, Prod.mk.injEq] at h
        rw [← h.1]
      · simp [hc] at h
  | VT_NOP_ACK sender cnt =>
    left
    refine ⟨?_, ?_, hother (by intro r; simp)⟩
    all_goals
      simp only [step, vt_nop_ack] at h
      by_cases h1 : sender < c.SHARD_ID_INCR
      · simp [h1] at h
      · by_cases h2 : sender - c.SHARD_ID_INCR < c.NUM_SHARDS
        · simp only [h1, h2, if_true, if_false, Option.some.injEq, Prod.mk.injEq] at h
          rw [← h.1]
        · simp [h1, h2] at h
  | timer_tick req_id =>
    simp only [step] at h
    obtain ⟨s1, msgs1, nop_sent, hn, hs, hmsgs⟩ := timer_function_shape h
    obtain ⟨a, tv, hg⟩ := timer_gossip_shape c s1 nop_sent
    have hgc := timer_gossip_control c s1 nop_sent
    rw [hg] at hs
    rcases timer_nop_shape hn with ⟨h1, hm1, _, _⟩ | ⟨hany, _, h1, hm1⟩
    · left
      subst hs
      subst h1
      refine ⟨rfl, rfl, ?_⟩
      intro sh m hm
      rw [hmsgs, hm1, List.nil_append] at hm
      exact is_nop_to_control c sh m (hgc m hm)
    · right
      right
      refine ⟨req_id, (timer_gossip c s1 nop_sent).2, hany, ?_, ?_, ?_, ?_⟩
      · rw [hs, h1]
      · rw [hs, h1]
      · rw [hmsgs, hm1]
      · intro sh m hm
        exact is_nop_to_control c sh m (hgc m hm)

theorem ledger_entries_emplace (n : Nat) (type : prog_type) (id : Nat) :
    ∀ (L : List (prog_type × List (Nat × List Bool))), id ∉ ledger_ids L →
      List.Perm (ledger_entries (ledger_emplace n L type id))
        ((id, type, List.replicate n false) :: ledger_entries L) := by
  intro L
  induction L with
  | nil =>
    intro _
    simp [ledger_emplace, ledger_entries]
  | cons tm rest ih =>
    intro hid
    obtain ⟨t, m⟩ := tm
    simp only [ledger_ids, List.mem_append, not_or] at hid
    unfold ledger_emplace
    by_cases ht : t = type
    · subst ht
      simp only [if_true, ledger_entries]
      have hfind : map_find m id = none := (map_find_none m id).2 hid.1
      unfold map_emplace
      rw [hfind]
      simp only [List.map_append, List.map_cons, List.map_nil, List.append_assoc,
        List.singleton_append]
      exact List.perm_middle
    · simp only [ht, if_false, ledger_entries]
      have h1 := ih hid.2
      have h2 : List.Perm (List.map (fun e => (e.1, t, e.2)) m ++
          ledger_entries (ledger_emplace n rest type id))
          (List.map (fun e => (e.1, t, e.2)) m ++
            ((id, type, List.replicate n false) :: ledger_entries rest)) :=
        List.Perm.append_left _ h1
      exact h2.trans List.perm_middle

theorem mem_entries_missing_shard (shard : Nat) (L : List (prog_type × List (Nat × List Bool)))
    (p : Nat × prog_type) :
    p ∈ entries_missing_shard shard L ↔
      ∃ bits, (p.1, p.2, bits) ∈ ledger_entries L ∧ bit_get bits shard = false := by
  rw [entries_missing_shard_eq, List.mem_map]
  constructor
  · rintro ⟨x, hx, rfl⟩
    obtain ⟨hx1, hx2⟩ := List.mem_filter.1 hx
    exact ⟨x.2.2, hx1, by simpa using hx2⟩
  · rintro ⟨bits, hm, hb⟩
    exact ⟨(p.1, p.2, bits), List.mem_filter.2 ⟨hm, by simp [hb]⟩, rfl⟩

theorem count_eq_one_of_nodup_mem {α : Type} [BEq α] [LawfulBEq α] {l : List α} {a : α}
    (hnd : l.Nodup) (h : a ∈ l) : l.count a = 1 := by
  induction l with
  | nil => simp at h
  | cons b l ih =>
    rw [List.nodup_cons] at hnd
    rw [List.count_cons]
    rcases List.mem_cons.1 h with rfl | h
    · have : l.count a = 0 := List.count_eq_zero.2 hnd.1
      simp [this]
    · have hne : ¬ b = a := fun e => hnd.1 (e ▸ h)
      simp [ih hnd.2 h, hne]

theorem entries_missing_shard_nodup (shard : Nat)
    (L : List (prog_type × List (Nat × List Bool))) (hnd : (ledger_ids L).Nodup) :
    (entries_missing_shard shard L).Nodup := by
  rw [entries_missing_shard_eq]
  have h1 : ((ledger_entries L).map (fun x => (x.1, x.2.1))).Nodup := by
    apply List.Nodup.of_map Prod.fst
    rw [List.map_map]
    rw [ledger_ids_eq] at hnd
    exact hnd
  exact h1.sublist (List.Sublist.map _ (List.filter_sublist _))

/-- In a ledger without a repeated id, an entry is in the done-list for a
shard once if its bit for the shard is clear, and not at all otherwise. -/
theorem count_entries_missing_of_mem (shard : Nat)
    (L : List (prog_type × List (Nat × List Bool))) (hnd : (ledger_ids L).Nodup)
    (y : Nat × prog_type × List Bool) (hy : y ∈ ledger_entries L) :
    (entries_missing_shard shard L).count (y.1, y.2.1) =
      if bit_get y.2.2 shard then 0 else 1 := by
  have hkeys : ((ledger_entries L).map (fun x => x.1)).Nodup := by
    rw [← ledger_ids_eq]
    exact hnd
  by_cases hb : bit_get y.2.2 shard = true
  · rw [if_pos hb, List.count_eq_zero, mem_entries_missing_shard]
    rintro ⟨bits, hm, hbit⟩
    have : (y.1, y.2.1, bits) = y := List.inj_on_of_nodup_map hkeys hm hy rfl
    rw [← this] at hb
    simp [hbit] at hb
  · rw [if_neg hb]
    apply count_eq_one_of_nodup_mem (entries_missing_shard_nodup shard L hnd)
    rw [mem_entries_missing_shard]
    exact ⟨y.2.2, hy, by simpa using hb⟩

theorem count_entries_missing_of_not_mem (shard : Nat)
    (L : List (prog_type × List (Nat × List Bool))) (p : Nat × prog_type)
    (hp : ∀ bits, (p.1, p.2, bits) ∉ ledger_entries L) :
    (entries_missing_shard shard L).count p = 0 := by
  rw [List.count_eq_zero, mem_entries_missing_shard]
  rintro ⟨bits, hm, _⟩
  exact hp bits hm

theorem bit_get_replicate_false (n i : Nat) : bit_get (List.replicate n false) i = false := by
  unfold bit_get
  rw [List.getD_eq_getElem?_getD, List.getElem?_replicate]
  split <;> rfl

/-- One handled event keeps the ledger and the done-lists sent so far in
agreement; and an entry that the event removes from the ledger has by then
been listed exactly once for every shard. -/
theorem step_ledger_inv {c : Consts} {vts s : timestamper} {e : event} {pre msgs : List sent}
    (hinv : LedgerInv c vts pre) (h : step c vts e = some (s, msgs)) :
    LedgerInv c s (pre ++ msgs) ∧
    ∀ x ∈ ledger_entries vts.done_reqs,
      (∃ bits, (x.1, x.2.1, bits) ∈ ledger_entries s.done_reqs) ∨
      ∀ sh, sh < c.NUM_SHARDS → done_list_count c sh (x.1, x.2.1) (pre ++ msgs) = 1 := by
  obtain ⟨hnd, hseen, hlen, htd, hcnt, hfree⟩ := hinv
  have hmono : ∀ x, x ∈ vts.seen_done_id → x ∈ s.seen_done_id :=
    fun x hx => step_seen_mono h hx
  rcases step_ledger_shape h with ⟨hL, hT, hm⟩ | ⟨type, id, hnot, hs, hL, hT, hm⟩ |
    ⟨req_id, gm, hany, hL, hT, hmsgs, hgm⟩
  · have hc : ∀ sh p, done_list_count c sh p (pre ++ msgs) = done_list_count c sh p pre := by
      intro sh p
      rw [done_list_count_append, done_list_count_zero c sh p msgs (hm sh)]
      rfl
    refine ⟨⟨by rw [hL]; exact hnd, ?_, by rw [hL]; exact hlen, by rw [hT]; exact htd, ?_, ?_⟩, ?_⟩
    · intro x hx
      rw [hL] at hx
      exact hmono x (hseen x hx)
    · intro x hx sh hsh
      rw [hL] at hx
      rw [hc]
      exact hcnt x hx sh hsh
    · intro p hp
      rw [hL] at hp
      rcases hfree p hp with h0 | ⟨h1, h2⟩
      · left
        intro sh hsh
        rw [hc]
        exact h0 sh hsh
      · right
        refine ⟨hmono _ h1, ?_⟩
        intro sh hsh
        rw [hc]
        exact h2 sh hsh
    · intro x hx
      left
      rw [hL]
      exact ⟨x.2.2, hx⟩
  · have hc : ∀ sh p, done_list_count c sh p (pre ++ msgs) = done_list_count c sh p pre := by
      intro sh p
      rw [done_list_count_append, done_list_count_zero c sh p msgs (hm sh)]
      rfl
    have hidL : id ∉ ledger_ids vts.done_reqs := fun hin => hnot (hseen id hin)
    have hperm := ledger_entries_emplace c.NUM_SHARDS type id vts.done_reqs hidL
    rw [← hL] at hperm
    have hmem : ∀ x, x ∈ ledger_entries s.done_reqs ↔
        x = (id, type, List.replicate c.NUM_SHARDS false) ∨ x ∈ ledger_entries vts.done_reqs := by
      intro x
      rw [hperm.mem_iff, List.mem_cons]
    have hids : List.Perm (ledger_ids s.done_reqs) (id :: ledger_ids vts.done_reqs) := by
      rw [ledger_ids_eq, ledger_ids_eq]
      exact hperm.map _
    have hnew0 : ∀ sh, sh < c.NUM_SHARDS → done_list_count c sh (id, type) pre = 0 := by
      have hno : ∀ bits, ((id, type).1, (id, type).2, bits) ∉ ledger_entries vts.done_reqs := by
        intro bits hin
        apply hidL
        rw [ledger_ids_eq]
        exact List.mem_map.2 ⟨_, hin, rfl⟩
      rcases hfree (id, type) hno with h0 | ⟨h1, _⟩
      · exact h0
      · exact absurd h1 hnot
    refine ⟨⟨?_, ?_, ?_, by rw [hT]; exact htd, ?_, ?_⟩, ?_⟩
    · rw [hids.nodup_iff]
      exact List.nodup_cons.2 ⟨hidL, hnd⟩
    · intro x hx
      rw [hids.mem_iff, List.mem_cons] at hx
      rw [hs]
      rcases hx with hx | hx
      · rw [hx]
        exact List.mem_cons_self _ _
      · exact List.mem_cons_of_mem _ (hseen x hx)
    · intro x hx
      rcases (hmem x).1 hx with hx | hx
      · rw [hx]
        simp
      · exact hlen x hx
    · intro x hx sh hsh
      rw [hc]
      rcases (hmem x).1 hx with hx | hx
      · rw [hx]
        simp only [bit_get_replicate_false]
        exact hnew0 sh hsh
      · exact hcnt x hx sh hsh
    · intro p hp
      have hp2 : ∀ bits, (p.1, p.2, bits) ∉ ledger_entries vts.done_reqs :=
        fun bits hin => hp bits ((hmem _).2 (Or.inr hin))
      rcases hfree p hp2 with h0 | ⟨h1, h2⟩
      · left
        intro sh hsh
        rw [hc]
        exact h0 sh hsh
      · right
        refine ⟨hmono _ h1, ?_⟩
        intro sh hsh
        rw [hc]
        exact h2 sh hsh
    · intro x hx
      left
      exact ⟨x.2.2, (hmem x).2 (Or.inr hx)⟩
  · -- a timer iteration that sends NOPs
    have hLa : s.done_reqs = ledger_after_tick vts.to_nop c.NUM_SHARDS vts.done_reqs := by
      rw [hL]
      exact nop_ledger_fst vts.to_nop c.NUM_SHARDS vts.done_reqs _ [] hnd (by simp)
    have hE := ledger_entries_after_tick vts.to_nop c.NUM_SHARDS vts.done_reqs
    rw [← hLa] at hE
    have hkeys : ((ledger_entries vts.done_reqs).map (fun x => x.1)).Nodup := by
      rw [← ledger_ids_eq]
      exact hnd
    have hc : ∀ sh p, sh < c.NUM_SHARDS → done_list_count c sh p (pre ++ msgs) =
        done_list_count c sh p pre +
          if bit_get vts.to_nop sh = true then
            (entries_missing_shard sh vts.done_reqs).count p
          else 0 := by
      intro sh p hsh
      rw [done_list_count_append, hmsgs, done_list_count_append,
        done_list_count_zero c sh p gm (hgm sh), done_list_count_nop_messages, add_zero]
      by_cases hb : bit_get vts.to_nop sh = true
      · rw [if_pos ⟨hsh, hb⟩, if_pos hb]
        have hbump := nop_bump_snd vts.to_nop vts.qts vts.timer_done_reqs sh c.NUM_SHARDS
        rw [if_pos ⟨hsh, hb⟩] at hbump
        have hled := (nop_ledger_snd vts.to_nop c.NUM_SHARDS vts.done_reqs
          (nop_bump vts.to_nop c.NUM_SHARDS vts.qts vts.timer_done_reqs).2 []).2 sh
          (by rw [hbump.1, htd]; exact hsh)
        rw [hbump.2, if_pos ⟨hsh, hb⟩, List.nil_append] at hled
        rw [hled]
      · rw [if_neg (fun hh => hb hh.2), if_neg hb]
    have hupd : ∀ y ∈ ledger_entries vts.done_reqs, ∀ sh, sh < c.NUM_SHARDS →
        done_list_count c sh (y.1, y.2.1) (pre ++ msgs) =
          if bit_get (nop_reply_bits vts.to_nop c.NUM_SHARDS y.2.2) sh then 1 else 0 := by
      intro y hy sh hsh
      rw [hc sh _ hsh, hcnt y hy sh hsh, count_entries_missing_of_mem sh _ hnd y hy,
        nop_reply_bits_get vts.to_nop y.2.2 sh (by rw [hlen y hy]; exact hsh)]
      cases h1 : bit_get y.2.2 sh <;> cases h2 : bit_get vts.to_nop sh <;> simp [hsh]
    have hgone : ∀ y ∈ ledger_entries vts.done_reqs,
        (∀ bits, (y.1, y.2.1, bits) ∉ ledger_entries s.done_reqs) →
        ∀ sh, sh < c.NUM_SHARDS → done_list_count c sh (y.1, y.2.1) (pre ++ msgs) = 1 := by
      intro y hy hno sh hsh
      have hall : bits_all c.NUM_SHARDS (nop_reply_bits vts.to_nop c.NUM_SHARDS y.2.2) = true := by
        by_contra hna
        apply hno (nop_reply_bits vts.to_nop c.NUM_SHARDS y.2.2)
        rw [hE]
        exact List.mem_filter.2 ⟨List.mem_map.2 ⟨y, hy, rfl⟩, by simpa using hna⟩
      rw [hupd y hy sh hsh, (bits_all_iff _ _).1 hall sh hsh]
      rfl
    have hsub : ∀ x ∈ ledger_entries s.done_reqs, ∃ y ∈ ledger_entries vts.done_reqs,
        x = (y.1, y.2.1, nop_reply_bits vts.to_nop c.NUM_SHARDS y.2.2) := by
      intro x hx
      rw [hE] at hx
      obtain ⟨y, hy, rfl⟩ := List.mem_map.1 (List.mem_filter.1 hx).1
      exact ⟨y, hy, rfl⟩
    have hidsub : List.Sublist (ledger_ids s.done_reqs) (ledger_ids vts.done_reqs) := by
      rw [ledger_ids_eq, ledger_ids_eq, hE]
      have h1 : List.Sublist
          (List.map (fun x => x.1) (List.filter (fun x => !bits_all c.NUM_SHARDS x.2.2)
            (List.map (fun x => (x.1, x.2.1, nop_reply_bits vts.to_nop c.NUM_SHARDS x.2.2))
              (ledger_entries vts.done_reqs))))
          (List.map (fun x => x.1)
            (List.map (fun x => (x.1, x.2.1, nop_reply_bits vts.to_nop c.NUM_SHARDS x.2.2))
              (ledger_entries vts.done_reqs))) :=
        List.Sublist.map _ (List.filter_sublist _)
      rw [List.map_map] at h1
      exact h1
    refine ⟨⟨hnd.sublist hidsub, ?_, ?_, ?_, ?_, ?_⟩, ?_⟩
    · intro x hx
      exact hmono x (hseen x (hidsub.subset hx))
    · intro x hx
      obtain ⟨y, hy, rfl⟩ := hsub x hx
      show (nop_reply_bits vts.to_nop c.NUM_SHARDS y.2.2).length = _
      rw [nop_reply_bits_length]
      exact hlen y hy
    · rw [hT, (nop_ledger_snd vts.to_nop c.NUM_SHARDS vts.done_reqs _ []).1,
        (nop_bump_snd vts.to_nop vts.qts vts.timer_done_reqs 0 c.NUM_SHARDS).1]
      exact htd
    · intro x hx sh hsh
      obtain ⟨y, hy, rfl⟩ := hsub x hx
      exact hupd y hy sh hsh
    · intro p hp
      by_cases hold : ∃ bits, (p.1, p.2, bits) ∈ ledger_entries vts.done_reqs
      · obtain ⟨bits, hin⟩ := hold
        right
        refine ⟨hmono _ (hseen _ ?_), ?_⟩
        · rw [ledger_ids_eq]
          exact List.mem_map.2 ⟨_, hin, rfl⟩
        · exact hgone (p.1, p.2, bits) hin hp
      · have hno : ∀ bits, (p.1, p.2, bits) ∉ ledger_entries vts.done_reqs :=
          fun bits hin => hold ⟨bits, hin⟩
        have hz : ∀ sh, sh < c.NUM_SHARDS →
            done_list_count c sh p (pre ++ msgs) = done_list_count c sh p pre := by
          intro sh hsh
          rw [hc sh p hsh, count_entries_missing_of_not_mem sh _ p hno]
          simp
        rcases hfree p hno with h0 | ⟨h1, h2⟩
        · left
          intro sh hsh
          rw [hz sh hsh]
          exact h0 sh hsh
        · right
          refine ⟨hmono _ h1, ?_⟩
          intro sh hsh
          rw [hz sh hsh]
          exact h2 sh hsh
    · intro x hx
      by_cases hex : ∃ bits, (x.1, x.2.1, bits) ∈ ledger_entries s.done_reqs
      · exact Or.inl hex
      · exact Or.inr (hgone x hx (fun bits hin => hex ⟨bits, hin⟩))

theorem ledger_inv_init (c : Consts) (m0 : Nat) (clk0 : vclock_t) :
    LedgerInv c (init c m0 clk0) [] := by
  refine ⟨?_, ?_, ?_, ?_, ?_, ?_⟩
  · simp [init, ledger_ids]
  · intro x hx
    simp [init, ledger_ids] at hx
  · intro x hx
    simp [init, ledger_entries] at hx
  · simp [init]
  · intro x hx
    simp [init, ledger_entries] at hx
  · intro p _
    left
    intro sh _
    rfl

theorem run_ledger_inv (c : Consts) :
    ∀ (t : List event) (vts s : timestamper) (pre msgs : List sent),
      LedgerInv c vts pre → run c vts t = some (s, msgs) → LedgerInv c s (pre ++ msgs) := by
  intro t
  induction t with
  | nil =>
    intro vts s pre msgs hinv hrun
    simp only [run, Option.some.injEq, Prod.mk.injEq] at hrun
    rw [← hrun.1, ← hrun.2, List.append_nil]
    exact hinv
  | cons e es ih =>
    intro vts s pre msgs hinv hrun
    obtain ⟨s1, m1, m2, hstep, hrest, hm⟩ := run_cons hrun
    have h1 := (step_ledger_inv hinv hstep).1
    have h2 := ih s1 s (pre ++ m1) m2 h1 hrest
    rw [hm, ← List.append_assoc]
    exact h2

/-- C20: on every run from the initial state (timer iterations interleaved
with any other events), a ledger entry (request id, program type) has been
included in the done-lists sent to a shard at most once; while the entry is in
the ledger it has been included exactly when its bit for the shard is set; and
when an event removes the entry from the ledger, it has by then been included
exactly once in a done-list for every one of the `NUM_SHARDS` shards. -/
theorem done_lists_at_most_once (c : Consts) (m0 : Nat) (clk0 : vclock_t) (t : List event)
    (s : timestamper) (msgs : List sent) (p : Nat × prog_type) (shard : Nat)
    (hrun : run c (init c m0 clk0) t = some (s, msgs)) (hshard : shard < c.NUM_SHARDS) :
    done_list_count c shard p msgs ≤ 1 ∧
    (∀ bits, (p.1, p.2, bits) ∈ ledger_entries s.done_reqs →
      done_list_count c shard p msgs = if bit_get bits shard then 1 else 0) ∧
    (∀ e s1 m1, step c s e = some (s1, m1) →
      (∃ bits, (p.1, p.2, bits) ∈ ledger_entries s.done_reqs) →
      (∀ bits, (p.1, p.2, bits) ∉ ledger_entries s1.done_reqs) →
      ∀ sh, sh < c.NUM_SHARDS → done_list_count c sh p (msgs ++ m1) = 1) := by
  have hinv : LedgerInv c s ([] ++ msgs) :=
    run_ledger_inv c t (init c m0 clk0) s [] msgs (ledger_inv_init c m0 clk0) hrun
  rw [List.nil_append] at hinv
  have hcnt := hinv.2.2.2.2.1
  have hfree := hinv.2.2.2.2.2
  refine ⟨?_, ?_, ?_⟩
  · by_cases hex : ∃ bits, (p.1, p.2, bits) ∈ ledger_entries s.done_reqs
    · obtain ⟨bits, hin⟩ := hex
      have := hcnt (p.1, p.2, bits) hin shard hshard
      have h2 : done_list_count c shard p msgs = if bit_get bits shard then 1 else 0 := this
      rw [h2]
      split <;> omega
    · rcases hfree p (fun bits hin => hex ⟨bits, hin⟩) with h0 | ⟨_, h1⟩
      · rw [h0 shard hshard]
        omega
      · rw [h1 shard hshard]
  · intro bits hin
    exact hcnt (p.1, p.2, bits) hin shard hshard
  · intro e s1 m1 hstep hex hno sh hsh
    obtain ⟨bits, hin⟩ := hex
    rcases (step_ledger_inv hinv hstep).2 (p.1, p.2, bits) hin with ⟨b2, hb2⟩ | hone
    · exact absurd hb2 (hno b2)
    · exact hone sh hsh

theorem done_lists_at_most_once_witness :
    (run ⟨2, 2, 2, 0⟩ (init ⟨2, 2, 2, 0⟩ 0 [0, 0]) reply_then_tick =
        some (reply_then_tick_result.1, reply_then_tick_result.2) ∧ 0 < 2) ∧
    done_list_count ⟨2, 2, 2, 0⟩ 0 (10, .REACHABILITY) reply_then_tick_result.2 ≤ 1 :=
  ⟨⟨by decide, by decide⟩,
   (done_lists_at_most_once ⟨2, 2, 2, 0⟩ 0 [0, 0] reply_then_tick reply_then_tick_result.1
      reply_then_tick_result.2 (10, .REACHABILITY) 0 (by decide) (by decide)).1⟩

/-- In `reply_then_tick` the entry of program 10 enters the ledger with the
reply, the tick lists it once for each of the two shards, and the same tick
erases it. -/
theorem reply_then_tick_counts :
    reply_then_tick_result.1.done_reqs = [(.REACHABILITY, [])] ∧
    done_list_count ⟨2, 2, 2, 0⟩ 0 (10, .REACHABILITY) reply_then_tick_result.2 = 1 ∧
    done_list_count ⟨2, 2, 2, 0⟩ 1 (10, .REACHABILITY) reply_then_tick_result.2 = 1 := by
  refine ⟨by decide, by decide, by decide⟩

/-! ## The timer: idle ticks and clock gossip -/

theorem peer_vts_length_of_le (v : Nat) :
    ∀ n, n ≤ v → ((List.range n).filter (fun i => decide (i ≠ v))).length = n := by
  intro n hn
  have : (List.range n).filter (fun i => decide (i ≠ v)) = List.range n := by
    rw [List.filter_eq_self]
    intro i hi
    have := List.mem_range.1 hi
    have hne : i ≠ v := by omega
    simp [hne]
  rw [this, List.length_range]

theorem peer_vts_length_of_lt (v : Nat) :
    ∀ n, v < n → ((List.range n).filter (fun i => decide (i ≠ v))).length = n - 1 := by
  intro n
  induction n with
  | zero =>
    intro h
    omega
  | succ n ih =>
    intro h
    rw [List.range_succ, List.filter_append, List.length_append]
    by_cases hv : v = n
    · subst hv
      rw [peer_vts_length_of_le v v (le_refl _)]
      simp
    · have hn : n ≠ v := fun e => hv e.symm
      rw [ih (by omega)]
      simp [hn]
      omega

theorem peer_vts_spec (c : Consts) :
    (peer_vts c).Nodup ∧ (∀ i, i ∈ peer_vts c ↔ i < c.NUM_VTS ∧ i ≠ c.vt_id) ∧
    (c.vt_id < c.NUM_VTS → (peer_vts c).length = c.NUM_VTS - 1) := by
  refine ⟨(List.nodup_range c.NUM_VTS).filter _, ?_, ?_⟩
  · intro i
    unfold peer_vts
    rw [List.mem_filter, List.mem_range]
    simp
  · intro h
    exact peer_vts_length_of_lt c.vt_id c.NUM_VTS h

theorem timer_gossip_eq (c : Consts) (w : timestamper) (nop_sent : Bool) :
    timer_gossip c w nop_sent =
      if w.clock_update_acks = c.NUM_VTS - 1 ∧ c.NUM_VTS > 1 then
        ({ w with clock_update_acks := 0
                  timer_vclk := if nop_sent then w.timer_vclk else w.vclk },
         (peer_vts c).map (fun i => (i, message.VT_CLOCK_UPDATE c.vt_id
            (vec_get (if nop_sent then w.timer_vclk else w.vclk) c.vt_id))))
      else (w, []) := by
  unfold timer_gossip peer_vts
  rfl

theorem clock_updates_append (a b : List sent) :
    clock_updates (a ++ b) = clock_updates a ++ clock_updates b := by
  simp [clock_updates]

theorem clock_updates_nil_of (msgs : List sent) (h : ∀ m ∈ msgs, is_clock_update m = false) :
    clock_updates msgs = [] := by
  unfold clock_updates
  rw [List.filter_eq_nil_iff]
  intro m hm
  simp [h m hm]

theorem clock_updates_nop_messages (c : Consts) (vts : timestamper) (vclk : vclock_t)
    (qts : qtimestamp_t) (req_id : Nat) (dr : List (List (Nat × prog_type))) :
    clock_updates (nop_messages c vts vclk qts req_id dr) = [] := by
  apply clock_updates_nil_of
  intro m hm
  rw [mem_nop_messages] at hm
  obtain ⟨sh, _, _, rfl⟩ := hm
  rfl

theorem clock_updates_peers (l : List Nat) (v k : Nat) :
    clock_updates (l.map (fun i => (i, message.VT_CLOCK_UPDATE v k))) =
      l.map (fun i => (i, message.VT_CLOCK_UPDATE v k)) := by
  unfold clock_updates
  rw [List.filter_eq_self]
  intro m hm
  obtain ⟨i, _, rfl⟩ := List.mem_map.1 hm
  rfl

/-- The gossip step of a timer iteration that completes: whether it sends, to
whom, with which value, and what it does to `clock_update_acks`. -/
theorem timer_function_gossip {c : Consts} {vts s : timestamper} {req_id : Nat}
    {msgs : List sent} (h : timer_function c vts req_id = some (s, msgs)) :
    clock_updates msgs =
      (if vts.clock_update_acks = c.NUM_VTS - 1 ∧ c.NUM_VTS > 1 then
        (peer_vts c).map (fun i => (i, message.VT_CLOCK_UPDATE c.vt_id (vec_get s.vclk c.vt_id)))
      else []) ∧
    s.clock_update_acks =
      (if vts.clock_update_acks = c.NUM_VTS - 1 ∧ c.NUM_VTS > 1 then 0
      else vts.clock_update_acks) := by
  obtain ⟨s1, msgs1, nop_sent, hn, hs, hm⟩ := timer_function_shape h
  rw [timer_gossip_eq] at hs hm
  rcases timer_nop_shape hn with ⟨h1, hm1, hns, _⟩ | ⟨_, hns, h1, hm1⟩
  · subst h1
    subst hns
    subst hm1
    by_cases hc : s1.clock_update_acks = c.NUM_VTS - 1 ∧ c.NUM_VTS > 1
    · rw [if_pos hc] at hs hm
      rw [if_pos hc, if_pos hc, hm, hs, List.nil_append, clock_updates_peers]
      simp
    · rw [if_neg hc] at hs hm
      rw [if_neg hc, if_neg hc, hm, hs]
      exact ⟨rfl, rfl⟩
  · subst hns
    have hacks : s1.clock_update_acks = vts.clock_update_acks := by rw [h1]
    have htv : s1.timer_vclk = s1.vclk := by rw [h1]
    rw [hacks] at hs hm
    by_cases hc : vts.clock_update_acks = c.NUM_VTS - 1 ∧ c.NUM_VTS > 1
    · rw [if_pos hc] at hs hm
      rw [if_pos hc, if_pos hc, hm, clock_updates_append, hm1, clock_updates_nop_messages,
        List.nil_append, clock_updates_peers, hs]
      simp only [if_true, htv]
      exact ⟨trivial, trivial⟩
    · rw [if_neg hc] at hs hm
      rw [if_neg hc, if_neg hc, hm, hs, List.append_nil, hm1, clock_updates_nop_messages, hacks]
      exact ⟨rfl, rfl⟩

theorem send_tx_batches_no_clock_update (c : Consts) (ts : vclock_t) (tx_id : Nat)
    (tx_vec : List (List pending_update)) :
    ∀ m ∈ send_tx_batches c ts tx_id tx_vec, is_clock_update m = false := by
  unfold send_tx_batches
  refine foldl_mem_inv (fun (m : sent) => is_clock_update m = false) _ ?_ _ _ ?_
  · intro acc i hacc m hm
    split at hm
    · exact hacc m hm
    · rcases List.mem_append.1 hm with h1 | h1
      · exact hacc m h1
      · simp only [List.mem_singleton] at h1
        rw [h1]
        rfl
  · simp

/-- Only a timer iteration sends `VT_CLOCK_UPDATE` messages. -/
theorem step_clock_updates {c : Consts} {vts s : timestamper} {e : event} {msgs : List sent}
    (h : step c vts e = some (s, msgs)) (hne : ∀ req_id, e ≠ .timer_tick req_id) :
    clock_updates msgs = [] := by
  apply clock_updates_nil_of
  intro m hmem
  cases e with
  | CLIENT_TX_INIT tx =>
    simp only [step] at h
    cases hb : begin_transaction c vts tx with
    | none => simp [hb] at h
    | some r =>
      obtain ⟨s1, tx1, m1⟩ := r
      simp only [hb, Option.some.injEq, Prod.mk.injEq] at h
      obtain ⟨_, tx_vec, _, _, _, _, hm⟩ := begin_transaction_shape hb
      rw [← h.2, hm] at hmem
      exact send_tx_batches_no_clock_update c _ _ _ m hmem
  | CLIENT_TX_INIT_rejected sender =>
    simp only [step, Option.some.injEq, Prod.mk.injEq] at h
    rw [← h.2] at hmem
    simp only [List.mem_singleton] at hmem
    rw [hmem]
    rfl
  | TX_DONE tx_id =>
    simp only [step] at h
    unfold end_transaction at h
    cases hf : map_find vts.outstanding_tx tx_id with
    | none => simp [hf] at h
    | some e =>
      simp only [hf] at h
      split at h
      · simp only [Option.some.injEq, Prod.mk.injEq] at h
        rw [← h.2] at hmem
        simp only [List.mem_singleton] at hmem
        rw [hmem]
        rfl
      · simp only [Option.some.injEq, Prod.mk.injEq] at h
        rw [← h.2] at hmem
        simp at hmem
  | CLIENT_NODE_PROG_REQ pType args sender results id =>
    simp only [step] at h
    unfold unpack_and_start_coord at h
    cases hsc : scan_initial_args args.length args [] with
    | none => simp [hsc] at h
    | some r =>
      obtain ⟨g, mtg⟩ := r
      simp only [hsc] at h
      split at h
      · cases h
      · split at h
        · simp only [Option.some.injEq, Prod.mk.injEq] at h
          rw [← h.2] at hmem
          simp only [List.mem_map] at hmem
          obtain ⟨b, _, hb⟩ := hmem
          rw [← hb]
          rfl
        · cases h
  | NODE_PROG_RETURN type id payload =>
    simp only [step] at h
    rcases node_prog_return_shape h with ⟨_, _, hm⟩ | ⟨prog, _, _, hm⟩
    · rw [hm] at hmem
      simp at hmem
    · rw [hm] at hmem
      simp only [List.mem_singleton] at hmem
      rw [hmem]
      rfl
  | VT_CLOCK_UPDATE rec_vtid rec_clock =>
    simp only [step, vt_clock_update, Option.some.injEq, Prod.mk.injEq] at h
    rw [← h.2] at hmem
    simp only [List.mem_singleton] at hmem
    rw [hmem]
    rfl
  | VT_CLOCK_UPDATE_ACK =>
    simp only [step] at h
    cases hv : vt_clock_update_ack c vts with
    | none => simp [hv] at h
    | some w =>
      simp only [hv, Option.some.injEq, Prod.mk.injEq] at h
      rw [← h.2] at hmem
      simp at hmem
  | VT_NOP_ACK sender cnt =>
    simp only [step] at h
    cases hv : vt_nop_ack c vts sender cnt with
    | none => simp [hv] at h
    | some w =>
      simp only [hv, Option.some.injEq, Prod.mk.injEq] at h
      rw [← h.2] at hmem
      simp at hmem
  | timer_tick req_id => exact absurd rfl (hne req_id)

theorem run_clock_updates_single (c : Consts) (hone : c.NUM_VTS = 1) :
    ∀ (t : List event) (vts s : timestamper) (msgs : List sent),
      run c vts t = some (s, msgs) → clock_updates msgs = [] := by
  intro t
  induction t with
  | nil =>
    intro vts s msgs hrun
    simp only [run, Option.some.injEq, Prod.mk.injEq] at hrun
    rw [← hrun.2]
    rfl
  | cons e es ih =>
    intro vts s msgs hrun
    obtain ⟨s1, m1, m2, hstep, hrest, hm⟩ := run_cons hrun
    rw [hm, clock_updates_append, ih s1 s m2 hrest, List.append_nil]
    by_cases htick : ∃ req_id, e = .timer_tick req_id
    · obtain ⟨req_id, rfl⟩ := htick
      have hg := (timer_function_gossip (show timer_function c vts req_id = some (s1, m1)
        from hstep)).1
      rw [hg, if_neg]
      intro hc
      omega
    · exact step_clock_updates hstep (fun r hr => htick ⟨r, hr⟩)

/-- C24: a timer iteration of timestamper `vt_id < NUM_VTS` in a state where
the assertions of the NOP path hold.  The iteration completes.  It sends
`VT_CLOCK_UPDATE` messages if and only if `clock_update_acks = NUM_VTS - 1`
and `NUM_VTS > 1`; then `clock_update_acks` becomes 0 and exactly
`NUM_VTS - 1` are sent, one to every id below `NUM_VTS` other than `vt_id`,
each with the value of `vclk[vt_id]`; otherwise none is sent and the counter
stays.  With `NUM_VTS = 1` no run of the server ever sends one. -/
theorem clock_gossip_quorum (c : Consts) (vts : timestamper) (req_id : Nat)
    (hvt : c.vt_id < c.NUM_VTS) (hclk : vts.vclk.length = c.NUM_VTS)
    (hmdc : vts.max_done_clk.length = c.NUM_VTS) :
    ∃ s msgs, timer_function c vts req_id = some (s, msgs) ∧
      (clock_updates msgs ≠ [] ↔ (vts.clock_update_acks = c.NUM_VTS - 1 ∧ c.NUM_VTS > 1)) ∧
      ((vts.clock_update_acks = c.NUM_VTS - 1 ∧ c.NUM_VTS > 1) →
        s.clock_update_acks = 0 ∧
        clock_updates msgs = (peer_vts c).map
          (fun i => (i, message.VT_CLOCK_UPDATE c.vt_id (vec_get s.vclk c.vt_id))) ∧
        (clock_updates msgs).length = c.NUM_VTS - 1 ∧
        ((clock_updates msgs).map Prod.fst).Nodup ∧
        (∀ i, i ∈ (clock_updates msgs).map Prod.fst ↔ i < c.NUM_VTS ∧ i ≠ c.vt_id)) ∧
      (¬ (vts.clock_update_acks = c.NUM_VTS - 1 ∧ c.NUM_VTS > 1) →
        s.clock_update_acks = vts.clock_update_acks ∧ clock_updates msgs = []) ∧
      (c.NUM_VTS = 1 → ∀ (t : List event) (w w1 : timestamper) (out : List sent),
        run c w t = some (w1, out) → clock_updates out = []) := by
  have htot : ∃ s msgs, timer_function c vts req_id = some (s, msgs) := by
    by_cases hany : vts.to_nop.any id = true
    · obtain ⟨s, msgs, h, _⟩ := timer_function_nop_total c vts req_id hany hclk hmdc
      exact ⟨s, msgs, h⟩
    · unfold timer_function timer_nop
      rw [if_neg hany]
      exact ⟨_, _, rfl⟩
  obtain ⟨s, msgs, h⟩ := htot
  obtain ⟨hg, ha⟩ := timer_function_gossip h
  obtain ⟨hnd, hmem, hlen⟩ := peer_vts_spec c
  have hmap : ((peer_vts c).map (fun i =>
      (i, message.VT_CLOCK_UPDATE c.vt_id (vec_get s.vclk c.vt_id)))).map Prod.fst =
      peer_vts c := by
    rw [List.map_map]
    exact List.map_id _
  refine ⟨s, msgs, h, ?_, ?_, ?_, ?_⟩
  · constructor
    · intro hne
      by_contra hc
      rw [hg, if_neg hc] at hne
      exact hne rfl
    · intro hc hnil
      rw [hg, if_pos hc] at hnil
      have hl := congrArg List.length hnil
      rw [List.length_map, hlen hvt] at hl
      simp at hl
      omega
  · intro hc
    rw [if_pos hc] at hg ha
    refine ⟨ha, hg, ?_, ?_, ?_⟩
    · rw [hg, List.length_map, hlen hvt]
    · rw [hg, hmap]
      exact hnd
    · intro i
      rw [hg, hmap]
      exact hmem i
  · intro hc
    rw [if_neg hc] at hg ha
    exact ⟨ha, hg⟩
  · intro hone t w w1 out hrun
    exact run_clock_updates_single c hone t w w1 out hrun

theorem clock_gossip_quorum_witness :
    ((0 : Nat) < 2 ∧ idle_acks_complete.clock_update_acks = 1) ∧
    ∃ s msgs, timer_function ⟨2, 2, 2, 0⟩ idle_acks_complete 13 = some (s, msgs) ∧
      clock_updates msgs = [(1, message.VT_CLOCK_UPDATE 0 4)] ∧ s.clock_update_acks = 0 := by
  refine ⟨by decide, ?_⟩
  obtain ⟨s, msgs, h1, _, h3, _⟩ := clock_gossip_quorum ⟨2, 2, 2, 0⟩ idle_acks_complete 13
    (by decide) (by decide) (by decide)
  obtain ⟨h4, h5, _⟩ := h3 (by decide)
  refine ⟨s, msgs, h1, ?_, h4⟩
  rw [h5]
  have hv : s.vclk = idle_acks_complete.vclk := by
    have : timer_function ⟨2, 2, 2, 0⟩ idle_acks_complete 13 =
        some ((timer_gossip ⟨2, 2, 2, 0⟩ idle_acks_complete false).1,
          (timer_gossip ⟨2, 2, 2, 0⟩ idle_acks_complete false).2) := by decide
    rw [this] at h1
    simp only [Option.some.injEq, Prod.mk.injEq] at h1
    rw [← h1.1]
    decide
  rw [hv]
  decide

/-- C22: a timer iteration in a state where no `to_nop` bit is set.  It
completes, whatever the id `generate_id()` would return (none is taken);
every message it sends is a `VT_CLOCK_UPDATE`, so no `VT_NOP` is sent; `vclk`,
`qts`, the ledger, the mask and the timer's done-lists stay as they were; and
the gossip step runs: with `clock_update_acks = NUM_VTS - 1` and `NUM_VTS > 1`
it resets the counter and sends the clock to every peer, otherwise the whole
state is unchanged and nothing is sent. -/
theorem idle_tick_frame (c : Consts) (vts : timestamper) (req_id : Nat)
    (hidle : vts.to_nop.any id = false) :
    ∃ s msgs, timer_function c vts req_id = some (s, msgs) ∧
      (∀ r2, timer_function c vts r2 = some (s, msgs)) ∧
      (∀ m ∈ msgs, is_clock_update m = true) ∧ (∀ sh, nops_to c sh msgs = 0) ∧
      s.vclk = vts.vclk ∧ s.qts = vts.qts ∧ s.done_reqs = vts.done_reqs ∧
      s.to_nop = vts.to_nop ∧ s.timer_done_reqs = vts.timer_done_reqs ∧
      ((vts.clock_update_acks = c.NUM_VTS - 1 ∧ c.NUM_VTS > 1) →
        s = { vts with clock_update_acks := 0, timer_vclk := vts.vclk } ∧
        msgs = (peer_vts c).map
          (fun i => (i, message.VT_CLOCK_UPDATE c.vt_id (vec_get vts.vclk c.vt_id)))) ∧
      (¬ (vts.clock_update_acks = c.NUM_VTS - 1 ∧ c.NUM_VTS > 1) → s = vts ∧ msgs = []) := by
  have hfun : ∀ r, timer_function c vts r =
      some ((timer_gossip c vts false).1, (timer_gossip c vts false).2) := by
    intro r
    unfold timer_function timer_nop
    rw [if_neg (by simp [hidle])]
    simp
  refine ⟨_, _, hfun req_id, hfun, ?_⟩
  rw [timer_gossip_eq]
  by_cases hc : vts.clock_update_acks = c.NUM_VTS - 1 ∧ c.NUM_VTS > 1
  · rw [if_pos hc]
    refine ⟨?_, ?_, rfl, rfl, rfl, rfl, rfl, fun _ => ⟨rfl, rfl⟩, fun h => absurd hc h⟩
    · intro m hm
      obtain ⟨i, _, rfl⟩ := List.mem_map.1 hm
      rfl
    · intro sh
      apply nops_to_zero
      intro m hm
      obtain ⟨i, _, rfl⟩ := List.mem_map.1 hm
      rfl
  · rw [if_neg hc]
    refine ⟨by simp, fun sh => rfl, rfl, rfl, rfl, rfl, rfl, fun h => absurd h hc,
      fun _ => ⟨rfl, rfl⟩⟩

theorem idle_tick_frame_witness :
    idle_acks_complete.to_nop.any id = false ∧
    ∃ s msgs, timer_function ⟨2, 2, 2, 0⟩ idle_acks_complete 13 = some (s, msgs) ∧
      s.vclk = [4, 1] ∧ s.qts = [0, 0] ∧ ∀ sh, nops_to ⟨2, 2, 2, 0⟩ sh msgs = 0 := by
  refine ⟨by decide, ?_⟩
  obtain ⟨s, msgs, h1, _, _, h4, h5, h6, _⟩ :=
    idle_tick_frame ⟨2, 2, 2, 0⟩ idle_acks_complete 13 (by decide)
  exact ⟨s, msgs, h1, by rw [h5]; decide, by rw [h6]; decide, h4⟩

/-! ## NOPs and their acknowledgements -/

theorem bit_get_map_false (l : List Bool) (i : Nat) :
    bit_get (l.map (fun _ => false)) i = false := by
  unfold bit_get
  rw [List.getD_eq_getElem?_getD, List.getElem?_map]
  cases l[i]? <;> rfl

/-- What one handled event does to the mask `to_nop` and the node counts: it
leaves them alone and sends no NOP, or it is a `VT_NOP_ACK` that sets one bit
and one count, or it is a timer iteration that sends a NOP to every shard of
the mask and clears the mask. -/
theorem step_to_nop {c : Consts} {vts s : timestamper} {e : event} {msgs : List sent}
    (h : step c vts e = some (s, msgs)) :
    (s.to_nop = vts.to_nop ∧ s.shard_node_count = vts.shard_node_count ∧
      ∀ sh, nops_to c sh msgs = 0) ∨
    (∃ sender cnt, e = .VT_NOP_ACK sender cnt ∧ c.SHARD_ID_INCR ≤ sender ∧
      sender - c.SHARD_ID_INCR < c.NUM_SHARDS ∧
      s = { vts with
            shard_node_count := vts.shard_node_count.set (sender - c.SHARD_ID_INCR) cnt
            to_nop := bit_set vts.to_nop (sender - c.SHARD_ID_INCR) } ∧
      msgs = []) ∨
    (∃ req_id, e = .timer_tick req_id ∧ vts.to_nop.any id = true ∧
      s.to_nop = vts.to_nop.map (fun _ => false) ∧
      s.shard_node_count = vts.shard_node_count ∧
      ∀ sh, nops_to c sh msgs =
        if sh < c.NUM_SHARDS ∧ bit_get vts.to_nop sh = true then 1 else 0) := by
  have hother : (∀ req_id, e ≠ .timer_tick req_id) → ∀ sh, nops_to c sh msgs = 0 := by
    intro hne sh
    apply nops_to_zero
    rcases step_qts_shape h with ⟨tx, tx1, _, hb⟩ | ⟨req_id, he, _⟩ | ⟨_, _, hc⟩
    · obtain ⟨_, tx_vec, _, _, _, _, hm⟩ := begin_transaction_shape hb
      intro m hmem
      rw [hm] at hmem
      exact send_tx_batches_no_nop c sh _ _ _ m hmem
    · exact absurd he (hne req_id)
    · exact fun m hm => is_nop_to_control c sh m (hc m hm)
  cases e with
  | CLIENT_TX_INIT tx =>
    left
    refine ⟨?_, ?_, hother (by intro r; simp)⟩
    all_goals
      simp only [step] at h
      cases hb : begin_transaction c vts tx with
      | none => simp [hb] at h
      | some r =>
        obtain ⟨s1, tx1, m1⟩ := r
        simp only [hb, Option.some.injEq, Prod.mk.injEq] at h
        obtain ⟨_, _, _, _, hs, _, _⟩ := begin_transaction_shape hb
        rw [← h.1, hs]
  | CLIENT_TX_INIT_rejected sender =>
    left
    refine ⟨?_, ?_, hother (by intro r; simp)⟩
    all_goals
      simp only [step, Option.some.injEq, Prod.mk.injEq] at h
      rw [← h.1]
  | TX_DONE tx_id =>
    left
    refine ⟨?_, ?_, hother (by intro r; simp)⟩
    all_goals
      simp only [step] at h
      obtain ⟨o, hs⟩ := end_transaction_shape h
      rw [hs]
  | CLIENT_NODE_PROG_REQ pType args sender results id =>
    left
    refine ⟨?_, ?_, hother (by intro r; simp)⟩
    all_goals
      simp only [step] at h
      rw [unpack_and_start_coord_shape h]
      rfl
  | NODE_PROG_RETURN type id payload =>
    left
    have hm := hother (by intro r; simp)
    simp only [step] at h
    rcases node_prog_return_shape h with ⟨_, hs, _⟩ | ⟨prog, _, h2, _⟩
    · rw [hs]
      exact ⟨rfl, rfl, hm⟩
    · obtain ⟨_, hrest, _, _⟩ := mark_frame h2
      exact ⟨hrest.2.2.2.2.1, hrest.2.2.2.2.2.2.1, hm⟩
  | VT_CLOCK_UPDATE rec_vtid rec_clock =>
    left
    refine ⟨?_, ?_, hother (by intro r; simp)⟩
    all_goals
      simp only [step, vt_clock_update, Option.some.injEq, Prod.mk.injEq] at h
      rw [← h.1]
  | VT_CLOCK_UPDATE_ACK =>
    left
    refine ⟨?_, ?_, hother (by intro r; simp)⟩
    all_goals
      simp only [step, vt_clock_update_ack] at h
      by_cases hc : vts.clock_update_acks + 1 < c.NUM_VTS
      · simp only [hc, if_true, Option.some.injEq, Prod.mk.injEq] at h
        rw [← h.1]
      · simp [hc] at h
  | VT_NOP_ACK sender cnt =>
    right
    left
    simp only [step, vt_nop_ack] at h
    by_cases h1 : sender < c.SHARD_ID_INCR
    · simp [h1] at h
    · by_cases h2 : sender - c.SHARD_ID_INCR < c.NUM_SHARDS
      · simp only [h1, h2, if_true, if_false, Option.some.injEq, Prod.mk.injEq] at h
        exact ⟨sender, cnt, rfl, by omega, h2, h.1.symm, h.2.symm⟩
      · simp [h1, h2] at h
  | timer_tick req_id =>
    simp only [step] at h
    obtain ⟨s1, msgs1, nop_sent, hn, hs, hmsgs⟩ := timer_function_shape h
    obtain ⟨a, tv, hg⟩ := timer_gossip_shape c s1 nop_sent
    have hgc : ∀ sh, nops_to c sh (timer_gossip c s1 nop_sent).2 = 0 := fun sh =>
      nops_to_zero c sh _
        (fun m hm => is_nop_to_control c sh m (timer_gossip_control c s1 nop_sent m hm))
    rw [hg] at hs
    rcases timer_nop_shape hn with ⟨h1, hm1, _, _⟩ | ⟨hany, _, h1, hm1⟩
    · left
      subst hs
      subst h1
      refine ⟨rfl, rfl, ?_⟩
      intro sh
      rw [hmsgs, hm1, List.nil_append]
      exact hgc sh
    · right
      right
      refine ⟨req_id, rfl, hany, by rw [hs, h1], by rw [hs, h1], ?_⟩
      intro sh
      rw [hmsgs, nops_to_append, hgc sh, hm1, nops_to_nop_messages, add_zero]

theorem run_nops_no_ack (c : Consts) (sh : Nat) :
    ∀ (t : List event) (vts s : timestamper) (msgs : List sent),
      run c vts t = some (s, msgs) →
      (∀ cnt, event.VT_NOP_ACK (sh + c.SHARD_ID_INCR) cnt ∉ t) →
      nops_to c sh msgs ≤ (if bit_get vts.to_nop sh = true then 1 else 0) ∧
      ((bit_get vts.to_nop sh = false ∨ nops_to c sh msgs = 1) →
        bit_get s.to_nop sh = false) := by
  intro t
  induction t with
  | nil =>
    intro vts s msgs hrun _
    simp only [run, Option.some.injEq, Prod.mk.injEq] at hrun
    rw [← hrun.1, ← hrun.2]
    refine ⟨by simp [nops_to], ?_⟩
    rintro (h | h)
    · exact h
    · simp [nops_to] at h
  | cons e es ih =>
    intro vts s msgs hrun hno
    obtain ⟨s1, m1, m2, hstep, hrest, hm⟩ := run_cons hrun
    have hno2 : ∀ cnt, event.VT_NOP_ACK (sh + c.SHARD_ID_INCR) cnt ∉ es :=
      fun cnt hin => hno cnt (List.mem_cons_of_mem _ hin)
    obtain ⟨ih1, ih2⟩ := ih s1 s m2 hrest hno2
    rw [hm, nops_to_append]
    have hsame : bit_get s1.to_nop sh = bit_get vts.to_nop sh → nops_to c sh m1 = 0 →
        nops_to c sh m1 + nops_to c sh m2 ≤ (if bit_get vts.to_nop sh = true then 1 else 0) ∧
        ((bit_get vts.to_nop sh = false ∨ nops_to c sh m1 + nops_to c sh m2 = 1) →
          bit_get s.to_nop sh = false) := by
      intro hb h0
      rw [hb] at ih1 ih2
      rw [h0, Nat.zero_add]
      exact ⟨ih1, ih2⟩
    rcases step_to_nop hstep with ⟨h1, _, h0⟩ | ⟨sender, cnt, he, hge, _, hs1, _⟩ |
      ⟨req_id, _, hany, h1, _, hn⟩
    · exact hsame (by rw [h1]) (h0 sh)
    · have hne : sender ≠ sh + c.SHARD_ID_INCR := by
        intro heq
        apply hno cnt
        rw [he, heq]
        exact List.mem_cons_self _ _
      have hj : ¬ (sh = sender - c.SHARD_ID_INCR ∧ sender - c.SHARD_ID_INCR < vts.to_nop.length) := by
        intro hh
        omega
      have hb : bit_get s1.to_nop sh = bit_get vts.to_nop sh := by
        rw [hs1]
        show bit_get (bit_set vts.to_nop (sender - c.SHARD_ID_INCR)) sh = _
        rw [bit_get_set, if_neg hj]
      have h0 : nops_to c sh m1 = 0 := by
        rcases step_to_nop hstep with ⟨_, _, h0⟩ | ⟨_, _, _, _, _, _, hm0⟩ | ⟨r, her, _⟩
        · exact h0 sh
        · rw [hm0]
          rfl
        · rw [he] at her
          cases her
      exact hsame hb h0
    · have hb : bit_get s1.to_nop sh = false := by
        rw [h1]
        exact bit_get_map_false _ _
      rw [hb] at ih1 ih2
      simp only [Bool.false_eq_true, if_false, Nat.le_zero] at ih1
      rw [ih1, hn sh, Nat.add_zero]
      refine ⟨?_, fun _ => ih2 (Or.inl rfl)⟩
      by_cases hbit : bit_get vts.to_nop sh = true
      · rw [if_pos hbit]
        split <;> omega
      · rw [if_neg hbit, if_neg (fun hh => hbit hh.2)]

/-- C23: a timer iteration sends shard `i` a `VT_NOP` exactly when bit `i` of
`to_nop` is set, and one only; after an iteration that sent a NOP every bit is
clear; an event that turns bit `sh` from clear to set is a `VT_NOP_ACK` from
shard `sh`, and that handler stores the node count of its shard and touches no
other bit or count.  Hence over a run without a `VT_NOP_ACK` from `sh` the
shard gets at most one NOP, none if its bit was clear at the start, and its bit
is clear once it got one. -/
theorem nop_needs_ack (c : Consts) (vts s : timestamper) (t : List event) (msgs : List sent)
    (sh : Nat) (hrun : run c vts t = some (s, msgs))
    (hnoack : ∀ cnt, event.VT_NOP_ACK (sh + c.SHARD_ID_INCR) cnt ∉ t) :
    nops_to c sh msgs ≤ 1 ∧
    (bit_get vts.to_nop sh = false → nops_to c sh msgs = 0 ∧ bit_get s.to_nop sh = false) ∧
    (nops_to c sh msgs = 1 → bit_get s.to_nop sh = false) ∧
    (∀ (w w1 : timestamper) (r : Nat) (out : List sent),
      timer_function c w r = some (w1, out) →
      (∀ i, nops_to c i out = if i < c.NUM_SHARDS ∧ bit_get w.to_nop i = true then 1 else 0) ∧
      (w.to_nop.any id = true → ∀ i, bit_get w1.to_nop i = false) ∧
      (w.to_nop.any id = false → w1.to_nop = w.to_nop)) ∧
    (∀ (w w1 : timestamper) (e : event) (out : List sent),
      step c w e = some (w1, out) → bit_get w.to_nop sh = false →
      bit_get w1.to_nop sh = true → ∃ cnt, e = .VT_NOP_ACK (sh + c.SHARD_ID_INCR) cnt) ∧
    (∀ (w w1 : timestamper) (sender cnt : Nat),
      vt_nop_ack c w sender cnt = some w1 →
      c.SHARD_ID_INCR ≤ sender ∧ sender - c.SHARD_ID_INCR < c.NUM_SHARDS ∧
      w1 = { w with
             shard_node_count := w.shard_node_count.set (sender - c.SHARD_ID_INCR) cnt
             to_nop := bit_set w.to_nop (sender - c.SHARD_ID_INCR) } ∧
      (∀ j, j ≠ sender - c.SHARD_ID_INCR →
        bit_get w1.to_nop j = bit_get w.to_nop j ∧
        vec_get w1.shard_node_count j = vec_get w.shard_node_count j) ∧
      (sender - c.SHARD_ID_INCR < w.to_nop.length →
        bit_get w1.to_nop (sender - c.SHARD_ID_INCR) = true) ∧
      (sender - c.SHARD_ID_INCR < w.shard_node_count.length →
        vec_get w1.shard_node_count (sender - c.SHARD_ID_INCR) = cnt)) := by
  obtain ⟨h1, h2⟩ := run_nops_no_ack c sh t vts s msgs hrun hnoack
  refine ⟨?_, ?_, ?_, ?_, ?_, ?_⟩
  · split at h1 <;> omega
  · intro hb
    rw [hb] at h1
    simp only [Bool.false_eq_true, if_false, Nat.le_zero] at h1
    exact ⟨h1, h2 (Or.inl hb)⟩
  · intro hone
    exact h2 (Or.inr hone)
  · intro w w1 r out htf
    have hstep : step c w (.timer_tick r) = some (w1, out) := htf
    rcases step_to_nop hstep with ⟨ht, _, h0⟩ | ⟨_, _, he, _⟩ | ⟨_, _, hany, ht, _, hn⟩
    · have hidle : w.to_nop.any id = false := by
        by_contra hany
        have hany2 : w.to_nop.any id = true := by simpa using hany
        obtain ⟨s1, msgs1, nop_sent, hnop, hs, hmsgs⟩ := timer_function_shape htf
        obtain ⟨a, tv, hg⟩ := timer_gossip_shape c s1 nop_sent
        rw [hg] at hs
        rcases timer_nop_shape hnop with ⟨_, _, _, hf⟩ | ⟨_, _, hs1, _⟩
        · rw [hf] at hany2
          cases hany2
        · rw [hs, hs1] at ht
          have ht2 : w.to_nop.map (fun _ => false) = w.to_nop := ht
          rw [← ht2] at hany2
          simp at hany2
      refine ⟨?_, ?_, fun _ => ht⟩
      · intro i
        rw [h0 i, if_neg]
        rintro ⟨_, hb⟩
        have : w.to_nop.any id = true := by
          rw [List.any_eq_true]
          refine ⟨true, ?_, rfl⟩
          unfold bit_get at hb
          rw [List.getD_eq_getElem?_getD] at hb
          cases hg : w.to_nop[i]? with
          | none => simp [hg] at hb
          | some b =>
            simp only [hg, Option.getD_some] at hb
            subst hb
            exact List.getElem?_mem hg
        rw [hidle] at this
        cases this
      · intro hany
        rw [hidle] at hany
        cases hany
    · cases he
    · refine ⟨hn, ?_, ?_⟩
      · intro _ i
        rw [ht]
        exact bit_get_map_false _ _
      · intro hidle
        rw [hidle] at hany
        cases hany
  · intro w w1 e out hstep hb0 hb1
    rcases step_to_nop hstep with ⟨ht, _, _⟩ | ⟨sender, cnt, he, hge, _, hs1, _⟩ |
      ⟨_, _, _, ht, _, _⟩
    · rw [ht, hb0] at hb1
      cases hb1
    · refine ⟨cnt, ?_⟩
      rw [he]
      have hbit : bit_get (bit_set w.to_nop (sender - c.SHARD_ID_INCR)) sh = true := by
        rw [hs1] at hb1
        exact hb1
      rw [bit_get_set] at hbit
      by_cases hj : sh = sender - c.SHARD_ID_INCR ∧ sender - c.SHARD_ID_INCR < w.to_nop.length
      · have : sender = sh + c.SHARD_ID_INCR := by omega
        rw [this]
      · rw [if_neg hj, hb0] at hbit
        cases hbit
    · rw [ht, bit_get_map_false] at hb1
      cases hb1
  · intro w w1 sender cnt hack
    have hstep : step c w (.VT_NOP_ACK sender cnt) = some (w1, []) := by
      simp only [step, hack]
    rcases step_to_nop hstep with ⟨_, _, _⟩ | ⟨sender2, cnt2, he, hge, hlt, hs1, _⟩ |
      ⟨_, he, _⟩
    · unfold vt_nop_ack at hack
      by_cases h1 : sender < c.SHARD_ID_INCR
      · simp [h1] at hack
      · by_cases h2 : sender - c.SHARD_ID_INCR < c.NUM_SHARDS
        · simp only [h1, h2, if_true, if_false, Option.some.injEq] at hack
          refine ⟨by omega, h2, hack.symm, ?_, ?_, ?_⟩
          · intro j hj
            rw [← hack]
            refine ⟨?_, ?_⟩
            · show bit_get (bit_set w.to_nop (sender - c.SHARD_ID_INCR)) j = _
              rw [bit_get_set, if_neg (fun hh => hj hh.1)]
            · show vec_get (w.shard_node_count.set (sender - c.SHARD_ID_INCR) cnt) j = _
              rw [vec_get_set, if_neg (fun hh => hj hh.1)]
          · intro hl
            rw [← hack]
            show bit_get (bit_set w.to_nop (sender - c.SHARD_ID_INCR)) _ = _
            rw [bit_get_set, if_pos ⟨rfl, hl⟩]
          · intro hl
            rw [← hack]
            show vec_get (w.shard_node_count.set (sender - c.SHARD_ID_INCR) cnt) _ = _
            rw [vec_get_set, if_pos ⟨rfl, hl⟩]
        · simp [h1, h2] at hack
    · cases he
      refine ⟨hge, hlt, hs1, ?_, ?_, ?_⟩
      · intro j hj
        rw [hs1]
        refine ⟨?_, ?_⟩
        · show bit_get (bit_set w.to_nop (sender - c.SHARD_ID_INCR)) j = _
          rw [bit_get_set, if_neg (fun hh => hj hh.1)]
        · show vec_get (w.shard_node_count.set (sender - c.SHARD_ID_INCR) cnt) j = _
          rw [vec_get_set, if_neg (fun hh => hj hh.1)]
      · intro hl
        rw [hs1]
        show bit_get (bit_set w.to_nop (sender - c.SHARD_ID_INCR)) _ = _
        rw [bit_get_set, if_pos ⟨rfl, hl⟩]
      · intro hl
        rw [hs1]
        show vec_get (w.shard_node_count.set (sender - c.SHARD_ID_INCR) cnt) _ = _
        rw [vec_get_set, if_pos ⟨rfl, hl⟩]
    · cases he

theorem nop_needs_ack_witness :
    (run ⟨2, 2, 2, 0⟩ shard_one_due ticks_without_ack =
        some (ticks_without_ack_result.1, ticks_without_ack_result.2) ∧
      ∀ cnt, event.VT_NOP_ACK (1 + 2) cnt ∉ ticks_without_ack) ∧
    nops_to ⟨2, 2, 2, 0⟩ 1 ticks_without_ack_result.2 ≤ 1 :=
  ⟨⟨by decide, by intro cnt; simp [ticks_without_ack]⟩,
   (nop_needs_ack ⟨2, 2, 2, 0⟩ shard_one_due ticks_without_ack_result.1 ticks_without_ack
      ticks_without_ack_result.2 1 (by decide) (by intro cnt; simp [ticks_without_ack])).1⟩

/-- In `ticks_without_ack` the first tick sends shard 1 its NOP and clears the
mask; the second tick, with no acknowledgement in between, sends none. -/
theorem ticks_without_ack_counts :
    nops_to ⟨2, 2, 2, 0⟩ 1 ticks_without_ack_result.2 = 1 ∧
    nops_to ⟨2, 2, 2, 0⟩ 0 ticks_without_ack_result.2 = 0 ∧
    ticks_without_ack_result.1.to_nop = [false, false] := by
  refine ⟨by decide, by decide, by decide⟩

/-! ## Fan-out of node programs -/

theorem batch_add_fresh (m : List (Nat × List (Nat × Nat))) (loc : Nat) (a : Nat × Nat)
    (h : loc ∉ m.map Prod.fst) : batch_add m loc a = m ++ [(loc, [a])] := by
  induction m with
  | nil => rfl
  | cons kv m ih =>
    obtain ⟨k, b⟩ := kv
    simp only [List.map_cons, List.mem_cons, not_or] at h
    have hk : ¬ k = loc := fun e => h.1 e.symm
    simp only [batch_add, hk, if_false, List.cons_append, ih h.2]

theorem global_batches (incr : Nat) (a : Nat × Nat) :
    ∀ n, (List.range n).foldl (fun m i => batch_add m (i + incr) a) [] =
      (List.range n).map (fun i => (i + incr, [a])) := by
  intro n
  induction n with
  | zero => rfl
  | succ n ih =>
    rw [List.range_succ, List.foldl_append, ih, List.map_append]
    simp only [List.foldl_cons, List.foldl_nil, List.map_cons, List.map_nil]
    apply batch_add_fresh
    rw [List.map_map]
    intro hin
    obtain ⟨i, hi, he⟩ := List.mem_map.1 hin
    have := List.mem_range.1 hi
    simp only [Function.comp] at he
    omega

/-- C25: a node-program request whose single initial argument carries the
sentinel handle, in a state whose clock has `NUM_VTS` entries.  The handler
completes: the clock is advanced once, the program is registered once under
`req_id` with that clock (a new entry of `outstanding_progs` when the id is
new) and pushed on `pend_prog_queue`, and exactly `NUM_SHARDS` `NODE_PROG`
messages are sent, one to each shard `i + SHARD_ID_INCR`, each flagged global,
with the same id and timestamp and a batch holding the argument once. -/
theorem global_prog_fanout (c : Consts) (vts : timestamper) (pType : prog_type)
    (arg : Nat × Nat) (clientID : Nat) (results : List (Nat × Nat)) (req_id : Nat)
    (hglobal : arg.1 = MAX_UINT64) (hclk : vts.vclk.length = c.NUM_VTS) :
    ∃ s msgs, unpack_and_start_coord c vts pType [arg] clientID results req_id =
        some (s, msgs) ∧
      msgs = (List.range c.NUM_SHARDS).map (fun i =>
        (i + c.SHARD_ID_INCR,
          message.NODE_PROG pType true c.vt_id (increment_clock c vts.vclk) req_id [arg])) ∧
      msgs.length = c.NUM_SHARDS ∧
      (msgs.map Prod.fst).Nodup ∧
      (∀ d, d ∈ msgs.map Prod.fst ↔ ∃ i, i < c.NUM_SHARDS ∧ d = i + c.SHARD_ID_INCR) ∧
      s = register_prog { vts with vclk := increment_clock c vts.vclk } req_id clientID
        (increment_clock c vts.vclk) ∧
      s.vclk = increment_clock c vts.vclk ∧
      s.pend_prog_queue = req_id :: vts.pend_prog_queue ∧
      (map_find vts.outstanding_progs req_id = none →
        s.outstanding_progs = vts.outstanding_progs ++
          [(req_id, { client := clientID, vclk := increment_clock c vts.vclk })]) := by
  have hlen : (increment_clock c vts.vclk).length = c.NUM_VTS := by
    unfold increment_clock
    rw [vec_incr_length, hclk]
  have hrun : unpack_and_start_coord c vts pType [arg] clientID results req_id =
      some (register_prog { vts with vclk := increment_clock c vts.vclk } req_id clientID
          (increment_clock c vts.vclk),
        (List.range c.NUM_SHARDS).map (fun i =>
          (i + c.SHARD_ID_INCR,
            message.NODE_PROG pType true c.vt_id (increment_clock c vts.vclk) req_id [arg]))) := by
    unfold unpack_and_start_coord
    simp only [scan_initial_args, hglobal, if_true, List.isEmpty_nil, List.length_singleton,
      and_self, hlen, List.length_nil, ne_eq, not_true_eq_false, Bool.not_eq_true,
      false_and, if_false, Bool.true_eq_false, reduceCtorEq, not_false_eq_true, true_and]
    have hb := global_batches c.SHARD_ID_INCR ([arg].getD 0 (0, 0)) c.NUM_SHARDS
    rw [hb, List.map_map]
    rfl
  have hdest : ((List.range c.NUM_SHARDS).map (fun i =>
      (i + c.SHARD_ID_INCR,
        message.NODE_PROG pType true c.vt_id (increment_clock c vts.vclk) req_id [arg]))).map
      Prod.fst = (List.range c.NUM_SHARDS).map (fun i => i + c.SHARD_ID_INCR) := by
    rw [List.map_map]
    rfl
  refine ⟨_, _, hrun, rfl, by simp, ?_, ?_, rfl, rfl, rfl, ?_⟩
  · rw [hdest]
    exact (List.nodup_range _).map (fun a b hab => by omega)
  · intro d
    rw [hdest, List.mem_map]
    constructor
    · rintro ⟨i, hi, rfl⟩
      exact ⟨i, List.mem_range.1 hi, rfl⟩
    · rintro ⟨i, hi, rfl⟩
      exact ⟨i, List.mem_range.2 hi, rfl⟩
  · intro hfresh
    show map_emplace vts.outstanding_progs req_id _ = _
    unfold map_emplace
    rw [hfresh]

theorem global_prog_fanout_witness :
    (((MAX_UINT64, 4) : Nat × Nat).1 = MAX_UINT64 ∧
      (init ⟨2, 2, 2, 0⟩ 0 [0, 0]).vclk.length = 2) ∧
    ∃ s msgs, unpack_and_start_coord ⟨2, 2, 2, 0⟩ (init ⟨2, 2, 2, 0⟩ 0 [0, 0]) .TRIANGLE_COUNT
        [(MAX_UINT64, 4)] 7 [] 10 = some (s, msgs) ∧
      msgs = [(2, message.NODE_PROG .TRIANGLE_COUNT true 0 [1, 0] 10 [(MAX_UINT64, 4)]),
              (3, message.NODE_PROG .TRIANGLE_COUNT true 0 [1, 0] 10 [(MAX_UINT64, 4)])] := by
  refine ⟨⟨rfl, by decide⟩, ?_⟩
  obtain ⟨s, msgs, h1, h2, _⟩ := global_prog_fanout ⟨2, 2, 2, 0⟩ (init ⟨2, 2, 2, 0⟩ 0 [0, 0])
    .TRIANGLE_COUNT (MAX_UINT64, 4) 7 [] 10 rfl (by decide)
  refine ⟨s, msgs, h1, ?_⟩
  rw [h2]
  rfl

theorem batch_add_keys (m : List (Nat × List (Nat × Nat))) (loc : Nat) (a : Nat × Nat) :
    (batch_add m loc a).map Prod.fst =
      if loc ∈ m.map Prod.fst then m.map Prod.fst else m.map Prod.fst ++ [loc] := by
  induction m with
  | nil => simp [batch_add]
  | cons kv m ih =>
    obtain ⟨k, b⟩ := kv
    by_cases hk : k = loc
    · subst hk
      simp [batch_add]
    · have hk2 : ¬ loc = k := fun e => hk e.symm
      simp only [batch_add, hk, if_false, List.map_cons, ih, List.mem_cons, hk2, false_or]
      split <;> simp

theorem map_find_batch_add (m : List (Nat × List (Nat × Nat))) (loc : Nat) (a : Nat × Nat)
    (k : Nat) :
    map_find (batch_add m loc a) k =
      if k = loc then some ((map_find m loc).getD [] ++ [a]) else map_find m k := by
  induction m with
  | nil =>
    by_cases hk : k = loc
    · subst hk
      simp [batch_add, map_find]
    · have hk2 : ¬ loc = k := fun e => hk e.symm
      simp [batch_add, map_find, hk, hk2]
  | cons kv m ih =>
    obtain ⟨x, b⟩ := kv
    by_cases hx : x = loc
    · subst hx
      by_cases hk : k = x
      · subst hk
        simp [batch_add, map_find]
      · have hk2 : ¬ x = k := fun e => hk e.symm
        simp [batch_add, map_find, hk, hk2]
    · by_cases hk : k = loc
      · subst hk
        simp only [batch_add, hx, if_false, map_find, ih, if_true]
      · by_cases hxk : x = k
        · subst hxk
          simp [batch_add, hx, map_find]
        · simp only [batch_add, hx, if_false, map_find, hxk, ih, hk]

theorem map_find_of_mem_nodup {β : Type} {m : List (Nat × β)} {k : Nat} {v : β}
    (hnd : (m.map Prod.fst).Nodup) (h : (k, v) ∈ m) : map_find m k = some v := by
  induction m with
  | nil => simp at h
  | cons kv m ih =>
    obtain ⟨x, b⟩ := kv
    simp only [List.map_cons, List.nodup_cons] at hnd
    rcases List.mem_cons.1 h with h | h
    · simp only [Prod.mk.injEq] at h
      simp [map_find, h.1, h.2]
    · have hx : ¬ x = k := by
        intro e
        apply hnd.1
        rw [e]
        exact List.mem_map.2 ⟨(k, v), h, rfl⟩
      simp only [map_find, hx, if_false]
      exact ih hnd.2 h

/-- The loop that fills `initial_batches`, in closed form: the keys are
distinct, and the batch of a shard is the list of the arguments that map to
it, in their order; a shard no argument maps to has no batch. -/
theorem group_batches_spec (loc : Nat × Nat → Nat) :
    ∀ (rest pre : List (Nat × Nat)) (m : List (Nat × List (Nat × Nat))),
      (m.map Prod.fst).Nodup →
      (∀ k, map_find m k =
        if pre.filter (fun a => decide (loc a = k)) = [] then none
        else some (pre.filter (fun a => decide (loc a = k)))) →
      ((rest.foldl (fun m arg => batch_add m (loc arg) arg) m).map Prod.fst).Nodup ∧
      ∀ k, map_find (rest.foldl (fun m arg => batch_add m (loc arg) arg) m) k =
        if (pre ++ rest).filter (fun a => decide (loc a = k)) = [] then none
        else some ((pre ++ rest).filter (fun a => decide (loc a = k))) := by
  intro rest
  induction rest with
  | nil =>
    intro pre m hnd hm
    simp only [List.foldl_nil, List.append_nil]
    exact ⟨hnd, hm⟩
  | cons a rest ih =>
    intro pre m hnd hm
    have hnd2 : ((batch_add m (loc a) a).map Prod.fst).Nodup := by
      rw [batch_add_keys]
      split
      · exact hnd
      · rename_i hni
        rw [List.nodup_append]
        refine ⟨hnd, List.nodup_singleton _, ?_⟩
        intro x hx hx2
        simp only [List.mem_singleton] at hx2
        rw [hx2] at hx
        exact hni hx
    have hm2 : ∀ k, map_find (batch_add m (loc a) a) k =
        if (pre ++ [a]).filter (fun x => decide (loc x = k)) = [] then none
        else some ((pre ++ [a]).filter (fun x => decide (loc x = k))) := by
      intro k
      rw [map_find_batch_add, List.filter_append]
      by_cases hk : k = loc a
      · subst hk
        rw [if_pos rfl, hm (loc a)]
        have hf : List.filter (fun x => decide (loc x = loc a)) [a] = [a] := by simp
        rw [hf]
        by_cases he : pre.filter (fun x => decide (loc x = loc a)) = []
        · rw [if_pos he, he]
          simp
        · rw [if_neg he]
          simp
      · have hk2 : ¬ loc a = k := fun e => hk e.symm
        have hf : List.filter (fun x => decide (loc x = k)) [a] = [] := by simp [hk2]
        rw [if_neg hk, hf, List.append_nil]
        exact hm k
    have := ih (pre ++ [a]) (batch_add m (loc a) a) hnd2 hm2
    simp only [List.append_assoc, List.singleton_append] at this
    rw [List.foldl_cons]
    exact this

theorem group_batches_find (loc : Nat × Nat → Nat) (args : List (Nat × Nat)) :
    ((group_batches loc args).map Prod.fst).Nodup ∧
    ∀ k, map_find (group_batches loc args) k =
      if args.filter (fun a => decide (loc a = k)) = [] then none
      else some (args.filter (fun a => decide (loc a = k))) := by
  have := group_batches_spec loc args [] [] (by simp) (by intro k; simp [map_find])
  simpa [group_batches] using this

theorem foldl_emplace_find (results : List (Nat × Nat)) :
    ∀ (m : List (Nat × Nat)) (h : Nat),
      map_find (results.foldl (fun m kv => map_emplace m kv.1 kv.2) m) h =
        match map_find m h with
        | some v => some v
        | none => map_find results h := by
  induction results with
  | nil =>
    intro m h
    cases hm : map_find m h <;> simp [map_find, hm]
  | cons kv rest ih =>
    intro m h
    obtain ⟨k, v⟩ := kv
    rw [List.foldl_cons, ih]
    cases hk : map_find m k with
    | some w =>
      rw [map_emplace_of_some hk]
      cases hm : map_find m h with
      | some u => rfl
      | none =>
        have hne : ¬ k = h := by
          intro e
          rw [e, hm] at hk
          cases hk
        simp [map_find, hne]
    | none =>
      rw [map_find_emplace m k h v hk]
      by_cases hhk : h = k
      · subst hhk
        simp [hk, map_find]
      · have hne : ¬ k = h := fun e => hhk e.symm
        rw [if_neg hhk]
        cases hm : map_find m h <;> simp [map_find, hne]

theorem request_mapping_eq (results : List (Nat × Nat)) (h : Nat) :
    request_mapping results h = (map_find results h).getD 0 := by
  unfold request_mapping
  rw [foldl_emplace_find]
  rfl

theorem scan_no_sentinel (n : Nat) :
    ∀ (args : List (Nat × Nat)) (mtg0 : List Nat),
      (∀ a ∈ args, a.1 ≠ MAX_UINT64) → mtg0.Nodup →
      ∃ mtg, scan_initial_args n args mtg0 = some (false, mtg) ∧ mtg.Nodup ∧
        ∀ h, h ∈ mtg ↔ h ∈ mtg0 ∨ h ∈ args.map Prod.fst := by
  intro args
  induction args with
  | nil =>
    intro mtg0 _ hnd
    exact ⟨mtg0, rfl, hnd, by simp⟩
  | cons a rest ih =>
    intro mtg0 hno hnd
    have ha : a.1 ≠ MAX_UINT64 := hno a (List.mem_cons_self _ _)
    have hnd2 : (if a.1 ∈ mtg0 then mtg0 else mtg0 ++ [a.1]).Nodup := by
      split
      · exact hnd
      · rename_i hni
        rw [List.nodup_append]
        refine ⟨hnd, List.nodup_singleton _, ?_⟩
        intro x hx hx2
        simp only [List.mem_singleton] at hx2
        rw [hx2] at hx
        exact hni hx
    obtain ⟨mtg, h1, h2, h3⟩ := ih (if a.1 ∈ mtg0 then mtg0 else mtg0 ++ [a.1])
      (fun x hx => hno x (List.mem_cons_of_mem _ hx)) hnd2
    refine ⟨mtg, ?_, h2, ?_⟩
    · simp only [scan_initial_args, ha, if_false]
      exact h1
    · intro h
      rw [h3 h]
      by_cases hin : a.1 ∈ mtg0
      · rw [if_pos hin]
        simp only [List.map_cons, List.mem_cons]
        constructor
        · rintro (hh | hh)
          · exact Or.inl hh
          · exact Or.inr (Or.inr hh)
        · rintro (hh | hh | hh)
          · exact Or.inl hh
          · exact Or.inl (hh ▸ hin)
          · exact Or.inr hh
      · rw [if_neg hin]
        simp only [List.map_cons, List.mem_cons, List.mem_append, List.mem_singleton,
          List.not_mem_nil, or_false]
        constructor
        · rintro ((hh | hh) | hh)
          · exact Or.inl hh
          · exact Or.inr (Or.inl hh)
          · exact Or.inr (Or.inr hh)
        · rintro (hh | hh | hh)
          · exact Or.inl (Or.inl hh)
          · exact Or.inl (Or.inr hh)
          · exact Or.inr hh

/-- A regular node program, as `unpack_and_start_coord` handles it: when no
argument carries the sentinel and the name mapper returns one result per
distinct handle, the handler completes, registers the program once and sends
one `NODE_PROG` per batch of `group_batches`. -/
theorem unpack_and_start_coord_regular (c : Consts) (vts : timestamper) (pType : prog_type)
    (args : List (Nat × Nat)) (clientID : Nat) (results : List (Nat × Nat)) (req_id : Nat)
    (hreg : ∀ a ∈ args, a.1 ≠ MAX_UINT64)
    (hres : results.length = ((args.map Prod.fst).dedup).length)
    (hclk : vts.vclk.length = c.NUM_VTS) :
    unpack_and_start_coord c vts pType args clientID results req_id =
      some (register_prog { vts with vclk := increment_clock c vts.vclk } req_id clientID
          (increment_clock c vts.vclk),
        (group_batches (fun a => request_mapping results a.1) args).map (fun bp =>
          (bp.1, message.NODE_PROG pType false c.vt_id (increment_clock c vts.vclk) req_id
            bp.2))) := by
  have hlen : (increment_clock c vts.vclk).length = c.NUM_VTS := by
    unfold increment_clock
    rw [vec_incr_length, hclk]
  obtain ⟨mtg, hscan, hnd, hmem⟩ := scan_no_sentinel args.length args [] hreg List.nodup_nil
  have hperm : mtg.Perm ((args.map Prod.fst).dedup) := by
    rw [List.perm_ext_iff_of_nodup hnd (List.nodup_dedup _)]
    intro h
    rw [hmem h, List.mem_dedup]
    simp
  have hl : results.length = mtg.length := by rw [hres, hperm.length_eq]
  unfold unpack_and_start_coord
  rw [hscan]
  simp only [hl, ne_eq, not_true_eq_false, and_false, if_false, hlen, if_true,
    Bool.false_eq_true]
  by_cases he : mtg.isEmpty = true
  · have hargs : args = [] := by
      cases args with
      | nil => rfl
      | cons a rest =>
        have : a.1 ∈ mtg := (hmem a.1).2 (Or.inr (by simp))
        rw [List.isEmpty_iff] at he
        rw [he] at this
        simp at this
    subst hargs
    simp [he, group_batches]
  · simp only [he, Bool.false_eq_true, if_false]
    rfl

/-- C26: a regular node-program request (no argument carries the sentinel),
with one name-mapper result per distinct handle and a clock of `NUM_VTS`
entries.  The handler completes and registers the program once.  The batches
have distinct shards as keys, exactly the shards some argument maps to; the
batch of a shard is the list of the arguments that map to it, in their
original order, so every argument is in the batch of its shard and in no
other, and no batch is empty; one `NODE_PROG` is sent per batch, all with the
same id and timestamp.  A handle that the mapper resolved maps to the shard of
its result. -/
theorem regular_prog_batches (c : Consts) (vts : timestamper) (pType : prog_type)
    (args : List (Nat × Nat)) (clientID : Nat) (results : List (Nat × Nat)) (req_id : Nat)
    (hreg : ∀ a ∈ args, a.1 ≠ MAX_UINT64)
    (hres : results.length = ((args.map Prod.fst).dedup).length)
    (hclk : vts.vclk.length = c.NUM_VTS) :
    ∃ s msgs B, unpack_and_start_coord c vts pType args clientID results req_id =
        some (s, msgs) ∧
      B = group_batches (fun a => request_mapping results a.1) args ∧
      msgs = B.map (fun bp =>
        (bp.1, message.NODE_PROG pType false c.vt_id (increment_clock c vts.vclk) req_id
          bp.2)) ∧
      (B.map Prod.fst).Nodup ∧
      (∀ loc, loc ∈ B.map Prod.fst ↔ ∃ a ∈ args, request_mapping results a.1 = loc) ∧
      msgs.length = ((args.map (fun a => request_mapping results a.1)).dedup).length ∧
      (∀ bp ∈ B, bp.2 = args.filter (fun a => decide (request_mapping results a.1 = bp.1)) ∧
        bp.2 ≠ []) ∧
      (∀ a ∈ args, ∃ b, (request_mapping results a.1, b) ∈ B ∧ a ∈ b) ∧
      (∀ bp ∈ B, ∀ a ∈ bp.2, a ∈ args ∧ request_mapping results a.1 = bp.1) ∧
      ((results.map Prod.fst).Nodup → ∀ h loc, (h, loc) ∈ results →
        request_mapping results h = loc) ∧
      s = register_prog { vts with vclk := increment_clock c vts.vclk } req_id clientID
        (increment_clock c vts.vclk) := by
  have hrun := unpack_and_start_coord_regular c vts pType args clientID results req_id
    hreg hres hclk
  obtain ⟨hnd, hfind⟩ := group_batches_find (fun a => request_mapping results a.1) args
  have hkeys : ∀ loc, loc ∈ (group_batches (fun a => request_mapping results a.1) args).map
      Prod.fst ↔ ∃ a ∈ args, request_mapping results a.1 = loc := by
    intro loc
    rw [← map_find_isSome, hfind loc]
    by_cases he : args.filter (fun a => decide (request_mapping results a.1 = loc)) = []
    · rw [if_pos he]
      simp only [Option.isSome_none, Bool.false_eq_true, false_iff]
      rintro ⟨a, ha, hloc⟩
      have : a ∈ args.filter (fun a => decide (request_mapping results a.1 = loc)) :=
        List.mem_filter.2 ⟨ha, by simp [hloc]⟩
      rw [he] at this
      simp at this
    · rw [if_neg he]
      simp only [Option.isSome_some, true_iff]
      obtain ⟨a, ha⟩ := List.exists_mem_of_ne_nil _ he
      obtain ⟨h1, h2⟩ := List.mem_filter.1 ha
      exact ⟨a, h1, by simpa using h2⟩
  have hbatch : ∀ bp ∈ group_batches (fun a => request_mapping results a.1) args,
      bp.2 = args.filter (fun a => decide (request_mapping results a.1 = bp.1)) ∧
      bp.2 ≠ [] := by
    intro bp hbp
    have h1 := map_find_of_mem_nodup hnd (show (bp.1, bp.2) ∈ _ from hbp)
    rw [hfind bp.1] at h1
    by_cases he : args.filter (fun a => decide (request_mapping results a.1 = bp.1)) = []
    · rw [if_pos he] at h1
      cases h1
    · rw [if_neg he] at h1
      simp only [Option.some.injEq] at h1
      rw [← h1]
      exact ⟨rfl, he⟩
  refine ⟨_, _, _, hrun, rfl, rfl, hnd, hkeys, ?_, hbatch, ?_, ?_, ?_, rfl⟩
  · rw [List.length_map]
    have hl : (group_batches (fun a => request_mapping results a.1) args).length =
        ((group_batches (fun a => request_mapping results a.1) args).map Prod.fst).length := by
      rw [List.length_map]
    rw [hl]
    apply List.Perm.length_eq
    rw [List.perm_ext_iff_of_nodup hnd (List.nodup_dedup _)]
    intro loc
    rw [hkeys loc, List.mem_dedup, List.mem_map]
  · intro a ha
    have hne : args.filter (fun x => decide (request_mapping results x.1 =
        request_mapping results a.1)) ≠ [] := by
      intro he
      have : a ∈ args.filter (fun x => decide (request_mapping results x.1 =
          request_mapping results a.1)) := List.mem_filter.2 ⟨ha, by simp⟩
      rw [he] at this
      simp at this
    have h1 := hfind (request_mapping results a.1)
    rw [if_neg hne] at h1
    exact ⟨_, map_find_mem h1, List.mem_filter.2 ⟨ha, by simp⟩⟩
  · intro bp hbp a ha
    rw [(hbatch bp hbp).1] at ha
    obtain ⟨h1, h2⟩ := List.mem_filter.1 ha
    exact ⟨h1, by simpa using h2⟩
  · intro hrnd h loc hin
    rw [request_mapping_eq, map_find_of_mem_nodup hrnd hin]
    rfl

theorem regular_prog_batches_witness :
    ((∀ a ∈ three_start_nodes, a.1 ≠ MAX_UINT64) ∧
      three_start_nodes_mapping.length = ((three_start_nodes.map Prod.fst).dedup).length) ∧
    ∃ s msgs, unpack_and_start_coord ⟨2, 2, 2, 0⟩ (init ⟨2, 2, 2, 0⟩ 0 [0, 0]) .REACHABILITY
        three_start_nodes 7 three_start_nodes_mapping 10 = some (s, msgs) ∧
      msgs = [(3, message.NODE_PROG .REACHABILITY false 0 [1, 0] 10 [(5, 0), (7, 2)]),
              (2, message.NODE_PROG .REACHABILITY false 0 [1, 0] 10 [(6, 1)])] := by
  have h1 : ∀ a ∈ three_start_nodes, a.1 ≠ MAX_UINT64 := by
    intro a ha
    simp only [three_start_nodes, List.mem_cons, List.mem_singleton, List.not_mem_nil,
      or_false] at ha
    rcases ha with rfl | rfl | rfl <;> simp [MAX_UINT64]
  have h2 : three_start_nodes_mapping.length =
      ((three_start_nodes.map Prod.fst).dedup).length := by decide
  refine ⟨⟨h1, h2⟩, ?_⟩
  obtain ⟨s, msgs, B, hrun, hB, hm, _⟩ := regular_prog_batches ⟨2, 2, 2, 0⟩
    (init ⟨2, 2, 2, 0⟩ 0 [0, 0]) .REACHABILITY three_start_nodes 7 three_start_nodes_mapping 10
    h1 h2 (by decide)
  refine ⟨s, msgs, hrun, ?_⟩
  rw [hm, hB]
  decide

/-! ## The registry of programs and the pending queue -/

theorem map_erase_sublist {β : Type} (m : List (Nat × β)) (k : Nat) :
    (map_erase m k).Sublist m := by
  unfold map_erase
  exact List.filter_sublist _

theorem loop_outstanding_sublist : ∀ (fuel : Nat) (u s : timestamper),
    mark_req_finished_loop fuel u = some s →
    s.outstanding_progs.Sublist u.outstanding_progs := by
  have hrefl : ∀ (u s : timestamper), some u = some s →
      s.outstanding_progs.Sublist u.outstanding_progs := by
    intro u s h
    cases h
    exact List.Sublist.refl _
  intro fuel
  induction fuel with
  | zero =>
    intro u s h
    unfold mark_req_finished_loop at h
    cases hp : pq_top u.pend_prog_queue with
    | none =>
      simp only [hp] at h
      exact hrefl u s h
    | some p =>
      cases hd : pq_top u.done_prog_queue with
      | none =>
        simp only [hp, hd] at h
        exact hrefl u s h
      | some d =>
        simp only [hp, hd] at h
        by_cases hpd : p = d
        · simp [hpd] at h
        · simp only [hpd, if_false] at h
          exact hrefl u s h
  | succ n ih =>
    intro u s h
    unfold mark_req_finished_loop at h
    cases hp : pq_top u.pend_prog_queue with
    | none =>
      simp only [hp] at h
      exact hrefl u s h
    | some p =>
      cases hd : pq_top u.done_prog_queue with
      | none =>
        simp only [hp, hd] at h
        exact hrefl u s h
      | some d =>
        simp only [hp, hd] at h
        by_cases hpd : p = d
        · simp only [hpd, if_true] at h
          by_cases hlt : u.max_done_id < d
          · simp only [hlt, if_true] at h
            cases hm : map_find u.outstanding_progs d with
            | none => simp [hm] at h
            | some prog =>
              simp only [hm] at h
              exact (ih _ s h).trans (map_erase_sublist _ _)
          · simp [hlt] at h
        · simp only [hpd, if_false] at h
          exact hrefl u s h

theorem mark_outstanding_sublist {vts s : timestamper} {id : Nat}
    (h : mark_req_finished vts id = some s) :
    s.outstanding_progs.Sublist vts.outstanding_progs := by
  unfold mark_req_finished at h
  by_cases hns : id ∈ vts.seen_done_id
  · simp [hns] at h
  · simp only [hns, if_false] at h
    cases hp : pq_top vts.pend_prog_queue with
    | none => simp [hp] at h
    | some t =>
      simp only [hp] at h
      by_cases hti : t = id
      · simp only [hti, if_true] at h
        by_cases hlt : vts.max_done_id < id
        · simp only [hlt, if_true] at h
          cases hm : map_find vts.outstanding_progs id with
          | none => simp [hm] at h
          | some prog =>
            simp only [hm] at h
            exact (loop_outstanding_sublist _ _ s h).trans (map_erase_sublist _ _)
        · simp [hlt] at h
      · simp only [hti, if_false, Option.some.injEq] at h
        subst h
        exact List.Sublist.refl _

theorem map_emplace_keys_nodup {β : Type} (m : List (Nat × β)) (k : Nat) (v : β)
    (h : (m.map Prod.fst).Nodup) : ((map_emplace m k v).map Prod.fst).Nodup := by
  unfold map_emplace
  cases hf : map_find m k with
  | some w => exact h
  | none =>
    have hk : k ∉ m.map Prod.fst := (map_find_none m k).1 hf
    simp only [List.map_append, List.map_cons, List.map_nil]
    rw [List.nodup_append]
    refine ⟨h, List.nodup_singleton _, ?_⟩
    intro x hx hx2
    simp only [List.mem_singleton] at hx2
    rw [hx2] at hx
    exact hk hx

/-- One handled event keeps the keys of `outstanding_progs` distinct. -/
theorem step_outstanding_nodup {c : Consts} {vts s : timestamper} {e : event}
    {msgs : List sent} (h : step c vts e = some (s, msgs))
    (hnd : (vts.outstanding_progs.map Prod.fst).Nodup) :
    (s.outstanding_progs.map Prod.fst).Nodup := by
  rcases step_frontier h with hf | ⟨_, _, _, _, _, _, hs⟩ | ⟨_, id, _, _, _, _, hm⟩
  · rw [hf.1]
    exact hnd
  · rw [hs]
    exact map_emplace_keys_nodup _ _ _ hnd
  · exact hnd.sublist ((mark_outstanding_sublist hm).map Prod.fst)

theorem run_outstanding_nodup (c : Consts) :
    ∀ (t : List event) (vts s : timestamper) (msgs : List sent),
      run c vts t = some (s, msgs) → (vts.outstanding_progs.map Prod.fst).Nodup →
      (s.outstanding_progs.map Prod.fst).Nodup := by
  intro t
  induction t with
  | nil =>
    intro vts s msgs hrun hnd
    simp only [run, Option.some.injEq, Prod.mk.injEq] at hrun
    rw [← hrun.1]
    exact hnd
  | cons e es ih =>
    intro vts s msgs hrun hnd
    obtain ⟨s1, m1, m2, hstep, hrest, _⟩ := run_cons hrun
    exact ih s1 s m2 hrest (step_outstanding_nodup hstep hnd)

/-- C29: on every run from the initial state in which the program ids come in
increasing order, `pend_prog_queue` holds no id twice, the keys of
`outstanding_progs` are distinct, and an id is a key of `outstanding_progs`
exactly when it is in `pend_prog_queue`.  Hence in a state where the
`NODE_PROG_RETURN` handler finds its id in `outstanding_progs` and calls
`mark_req_finished`, `pend_prog_queue` is not empty and its `top()` is
defined (and is at most that id). -/
theorem outstanding_keys_are_pending (c : Consts) (m0 : Nat) (clk0 : vclock_t)
    (t : List event) (s : timestamper) (msgs : List sent)
    (hids : (prog_ids t).Pairwise (fun a b => a < b))
    (hrun : run c (init c m0 clk0) t = some (s, msgs)) :
    s.pend_prog_queue.Nodup ∧ (s.outstanding_progs.map Prod.fst).Nodup ∧
    (∀ x, x ∈ s.outstanding_progs.map Prod.fst ↔ x ∈ s.pend_prog_queue) ∧
    (∀ id, (map_find s.outstanding_progs id).isSome →
      s.pend_prog_queue ≠ [] ∧ ∃ top, pq_top s.pend_prog_queue = some top ∧ top ≤ id) := by
  obtain ⟨ext, hinv, _⟩ := run_finv t [] (init c m0 clk0) s msgs (finv_init c m0 clk0) hrun hids
    (by simp)
  obtain ⟨hq, _, _⟩ := hinv
  have hkeys : ∀ x, x ∈ s.outstanding_progs.map Prod.fst ↔ x ∈ s.pend_prog_queue := by
    intro x
    rw [← map_find_isSome, hq.outst x]
    by_cases hx : x ∈ s.pend_prog_queue
    · rw [if_pos hx]
      have := hq.pend_reg x hx
      rw [← map_find_isSome] at this
      rw [this]
      simp [hx]
    · rw [if_neg hx]
      simp [hx]
  have hnd : (s.outstanding_progs.map Prod.fst).Nodup :=
    run_outstanding_nodup c t (init c m0 clk0) s msgs hrun (by simp [init])
  refine ⟨hq.pend_nodup, hnd, hkeys, ?_⟩
  intro id hid
  have hin : id ∈ s.pend_prog_queue := (hkeys id).1 ((map_find_isSome _ _).1 hid)
  have hne : s.pend_prog_queue ≠ [] := by
    intro he
    rw [he] at hin
    simp at hin
  refine ⟨hne, ?_⟩
  cases htop : pq_top s.pend_prog_queue with
  | none => exact absurd (pq_top_none.1 htop) hne
  | some top => exact ⟨top, rfl, (pq_top_some.1 htop).2 id hin⟩

theorem outstanding_keys_are_pending_witness :
    ((prog_ids two_admitted_one_reply).Pairwise (fun a b => a < b) ∧
      run ⟨2, 2, 2, 0⟩ (init ⟨2, 2, 2, 0⟩ 0 [0, 0]) two_admitted_one_reply =
        some (two_admitted_one_reply_result.1, two_admitted_one_reply_result.2)) ∧
    ∀ x, x ∈ two_admitted_one_reply_result.1.outstanding_progs.map Prod.fst ↔
      x ∈ two_admitted_one_reply_result.1.pend_prog_queue :=
  ⟨⟨by decide, by decide⟩,
   (outstanding_keys_are_pending ⟨2, 2, 2, 0⟩ 0 [0, 0] two_admitted_one_reply
      two_admitted_one_reply_result.1 two_admitted_one_reply_result.2 (by decide)
      (by decide)).2.2.1⟩

/-- In `two_admitted_one_reply` both programs are still registered and
pending after the reply for 11: it waits behind 10. -/
theorem two_admitted_one_reply_queues :
    two_admitted_one_reply_result.1.outstanding_progs.map Prod.fst = [10, 11] ∧
    two_admitted_one_reply_result.1.pend_prog_queue = [11, 10] ∧
    two_admitted_one_reply_result.1.done_prog_queue = [11] := by
  refine ⟨by decide, by decide, by decide⟩

/-! ## The assertions of `mark_req_finished` -/

theorem pq_pop_length {q : List Nat} {m : Nat} (h : pq_top q = some m) :
    (pq_pop q).length = q.length - 1 := by
  rw [pq_pop_of_top h]
  exact List.length_erase_of_mem (pq_top_some.1 h).1

/-- With fuel for every id in `pend_prog_queue`, the loop fails exactly when
one of its assertions fails. -/
theorem loop_none_iff : ∀ (fuel : Nat) (u : timestamper),
    u.pend_prog_queue.length ≤ fuel →
    (mark_req_finished_loop fuel u = none ↔ false ∈ mark_req_finished_loop_asserts fuel u) := by
  intro fuel
  induction fuel with
  | zero =>
    intro u hlen
    have he : u.pend_prog_queue = [] := List.length_eq_zero.1 (by omega)
    have hp : pq_top u.pend_prog_queue = none := pq_top_none.2 he
    unfold mark_req_finished_loop mark_req_finished_loop_asserts
    simp [hp]
  | succ n ih =>
    intro u hlen
    unfold mark_req_finished_loop mark_req_finished_loop_asserts
    cases hp : pq_top u.pend_prog_queue with
    | none => simp
    | some p =>
      cases hd : pq_top u.done_prog_queue with
      | none => simp
      | some d =>
        simp only
        by_cases hpd : p = d
        · simp only [hpd, if_true]
          by_cases hlt : u.max_done_id < d
          · simp only [hlt, if_true]
            cases hm : map_find u.outstanding_progs d with
            | none => simp
            | some prog =>
              simp only [List.mem_cons, Bool.false_eq_true, false_or]
              apply ih
              show (pq_pop u.pend_prog_queue).length ≤ n
              rw [pq_pop_length hp]
              omega
          · simp [hlt]
        · simp [hpd]

/-- A call of `mark_req_finished` fails exactly when the id was marked
before, the pending queue is empty, or one of the two assertions on the
frontier fails at some point. -/
theorem mark_none_iff (vts : timestamper) (id : Nat) :
    mark_req_finished vts id = none ↔
      id ∈ vts.seen_done_id ∨ pq_top vts.pend_prog_queue = none ∨
      false ∈ mark_req_finished_asserts vts id := by
  unfold mark_req_finished mark_req_finished_asserts
  by_cases hns : id ∈ vts.seen_done_id
  · simp [hns]
  · simp only [hns, if_false, false_or]
    cases hp : pq_top vts.pend_prog_queue with
    | none => simp
    | some t =>
      simp only [reduceCtorEq, false_or]
      by_cases hti : t = id
      · simp only [hti, if_true]
        by_cases hlt : vts.max_done_id < id
        · simp only [hlt, if_true]
          cases hm : map_find vts.outstanding_progs id with
          | none => simp
          | some prog =>
            simp only [List.mem_cons, Bool.false_eq_true, false_or]
            exact loop_none_iff _ _ (le_refl _)
        · simp [hlt]
      · simp [hti]

/-- C30: ids are registered in increasing order, above the initial
`max_done_id`, and `mark_req_finished` is only called on registered ids that
were not marked before.  Then every such sequence of calls completes, and in
a further call on a registered, unmarked id (which is then in
`outstanding_progs`, and the pending queue is not empty) every evaluation of
the assertions `max_done_id < pend_prog_queue.top()` and `outstanding_progs`
holds the retired id gives true, in the first retirement and in every
iteration of the loop; the call completes. -/
theorem mark_asserts_hold (c : Consts) (m0 : Nat) (clk0 : vclock_t) (t : List frontier_op)
    (id : Nat) (hvalid : valid_from [] [] t = true)
    (hreg : id ∈ (registered t).map Prod.fst) (hnew : id ∉ marked t)
    (hm0 : ∀ x ∈ (registered t).map Prod.fst, m0 < x) :
    ∃ vts s, frontier_run (init c m0 clk0) t = some vts ∧
      mark_req_finished vts id = some s ∧
      (∀ b ∈ mark_req_finished_asserts vts id, b = true) ∧
      (map_find vts.outstanding_progs id).isSome ∧
      (pq_top vts.pend_prog_queue).isSome := by
  obtain ⟨htot, hspec⟩ := frontier_run_spec t [] m0 (init c m0 clk0) [] []
    (finv_init c m0 clk0) (by simp) (by simp [init]) hvalid
  obtain ⟨vts, hvts⟩ := htot (by simpa using hm0)
  obtain ⟨hinv, hseen, _⟩ := hspec vts hvts
  rw [List.nil_append] at hinv
  have hns : id ∉ vts.seen_done_id := by
    intro hin
    rcases (hseen id).1 hin with h | h
    · simp at h
    · exact hnew h
  have hpend : id ∈ vts.pend_prog_queue := mem_pend_of_unmarked hinv hreg hns
  have hassert : pq_top vts.pend_prog_queue = some id → vts.max_done_id < id :=
    fun _ => assert_ok hinv hm0 hpend
  obtain ⟨s, hs, _⟩ := mark_spec hinv hreg hns hassert
  have hne : vts.pend_prog_queue ≠ [] := by
    intro he
    rw [he] at hpend
    simp at hpend
  have htop : (pq_top vts.pend_prog_queue).isSome := by
    cases hp : pq_top vts.pend_prog_queue with
    | none => exact absurd (pq_top_none.1 hp) hne
    | some x => rfl
  refine ⟨vts, s, hvts, hs, ?_, ?_, htop⟩
  · intro b hb
    cases b with
    | true => rfl
    | false =>
      have : mark_req_finished vts id = none := (mark_none_iff vts id).2 (Or.inr (Or.inr hb))
      rw [this] at hs
      cases hs
  · rw [hinv.1.outst id, if_pos hpend]
    rw [map_find_isSome]
    exact hreg

theorem mark_asserts_hold_witness :
    (valid_from [] [] [.register 10 7 [1, 0], .register 11 7 [2, 0], .mark 11] = true ∧
      10 ∈ (registered [.register 10 7 [1, 0], .register 11 7 [2, 0], .mark 11]).map Prod.fst ∧
      10 ∉ marked [.register 10 7 [1, 0], .register 11 7 [2, 0], .mark 11]) ∧
    ∃ vts s, frontier_run (init ⟨2, 2, 2, 0⟩ 0 [0, 0])
        [.register 10 7 [1, 0], .register 11 7 [2, 0], .mark 11] = some vts ∧
      mark_req_finished vts 10 = some s ∧
      ∀ b ∈ mark_req_finished_asserts vts 10, b = true := by
  refine ⟨by decide, ?_⟩
  obtain ⟨vts, s, h1, h2, h3, _⟩ := mark_asserts_hold ⟨2, 2, 2, 0⟩ 0 [0, 0]
    [.register 10 7 [1, 0], .register 11 7 [2, 0], .mark 11] 10 (by decide) (by decide)
    (by decide) (by decide)
  exact ⟨vts, s, h1, h2, h3⟩

/-- The call that retires 10 and then 11 evaluates each assertion twice: in
the first retirement and in one iteration of the loop. -/
theorem drain_evaluates_four_asserts :
    (frontier_run (init ⟨2, 2, 2, 0⟩ 0 [0, 0])
        [.register 10 7 [1, 0], .register 11 7 [2, 0], .mark 11]).map
      (fun vts => mark_req_finished_asserts vts 10) = some [true, true, true, true] := by
  decide

/-! ## When a reply enters the ledger -/

theorem done_list_count_pos (c : Consts) (sh : Nat) (p : Nat × prog_type) :
    ∀ (msgs : List sent) (m : sent), m ∈ msgs → p ∈ done_list_of c sh m →
      0 < done_list_count c sh p msgs := by
  intro msgs
  induction msgs with
  | nil =>
    intro m hm _
    simp at hm
  | cons a rest ih =>
    intro m hm hp
    have hcons : done_list_count c sh p (a :: rest) =
        (done_list_of c sh a).count p + done_list_count c sh p rest := by
      simp [done_list_count]
    rw [hcons]
    rcases List.mem_cons.1 hm with rfl | hm
    · have : 0 < (done_list_of c sh m).count p := List.count_pos_iff.2 hp
      omega
    · have := ih m hm hp
      omega

/-- C21 (as amended): an entry (request id, program type, empty bitset)
enters the ledger when, and only when, the `NODE_PROG_RETURN` handler handles
a reply for an id that is in `outstanding_progs`, whether or not that reply
retires the id.  So every id in the ledger, and every id in a done-list of a
`VT_NOP` sent so far, is an id whose reply has been counted in
`seen_done_id`. -/
theorem ledger_entry_at_reply (c : Consts) (m0 : Nat) (clk0 : vclock_t) (t : List event)
    (s : timestamper) (msgs : List sent)
    (hrun : run c (init c m0 clk0) t = some (s, msgs)) :
    (∀ type id payload s1 m1,
      step c s (.NODE_PROG_RETURN type id payload) = some (s1, m1) →
      (map_find s.outstanding_progs id).isSome →
      (id, type, List.replicate c.NUM_SHARDS false) ∈ ledger_entries s1.done_reqs) ∧
    (∀ e s1 m1, step c s e = some (s1, m1) →
      ∀ x ∈ ledger_entries s1.done_reqs, x.1 ∉ ledger_ids s.done_reqs →
        x.2.2 = List.replicate c.NUM_SHARDS false ∧
        ∃ payload, e = .NODE_PROG_RETURN x.2.1 x.1 payload ∧
          (map_find s.outstanding_progs x.1).isSome) ∧
    (∀ x ∈ ledger_ids s.done_reqs, x ∈ s.seen_done_id) ∧
    (∀ m ∈ msgs, ∀ sh, sh < c.NUM_SHARDS → ∀ p ∈ done_list_of c sh m,
      p.1 ∈ s.seen_done_id) := by
  have hinv : LedgerInv c s ([] ++ msgs) :=
    run_ledger_inv c t (init c m0 clk0) s [] msgs (ledger_inv_init c m0 clk0) hrun
  rw [List.nil_append] at hinv
  obtain ⟨hnd, hseen, hlen, htd, hcnt, hfree⟩ := hinv
  refine ⟨?_, ?_, hseen, ?_⟩
  · intro type id payload s1 m1 hstep hout
    have hstep2 : node_prog_return c s type id payload = some (s1, m1) := hstep
    rcases node_prog_return_shape hstep2 with ⟨hnone, _, _⟩ | ⟨prog, _, hm, _⟩
    · rw [hnone] at hout
      cases hout
    · obtain ⟨_, hrest, _, hnot⟩ := mark_frame hm
      have hnot2 : id ∉ s.seen_done_id := hnot
      have hidL : id ∉ ledger_ids s.done_reqs := fun hin => hnot2 (hseen id hin)
      have hL : s1.done_reqs = ledger_emplace c.NUM_SHARDS s.done_reqs type id :=
        hrest.2.2.2.1
      rw [hL, (ledger_entries_emplace c.NUM_SHARDS type id s.done_reqs hidL).mem_iff]
      exact List.mem_cons_self _ _
  · intro e s1 m1 hstep x hx hxnew
    rcases step_ledger_shape hstep with ⟨hL, _, _⟩ | ⟨type, id, hnot, hs, hL, _, _⟩ |
      ⟨_, _, _, hL, _, _, _⟩
    · exfalso
      apply hxnew
      rw [hL] at hx
      rw [ledger_ids_eq]
      exact List.mem_map.2 ⟨x, hx, rfl⟩
    · have hidL : id ∉ ledger_ids s.done_reqs := fun hin => hnot (hseen id hin)
      rw [hL, (ledger_entries_emplace c.NUM_SHARDS type id s.done_reqs hidL).mem_iff,
        List.mem_cons] at hx
      rcases hx with hx | hx
      · rw [hx]
        refine ⟨rfl, ?_⟩
        rcases step_frontier hstep with hf | ⟨_, _, _, _, _, _, hs1⟩ |
          ⟨type2, id2, payload, prog, he, hfind, hm⟩
        · exfalso
          have h1 : s1.seen_done_id = s.seen_done_id := hf.2.2.2.1
          rw [hs] at h1
          have := congrArg List.length h1
          simp at this
        · exfalso
          have h1 : s1.seen_done_id = s.seen_done_id := by rw [hs1]; rfl
          rw [hs] at h1
          have := congrArg List.length h1
          simp at this
        · obtain ⟨_, hrest, hseen2, _⟩ := mark_frame hm
          have hseen3 : s1.seen_done_id = id2 :: s.seen_done_id := hseen2
          rw [hs] at hseen3
          have hid : id = id2 := by
            have := List.head_eq_of_cons_eq hseen3
            exact this
          have hL2 : s1.done_reqs = ledger_emplace c.NUM_SHARDS s.done_reqs type2 id2 :=
            hrest.2.2.2.1
          subst hid
          have hidL2 := hidL
          have hmem2 : (id, type2, List.replicate c.NUM_SHARDS false) ∈
              ledger_entries s1.done_reqs := by
            rw [hL2, (ledger_entries_emplace c.NUM_SHARDS type2 id s.done_reqs hidL2).mem_iff]
            exact List.mem_cons_self _ _
          rw [hL, (ledger_entries_emplace c.NUM_SHARDS type id s.done_reqs hidL).mem_iff,
            List.mem_cons] at hmem2
          have htype : type2 = type := by
            rcases hmem2 with h | h
            · simp only [Prod.mk.injEq] at h
              exact h.2.1
            · exfalso
              apply hidL
              rw [ledger_ids_eq]
              exact List.mem_map.2 ⟨_, h, rfl⟩
          subst htype
          refine ⟨payload, he, ?_⟩
          show (map_find s.outstanding_progs id).isSome
          rw [hfind]
          rfl
      · exfalso
        apply hxnew
        rw [ledger_ids_eq]
        exact List.mem_map.2 ⟨x, hx, rfl⟩
    · exfalso
      apply hxnew
      rw [hL] at hx
      obtain ⟨y, hy, rfl⟩ := nop_ledger_entries_sub _ _ _ _ _ x hx
      rw [ledger_ids_eq]
      exact List.mem_map.2 ⟨y, hy, rfl⟩
  · intro m hm sh hsh p hp
    have hpos := done_list_count_pos c sh p msgs m hm hp
    by_cases hex : ∃ bits, (p.1, p.2, bits) ∈ ledger_entries s.done_reqs
    · obtain ⟨bits, hin⟩ := hex
      apply hseen
      rw [ledger_ids_eq]
      exact List.mem_map.2 ⟨_, hin, rfl⟩
    · rcases hfree p (fun bits hin => hex ⟨bits, hin⟩) with h0 | ⟨h1, _⟩
      · rw [h0 sh hsh] at hpos
        omega
      · exact h1

theorem ledger_entry_at_reply_witness :
    run ⟨2, 2, 2, 0⟩ (init ⟨2, 2, 2, 0⟩ 0 [0, 0]) two_admitted_one_reply =
      some (two_admitted_one_reply_result.1, two_admitted_one_reply_result.2) ∧
    ∀ x ∈ ledger_ids two_admitted_one_reply_result.1.done_reqs,
      x ∈ two_admitted_one_reply_result.1.seen_done_id :=
  ⟨by decide,
   (ledger_entry_at_reply ⟨2, 2, 2, 0⟩ 0 [0, 0] two_admitted_one_reply
      two_admitted_one_reply_result.1 two_admitted_one_reply_result.2 (by decide)).2.2.1⟩

/-- Programs 10 and 11 are admitted and the reply for 11 has arrived: 11
waits in `done_prog_queue` behind 10, nothing has been retired
(`max_done_id` is still 0), and 11 is in the ledger all the same.  The next
timer iteration sends both shards a `VT_NOP` whose done-list holds 11 and
whose `max_done_id` is 0. -/
theorem ledger_entry_before_retirement :
    run ⟨2, 2, 2, 0⟩ (init ⟨2, 2, 2, 0⟩ 0 [0, 0]) reply_counted_not_retired =
      some (reply_counted_state,
        [(2, message.NODE_PROG .REACHABILITY false 0 [1, 0] 10 [(5, 0)]),
         (3, message.NODE_PROG .DIJKSTRA false 0 [2, 0] 11 [(6, 0)]),
         (7, message.NODE_PROG_RETURN 0)]) ∧
    reply_counted_state.done_reqs = [(.DIJKSTRA, [(11, [false, false])])] ∧
    reply_counted_state.done_prog_queue = [11] ∧
    reply_counted_state.pend_prog_queue = [11, 10] ∧
    reply_counted_state.max_done_id = 0 ∧
    (timer_function ⟨2, 2, 2, 0⟩ reply_counted_state 13).map (fun r => r.2) =
      some [(2, message.VT_NOP 0 [3, 0] [1, 1] 13 [(11, .DIJKSTRA)] 0 [0, 0] 2 [0, 0]),
            (3, message.VT_NOP 0 [3, 0] [1, 1] 13 [(11, .DIJKSTRA)] 0 [0, 0] 2 [0, 0]),
            (1, message.VT_CLOCK_UPDATE 0 3)] := by
  refine ⟨by decide, by decide, by decide, by decide, by decide, by decide⟩

/-! ## Program state: `put_state`, `get_state`, `state_exists` -/

theorem prog_map_find_assign (m : prog_map) (t x : prog_type) (v : req_map) :
    prog_map_find (prog_map_assign m t v) x =
      if x = t then (prog_map_find m t).map (fun _ => v) else prog_map_find m x := by
  induction m with
  | nil => simp [prog_map_assign, prog_map_find]
  | cons kv m ih =>
    obtain ⟨a, b⟩ := kv
    unfold prog_map_assign at ih ⊢
    rw [List.map_cons]
    by_cases hak : a = t
    · have hh : (if (a, b).1 = t then ((a, b).1, v) else (a, b)) = (a, v) := by simp [hak]
      rw [hh]
      by_cases hx : x = t
      · have hax : a = x := by rw [hak, hx]
        simp [prog_map_find, hax, hx, hak]
      · have hax : ¬ a = x := fun e => hx (e ▸ hak)
        simp only [prog_map_find, hax, if_false, ih, hx]
    · have hh : (if (a, b).1 = t then ((a, b).1, v) else (a, b)) = (a, b) := by simp [hak]
      rw [hh]
      by_cases hx : x = t
      · subst hx
        simp only [prog_map_find, hak, if_false]
        rw [ih]
        simp
      · by_cases hax : a = x
        · simp [prog_map_find, hax, hx]
        · simp only [prog_map_find, hax, if_false, ih, hx]

theorem map_find_put {β : Type} (m : List (Nat × β)) (k x : Nat) (v : β) :
    map_find (map_put m k v) x = if x = k then some v else map_find m x := by
  unfold map_put
  cases hk : map_find m k with
  | some w =>
    simp only [Option.isSome_some, if_true]
    rw [map_find_assign, hk]
    rfl
  | none =>
    simp only [Option.isSome_none, Bool.false_eq_true, if_false]
    have h := map_find_emplace m k x v hk
    unfold map_emplace at h
    rw [hk] at h
    exact h

theorem mem_set_emplace (s : List Nat) (x y : Nat) :
    y ∈ set_emplace s x ↔ y ∈ s ∨ y = x := by
  unfold set_emplace
  by_cases h : x ∈ s
  · rw [if_pos h]
    constructor
    · exact Or.inl
    · rintro (h1 | h1)
      · exact h1
      · rw [h1]; exact h
  · rw [if_neg h]
    simp

/-- The result of `state_exists_nolock` is whether the three lookups succeed,
for a program type that has a request map. -/
theorem state_exists_nolock_eq (ps : program_state) (t : prog_type) (req_id node_id : Nat) :
    ps.state_exists_nolock t req_id node_id =
      (prog_map_find ps.prog_state t).map (fun _ => (ps.stored t req_id node_id).isSome) := by
  unfold program_state.state_exists_nolock program_state.stored
  cases hm : prog_map_find ps.prog_state t with
  | none => rfl
  | some rmap =>
    cases hr : map_find rmap req_id with
    | none => simp [hr]
    | some nmap =>
      cases hn : map_find nmap node_id with
      | none => simp [hr, hn]
      | some st => simp [hr, hn]

/-- The result of `get_state` is the stored pointer, or the null pointer when
a lookup fails, for a program type that has a request map. -/
theorem get_state_eq (ps : program_state) (t : prog_type) (req_id node_id : Nat) :
    ps.get_state t req_id node_id =
      (prog_map_find ps.prog_state t).map (fun _ => (ps.stored t req_id node_id).getD none) := by
  unfold program_state.get_state program_state.state_exists_nolock program_state.stored
  cases hm : prog_map_find ps.prog_state t with
  | none => rfl
  | some rmap =>
    cases hr : map_find rmap req_id with
    | none => simp [hr]
    | some nmap =>
      cases hn : map_find nmap node_id with
      | none => simp [hr, hn]
      | some st => simp [hr, hn]

/-- A request that is done: `put_state` returns and changes nothing. -/
theorem put_state_done (ps : program_state) (t : prog_type) (req_id node_id : Nat)
    (new_state : node_state_ptr) (h : ps.check_done_nolock req_id = true) :
    ps.put_state t req_id node_id new_state = some ps := by
  unfold program_state.put_state
  rw [if_pos h]

/-- A request that is not done, for a program type with a request map:
`put_state` returns, and the new maps hold `new_state` under the key and what
they held before under every other key. -/
theorem put_state_live (ps : program_state) (t : prog_type) (req_id node_id : Nat)
    (new_state : node_state_ptr) (rmap : req_map)
    (hnd : ps.check_done_nolock req_id = false)
    (hmap : prog_map_find ps.prog_state t = some rmap) :
    ∃ ps1, ps.put_state t req_id node_id new_state = some ps1 ∧
      ps1.done_ids = ps.done_ids ∧ ps1.completed_id = ps.completed_id ∧
      (∀ x, (prog_map_find ps1.prog_state x).isSome = (prog_map_find ps.prog_state x).isSome) ∧
      (∀ x r n, ps1.stored x r n =
        if x = t ∧ r = req_id ∧ n = node_id then some new_state else ps.stored x r n) ∧
      req_id ∈ (map_find ps1.req_list node_id).getD [] ∧
      (∀ n, n ≠ node_id → map_find ps1.req_list n = map_find ps.req_list n) := by
  unfold program_state.put_state
  rw [hnd]
  simp only [Bool.false_eq_true, if_false, hmap]
  refine ⟨_, rfl, rfl, rfl, ?_, ?_, ?_, ?_⟩
  · intro x
    simp only [prog_map_find_assign]
    by_cases hx : x = t
    · rw [if_pos hx, hx, hmap]; rfl
    · rw [if_neg hx]
  · intro x r n
    unfold program_state.stored
    simp only [prog_map_find_assign]
    by_cases hx : x = t
    · subst hx
      simp only [if_true, hmap, Option.map_some', true_and]
      cases hr : map_find rmap req_id with
      | some nmap =>
        simp only [map_find_assign, hr, Option.map_some']
        by_cases hrr : r = req_id
        · subst hrr
          simp only [if_true, hr, true_and, map_find_put]
        · simp [hrr]
      | none =>
        simp only [map_find_emplace rmap req_id r _ hr]
        by_cases hrr : r = req_id
        · subst hrr
          simp only [if_true, hr, true_and]
          by_cases hn : n = node_id
          · subst hn
            simp [map_find]
          · have hn2 : ¬ node_id = n := fun e => hn e.symm
            simp [map_find, hn, hn2]
        · simp [hrr]
    · simp [hx]
  · simp only [map_find_assign, if_true]
    cases hl : map_find ps.req_list node_id with
    | some reqs =>
      simp [hl, mem_set_emplace]
    | none =>
      simp [hl, map_find_emplace ps.req_list node_id node_id [] hl, mem_set_emplace]
  · intro n hn
    simp only [map_find_assign, if_neg hn]
    cases hl : map_find ps.req_list node_id with
    | some reqs => simp
    | none =>
      simp only [Option.isSome_none, Bool.false_eq_true, if_false]
      exact map_find_emplace_other ps.req_list node_id n [] hn

theorem done_request_done_ids {ps ps1 : program_state} {p : Nat × prog_type}
    (h : ps.done_request p = some ps1) : ps1.done_ids = set_emplace ps.done_ids p.1 := by
  unfold program_state.done_request at h
  cases hm : prog_map_find ps.prog_state p.2 with
  | none => simp [hm] at h
  | some rmap =>
    simp only [hm] at h
    cases hr : map_find rmap p.1 with
    | none =>
      simp only [hr, Option.some.injEq] at h
      rw [← h]
    | some nmap =>
      simp only [hr] at h
      cases hn : done_requests_nodes p.1 ps.req_list (nmap.map Prod.fst) with
      | none => simp [hn] at h
      | some rl =>
        simp only [hn, Option.some.injEq] at h
        rw [← h]

/-- After `done_requests` has returned, the ids that were done before and the
ids of the reported requests are all in `done_ids`. -/
theorem done_requests_done_ids {ps ps1 : program_state} {reqs : List (Nat × prog_type)}
    (h : ps.done_requests reqs = some ps1) :
    (∀ x ∈ ps.done_ids, x ∈ ps1.done_ids) ∧ ∀ p ∈ reqs, p.1 ∈ ps1.done_ids := by
  induction reqs generalizing ps with
  | nil =>
    simp only [program_state.done_requests, Option.some.injEq] at h
    subst h
    exact ⟨fun _ hx => hx, fun _ hp => absurd hp (List.not_mem_nil _)⟩
  | cons p rest ih =>
    unfold program_state.done_requests at h
    cases hd : ps.done_request p with
    | none => simp [hd] at h
    | some ps2 =>
      simp only [hd] at h
      obtain ⟨h1, h2⟩ := ih h
      have hids := done_request_done_ids hd
      have hsub : ∀ x ∈ ps.done_ids, x ∈ ps2.done_ids := by
        intro x hx
        rw [hids, mem_set_emplace]
        exact Or.inl hx
      refine ⟨fun x hx => h1 x (hsub x hx), ?_⟩
      intro q hq
      rcases List.mem_cons.1 hq with hq | hq
      · subst hq
        apply h1
        rw [hids, mem_set_emplace]
        exact Or.inr rfl
      · exact h2 q hq

/-- C27: `put_state(t, req_id, node_id, s)` returns the unchanged object when
`req_id` is done, in particular when an earlier `done_requests` reported it
(program state maps, per-node request list, everything is left as it was).
When `req_id` is not done and the program type `t` has a request map, it
returns, the key `(t, req_id, node_id)` then holds `s` whatever it held
before, every other key holds what it held before (for `get_state` and for
`state_exists`), `done_ids` and `completed_id` are unchanged, and among the
per-node request lists only that of `node_id` changes, which then has
`req_id`. -/
theorem put_state_noop_or_store (ps : program_state) (t : prog_type) (req_id node_id : Nat)
    (s : node_state_ptr) (rmap : req_map)
    (hmap : prog_map_find ps.prog_state t = some rmap) :
    (ps.check_done_nolock req_id = true → ps.put_state t req_id node_id s = some ps) ∧
    (∀ (ps0 : program_state) (reqs : List (Nat × prog_type)) (ty : prog_type),
      ps0.done_requests reqs = some ps → (req_id, ty) ∈ reqs →
        ps.put_state t req_id node_id s = some ps) ∧
    (ps.check_done_nolock req_id = false →
      ∃ ps1, ps.put_state t req_id node_id s = some ps1 ∧
        ps1.get_state t req_id node_id = some s ∧
        ps1.state_exists t req_id node_id = some true ∧
        (∀ x r n, ¬ (x = t ∧ r = req_id ∧ n = node_id) →
          ps1.get_state x r n = ps.get_state x r n ∧
          ps1.state_exists x r n = ps.state_exists x r n) ∧
        ps1.done_ids = ps.done_ids ∧ ps1.completed_id = ps.completed_id ∧
        req_id ∈ (map_find ps1.req_list node_id).getD [] ∧
        (∀ n, n ≠ node_id → map_find ps1.req_list n = map_find ps.req_list n)) := by
  refine ⟨put_state_done ps t req_id node_id s, ?_, ?_⟩
  · intro ps0 reqs ty hdone hmem
    apply put_state_done
    unfold program_state.check_done_nolock
    exact decide_eq_true ((done_requests_done_ids hdone).2 (req_id, ty) hmem)
  · intro hnd
    obtain ⟨ps1, hput, hids, hcomp, hsome, hstored, hreq, hother⟩ :=
      put_state_live ps t req_id node_id s rmap hnd hmap
    have hsome1 : ∀ x, prog_map_find ps1.prog_state x = none ↔
        prog_map_find ps.prog_state x = none := by
      intro x
      have := hsome x
      cases h1 : prog_map_find ps1.prog_state x <;>
        cases h2 : prog_map_find ps.prog_state x <;> simp [h1, h2] at this ⊢
    have hmap1 : ∃ rmap1, prog_map_find ps1.prog_state t = some rmap1 := by
      cases h1 : prog_map_find ps1.prog_state t with
      | none => rw [(hsome1 t).1 h1] at hmap; cases hmap
      | some v => exact ⟨v, rfl⟩
    obtain ⟨rmap1, hmap1⟩ := hmap1
    refine ⟨ps1, hput, ?_, ?_, ?_, hids, hcomp, hreq, hother⟩
    · rw [get_state_eq, hmap1, hstored]
      simp
    · unfold program_state.state_exists
      rw [state_exists_nolock_eq, hmap1, hstored]
      simp
    · intro x r n hne
      unfold program_state.state_exists
      rw [get_state_eq, get_state_eq, state_exists_nolock_eq, state_exists_nolock_eq, hstored,
        if_neg hne]
      cases h2 : prog_map_find ps.prog_state x with
      | none => rw [(hsome1 x).2 h2]; exact ⟨rfl, rfl⟩
      | some v =>
        cases h1 : prog_map_find ps1.prog_state x with
        | none => rw [(hsome1 x).1 h1] at h2; cases h2
        | some w => exact ⟨rfl, rfl⟩

/-- Witness for C27 on the object in which request 4 is done and request 1
holds state 5 at node 2: a store for request 1 at node 3. -/
theorem put_state_noop_or_store_witness :
    prog_map_find one_done_one_live.prog_state .REACHABILITY = some [(1, [(2, some 5)])] ∧
    one_done_one_live.check_done_nolock 4 = true ∧
    one_done_one_live.put_state .REACHABILITY 4 3 (some 6) = some one_done_one_live ∧
    one_done_one_live.check_done_nolock 1 = false ∧
    (∃ ps1, one_done_one_live.put_state .REACHABILITY 1 3 (some 6) = some ps1 ∧
        ps1.get_state .REACHABILITY 1 3 = some (some 6) ∧
        ps1.state_exists .REACHABILITY 1 3 = some true ∧
        (∀ x r n, ¬ (x = .REACHABILITY ∧ r = 1 ∧ n = 3) →
          ps1.get_state x r n = one_done_one_live.get_state x r n ∧
          ps1.state_exists x r n = one_done_one_live.state_exists x r n) ∧
        ps1.done_ids = one_done_one_live.done_ids ∧
        ps1.completed_id = one_done_one_live.completed_id ∧
        1 ∈ (map_find ps1.req_list 3).getD [] ∧
        (∀ n, n ≠ 3 → map_find ps1.req_list n = map_find one_done_one_live.req_list n)) :=
  have h := put_state_noop_or_store one_done_one_live .REACHABILITY 1 3 (some 6)
    [(1, [(2, some 5)])] (by decide)
  ⟨by decide, by decide, by decide, by decide, h.2.2 (by decide)⟩

/-- C28: for a program type `t` that has a request map, `get_state` and
`state_exists` both return; where `state_exists` is true the three lookups
`prog_state.at(t).at(req_id)->at(node_id)` succeed and `get_state` returns
the stored pointer, and where it is false `get_state` returns the null
pointer. After `put_state(t, r, n, s)` for a request that is not done,
`get_state(t, r, n)` returns `s` and `state_exists(t, r, n)` is true. -/
theorem get_state_iff_state_exists (ps : program_state) (t : prog_type) (req_id node_id : Nat)
    (rmap : req_map) (hmap : prog_map_find ps.prog_state t = some rmap) :
    (∃ b, ps.state_exists t req_id node_id = some b ∧
      (b = true → ∃ nmap st, map_find rmap req_id = some nmap ∧
        map_find nmap node_id = some st ∧ ps.get_state t req_id node_id = some st) ∧
      (b = false → (∀ nmap, map_find rmap req_id = some nmap → map_find nmap node_id = none) ∧
        ps.get_state t req_id node_id = some none)) ∧
    (∀ s, ps.check_done_nolock req_id = false →
      ∃ ps1, ps.put_state t req_id node_id s = some ps1 ∧
        ps1.get_state t req_id node_id = some s ∧
        ps1.state_exists t req_id node_id = some true) := by
  constructor
  · unfold program_state.state_exists program_state.get_state
      program_state.state_exists_nolock
    simp only [hmap]
    cases hr : map_find rmap req_id with
    | none =>
      refine ⟨false, rfl, ?_, ?_⟩
      · intro h
        cases h
      · intro _
        refine ⟨?_, rfl⟩
        intro nmap h
        cases h
    | some nmap =>
      cases hn : map_find nmap node_id with
      | none =>
        simp only [hn]
        refine ⟨false, rfl, ?_, ?_⟩
        · intro h
          cases h
        · intro _
          refine ⟨?_, trivial⟩
          intro nmap2 h
          cases h
          exact hn
      | some st =>
        simp only [hn]
        refine ⟨true, rfl, ?_, ?_⟩
        · intro _
          exact ⟨nmap, st, rfl, hn, rfl⟩
        · intro h
          cases h
  · intro s hnd
    obtain ⟨ps1, hput, _, _, hsome, hstored, _, _⟩ :=
      put_state_live ps t req_id node_id s rmap hnd hmap
    have hmap1 : ∃ rmap1, prog_map_find ps1.prog_state t = some rmap1 := by
      have := hsome t
      rw [hmap] at this
      cases h1 : prog_map_find ps1.prog_state t with
      | none => rw [h1] at this; cases this
      | some v => exact ⟨v, rfl⟩
    obtain ⟨rmap1, hmap1⟩ := hmap1
    refine ⟨ps1, hput, ?_, ?_⟩
    · rw [get_state_eq, hmap1, hstored]
      simp
    · unfold program_state.state_exists
      rw [state_exists_nolock_eq, hmap1, hstored]
      simp

/-- Witness for C28 on the object in which request 1 holds state 5 at node 2:
the lookup of that key, and a store for request 1 at node 3. -/
theorem get_state_iff_state_exists_witness :
    prog_map_find one_done_one_live.prog_state .REACHABILITY = some [(1, [(2, some 5)])] ∧
    one_done_one_live.state_exists .REACHABILITY 1 2 = some true ∧
    one_done_one_live.get_state .REACHABILITY 1 2 = some (some 5) ∧
    one_done_one_live.state_exists .REACHABILITY 1 3 = some false ∧
    one_done_one_live.get_state .REACHABILITY 1 3 = some none ∧
    (∀ s, one_done_one_live.check_done_nolock 1 = false →
      ∃ ps1, one_done_one_live.put_state .REACHABILITY 1 2 s = some ps1 ∧
        ps1.get_state .REACHABILITY 1 2 = some s ∧
        ps1.state_exists .REACHABILITY 1 2 = some true) :=
  have h := get_state_iff_state_exists one_done_one_live .REACHABILITY 1 2
    [(1, [(2, some 5)])] (by decide)
  ⟨by decide, by decide, by decide, by decide, by decide, h.2⟩

/-- A program type without a request map: READ_N_EDGES gets none from the
constructor, and `state_exists`, `get_state` and `put_state` of a request
that is not done do not return for it. -/
theorem read_n_edges_has_no_request_map :
    prog_map_find new_program_state.prog_state .READ_N_EDGES = none ∧
    new_program_state.state_exists .READ_N_EDGES 1 2 = none ∧
    new_program_state.get_state .READ_N_EDGES 1 2 = none ∧
    new_program_state.put_state .READ_N_EDGES 1 2 (some 5) = none := by
  refine ⟨by decide, by decide, by decide, by decide⟩

/-! ## The queue timestamps a `TX_INIT` carries -/

/-- The admission of `three_writes`: shard 0 is written twice, its `TX_INIT`
carries `qts = [1, 0]` while the VT ends at `qts = [2, 1]`. -/
theorem three_writes_admission :
    (begin_transaction ⟨2, 2, 2, 0⟩ (init ⟨2, 2, 2, 0⟩ 0 [0, 0]) three_writes).map
      (fun r => (r.1.qts, r.2.2.map (fun m => (m.1,
        match m.2 with
        | message.TX_INIT _ _ q _ _ => q
        | _ => [])))) =
    some ([2, 1], [(2, [1, 0]), (3, [1, 1])]) := by
  decide

/-! ## Admission of a transaction without writes -/

/-- C32: a transaction with an empty write list is admitted: `vclk[vt_id]`
goes up by one, `qts` stays, no message is sent and `outstanding_tx` gets the
entry of the transaction with count 0, which is still there when
`begin_transaction` returns.  A transaction with at least one write is
registered with a count between 1 and `NUM_SHARDS` whenever
`begin_transaction` returns, and it returns when every write names a shard. -/
theorem empty_tx_registered_with_count_zero (c : Consts) (vts : timestamper) (tx : pending_tx)
    (hwf : vts.qts.length = c.NUM_SHARDS)
    (hvt : c.vt_id < vts.vclk.length)
    (hfresh : map_find vts.outstanding_tx tx.id = none) :
    (tx.writes = [] →
      ∃ s tx1, begin_transaction c vts tx = some (s, tx1, []) ∧
        vec_get s.vclk c.vt_id = vec_get vts.vclk c.vt_id + 1 ∧
        s.qts = vts.qts ∧
        map_find s.outstanding_tx tx.id = some { client := tx.client_id, count := 0 }) ∧
    (tx.writes ≠ [] → ∀ s tx1 msgs, begin_transaction c vts tx = some (s, tx1, msgs) →
      ∃ cur, map_find s.outstanding_tx tx.id = some cur ∧
        1 ≤ cur.count ∧ cur.count ≤ c.NUM_SHARDS) ∧
    ((∀ w ∈ tx.writes,
        c.SHARD_ID_INCR ≤ w.loc1 ∧ w.loc1 - c.SHARD_ID_INCR < c.NUM_SHARDS) →
      ∃ r, begin_transaction c vts tx = some r) := by
  refine ⟨?_, ?_, ?_⟩
  · intro hw
    have hs : send_tx_batches c (increment_clock c vts.vclk) tx.id
        (List.replicate c.NUM_SHARDS []) = [] := by
      rw [send_tx_batches_eq]
      apply List.filterMap_eq_nil_iff.2
      intro i _
      rw [getD_replicate_nil]
      rfl
    have hcount : count_shards (List.replicate c.NUM_SHARDS ([] : List pending_update))
        c.NUM_SHARDS = 0 := by
      rw [count_shards_eq, List.length_eq_zero]
      apply List.filter_eq_nil_iff.2
      intro i _
      rw [getD_replicate_nil]
      simp
    have hb : begin_transaction c vts tx = some
        ({ vts with
            qts := vts.qts
            vclk := increment_clock c vts.vclk
            outstanding_tx := map_emplace vts.outstanding_tx tx.id
              { client := tx.client_id, count := 0 } },
         { tx with timestamp := increment_clock c vts.vclk, writes := [] }, []) := by
      unfold begin_transaction
      rw [hw]
      simp only [begin_transaction_loop]
      rw [hs, hcount]
    refine ⟨_, _, hb, ?_, rfl, ?_⟩
    · show vec_get (increment_clock c vts.vclk) c.vt_id = _
      unfold increment_clock
      rw [vec_get_incr]
      simp [hvt]
    · show map_find (map_emplace vts.outstanding_tx tx.id _) tx.id = _
      rw [map_find_emplace _ _ _ _ hfresh, if_pos rfl]
  · intro hne s tx1 msgs hb
    unfold begin_transaction at hb
    cases hres : begin_transaction_loop c tx.writes vts.qts (List.replicate c.NUM_SHARDS []) []
      with
    | none => simp [hres] at hb
    | some res =>
      obtain ⟨hrange, -⟩ := begin_transaction_loop_char c _ _ _ _ _ hres
      obtain ⟨-, hbne⟩ := tx_vec_batches hres
      obtain ⟨qts1, tx_vec, written⟩ := res
      simp only [hres, Option.some.injEq, Prod.mk.injEq] at hb
      simp only at hbne
      obtain ⟨hs, -, -⟩ := hb
      refine ⟨{ client := tx.client_id, count := count_shards tx_vec c.NUM_SHARDS }, ?_, ?_, ?_⟩
      · rw [← hs]
        show map_find (map_emplace vts.outstanding_tx tx.id _) tx.id = _
        rw [map_find_emplace _ _ _ _ hfresh, if_pos rfl]
      · show 1 ≤ count_shards tx_vec c.NUM_SHARDS
        rw [count_shards_eq]
        obtain ⟨w, hw⟩ := List.exists_mem_of_ne_nil _ hne
        have hr := hrange w hw
        unfold in_range at hr
        rw [hwf] at hr
        apply List.length_pos_of_mem
        rw [List.mem_filter]
        refine ⟨List.mem_range.2 hr.2, ?_⟩
        have h1 := (hbne _ hr.2).2 ⟨w, hw, by omega⟩
        simpa using h1
      · show count_shards tx_vec c.NUM_SHARDS ≤ c.NUM_SHARDS
        rw [count_shards_eq]
        calc ((List.range c.NUM_SHARDS).filter _).length
            ≤ (List.range c.NUM_SHARDS).length := List.length_filter_le _ _
          _ = c.NUM_SHARDS := List.length_range _
  · intro hloc
    have hloc2 : ∀ w ∈ tx.writes, in_range c vts.qts.length w := by
      intro w hw
      unfold in_range
      rw [hwf]
      exact hloc w hw
    obtain ⟨res, hres⟩ := begin_transaction_loop_total c tx.writes vts.qts
      (List.replicate c.NUM_SHARDS []) [] hloc2
    unfold begin_transaction
    rw [hres]
    exact ⟨_, rfl⟩

/-- Witness for C32: the transaction `empty_tx` admitted by a fresh VT. -/
theorem empty_tx_registered_with_count_zero_witness :
    ((init ⟨2, 2, 2, 0⟩ 0 [0, 0]).qts.length = (⟨2, 2, 2, 0⟩ : Consts).NUM_SHARDS ∧
      (⟨2, 2, 2, 0⟩ : Consts).vt_id < (init ⟨2, 2, 2, 0⟩ 0 [0, 0]).vclk.length ∧
      map_find (init ⟨2, 2, 2, 0⟩ 0 [0, 0]).outstanding_tx empty_tx.id = none ∧
      empty_tx.writes = []) ∧
    ∃ s tx1, begin_transaction ⟨2, 2, 2, 0⟩ (init ⟨2, 2, 2, 0⟩ 0 [0, 0]) empty_tx =
        some (s, tx1, []) ∧
      vec_get s.vclk (⟨2, 2, 2, 0⟩ : Consts).vt_id =
        vec_get (init ⟨2, 2, 2, 0⟩ 0 [0, 0]).vclk (⟨2, 2, 2, 0⟩ : Consts).vt_id + 1 ∧
      s.qts = (init ⟨2, 2, 2, 0⟩ 0 [0, 0]).qts ∧
      map_find s.outstanding_tx empty_tx.id =
        some { client := empty_tx.client_id, count := 0 } :=
  ⟨⟨by decide, by decide, by decide, by decide⟩,
   (empty_tx_registered_with_count_zero ⟨2, 2, 2, 0⟩ (init ⟨2, 2, 2, 0⟩ 0 [0, 0]) empty_tx
     (by decide) (by decide) (by decide)).1 (by decide)⟩

/-- The entry of `empty_tx` after admission, and what a `TX_DONE` for it
would do: the 32-bit count wraps and the client is not notified. -/
theorem empty_tx_admission :
    (run ⟨2, 2, 2, 0⟩ (init ⟨2, 2, 2, 0⟩ 0 [0, 0]) [.CLIENT_TX_INIT empty_tx]).map
      (fun r => (r.1.vclk, r.1.outstanding_tx, r.2)) = some ([1, 0], [(7, ⟨9, 0⟩)], []) ∧
    (run ⟨2, 2, 2, 0⟩ (init ⟨2, 2, 2, 0⟩ 0 [0, 0]) [.CLIENT_TX_INIT empty_tx, .TX_DONE 7]).map
      (fun r => (r.1.outstanding_tx, r.2)) = some ([(7, ⟨9, 2 ^ 32 - 1⟩)], []) := by
  refine ⟨by decide, by decide⟩

/-! ## Properties of an element: `remove_property` -/

theorem remove_property_positions_none {P : Type} (ops : property_ops P) (key : String) :
    ∀ (l : List P) (pos : Nat), (∀ p ∈ l, ops.key p ≠ key) →
      remove_property_positions ops key l pos = [] := by
  intro l
  induction l with
  | nil => intro pos _; rfl
  | cons p ps ih =>
    intro pos h
    unfold remove_property_positions
    rw [if_neg (h p (List.mem_cons_self _ _))]
    exact ih (pos + 1) (fun q hq => h q (List.mem_cons_of_mem _ hq))

theorem filter_key_of_none {P : Type} (ops : property_ops P) (key : String) (l : List P)
    (h : ∀ p ∈ l, ops.key p ≠ key) : l.filter (fun p => decide (ops.key p ≠ key)) = l := by
  apply List.filter_eq_self.2
  intro p hp
  exact decide_eq_true (h p hp)

/-- Where at most one property has the key, `remove_property` returns and
leaves the properties with another key, in their order. -/
theorem remove_property_single {P : Type} (ops : property_ops P) (key : String) :
    ∀ (l : List P), l.countP (fun p => decide (ops.key p = key)) ≤ 1 →
      remove_property ops l key = some (l.filter (fun p => decide (ops.key p ≠ key))) := by
  have hpos : ∀ (l : List P) (pos : Nat), l.countP (fun p => decide (ops.key p = key)) ≤ 1 →
      remove_property_positions ops key l pos = [] ∧
          l.filter (fun p => decide (ops.key p ≠ key)) = l ∨
        ∃ j, j < l.length ∧ remove_property_positions ops key l pos = [pos + j] ∧
          l.eraseIdx j = l.filter (fun p => decide (ops.key p ≠ key)) := by
    intro l
    induction l with
    | nil => intro pos _; exact Or.inl ⟨rfl, rfl⟩
    | cons p ps ih =>
      intro pos h
      by_cases hk : ops.key p = key
      · have hc : ps.countP (fun p => decide (ops.key p = key)) = 0 := by
          rw [List.countP_cons] at h
          simp only [hk, decide_True, if_true] at h
          omega
        have hnone : ∀ q ∈ ps, ops.key q ≠ key := by
          intro q hq
          have := List.countP_eq_zero.1 hc q hq
          simpa using this
        refine Or.inr ⟨0, by simp, ?_, ?_⟩
        · unfold remove_property_positions
          rw [if_pos hk, remove_property_positions_none ops key ps _ hnone]
          rfl
        · rw [List.eraseIdx_cons_zero, List.filter_cons_of_neg (by simpa using hk),
            filter_key_of_none ops key ps hnone]
      · have hc : ps.countP (fun p => decide (ops.key p = key)) ≤ 1 := by
          rw [List.countP_cons] at h
          simp only [hk, decide_False, Bool.false_eq_true, if_false, Nat.add_zero] at h
          exact h
        have hstep : remove_property_positions ops key (p :: ps) pos =
            remove_property_positions ops key ps (pos + 1) := by
          rw [remove_property_positions, if_neg hk]
        rcases ih (pos + 1) hc with ⟨h1, h2⟩ | ⟨j, hj, h1, h2⟩
        · refine Or.inl ⟨by rw [hstep, h1], ?_⟩
          rw [List.filter_cons_of_pos (by simpa using hk), h2]
        · refine Or.inr ⟨j + 1, by simpa using hj, ?_, ?_⟩
          · rw [hstep, h1]
            congr 1
            omega
          · rw [List.eraseIdx_cons_succ, List.filter_cons_of_pos (by simpa using hk), h2]
  intro l h
  unfold remove_property
  rcases hpos l 0 h with ⟨h1, h2⟩ | ⟨j, hj, h1, h2⟩
  · rw [h1, h2]
    rfl
  · rw [h1, ← h2]
    simp only [remove_property_erase, vector_erase, Nat.zero_add, if_pos hj]

/-- C33 (failing inputs): with two properties of key `color` followed by one
of key `size`, `remove_property("color")` returns a list that still has the
second `color` property and has lost the `size` property; with only the two
`color` properties the second `erase` is at position 1 of a list of length
1, outside the list. -/
theorem remove_property_erases_shifted_positions :
    remove_property_positions plain_ops "color" two_colors_one_size 0 = [0, 1] ∧
    remove_property plain_ops two_colors_one_size "color" = some [⟨"color", "blue", none⟩] ∧
    two_colors_one_size.filter (fun p => decide (plain_ops.key p ≠ "color")) =
      [⟨"size", "big", none⟩] ∧
    remove_property plain_ops [⟨"color", "red", none⟩, ⟨"color", "blue", none⟩] "color" =
      none := by
  refine ⟨by decide, by decide, by decide, by decide⟩

/-! ## Properties of an element: `add_property` and `delete_property` -/

theorem delete_property_loop_eq {P : Type} (ops : property_ops P) (key : String)
    (tdel : vclock_t) :
    ∀ (l : List P) (found : Bool),
      delete_property_loop ops key tdel l found =
        (found || l.any (fun p => decide (ops.key p = key) && !ops.is_deleted p),
         l.map (fun p => if ops.key p = key ∧ ops.is_deleted p = false
           then ops.update_del_time p tdel else p)) := by
  intro l
  induction l with
  | nil => intro found; simp [delete_property_loop]
  | cons p ps ih =>
    intro found
    unfold delete_property_loop
    by_cases h : ops.key p = key ∧ ops.is_deleted p = false
    · simp only [if_pos h, ih, List.any_cons, List.map_cons]
      simp [h.1, h.2]
    · simp only [if_neg h, ih, List.any_cons, List.map_cons]
      have : (decide (ops.key p = key) && !ops.is_deleted p) = false := by
        by_cases hk : ops.key p = key
        · have hd : ops.is_deleted p = true := by
            cases hd : ops.is_deleted p
            · exact absurd ⟨hk, hd⟩ h
            · rfl
          simp [hd]
        · simp [hk]
      rw [this]
      simp

/-- The default build of `delete_property(key, tdel)` in closed form: it
returns whether some property with the key is not deleted, and gives the
deletion time to every such property. -/
theorem delete_property_eq {P : Type} (ops : property_ops P) (l : List P) (key : String)
    (tdel : vclock_t) :
    delete_property ops l key tdel =
      (l.any (fun p => decide (ops.key p = key) && !ops.is_deleted p),
       l.map (fun p => if ops.key p = key ∧ ops.is_deleted p = false
         then ops.update_del_time p tdel else p)) := by
  unfold delete_property
  rw [delete_property_loop_eq]
  simp

/-- The build with `weaver_large_property_maps_`: `delete_property(key,
tdel)` returns whether the map has the key. -/
theorem delete_property_map_fst {P : Type} (ops : property_ops P)
    (m : List (String × List P)) (key : String) (tdel : vclock_t) :
    (delete_property_map ops m key tdel).1 = (property_map_find m key).isSome := by
  unfold delete_property_map
  cases property_map_find m key <;> rfl

theorem delete_property_value_no_live {P : Type} (ops : property_ops P) (prop : P)
    (tdel : vclock_t)
    (hdel : ∀ p, ops.is_deleted (ops.update_del_time p tdel) = true) :
    ∀ (l : List P),
      l.countP (fun p => decide (ops.key p = ops.key prop ∧ ops.value p = ops.value prop ∧
        ops.is_deleted p = false)) ≤ 1 →
      (delete_property_value ops (ops.key prop) (ops.value prop) tdel l).2.countP
        (fun p => decide (ops.key p = ops.key prop ∧ ops.value p = ops.value prop ∧
          ops.is_deleted p = false)) = 0 := by
  intro l
  induction l with
  | nil => intro _; rfl
  | cons p ps ih =>
    intro h
    unfold delete_property_value
    rw [List.countP_cons] at h
    by_cases hp : ops.key p = ops.key prop ∧ ops.value p = ops.value prop ∧
        ops.is_deleted p = false
    · rw [if_pos hp]
      simp only [hp, and_self, decide_True, if_true] at h
      rw [List.countP_cons]
      have hnot : ¬ (ops.key (ops.update_del_time p tdel) = ops.key prop ∧
          ops.value (ops.update_del_time p tdel) = ops.value prop ∧
          ops.is_deleted (ops.update_del_time p tdel) = false) := by
        intro hc
        rw [hdel p] at hc
        exact Bool.noConfusion hc.2.2
      rw [decide_eq_false hnot]
      simp only [Bool.false_eq_true, if_false, Nat.add_zero]
      omega
    · rw [if_neg hp]
      rw [decide_eq_false hp] at h
      simp only [Bool.false_eq_true, if_false, Nat.add_zero] at h
      simp only
      rw [List.countP_cons, decide_eq_false hp, ih h]
      rfl

/-- The result of `delete_property(key, value, tdel)` is whether some
property with the key and the value is not deleted. -/
theorem delete_property_value_fst {P : Type} (ops : property_ops P) (key value : String)
    (tdel : vclock_t) :
    ∀ (l : List P), (delete_property_value ops key value tdel l).1 = true ↔
      ∃ p ∈ l, ops.key p = key ∧ ops.value p = value ∧ ops.is_deleted p = false := by
  intro l
  induction l with
  | nil => simp [delete_property_value]
  | cons p ps ih =>
    unfold delete_property_value
    by_cases hp : ops.key p = key ∧ ops.value p = value ∧ ops.is_deleted p = false
    · rw [if_pos hp]
      simp only [true_iff]
      exact ⟨p, List.mem_cons_self _ _, hp⟩
    · rw [if_neg hp]
      simp only
      rw [ih]
      constructor
      · rintro ⟨q, hq, h⟩
        exact ⟨q, List.mem_cons_of_mem _ hq, h⟩
      · rintro ⟨q, hq, h⟩
        rcases List.mem_cons.1 hq with hq | hq
        · rw [hq] at h
          exact absurd h hp
        · exact ⟨q, hq, h⟩

/-- C34: `add_property(prop)` returns false exactly when the list holds a
property equal to `prop` that is not deleted, and then leaves the list as it
is; otherwise it returns true and the list is the old one with `prop`
appended.  For a `prop` that is equal to itself and not deleted, a second
`add_property(prop)` right after the first returns false and changes
nothing.  Where equality with `prop` is equality of key and value, a property
is deleted once it has a deletion time and the list has at most one live
property equal to `prop`, `add_property(prop)` after
`delete_property(key, value, t)` returns true. -/
theorem add_property_spec {P : Type} (ops : property_ops P) (properties : List P) (prop : P) :
    ((add_property ops properties prop).1 = false ↔
      ∃ p ∈ properties, ops.eq p prop = true ∧ ops.is_deleted p = false) ∧
    ((add_property ops properties prop).1 = false →
      (add_property ops properties prop).2 = properties) ∧
    ((add_property ops properties prop).1 = true →
      (add_property ops properties prop).2 = properties ++ [prop]) ∧
    (ops.eq prop prop = true → ops.is_deleted prop = false →
      add_property ops (add_property ops properties prop).2 prop =
        (false, (add_property ops properties prop).2)) ∧
    ((∀ p, ops.eq p prop = true ↔ ops.key p = ops.key prop ∧ ops.value p = ops.value prop) →
      ∀ tdel, (∀ p, ops.is_deleted (ops.update_del_time p tdel) = true) →
      properties.countP (fun p => decide (ops.key p = ops.key prop ∧
        ops.value p = ops.value prop ∧ ops.is_deleted p = false)) ≤ 1 →
      add_property ops
          (delete_property_value ops (ops.key prop) (ops.value prop) tdel properties).2 prop =
        (true,
          (delete_property_value ops (ops.key prop) (ops.value prop) tdel properties).2 ++
            [prop])) := by
  have hany : ∀ l : List P, l.any (fun p => ops.eq p prop && !ops.is_deleted p) = true ↔
      ∃ p ∈ l, ops.eq p prop = true ∧ ops.is_deleted p = false := by
    intro l
    simp only [List.any_eq_true, Bool.and_eq_true, Bool.not_eq_true']
  have hadd : ∀ l : List P, add_property ops l prop =
      if l.any (fun p => ops.eq p prop && !ops.is_deleted p) = true then (false, l)
      else (true, l ++ [prop]) := fun l => rfl
  refine ⟨?_, ?_, ?_, ?_, ?_⟩
  · rw [hadd, ← hany]
    by_cases h : properties.any (fun p => ops.eq p prop && !ops.is_deleted p) = true
    · simp [h]
    · simp [h]
  · rw [hadd]
    by_cases h : properties.any (fun p => ops.eq p prop && !ops.is_deleted p) = true
    · simp [h]
    · simp [h]
  · rw [hadd]
    by_cases h : properties.any (fun p => ops.eq p prop && !ops.is_deleted p) = true
    · simp [h]
    · simp [h]
  · intro hrefl hlive
    have hsecond : ((add_property ops properties prop).2).any
        (fun p => ops.eq p prop && !ops.is_deleted p) = true := by
      rw [hadd]
      by_cases h : properties.any (fun p => ops.eq p prop && !ops.is_deleted p) = true
      · rw [if_pos h]
        exact h
      · rw [if_neg h, hany]
        exact ⟨prop, by simp, hrefl, hlive⟩
    rw [hadd ((add_property ops properties prop).2), if_pos hsecond]
  · intro heq tdel hdel huniq
    have hzero := delete_property_value_no_live ops prop tdel hdel properties huniq
    rw [hadd, if_neg]
    rw [hany]
    rintro ⟨p, hp, hpe, hpl⟩
    have := List.countP_eq_zero.1 hzero p hp
    apply this
    exact decide_eq_true ⟨((heq p).1 hpe).1, ((heq p).1 hpe).2, hpl⟩

/-- Witness for C34: the property `red` added to the list that holds only
`red`, and added to what `delete_property("color", "red", [1, 0])` leaves of
that list. -/
theorem add_property_spec_witness :
    add_property plain_ops (add_property plain_ops [] red).2 red =
      (false, (add_property plain_ops [] red).2) ∧
    add_property plain_ops
        (delete_property_value plain_ops (plain_ops.key red) (plain_ops.value red) [1, 0]
          [red]).2 red =
      (true,
        (delete_property_value plain_ops (plain_ops.key red) (plain_ops.value red) [1, 0]
          [red]).2 ++ [red]) :=
  ⟨(add_property_spec plain_ops [] red).2.2.2.1 (by decide) (by decide),
   (add_property_spec plain_ops [red] red).2.2.2.2
     (by intro p; simp [plain_ops, red]) [1, 0] (by intro p; rfl) (by decide)⟩

/-- The property `red` added to an empty list twice, deleted by key and
value, and added again: true, false, true, true, and the list ends with the
deleted copy followed by a live one. -/
theorem add_twice_delete_add :
    add_property plain_ops [] red = (true, [red]) ∧
    add_property plain_ops [red] red = (false, [red]) ∧
    delete_property_value plain_ops "color" "red" [1, 0] [red] =
      (true, [⟨"color", "red", some [1, 0]⟩]) ∧
    add_property plain_ops [⟨"color", "red", some [1, 0]⟩] red =
      (true, [⟨"color", "red", some [1, 0]⟩, red]) := by
  refine ⟨by decide, by decide, by decide, by decide⟩

/-- C35 (failing input): an element whose only property, `color = red`, was
added and then deleted at time `[1, 0]`.  Both builds agree on the first
`delete_property("color", ..)`; on a second one the vector build returns
false and the map build returns true (neither changes a property). -/
theorem delete_property_builds_disagree :
    add_property plain_ops [] red = (true, [red]) ∧
    add_property_map plain_ops [] red = (true, [("color", [red])]) ∧
    delete_property plain_ops [red] "color" [1, 0] =
      (true, [⟨"color", "red", some [1, 0]⟩]) ∧
    delete_property_map plain_ops [("color", [red])] "color" [1, 0] =
      (true, [("color", [⟨"color", "red", some [1, 0]⟩])]) ∧
    delete_property plain_ops [⟨"color", "red", some [1, 0]⟩] "color" [2, 0] =
      (false, [⟨"color", "red", some [1, 0]⟩]) ∧
    delete_property_map plain_ops [("color", [⟨"color", "red", some [1, 0]⟩])] "color" [2, 0] =
      (true, [("color", [⟨"color", "red", some [1, 0]⟩])]) := by
  refine ⟨by decide, by decide, by decide, by decide, by decide, by decide⟩

/-! ## Program state: the two indexes -/

theorem prog_map_find_mem {m : prog_map} {t : prog_type} {rmap : req_map}
    (h : prog_map_find m t = some rmap) : (t, rmap) ∈ m := by
  induction m with
  | nil => simp [prog_map_find] at h
  | cons kv m ih =>
    obtain ⟨a, b⟩ := kv
    by_cases hat : a = t
    · simp only [prog_map_find, hat, if_true, Option.some.injEq] at h
      rw [hat, h]
      exact List.mem_cons_self _ _
    · simp only [prog_map_find, hat, if_false] at h
      exact List.mem_cons_of_mem _ (ih h)

theorem mem_prog_map_assign {m : prog_map} {t x : prog_type} {v w : req_map}
    (h : (x, w) ∈ prog_map_assign m t v) : (x = t ∧ w = v) ∨ (x ≠ t ∧ (x, w) ∈ m) := by
  unfold prog_map_assign at h
  obtain ⟨kv, hkv, he⟩ := List.mem_map.1 h
  by_cases hk : kv.1 = t
  · rw [if_pos hk] at he
    injection he with h1 h2
    exact Or.inl ⟨by rw [← h1, hk], h2.symm⟩
  · rw [if_neg hk] at he
    rw [he] at hkv hk
    exact Or.inr ⟨hk, hkv⟩

theorem map_find_isSome_assign {β : Type} (m : List (Nat × β)) (k x : Nat) (v : β) :
    (map_find (map_assign m k v) x).isSome = (map_find m x).isSome := by
  rw [map_find_assign]
  by_cases hx : x = k
  · rw [if_pos hx, hx]
    cases map_find m k <;> rfl
  · rw [if_neg hx]

theorem map_assign_keys {β : Type} (m : List (Nat × β)) (k : Nat) (v : β) :
    (map_assign m k v).map Prod.fst = m.map Prod.fst := by
  unfold map_assign
  rw [List.map_map]
  apply List.map_congr_left
  intro kv _
  by_cases h : kv.1 = k
  · simp [h]
  · simp [h]

theorem map_put_keys_nodup {β : Type} (m : List (Nat × β)) (k : Nat) (v : β)
    (h : (m.map Prod.fst).Nodup) : ((map_put m k v).map Prod.fst).Nodup := by
  unfold map_put
  cases hf : map_find m k with
  | some w =>
    simp only [Option.isSome_some, if_true]
    rw [map_assign_keys]
    exact h
  | none =>
    simp only [Option.isSome_none, Bool.false_eq_true, if_false]
    have := map_emplace_keys_nodup m k v h
    unfold map_emplace at this
    rw [hf] at this
    exact this

theorem map_erase_keys_nodup {β : Type} (m : List (Nat × β)) (k : Nat)
    (h : (m.map Prod.fst).Nodup) : ((map_erase m k).map Prod.fst).Nodup :=
  h.sublist ((map_erase_sublist m k).map Prod.fst)

/-- The object `put_state` returns for a request that is not done. -/
theorem put_state_eq (ps : program_state) (t : prog_type) (req_id node_id : Nat)
    (new_state : node_state_ptr) (rmap : req_map)
    (hnd : ps.check_done_nolock req_id = false)
    (hmap : prog_map_find ps.prog_state t = some rmap) :
    ps.put_state t req_id node_id new_state = some
      { ps with
        prog_state := prog_map_assign ps.prog_state t
          (match map_find rmap req_id with
           | some nmap => map_assign rmap req_id (map_put nmap node_id new_state)
           | none => map_emplace rmap req_id [(node_id, new_state)])
        req_list :=
          map_assign
            (if (map_find ps.req_list node_id).isSome then ps.req_list
             else map_emplace ps.req_list node_id [])
            node_id
            (set_emplace
              ((map_find
                (if (map_find ps.req_list node_id).isSome then ps.req_list
                 else map_emplace ps.req_list node_id []) node_id).getD []) req_id) } := by
  unfold program_state.put_state
  rw [hnd]
  simp only [Bool.false_eq_true, if_false, hmap]

/-- The request list of a node after `put_state` for a request that is not
done: the request is added at the node, other nodes keep their lists. -/
theorem put_state_req_list (rl : List (Nat × List Nat)) (req_id node_id r n : Nat) :
    r ∈ (map_find
        (map_assign
          (if (map_find rl node_id).isSome then rl else map_emplace rl node_id [])
          node_id
          (set_emplace
            ((map_find
              (if (map_find rl node_id).isSome then rl
               else map_emplace rl node_id []) node_id).getD []) req_id)) n).getD [] ↔
      if n = node_id then r ∈ (map_find rl node_id).getD [] ∨ r = req_id
      else r ∈ (map_find rl n).getD [] := by
  rw [map_find_assign]
  by_cases hn : n = node_id
  · rw [if_pos hn, if_pos hn]
    cases hl : map_find rl node_id with
    | some reqs => simp [hl, mem_set_emplace]
    | none => simp [hl, map_find_emplace rl node_id node_id [] hl, mem_set_emplace]
  · rw [if_neg hn, if_neg hn]
    cases hl : map_find rl node_id with
    | some reqs => simp
    | none =>
      simp only [Option.isSome_none, Bool.false_eq_true, if_false]
      rw [map_find_emplace_other rl node_id n [] hn]

theorem put_state_inv {ty : Nat → prog_type} {ps ps1 : program_state} {t : prog_type}
    {req_id node_id : Nat} {new_state : node_state_ptr}
    (hinv : PSInv ty ps) (hty : t = ty req_id)
    (h : ps.put_state t req_id node_id new_state = some ps1) : PSInv ty ps1 := by
  cases hnd : ps.check_done_nolock req_id with
  | true =>
    rw [put_state_done ps t req_id node_id new_state hnd] at h
    injection h with h
    rw [← h]
    exact hinv
  | false =>
    cases hmap : prog_map_find ps.prog_state t with
    | none =>
      unfold program_state.put_state at h
      simp [hnd, hmap] at h
    | some rmap =>
      have hmem := prog_map_find_mem hmap
      obtain ⟨ps2, hput, -, -, -, hstored, -, -⟩ :=
        put_state_live ps t req_id node_id new_state rmap hnd hmap
      have h21 : ps2 = ps1 := by
        rw [hput] at h
        exact Option.some.inj h
      rw [h21] at hstored
      rw [put_state_eq ps t req_id node_id new_state rmap hnd hmap] at h
      injection h with h
      refine ⟨?_, ?_, ?_⟩
      · intro x w r hxw hr
        rw [← h] at hxw
        rcases mem_prog_map_assign hxw with ⟨hx, hw⟩ | ⟨-, hxw⟩
        · rw [hx]
          rw [hw] at hr
          cases hf : map_find rmap req_id with
          | some nmap =>
            simp only [hf] at hr
            rw [map_find_isSome_assign] at hr
            exact hinv.typed t rmap r hmem hr
          | none =>
            simp only [hf] at hr
            rw [map_find_emplace rmap req_id r _ hf] at hr
            by_cases hrr : r = req_id
            · rw [hrr]
              exact hty
            · rw [if_neg hrr] at hr
              exact hinv.typed t rmap r hmem hr
        · exact hinv.typed x w r hxw hr
      · intro x w r nmap1 hxw hr
        rw [← h] at hxw
        rcases mem_prog_map_assign hxw with ⟨-, hw⟩ | ⟨-, hxw⟩
        · rw [hw] at hr
          cases hf : map_find rmap req_id with
          | some nmap =>
            simp only [hf] at hr
            rw [map_find_assign] at hr
            by_cases hrr : r = req_id
            · rw [if_pos hrr, hf] at hr
              simp only [Option.map_some', Option.some.injEq] at hr
              rw [← hr]
              exact map_put_keys_nodup _ _ _ (hinv.nodes t rmap req_id nmap hmem hf)
            · rw [if_neg hrr] at hr
              exact hinv.nodes t rmap r nmap1 hmem hr
          | none =>
            simp only [hf] at hr
            rw [map_find_emplace rmap req_id r _ hf] at hr
            by_cases hrr : r = req_id
            · rw [if_pos hrr] at hr
              injection hr with hr
              rw [← hr]
              simp
            · rw [if_neg hrr] at hr
              exact hinv.nodes t rmap r nmap1 hmem hr
        · exact hinv.nodes x w r nmap1 hxw hr
      · intro r n
        have hrl : r ∈ (map_find ps1.req_list n).getD [] ↔
            if n = node_id then r ∈ (map_find ps.req_list node_id).getD [] ∨ r = req_id
            else r ∈ (map_find ps.req_list n).getD [] := by
          rw [← h]
          exact put_state_req_list ps.req_list req_id node_id r n
        refine Iff.trans hrl ?_
        by_cases hn : n = node_id
        · rw [if_pos hn, hn]
          by_cases hrr : r = req_id
          · constructor
            · intro _
              refine ⟨t, ?_⟩
              rw [hstored, if_pos ⟨rfl, hrr, rfl⟩]
              rfl
            · intro _
              exact Or.inr hrr
          · rw [hinv.index r node_id]
            constructor
            · rintro (⟨x, hx⟩ | hc)
              · refine ⟨x, ?_⟩
                rw [hstored, if_neg (fun hc => hrr hc.2.1)]
                exact hx
              · exact absurd hc hrr
            · rintro ⟨x, hx⟩
              rw [hstored, if_neg (fun hc => hrr hc.2.1)] at hx
              exact Or.inl ⟨x, hx⟩
        · rw [if_neg hn, hinv.index r n]
          constructor
          · rintro ⟨x, hx⟩
            refine ⟨x, ?_⟩
            rw [hstored, if_neg (fun hc => hn hc.2.2)]
            exact hx
          · rintro ⟨x, hx⟩
            rw [hstored, if_neg (fun hc => hn hc.2.2)] at hx
            exact ⟨x, hx⟩

theorem stored_eq (ps : program_state) (t : prog_type) (r n : Nat) :
    ps.stored t r n = prog_map_stored ps.prog_state t r n := rfl

theorem map_find_erase_node_in_req (node_id req_id : Nat) (rmap : req_map) (r : Nat) :
    map_find (erase_node_in_req node_id req_id rmap) r =
      (map_find rmap r).map (fun nmap => if r = req_id then map_erase nmap node_id else nmap) := by
  unfold erase_node_in_req
  cases hf : map_find rmap req_id with
  | none =>
    simp only
    by_cases hr : r = req_id
    · rw [hr, hf]
      rfl
    · cases map_find rmap r <;> simp [hr]
  | some nmap =>
    simp only
    rw [map_find_assign]
    by_cases hr : r = req_id
    · rw [if_pos hr, hr, hf]
      simp
    · rw [if_neg hr]
      cases map_find rmap r <;> simp [hr]

theorem mem_delete_node_state_req {node_id req_id : Nat} :
    ∀ {m : prog_map} {t : prog_type} {w : req_map},
      (t, w) ∈ delete_node_state_req node_id req_id m →
      ∃ rmap, (t, rmap) ∈ m ∧ (w = rmap ∨ w = erase_node_in_req node_id req_id rmap) := by
  intro m
  induction m with
  | nil =>
    intro t w h
    simp [delete_node_state_req] at h
  | cons kv m ih =>
    intro t w h
    obtain ⟨t0, rmap0⟩ := kv
    unfold delete_node_state_req at h
    cases hf : map_find rmap0 req_id with
    | some nmap =>
      simp only [hf] at h
      rcases List.mem_cons.1 h with h | h
      · injection h with h1 h2
        refine ⟨rmap0, by rw [h1]; exact List.mem_cons_self _ _, Or.inr ?_⟩
        rw [h2]
        unfold erase_node_in_req
        rw [hf]
      · exact ⟨w, List.mem_cons_of_mem _ h, Or.inl rfl⟩
    | none =>
      simp only [hf] at h
      rcases List.mem_cons.1 h with h | h
      · injection h with h1 h2
        exact ⟨rmap0, by rw [h1]; exact List.mem_cons_self _ _, Or.inl h2⟩
      · obtain ⟨rmap, hm, hw⟩ := ih h
        exact ⟨rmap, List.mem_cons_of_mem _ hm, hw⟩

theorem prog_map_find_delete_req {ty : Nat → prog_type} (node_id req_id : Nat) :
    ∀ (m : prog_map),
      (∀ t rmap, (t, rmap) ∈ m → (map_find rmap req_id).isSome = true → t = ty req_id) →
      ∀ t, prog_map_find (delete_node_state_req node_id req_id m) t =
        (prog_map_find m t).map (erase_node_in_req node_id req_id) := by
  intro m
  induction m with
  | nil => intro _ t; rfl
  | cons kv m ih =>
    intro hty t
    obtain ⟨t0, rmap0⟩ := kv
    have hty2 : ∀ t rmap, (t, rmap) ∈ m → (map_find rmap req_id).isSome = true →
        t = ty req_id := fun t rmap h => hty t rmap (List.mem_cons_of_mem _ h)
    unfold delete_node_state_req
    cases hf : map_find rmap0 req_id with
    | some nmap =>
      simp only
      have ht0 : t0 = ty req_id := hty t0 rmap0 (List.mem_cons_self _ _) (by rw [hf]; rfl)
      by_cases ht : t0 = t
      · simp only [prog_map_find, ht, if_true, Option.map_some']
        unfold erase_node_in_req
        rw [hf]
      · simp only [prog_map_find, ht, if_false]
        cases hm : prog_map_find m t with
        | none => rfl
        | some rmap =>
          have hnone : map_find rmap req_id = none := by
            cases hr : map_find rmap req_id with
            | none => rfl
            | some x =>
              have := hty2 t rmap (prog_map_find_mem hm) (by rw [hr]; rfl)
              exact absurd (ht0.trans this.symm) ht
          simp only [Option.map_some']
          unfold erase_node_in_req
          rw [hnone]
    | none =>
      simp only
      by_cases ht : t0 = t
      · simp only [prog_map_find, ht, if_true, Option.map_some']
        unfold erase_node_in_req
        rw [hf]
      · simp only [prog_map_find, ht, if_false]
        exact ih hty2 t

theorem prog_map_stored_delete_req {ty : Nat → prog_type} (node_id req_id : Nat) (m : prog_map)
    (hty : ∀ t rmap, (t, rmap) ∈ m → (map_find rmap req_id).isSome = true → t = ty req_id)
    (t : prog_type) (r n : Nat) :
    prog_map_stored (delete_node_state_req node_id req_id m) t r n =
      if r = req_id ∧ n = node_id then none else prog_map_stored m t r n := by
  unfold prog_map_stored
  rw [prog_map_find_delete_req node_id req_id m hty t]
  cases hm : prog_map_find m t with
  | none => simp
  | some rmap =>
    simp only [Option.map_some', map_find_erase_node_in_req]
    cases hr : map_find rmap r with
    | none => simp
    | some nmap =>
      simp only [Option.map_some']
      by_cases hrr : r = req_id
      · rw [if_pos hrr, map_find_erase]
        by_cases hn : n = node_id
        · simp [hrr, hn]
        · simp [hn]
      · simp [hrr]

/-- The facts about the entries of a program map that the invariant keeps. -/
theorem delete_req_entries {ty : Nat → prog_type} (node_id req_id : Nat) (m : prog_map)
    (htyped : ∀ t rmap r, (t, rmap) ∈ m → (map_find rmap r).isSome = true → t = ty r)
    (hnodes : ∀ t rmap r nmap, (t, rmap) ∈ m → map_find rmap r = some nmap →
      (nmap.map Prod.fst).Nodup) :
    (∀ t rmap r, (t, rmap) ∈ delete_node_state_req node_id req_id m →
      (map_find rmap r).isSome = true → t = ty r) ∧
    (∀ t rmap r nmap, (t, rmap) ∈ delete_node_state_req node_id req_id m →
      map_find rmap r = some nmap → (nmap.map Prod.fst).Nodup) := by
  constructor
  · intro t w r hw hr
    obtain ⟨rmap, hm, hw2⟩ := mem_delete_node_state_req hw
    rcases hw2 with hw2 | hw2
    · rw [hw2] at hr
      exact htyped t rmap r hm hr
    · rw [hw2, map_find_erase_node_in_req] at hr
      apply htyped t rmap r hm
      cases hf : map_find rmap r with
      | none => rw [hf] at hr; exact hr
      | some x => rfl
  · intro t w r nmap hw hr
    obtain ⟨rmap, hm, hw2⟩ := mem_delete_node_state_req hw
    rcases hw2 with hw2 | hw2
    · rw [hw2] at hr
      exact hnodes t rmap r nmap hm hr
    · rw [hw2, map_find_erase_node_in_req] at hr
      cases hf : map_find rmap r with
      | none => rw [hf] at hr; cases hr
      | some x =>
        rw [hf] at hr
        simp only [Option.map_some', Option.some.injEq] at hr
        have hx := hnodes t rmap r x hm hf
        by_cases hrr : r = req_id
        · rw [if_pos hrr] at hr
          rw [← hr]
          exact map_erase_keys_nodup x node_id hx
        · rw [if_neg hrr] at hr
          rw [← hr]
          exact hx

theorem delete_reqs_fold {ty : Nat → prog_type} (node_id : Nat) :
    ∀ (reqs : List Nat) (m : prog_map),
      (∀ t rmap r, (t, rmap) ∈ m → (map_find rmap r).isSome = true → t = ty r) →
      (∀ t rmap r nmap, (t, rmap) ∈ m → map_find rmap r = some nmap →
        (nmap.map Prod.fst).Nodup) →
      (∀ t rmap r, (t, rmap) ∈ reqs.foldl (fun m r => delete_node_state_req node_id r m) m →
        (map_find rmap r).isSome = true → t = ty r) ∧
      (∀ t rmap r nmap,
        (t, rmap) ∈ reqs.foldl (fun m r => delete_node_state_req node_id r m) m →
        map_find rmap r = some nmap → (nmap.map Prod.fst).Nodup) ∧
      ∀ t r n, prog_map_stored (reqs.foldl (fun m r => delete_node_state_req node_id r m) m)
          t r n =
        if n = node_id ∧ r ∈ reqs then none else prog_map_stored m t r n := by
  intro reqs
  induction reqs with
  | nil =>
    intro m h1 h2
    refine ⟨h1, h2, ?_⟩
    intro t r n
    simp
  | cons q reqs ih =>
    intro m h1 h2
    obtain ⟨h3, h4⟩ := delete_req_entries node_id q m h1 h2
    obtain ⟨h5, h6, h7⟩ := ih (delete_node_state_req node_id q m) h3 h4
    rw [List.foldl_cons]
    refine ⟨h5, h6, ?_⟩
    intro t r n
    rw [h7, prog_map_stored_delete_req node_id q m (fun t rmap => h1 t rmap q)]
    by_cases hn : n = node_id
    · by_cases hr : r ∈ reqs
      · simp [hn, hr]
      · by_cases hq : r = q
        · simp [hn, hq]
        · simp [hn, hr, hq]
    · simp [hn]

theorem delete_node_state_inv {ty : Nat → prog_type} {ps : program_state} (hinv : PSInv ty ps)
    (node_id : Nat) : PSInv ty (ps.delete_node_state node_id) := by
  have hnone : ∀ r, r ∉ (map_find ps.req_list node_id).getD [] →
      ∀ t, prog_map_stored ps.prog_state t r node_id = none := by
    intro r hr t
    have h1 := (hinv.index r node_id).not.1 hr
    cases hs : prog_map_stored ps.prog_state t r node_id with
    | none => rfl
    | some x => exact absurd ⟨t, by rw [stored_eq, hs]; rfl⟩ h1
  unfold program_state.delete_node_state
  cases hl : map_find ps.req_list node_id with
  | none =>
    refine ⟨hinv.typed, hinv.nodes, ?_⟩
    intro r n
    show r ∈ (map_find (map_erase ps.req_list node_id) n).getD [] ↔
      ∃ t, (prog_map_stored ps.prog_state t r n).isSome = true
    rw [map_find_erase]
    by_cases hn : n = node_id
    · rw [if_pos hn, hn]
      simp only [Option.getD_none, List.not_mem_nil, false_iff, not_exists]
      intro t
      rw [hnone r (by rw [hl]; simp) t]
      simp
    · rw [if_neg hn]
      exact hinv.index r n
  | some reqs =>
    obtain ⟨h5, h6, h7⟩ := delete_reqs_fold node_id reqs ps.prog_state hinv.typed hinv.nodes
    refine ⟨h5, h6, ?_⟩
    intro r n
    show r ∈ (map_find (map_erase ps.req_list node_id) n).getD [] ↔
      ∃ t, (prog_map_stored
        (reqs.foldl (fun m r => delete_node_state_req node_id r m) ps.prog_state) t r n).isSome
          = true
    rw [map_find_erase]
    by_cases hn : n = node_id
    · rw [if_pos hn, hn]
      simp only [Option.getD_none, List.not_mem_nil, false_iff, not_exists]
      intro t
      rw [h7]
      by_cases hr : r ∈ reqs
      · simp [hr]
      · rw [if_neg (fun hc => hr hc.2), hnone r (by rw [hl]; exact hr) t]
        simp
    · rw [if_neg hn]
      rw [hinv.index r n]
      constructor
      · rintro ⟨t, ht⟩
        refine ⟨t, ?_⟩
        rw [h7, if_neg (fun hc => hn hc.1)]
        exact ht
      · rintro ⟨t, ht⟩
        rw [h7, if_neg (fun hc => hn hc.1)] at ht
        exact ⟨t, ht⟩

/-- The loop of `done_requests` over distinct nodes that all have a request
list returns, and takes the request out of the lists of these nodes only. -/
theorem done_requests_nodes_spec (req_id : Nat) :
    ∀ (nodes : List Nat) (rl : List (Nat × List Nat)),
      nodes.Nodup → (∀ n ∈ nodes, (map_find rl n).isSome = true) →
      ∃ rl1, done_requests_nodes req_id rl nodes = some rl1 ∧
        ∀ n r, r ∈ (map_find rl1 n).getD [] ↔
          r ∈ (map_find rl n).getD [] ∧ ¬ (r = req_id ∧ n ∈ nodes) := by
  intro nodes
  induction nodes with
  | nil =>
    intro rl _ _
    refine ⟨rl, rfl, ?_⟩
    intro n r
    simp
  | cons n1 rest ih =>
    intro rl hnd hall
    obtain ⟨hn1, hrest⟩ := List.nodup_cons.1 hnd
    cases hf : map_find rl n1 with
    | none =>
      have := hall n1 (List.mem_cons_self _ _)
      rw [hf] at this
      cases this
    | some reqs =>
      have hA : ∀ n r,
          r ∈ (map_find
            (if (reqs.filter (fun r => decide (r ≠ req_id))).isEmpty then map_erase rl n1
             else map_assign rl n1 (reqs.filter (fun r => decide (r ≠ req_id)))) n).getD [] ↔
          r ∈ (map_find rl n).getD [] ∧ ¬ (r = req_id ∧ n = n1) := by
        intro n r
        by_cases he : (reqs.filter (fun r => decide (r ≠ req_id))).isEmpty = true
        · rw [if_pos he, map_find_erase]
          have hnil : reqs.filter (fun r => decide (r ≠ req_id)) = [] :=
            List.isEmpty_iff.1 he
          by_cases hn : n = n1
          · rw [if_pos hn, hn, hf]
            simp only [Option.getD_none, List.not_mem_nil, Option.getD_some, false_iff, not_and,
              not_not, and_true]
            intro hr
            by_contra hne
            have : r ∈ reqs.filter (fun r => decide (r ≠ req_id)) :=
              List.mem_filter.2 ⟨hr, decide_eq_true hne⟩
            rw [hnil] at this
            exact absurd this (List.not_mem_nil _)
          · rw [if_neg hn]
            simp [hn]
        · rw [if_neg he, map_find_assign]
          by_cases hn : n = n1
          · rw [if_pos hn, hn, hf]
            simp only [Option.map_some', Option.getD_some, List.mem_filter, decide_eq_true_eq,
              and_true]
          · rw [if_neg hn]
            simp [hn]
      have hB : ∀ n ∈ rest,
          (map_find
            (if (reqs.filter (fun r => decide (r ≠ req_id))).isEmpty then map_erase rl n1
             else map_assign rl n1 (reqs.filter (fun r => decide (r ≠ req_id)))) n).isSome
            = true := by
        intro n hn
        have hne : n ≠ n1 := fun e => hn1 (e ▸ hn)
        have hs := hall n (List.mem_cons_of_mem _ hn)
        by_cases he : (reqs.filter (fun r => decide (r ≠ req_id))).isEmpty = true
        · rw [if_pos he, map_find_erase, if_neg hne]
          exact hs
        · rw [if_neg he, map_find_assign, if_neg hne]
          exact hs
      obtain ⟨rl1, hrun, hspec⟩ := ih _ hrest hB
      refine ⟨rl1, ?_, ?_⟩
      · unfold done_requests_nodes
        simp only [hf]
        exact hrun
      · intro n r
        rw [hspec, hA]
        simp only [List.mem_cons]
        constructor
        · rintro ⟨⟨h1, h2⟩, h3⟩
          refine ⟨h1, ?_⟩
          rintro ⟨hr, hn | hn⟩
          · exact h2 ⟨hr, hn⟩
          · exact h3 ⟨hr, hn⟩
        · rintro ⟨h1, h2⟩
          exact ⟨⟨h1, fun hc => h2 ⟨hc.1, Or.inl hc.2⟩⟩, fun hc => h2 ⟨hc.1, Or.inr hc.2⟩⟩

/-- Under the invariant every node of the node map of a request has a request
list, so the lookups `req_list.at(node_id)` of `done_requests` succeed. -/
theorem done_requests_nodes_total {ty : Nat → prog_type} {ps : program_state}
    (hinv : PSInv ty ps) {t : prog_type} {rmap : req_map} {r : Nat} {nmap : node_map}
    (hmap : prog_map_find ps.prog_state t = some rmap) (hr : map_find rmap r = some nmap) :
    ∃ rl1, done_requests_nodes r ps.req_list (nmap.map Prod.fst) = some rl1 ∧
      ∀ n r1, r1 ∈ (map_find rl1 n).getD [] ↔
        r1 ∈ (map_find ps.req_list n).getD [] ∧ ¬ (r1 = r ∧ n ∈ nmap.map Prod.fst) := by
  apply done_requests_nodes_spec
  · exact hinv.nodes t rmap r nmap (prog_map_find_mem hmap) hr
  · intro n hn
    have h1 : (map_find nmap n).isSome = true := (map_find_isSome nmap n).2 hn
    have h2 : r ∈ (map_find ps.req_list n).getD [] := by
      rw [hinv.index r n]
      refine ⟨t, ?_⟩
      unfold program_state.stored
      rw [hmap]
      simp only [hr]
      exact h1
    cases hf : map_find ps.req_list n with
    | none => rw [hf] at h2; simp at h2
    | some x => rfl

theorem done_request_inv {ty : Nat → prog_type} {ps ps1 : program_state} {p : Nat × prog_type}
    (hinv : PSInv ty ps) (hty : p.2 = ty p.1) (h : ps.done_request p = some ps1) :
    PSInv ty ps1 := by
  unfold program_state.done_request at h
  cases hmap : prog_map_find ps.prog_state p.2 with
  | none => simp [hmap] at h
  | some rmap =>
    simp only [hmap] at h
    cases hr : map_find rmap p.1 with
    | none =>
      simp only [hr, Option.some.injEq] at h
      rw [← h]
      exact ⟨hinv.typed, hinv.nodes, hinv.index⟩
    | some nmap =>
      simp only [hr] at h
      obtain ⟨rl1, hrun, hspec⟩ := done_requests_nodes_total hinv hmap hr
      simp only [hrun, Option.some.injEq] at h
      have hmem := prog_map_find_mem hmap
      have hstored : ∀ t r n, ps1.stored t r n =
          if r = p.1 then none else ps.stored t r n := by
        intro t r n
        rw [← h]
        unfold program_state.stored
        simp only [prog_map_find_assign]
        by_cases ht : t = p.2
        · rw [if_pos ht, ht, hmap]
          simp only [Option.map_some', map_find_erase]
          by_cases hrr : r = p.1
          · simp [hrr]
          · simp [hrr]
        · rw [if_neg ht]
          by_cases hrr : r = p.1
          · rw [if_pos hrr]
            cases hm2 : prog_map_find ps.prog_state t with
            | none => rfl
            | some rmap2 =>
              simp only
              cases hr2 : map_find rmap2 r with
              | none => rfl
              | some x =>
                have := hinv.typed t rmap2 r (prog_map_find_mem hm2) (by rw [hr2]; rfl)
                rw [hrr, ← hty] at this
                exact absurd this ht
          · rw [if_neg hrr]
      refine ⟨?_, ?_, ?_⟩
      · intro t w r hw hr2
        rw [← h] at hw
        rcases mem_prog_map_assign hw with ⟨ht, hw2⟩ | ⟨-, hw2⟩
        · rw [hw2, map_find_erase] at hr2
          by_cases hrr : r = p.1
          · rw [if_pos hrr] at hr2
            cases hr2
          · rw [if_neg hrr] at hr2
            rw [ht]
            exact hinv.typed p.2 rmap r hmem hr2
        · exact hinv.typed t w r hw2 hr2
      · intro t w r nmap2 hw hr2
        rw [← h] at hw
        rcases mem_prog_map_assign hw with ⟨-, hw2⟩ | ⟨-, hw2⟩
        · rw [hw2, map_find_erase] at hr2
          by_cases hrr : r = p.1
          · rw [if_pos hrr] at hr2
            cases hr2
          · rw [if_neg hrr] at hr2
            exact hinv.nodes p.2 rmap r nmap2 hmem hr2
        · exact hinv.nodes t w r nmap2 hw2 hr2
      · intro r n
        have hrl : ps1.req_list = rl1 := by rw [← h]
        rw [hrl, hspec, hinv.index r n]
        constructor
        · rintro ⟨⟨t, ht⟩, hnot⟩
          refine ⟨t, ?_⟩
          rw [hstored]
          by_cases hrr : r = p.1
          · exfalso
            apply hnot
            refine ⟨hrr, ?_⟩
            rw [← map_find_isSome]
            unfold program_state.stored at ht
            cases hm2 : prog_map_find ps.prog_state t with
            | none => rw [hm2] at ht; cases ht
            | some rmap2 =>
              rw [hm2] at ht
              simp only at ht
              cases hr2 : map_find rmap2 r with
              | none => rw [hr2] at ht; cases ht
              | some x =>
                have htt := hinv.typed t rmap2 r (prog_map_find_mem hm2) (by rw [hr2]; rfl)
                rw [hrr, ← hty] at htt
                rw [htt, hmap] at hm2
                injection hm2 with hm2
                rw [hr2] at ht
                simp only at ht
                rw [← hm2, hrr, hr] at hr2
                injection hr2 with hr2
                rw [hr2]
                exact ht
          · rw [if_neg hrr]
            exact ht
        · rintro ⟨t, ht⟩
          rw [hstored] at ht
          by_cases hrr : r = p.1
          · rw [if_pos hrr] at ht
            cases ht
          · rw [if_neg hrr] at ht
            exact ⟨⟨t, ht⟩, fun hc => hrr hc.1⟩

theorem done_requests_inv {ty : Nat → prog_type} :
    ∀ (reqs : List (Nat × prog_type)) (ps ps1 : program_state),
      PSInv ty ps → (∀ p ∈ reqs, p.2 = ty p.1) → ps.done_requests reqs = some ps1 →
      PSInv ty ps1 := by
  intro reqs
  induction reqs with
  | nil =>
    intro ps ps1 hinv _ h
    simp only [program_state.done_requests, Option.some.injEq] at h
    rw [← h]
    exact hinv
  | cons p rest ih =>
    intro ps ps1 hinv hty h
    unfold program_state.done_requests at h
    cases hd : ps.done_request p with
    | none => simp [hd] at h
    | some ps2 =>
      simp only [hd] at h
      exact ih ps2 ps1 (done_request_inv hinv (hty p (List.mem_cons_self _ _)) hd)
        (fun q hq => hty q (List.mem_cons_of_mem _ hq)) h

theorem prog_map_find_isSome_iff (m : prog_map) (t : prog_type) :
    (prog_map_find m t).isSome = true ↔ t ∈ m.map Prod.fst := by
  induction m with
  | nil => simp [prog_map_find]
  | cons kv m ih =>
    obtain ⟨a, b⟩ := kv
    by_cases h : a = t
    · simp [prog_map_find, h]
    · have h2 : ¬ t = a := fun e => h e.symm
      simp [prog_map_find, h, h2, ih]

theorem prog_map_assign_keys (m : prog_map) (t : prog_type) (v : req_map) :
    (prog_map_assign m t v).map Prod.fst = m.map Prod.fst := by
  unfold prog_map_assign
  rw [List.map_map]
  apply List.map_congr_left
  intro kv _
  by_cases h : kv.1 = t
  · simp [h]
  · simp [h]

theorem delete_node_state_req_keys (node_id req_id : Nat) :
    ∀ (m : prog_map), (delete_node_state_req node_id req_id m).map Prod.fst = m.map Prod.fst := by
  intro m
  induction m with
  | nil => rfl
  | cons kv m ih =>
    obtain ⟨t0, rmap0⟩ := kv
    unfold delete_node_state_req
    cases hf : map_find rmap0 req_id with
    | some nmap => rfl
    | none =>
      simp only [List.map_cons]
      rw [ih]

theorem delete_node_state_keys (ps : program_state) (node_id : Nat) :
    (ps.delete_node_state node_id).prog_state.map Prod.fst = ps.prog_state.map Prod.fst := by
  unfold program_state.delete_node_state
  cases map_find ps.req_list node_id with
  | none => rfl
  | some reqs =>
    simp only
    generalize ps.prog_state = m
    induction reqs generalizing m with
    | nil => rfl
    | cons q reqs ih =>
      rw [List.foldl_cons, ih, delete_node_state_req_keys]

theorem put_state_keys {ps ps1 : program_state} {t : prog_type} {req_id node_id : Nat}
    {new_state : node_state_ptr} (h : ps.put_state t req_id node_id new_state = some ps1) :
    ps1.prog_state.map Prod.fst = ps.prog_state.map Prod.fst := by
  cases hnd : ps.check_done_nolock req_id with
  | true =>
    rw [put_state_done ps t req_id node_id new_state hnd] at h
    injection h with h
    rw [h]
  | false =>
    cases hmap : prog_map_find ps.prog_state t with
    | none =>
      unfold program_state.put_state at h
      simp [hnd, hmap] at h
    | some rmap =>
      rw [put_state_eq ps t req_id node_id new_state rmap hnd hmap] at h
      injection h with h
      rw [← h]
      exact prog_map_assign_keys _ _ _

theorem done_request_keys {ps ps1 : program_state} {p : Nat × prog_type}
    (h : ps.done_request p = some ps1) :
    ps1.prog_state.map Prod.fst = ps.prog_state.map Prod.fst := by
  unfold program_state.done_request at h
  cases hm : prog_map_find ps.prog_state p.2 with
  | none => simp [hm] at h
  | some rmap =>
    simp only [hm] at h
    cases hr : map_find rmap p.1 with
    | none =>
      simp only [hr, Option.some.injEq] at h
      rw [← h]
    | some nmap =>
      simp only [hr] at h
      cases hn : done_requests_nodes p.1 ps.req_list (nmap.map Prod.fst) with
      | none => simp [hn] at h
      | some rl =>
        simp only [hn, Option.some.injEq] at h
        rw [← h]
        exact prog_map_assign_keys _ _ _

theorem done_requests_keys :
    ∀ (reqs : List (Nat × prog_type)) (ps ps1 : program_state),
      ps.done_requests reqs = some ps1 →
      ps1.prog_state.map Prod.fst = ps.prog_state.map Prod.fst := by
  intro reqs
  induction reqs with
  | nil =>
    intro ps ps1 h
    simp only [program_state.done_requests, Option.some.injEq] at h
    rw [h]
  | cons p rest ih =>
    intro ps ps1 h
    unfold program_state.done_requests at h
    cases hd : ps.done_request p with
    | none => simp [hd] at h
    | some ps2 =>
      simp only [hd] at h
      rw [ih ps2 ps1 h, done_request_keys hd]

/-- Under the invariant `done_requests` returns when each reported program
type has a request map. -/
theorem done_requests_total {ty : Nat → prog_type} :
    ∀ (reqs : List (Nat × prog_type)) (ps : program_state),
      PSInv ty ps → (∀ p ∈ reqs, p.2 = ty p.1) →
      (∀ p ∈ reqs, p.2 ∈ ps.prog_state.map Prod.fst) →
      ∃ ps1, ps.done_requests reqs = some ps1 := by
  intro reqs
  induction reqs with
  | nil => intro ps _ _ _; exact ⟨ps, rfl⟩
  | cons p rest ih =>
    intro ps hinv hty hmaps
    have hp := (prog_map_find_isSome_iff ps.prog_state p.2).2 (hmaps p (List.mem_cons_self _ _))
    have hstep : ∃ ps2, ps.done_request p = some ps2 := by
      unfold program_state.done_request
      cases hm : prog_map_find ps.prog_state p.2 with
      | none => rw [hm] at hp; cases hp
      | some rmap =>
        simp only
        cases hr : map_find rmap p.1 with
        | none => exact ⟨_, rfl⟩
        | some nmap =>
          obtain ⟨rl1, hrun, -⟩ := done_requests_nodes_total hinv hm hr
          simp only [hrun]
          exact ⟨_, rfl⟩
    obtain ⟨ps2, hd⟩ := hstep
    have hinv2 := done_request_inv hinv (hty p (List.mem_cons_self _ _)) hd
    obtain ⟨ps1, h1⟩ := ih ps2 hinv2 (fun q hq => hty q (List.mem_cons_of_mem _ hq))
      (fun q hq => by
        rw [done_request_keys hd]
        exact hmaps q (List.mem_cons_of_mem _ hq))
    refine ⟨ps1, ?_⟩
    unfold program_state.done_requests
    simp only [hd]
    exact h1

theorem new_program_state_inv (ty : Nat → prog_type) : PSInv ty new_program_state := by
  have hentries : ∀ t rmap, (t, rmap) ∈ new_program_state.prog_state → rmap = [] := by
    intro t rmap h
    have hl : new_program_state.prog_state =
        [(.REACHABILITY, []), (.N_HOP_REACHABILITY, []), (.TRIANGLE_COUNT, []),
         (.CLUSTERING, []), (.DIJKSTRA, []), (.READ_NODE_PROPS, []),
         (.READ_EDGES_PROPS, [])] := by decide
    rw [hl] at h
    simp only [List.mem_cons, Prod.mk.injEq, List.mem_singleton, List.not_mem_nil, or_false]
      at h
    rcases h with h | h | h | h | h | h | h <;> exact h.2
  refine ⟨?_, ?_, ?_⟩
  · intro t rmap r h hr
    rw [hentries t rmap h] at hr
    cases hr
  · intro t rmap r nmap h hr
    rw [hentries t rmap h] at hr
    cases hr
  · intro r n
    have h1 : new_program_state.req_list = [] := rfl
    rw [h1]
    simp only [map_find, Option.getD_none, List.not_mem_nil, false_iff, not_exists]
    intro t
    unfold program_state.stored
    cases hm : prog_map_find new_program_state.prog_state t with
    | none => simp
    | some rmap =>
      rw [hentries t rmap (prog_map_find_mem hm)]
      simp [map_find]

theorem call_inv {ty : Nat → prog_type} {ps ps1 : program_state} {c : program_state_call}
    (hinv : PSInv ty ps) (hty : typed_by ty c) (h : ps.call c = some ps1) :
    PSInv ty ps1 ∧ ps1.prog_state.map Prod.fst = ps.prog_state.map Prod.fst := by
  cases c with
  | put_state t req_id node_id new_state =>
    exact ⟨put_state_inv hinv hty h, put_state_keys h⟩
  | delete_node_state node_id =>
    simp only [program_state.call, Option.some.injEq] at h
    rw [← h]
    exact ⟨delete_node_state_inv hinv node_id, delete_node_state_keys ps node_id⟩
  | done_requests reqs =>
    exact ⟨done_requests_inv reqs ps ps1 hinv hty h, done_requests_keys reqs ps ps1 h⟩

theorem calls_inv {ty : Nat → prog_type} :
    ∀ (calls : List program_state_call) (ps ps1 : program_state),
      PSInv ty ps → (∀ c ∈ calls, typed_by ty c) → ps.calls calls = some ps1 →
      PSInv ty ps1 ∧ ps1.prog_state.map Prod.fst = ps.prog_state.map Prod.fst := by
  intro calls
  induction calls with
  | nil =>
    intro ps ps1 hinv _ h
    simp only [program_state.calls, Option.some.injEq] at h
    rw [← h]
    exact ⟨hinv, rfl⟩
  | cons c rest ih =>
    intro ps ps1 hinv hty h
    unfold program_state.calls at h
    cases hc : ps.call c with
    | none => simp [hc] at h
    | some ps2 =>
      simp only [hc] at h
      obtain ⟨h1, h2⟩ := call_inv hinv (hty c (List.mem_cons_self _ _)) hc
      obtain ⟨h3, h4⟩ := ih ps2 ps1 h1 (fun d hd => hty d (List.mem_cons_of_mem _ hd)) h
      exact ⟨h3, h4.trans h2⟩

theorem call_total {ty : Nat → prog_type} {ps : program_state} {c : program_state_call}
    (hinv : PSInv ty ps) (hty : typed_by ty c)
    (hmaps : ∀ t ∈ call_types c, t ∈ ps.prog_state.map Prod.fst) :
    ∃ ps1, ps.call c = some ps1 := by
  cases c with
  | put_state t req_id node_id new_state =>
    show ∃ ps1, ps.put_state t req_id node_id new_state = some ps1
    cases hnd : ps.check_done_nolock req_id with
    | true => exact ⟨ps, put_state_done ps t req_id node_id new_state hnd⟩
    | false =>
      have hp := (prog_map_find_isSome_iff ps.prog_state t).2
        (hmaps t (by simp [call_types]))
      cases hm : prog_map_find ps.prog_state t with
      | none => rw [hm] at hp; cases hp
      | some rmap => exact ⟨_, put_state_eq ps t req_id node_id new_state rmap hnd hm⟩
  | delete_node_state node_id => exact ⟨_, rfl⟩
  | done_requests reqs =>
    show ∃ ps1, ps.done_requests reqs = some ps1
    apply done_requests_total reqs ps hinv hty
    intro p hp
    exact hmaps p.2 (List.mem_map.2 ⟨p, hp, rfl⟩)

theorem calls_total {ty : Nat → prog_type} :
    ∀ (calls : List program_state_call) (ps : program_state),
      PSInv ty ps → (∀ c ∈ calls, typed_by ty c) →
      (∀ c ∈ calls, ∀ t ∈ call_types c, t ∈ ps.prog_state.map Prod.fst) →
      ∃ ps1, ps.calls calls = some ps1 := by
  intro calls
  induction calls with
  | nil => intro ps _ _ _; exact ⟨ps, rfl⟩
  | cons c rest ih =>
    intro ps hinv hty hmaps
    obtain ⟨ps2, hc⟩ := call_total hinv (hty c (List.mem_cons_self _ _))
      (hmaps c (List.mem_cons_self _ _))
    obtain ⟨h1, h2⟩ := call_inv hinv (hty c (List.mem_cons_self _ _)) hc
    obtain ⟨ps1, h3⟩ := ih ps2 h1 (fun d hd => hty d (List.mem_cons_of_mem _ hd))
      (fun d hd t ht => by
        rw [h2]
        exact hmaps d (List.mem_cons_of_mem _ hd) t ht)
    refine ⟨ps1, ?_⟩
    unfold program_state.calls
    simp only [hc]
    exact h3

theorem new_program_state_keys (t : prog_type) :
    t ∈ new_program_state.prog_state.map Prod.fst ↔ t ≠ prog_type.READ_N_EDGES := by
  cases t <;> decide

/-- C36: in every state reached from the constructor by calls of `put_state`,
`delete_node_state` and `done_requests` in which every request id is used
under one program type, `req_list` has a request at a node exactly when
`state_exists` is true for the request and the node under some program type;
in such a state the loop of `done_requests` over the nodes of any stored
request finds a request list for each node, and `done_requests` returns for
requests of types that have a request map.  The calls themselves return when
no call names `READ_N_EDGES`, the type without a request map. -/
theorem indexes_stay_consistent (ty : Nat → prog_type) (calls : List program_state_call)
    (hty : ∀ c ∈ calls, typed_by ty c) :
    ((∀ c ∈ calls, ∀ t ∈ call_types c, t ≠ prog_type.READ_N_EDGES) →
      ∃ ps, new_program_state.calls calls = some ps) ∧
    ∀ ps, new_program_state.calls calls = some ps →
      (∀ r n, r ∈ (map_find ps.req_list n).getD [] ↔
        ∃ t, ps.state_exists t r n = some true) ∧
      (∀ t rmap r nmap, prog_map_find ps.prog_state t = some rmap →
        map_find rmap r = some nmap →
        ∃ rl, done_requests_nodes r ps.req_list (nmap.map Prod.fst) = some rl) ∧
      (∀ reqs : List (Nat × prog_type), (∀ p ∈ reqs, p.2 = ty p.1) →
        (∀ p ∈ reqs, p.2 ≠ prog_type.READ_N_EDGES) →
        ∃ ps1, ps.done_requests reqs = some ps1) := by
  constructor
  · intro hmaps
    apply calls_total calls new_program_state (new_program_state_inv ty) hty
    intro c hc t ht
    exact (new_program_state_keys t).2 (hmaps c hc t ht)
  · intro ps hrun
    obtain ⟨hinv, hkeys⟩ := calls_inv calls new_program_state ps (new_program_state_inv ty)
      hty hrun
    refine ⟨?_, ?_, ?_⟩
    · intro r n
      rw [hinv.index r n]
      constructor
      · rintro ⟨t, ht⟩
        refine ⟨t, ?_⟩
        unfold program_state.state_exists
        rw [state_exists_nolock_eq]
        cases hm : prog_map_find ps.prog_state t with
        | none =>
          unfold program_state.stored at ht
          rw [hm] at ht
          cases ht
        | some rmap =>
          simp only [Option.map_some', Option.some.injEq]
          exact ht
      · rintro ⟨t, ht⟩
        refine ⟨t, ?_⟩
        unfold program_state.state_exists at ht
        rw [state_exists_nolock_eq] at ht
        cases hm : prog_map_find ps.prog_state t with
        | none => rw [hm] at ht; cases ht
        | some rmap =>
          rw [hm] at ht
          simp only [Option.map_some', Option.some.injEq] at ht
          exact ht
    · intro t rmap r nmap hm hr
      obtain ⟨rl, hrl, -⟩ := done_requests_nodes_total hinv hm hr
      exact ⟨rl, hrl⟩
    · intro reqs hreqs hne
      apply done_requests_total reqs ps hinv hreqs
      intro p hp
      rw [hkeys]
      exact (new_program_state_keys p.2).2 (hne p hp)

/-- Witness for C36: the calls `two_puts_one_delete`, every request a
reachability program. -/
theorem indexes_stay_consistent_witness :
    (∀ c ∈ two_puts_one_delete, typed_by (fun _ => prog_type.REACHABILITY) c) ∧
    (∃ ps, new_program_state.calls two_puts_one_delete = some ps) ∧
    ∀ ps, new_program_state.calls two_puts_one_delete = some ps →
      (∀ r n, r ∈ (map_find ps.req_list n).getD [] ↔
        ∃ t, ps.state_exists t r n = some true) ∧
      (∀ t rmap r nmap, prog_map_find ps.prog_state t = some rmap →
        map_find rmap r = some nmap →
        ∃ rl, done_requests_nodes r ps.req_list (nmap.map Prod.fst) = some rl) ∧
      (∀ reqs : List (Nat × prog_type), (∀ p ∈ reqs, p.2 = prog_type.REACHABILITY) →
        (∀ p ∈ reqs, p.2 ≠ prog_type.READ_N_EDGES) →
        ∃ ps1, ps.done_requests reqs = some ps1) :=
  have hty : ∀ c ∈ two_puts_one_delete, typed_by (fun _ => prog_type.REACHABILITY) c := by
    intro c hc
    simp only [two_puts_one_delete, List.mem_cons, List.mem_singleton, List.not_mem_nil,
      or_false] at hc
    rcases hc with hc | hc | hc <;> rw [hc] <;> simp [typed_by]
  have h := indexes_stay_consistent (fun _ => prog_type.REACHABILITY) two_puts_one_delete hty
  ⟨hty, h.1 (by
      intro c hc t ht
      simp only [two_puts_one_delete, List.mem_cons, List.mem_singleton, List.not_mem_nil,
        or_false] at hc
      rcases hc with hc | hc | hc <;> rw [hc] at ht <;> simp [call_types] at ht
      · rw [ht]; decide
      · rw [ht]; decide), h.2⟩

/-- The object after `two_puts_one_delete`: request 1 is listed at node 3
only, where its state is, and `done_requests` for it empties both indexes. -/
theorem two_puts_one_delete_result :
    (new_program_state.calls two_puts_one_delete).map
      (fun ps => (ps.req_list, ps.state_exists .REACHABILITY 1 2,
        ps.state_exists .REACHABILITY 1 3)) = some ([(3, [1])], some false, some true) ∧
    ((new_program_state.calls two_puts_one_delete).bind
      (fun ps => ps.done_requests [(1, .REACHABILITY)])).map
      (fun ps => (ps.req_list, ps.state_exists .REACHABILITY 1 3, ps.done_ids)) =
      some ([], some false, [1]) := by
  refine ⟨by decide, by decide⟩

/-! ## Program state: done requests and `unpack` -/

/-- C37 (failing input): request 1, a reachability program, is reported done
on a new object.  Then `check_done_request(1)` is true, no state of the
request exists, and `put_state`, `delete_node_state` and a second
`done_requests` leave it so; but `unpack` for node 2 with one entry for
request 1 stores the state: `state_exists(REACHABILITY, 1, 2)` is true and
`get_state` returns it, while `check_done_request(1)` is still true. -/
theorem unpack_restores_done_request :
    new_program_state.done_requests [(1, .REACHABILITY)] = some request_one_done ∧
    request_one_done.check_done_request 1 = true ∧
    request_one_done.state_exists .REACHABILITY 1 2 = some false ∧
    request_one_done.put_state .REACHABILITY 1 2 (some 5) = some request_one_done ∧
    request_one_done.delete_node_state 2 = request_one_done ∧
    request_one_done.done_requests [(1, .REACHABILITY)] = some request_one_done ∧
    (request_one_done.unpack 2 [(.REACHABILITY, 1, 5)]).map
      (fun ps => (ps.check_done_request 1, ps.state_exists .REACHABILITY 1 2)) =
      some (true, some true) ∧
    (request_one_done.unpack 2 [(.REACHABILITY, 1, 5)]).map
      (fun ps => (ps.get_state .REACHABILITY 1 2, ps.req_list)) =
      some (some (some 5), [(2, [1])]) := by
  refine ⟨by decide, by decide, by decide, by decide, by decide, by decide, by decide,
    by decide⟩

/-- C38 (failing input): of the six program types with a `case` in `unpack`,
the constructor gives a request map to five and none to `READ_N_EDGES`; on
the constructed object `state_exists`, `put_state`, `unpack` and
`done_requests` for that type do not return. -/
theorem constructor_omits_read_n_edges :
    ([prog_type.REACHABILITY, prog_type.DIJKSTRA, prog_type.CLUSTERING,
        prog_type.READ_NODE_PROPS, prog_type.READ_EDGES_PROPS, prog_type.READ_N_EDGES].map
      (fun t => (unpack_handles t, (prog_map_find new_program_state.prog_state t).isSome)) =
      [(true, true), (true, true), (true, true), (true, true), (true, true), (true, false)]) ∧
    new_program_state.state_exists .READ_N_EDGES 1 2 = none ∧
    new_program_state.get_state .READ_N_EDGES 1 2 = none ∧
    new_program_state.put_state .READ_N_EDGES 1 2 (some 5) = none ∧
    new_program_state.unpack 2 [(.READ_N_EDGES, 1, 5)] = none ∧
    new_program_state.done_requests [(1, .READ_N_EDGES)] = none ∧
    (new_program_state.unpack 2 [(.REACHABILITY, 1, 5)]).isSome = true := by
  refine ⟨by decide, by decide, by decide, by decide, by decide, by decide, by decide⟩

/-- No method adds a program type to `prog_state`: after any calls of
`put_state`, `delete_node_state` and `done_requests` that return, the object
still has no request map for `READ_N_EDGES`. -/
theorem read_n_edges_never_gets_a_map (ty : Nat → prog_type) (calls : List program_state_call)
    (ps : program_state) (hty : ∀ c ∈ calls, typed_by ty c)
    (hrun : new_program_state.calls calls = some ps) :
    prog_map_find ps.prog_state .READ_N_EDGES = none := by
  obtain ⟨-, hkeys⟩ := calls_inv calls new_program_state ps (new_program_state_inv ty) hty hrun
  cases hm : prog_map_find ps.prog_state .READ_N_EDGES with
  | none => rfl
  | some rmap =>
    have h1 := (prog_map_find_isSome_iff ps.prog_state .READ_N_EDGES).1 (by rw [hm]; rfl)
    rw [hkeys] at h1
    exact absurd rfl ((new_program_state_keys _).1 h1)

/-! ## Reachability program: where replies go -/

theorem reach_out_edges_messages {RN E P : Type} (ops : reach_ops RN E P) (req_id : Nat)
    (params : reach_params RN P) :
    ∀ (es : List E) (next : List (RN × reach_params RN P)) (out_count : Nat),
      ∀ m ∈ (reach_out_edges ops req_id params es next out_count).1,
        m ∈ next ∨ (m.2 = params ∧ ∃ e ∈ es, m.1 = ops.nbr e) := by
  intro es
  induction es with
  | nil =>
    intro next out_count m hm
    exact Or.inl hm
  | cons e es ih =>
    intro next out_count m hm
    unfold reach_out_edges at hm
    by_cases hc : reach_traverse_edge ops req_id params e = true
    · rw [if_pos hc] at hm
      rcases ih _ _ m hm with h | ⟨h1, e1, he1, h2⟩
      · rcases List.mem_append.1 h with h | h
        · exact Or.inl h
        · simp only [List.mem_singleton] at h
          refine Or.inr ⟨by rw [h], e, List.mem_cons_self _ _, by rw [h]⟩
      · exact Or.inr ⟨h1, e1, List.mem_cons_of_mem _ he1, h2⟩
    · rw [if_neg hc] at hm
      rcases ih _ _ m hm with h | ⟨h1, e1, he1, h2⟩
      · exact Or.inl h
      · exact Or.inr ⟨h1, e1, List.mem_cons_of_mem _ he1, h2⟩

/-- Every message that `reach_node_program` returns at node `rn` carries
`prev_node = rn`: the receiver finds the sender in `params.prev_node`. -/
theorem reach_messages_name_sender {RN E P : Type} (ops : reach_ops RN E P) (req_id : Nat)
    (out_edges : List E) (rn : RN) (params : reach_params RN P) (state : reach_node_state RN) :
    ∀ m ∈ (reach_node_program ops req_id out_edges rn params state).1, m.2.prev_node = rn := by
  intro m hm
  unfold reach_node_program at hm
  simp only at hm
  split at hm
  · split at hm
    · simp only [List.mem_singleton] at hm
      rw [hm]
    · split at hm
      · split at hm
        · rcases List.mem_append.1 hm with h | h
          · rcases reach_out_edges_messages ops req_id _ _ _ _ m h with h1 | ⟨h1, -⟩
            · exact absurd h1 (List.not_mem_nil _)
            · rw [h1]
          · simp only [List.mem_singleton] at h
            rw [h]
        · rcases reach_out_edges_messages ops req_id _ _ _ _ m hm with h1 | ⟨h1, -⟩
          · exact absurd h1 (List.not_mem_nil _)
          · rw [h1]
      · simp only [List.mem_singleton] at hm
        rw [hm]
  · split at hm
    · simp only [List.mem_singleton] at hm
      rw [hm]
    · exact absurd hm (List.not_mem_nil _)

/-- In reply mode whatever `reach_node_program` returns is addressed to
`params.prev_node` as the call received it, which the first statement of the
program has copied over `state.prev_node`. -/
theorem reach_reply_destination {RN E P : Type} (ops : reach_ops RN E P) (req_id : Nat)
    (out_edges : List E) (rn : RN) (params : reach_params RN P) (state : reach_node_state RN)
    (hmode : params.mode = true) :
    (∀ m ∈ (reach_node_program ops req_id out_edges rn params state).1,
      m.1 = params.prev_node) ∧
    (reach_node_program ops req_id out_edges rn params state).2.2.prev_node =
      params.prev_node := by
  unfold reach_node_program
  simp only [hmode, Bool.true_eq_false, if_false]
  split
  · refine ⟨?_, rfl⟩
    intro m hm
    simp only [List.mem_singleton] at hm
    rw [hm]
  · refine ⟨?_, rfl⟩
    intro m hm
    exact absurd hm (List.not_mem_nil _)

/-- C39 (failing input): node 2 was first visited by a request from node 1
and propagated it to node 3, so its state records `prev_node = 1`.  When the
reply of node 3 arrives, the program overwrites `state.prev_node` with 3 and
returns the reply addressed to node 3, the node that sent it, not to
node 1. -/
theorem reply_forwarded_to_its_sender :
    (reach_node_program plain_reach_ops 5 [⟨3, 0, 10, []⟩] 2 request_from_one
      ⟨false, 0, 0, false⟩).1 = [(3, ⟨false, 2, 9, [], false⟩)] ∧
    node_two_visited = ⟨true, 1, 1, false⟩ ∧
    (reach_node_program plain_reach_ops 5 [⟨3, 0, 10, []⟩] 2 reply_from_three
      node_two_visited).1 = [(3, ⟨true, 2, 9, [], true⟩)] ∧
    (reach_node_program plain_reach_ops 5 [⟨3, 0, 10, []⟩] 2 reply_from_three
      node_two_visited).2.2 = ⟨true, 3, 1, true⟩ := by
  refine ⟨by decide, by decide, by decide, by decide⟩

/-- C40: a request (`mode = false`) arriving at the destination
(`params.dest == rn`) returns one message, the reply with `mode = true` and
`reachable = true`, addressed to `params.prev_node` as received, which is the
sender because every message carries the id of the node that returned it in
`prev_node`.  A request arriving at a visited node that is not the
destination returns one message, the reply with `reachable = false`,
addressed to the sender; no request goes to a neighbour, and of the state
only `prev_node` changes. -/
theorem reach_request_terminal_replies {RN E P : Type} (ops : reach_ops RN E P) (req_id : Nat)
    (out_edges : List E) (rn : RN) (params : reach_params RN P) (state : reach_node_state RN)
    (hmode : params.mode = false) :
    (ops.eq params.dest rn = true →
      (reach_node_program ops req_id out_edges rn params state).1 =
        [(params.prev_node,
          { params with prev_node := rn, mode := true, reachable := true })]) ∧
    (ops.eq params.dest rn = false → state.visited = true →
      (reach_node_program ops req_id out_edges rn params state).1 =
        [(params.prev_node,
          { params with prev_node := rn, mode := true, reachable := false })] ∧
      (reach_node_program ops req_id out_edges rn params state).2.2 =
        { state with prev_node := params.prev_node }) ∧
    (∀ m ∈ (reach_node_program ops req_id out_edges rn params state).1,
      m.2.prev_node = rn) := by
  refine ⟨?_, ?_, reach_messages_name_sender ops req_id out_edges rn params state⟩
  · intro hdest
    unfold reach_node_program
    simp only [hmode, if_true, hdest]
  · intro hdest hvisited
    unfold reach_node_program
    simp only [hmode, if_true, hdest, Bool.false_eq_true, if_false, hvisited,
      Bool.true_eq_false, and_self]

/-- Witness for C40: a request from node 3 arriving at its destination,
node 9. -/
theorem reach_request_terminal_replies_witness :
    ({ request_from_one with prev_node := 3 } : reach_params Nat String).mode = false ∧
    plain_reach_ops.eq ({ request_from_one with prev_node := 3 } : reach_params Nat String).dest
      9 = true ∧
    (reach_node_program plain_reach_ops 5 [] 9 { request_from_one with prev_node := 3 }
      ⟨false, 0, 0, false⟩).1 = [(3, ⟨true, 9, 9, [], true⟩)] :=
  ⟨by decide, by decide,
   (reach_request_terminal_replies plain_reach_ops 5 [] 9
     { request_from_one with prev_node := 3 } ⟨false, 0, 0, false⟩ (by decide)).1 (by decide)⟩

/-- A second request for destination 9 arriving at node 2, already visited,
from node 4: one reply with `reachable = false`, addressed to node 4. -/
theorem visited_node_replies_false :
    (reach_node_program plain_reach_ops 5 [⟨3, 0, 10, []⟩] 2
      { request_from_one with prev_node := 4 } node_two_visited).1 =
      [(4, ⟨true, 2, 9, [], false⟩)] := by
  decide

/-! ## Erasure from the ledger, on the states the server reaches -/

theorem run_vclk_length {c : Consts} :
    ∀ (t : List event) (vts s : timestamper) (msgs : List sent),
      run c vts t = some (s, msgs) → s.vclk.length = vts.vclk.length := by
  intro t
  induction t with
  | nil =>
    intro vts s msgs h
    simp only [run, Option.some.injEq, Prod.mk.injEq] at h
    rw [← h.1]
  | cons e es ih =>
    intro vts s msgs h
    obtain ⟨s1, m1, m2, hstep, hrest, -⟩ := run_cons h
    rw [ih s1 s m2 hrest, step_vclk_length hstep]

theorem bit_get_of_any_false {mask : List Bool} (h : mask.any id = false) (i : Nat) :
    bit_get mask i = false := by
  unfold bit_get
  rw [List.getD_eq_getElem?_getD]
  cases hi : mask[i]? with
  | none => rfl
  | some b =>
    have hb : b ∈ mask := List.getElem?_mem hi
    cases b with
    | false => rfl
    | true =>
      have : mask.any id = true := List.any_eq_true.2 ⟨true, hb, rfl⟩
      rw [h] at this
      cases this

theorem nop_reply_bits_idle (mask : List Bool) (n : Nat) (bits : List Bool)
    (h : ∀ i, bit_get mask i = false) : nop_reply_bits mask n bits = bits := by
  unfold nop_reply_bits
  generalize List.range n = l
  induction l generalizing bits with
  | nil => rfl
  | cons x xs ih =>
    rw [List.foldl_cons, if_neg (by rw [h x]; simp)]
    exact ih bits

theorem ledger_after_tick_idle (mask : List Bool) (n : Nat)
    (hmask : ∀ i, bit_get mask i = false) :
    ∀ (L : List (prog_type × List (Nat × List Bool))),
      (∀ x ∈ ledger_entries L, bits_all n x.2.2 = false) → ledger_after_tick mask n L = L := by
  intro L
  induction L with
  | nil => intro _; rfl
  | cons tm rest ih =>
    intro hnc
    obtain ⟨type, replies⟩ := tm
    have hrest : ledger_after_tick mask n rest = rest := by
      apply ih
      intro x hx
      apply hnc
      simp only [ledger_entries, List.mem_append]
      exact Or.inr hx
    have hrep : (replies.map (fun e => (e.1, nop_reply_bits mask n e.2))).filter
        (fun e => !bits_all n e.2) = replies := by
      have hmap : replies.map (fun e => (e.1, nop_reply_bits mask n e.2)) = replies := by
        conv_rhs => rw [← List.map_id replies]
        apply List.map_congr_left
        intro e _
        rw [nop_reply_bits_idle mask n e.2 hmask]
        rfl
      rw [hmap]
      apply List.filter_eq_self.2
      intro e he
      have := hnc (e.1, type, e.2) (by
        simp only [ledger_entries, List.mem_append]
        exact Or.inl (List.mem_map.2 ⟨e, he, rfl⟩))
      simp only at this
      rw [this]
      rfl
    unfold ledger_after_tick at hrest ⊢
    rw [List.map_cons, hrest]
    simp only [hrep]

/-- With at least one shard, one handled event keeps every ledger entry
short of a complete bitset: a reply enters with no bit set, and a timer
iteration that sends NOPs keeps only the entries that are not complete. -/
theorem step_ledger_incomplete {c : Consts} {vts s : timestamper} {e : event}
    {pre msgs : List sent} (hshards : 0 < c.NUM_SHARDS) (hinv : LedgerInv c vts pre)
    (hnc : ∀ x ∈ ledger_entries vts.done_reqs, bits_all c.NUM_SHARDS x.2.2 = false)
    (h : step c vts e = some (s, msgs)) :
    ∀ x ∈ ledger_entries s.done_reqs, bits_all c.NUM_SHARDS x.2.2 = false := by
  obtain ⟨hnd, hseen, -⟩ := hinv
  rcases step_ledger_shape h with ⟨hd, -⟩ | ⟨type, id, hid, -, hd, -⟩ | ⟨req_id, gm, -, hd, -⟩
  · rw [hd]
    exact hnc
  · intro x hx
    rw [hd] at hx
    have hfresh : id ∉ ledger_ids vts.done_reqs := fun hin => hid (hseen id hin)
    have hp := (ledger_entries_emplace c.NUM_SHARDS type id vts.done_reqs hfresh).mem_iff.1 hx
    rcases List.mem_cons.1 hp with hp | hp
    · rw [hp]
      cases hb : bits_all c.NUM_SHARDS (List.replicate c.NUM_SHARDS false) with
      | false => rfl
      | true =>
        have := (bits_all_iff _ _).1 hb 0 hshards
        rw [bit_get_replicate_false] at this
        cases this
    · exact hnc x hp
  · intro x hx
    rw [hd, nop_ledger_fst vts.to_nop c.NUM_SHARDS vts.done_reqs _ [] hnd (by simp),
      ledger_entries_after_tick] at hx
    have := (List.mem_filter.1 hx).2
    simpa using this

theorem run_ledger_incomplete (c : Consts) (hshards : 0 < c.NUM_SHARDS) :
    ∀ (t : List event) (vts s : timestamper) (pre msgs : List sent),
      LedgerInv c vts pre →
      (∀ x ∈ ledger_entries vts.done_reqs, bits_all c.NUM_SHARDS x.2.2 = false) →
      run c vts t = some (s, msgs) →
      ∀ x ∈ ledger_entries s.done_reqs, bits_all c.NUM_SHARDS x.2.2 = false := by
  intro t
  induction t with
  | nil =>
    intro vts s pre msgs _ hnc hrun
    simp only [run, Option.some.injEq, Prod.mk.injEq] at hrun
    rw [← hrun.1]
    exact hnc
  | cons e es ih =>
    intro vts s pre msgs hinv hnc hrun
    obtain ⟨s1, m1, m2, hstep, hrest, -⟩ := run_cons hrun
    exact ih s1 s (pre ++ m1) m2 (step_ledger_inv hinv hstep).1
      (step_ledger_incomplete hshards hinv hnc hstep) hrest

/-- C18: for every ledger the server reaches from its initial state (any
number of program types and entries) and every `to_nop` mask, the timer
iteration erases a ledger entry if and only if its bitset, after the bits of
the masked shards have been set, has all `NUM_SHARDS` bits set; every other
entry is kept with its updated bitset.  The iteration completes (with a
shard to send to it evaluates the size assertion on `max_done_clk`, which is
assumed to hold).  With an empty mask no bit is set and nothing is erased,
no entry of a reachable ledger being complete. -/
theorem nop_tick_erases_complete (c : Consts) (m0 : Nat) (clk0 : vclock_t) (t : List event)
    (s : timestamper) (msgs : List sent) (mask : List Bool) (req_id : Nat)
    (hshards : 0 < c.NUM_SHARDS)
    (hrun : run c (init c m0 clk0) t = some (s, msgs))
    (hmdc : s.max_done_clk.length = c.NUM_VTS) :
    ∃ s1 msgs1, timer_function c { s with to_nop := mask } req_id = some (s1, msgs1) ∧
      s1.done_reqs = ledger_after_tick mask c.NUM_SHARDS s.done_reqs ∧
      (∀ id type bits, (id, type, bits) ∈ ledger_entries s.done_reqs →
        (bits_all c.NUM_SHARDS (nop_reply_bits mask c.NUM_SHARDS bits) = true →
          id ∉ ledger_ids s1.done_reqs) ∧
        (bits_all c.NUM_SHARDS (nop_reply_bits mask c.NUM_SHARDS bits) = false →
          (id, type, nop_reply_bits mask c.NUM_SHARDS bits) ∈ ledger_entries s1.done_reqs)) ∧
      (∀ x ∈ ledger_entries s1.done_reqs,
        bits_all c.NUM_SHARDS x.2.2 = false ∧
        ∃ y ∈ ledger_entries s.done_reqs,
          x = (y.1, y.2.1, nop_reply_bits mask c.NUM_SHARDS y.2.2)) ∧
      (mask.any id = false → s1.done_reqs = s.done_reqs ∧ msgs1.all
        (fun m => match m.2 with
          | message.VT_NOP _ _ _ _ _ _ _ _ _ => false
          | _ => true) = true) ∧
      (∀ (bits : List Bool) (i : Nat), i < bits.length →
        bit_get (nop_reply_bits mask c.NUM_SHARDS bits) i =
          (bit_get bits i || (decide (i < c.NUM_SHARDS) && bit_get mask i))) ∧
      (∀ bits : List Bool,
        bits_all c.NUM_SHARDS bits = true ↔ ∀ i, i < c.NUM_SHARDS → bit_get bits i = true) := by
  have hinv : LedgerInv c s ([] ++ msgs) :=
    run_ledger_inv c t (init c m0 clk0) s [] msgs (ledger_inv_init c m0 clk0) hrun
  have hids : (ledger_ids s.done_reqs).Nodup := hinv.1
  have hnc : ∀ x ∈ ledger_entries s.done_reqs, bits_all c.NUM_SHARDS x.2.2 = false :=
    run_ledger_incomplete c hshards t (init c m0 clk0) s [] msgs (ledger_inv_init c m0 clk0)
      (by intro x hx; simp [init, ledger_entries] at hx) hrun
  have hclk : s.vclk.length = c.NUM_VTS := by
    rw [run_vclk_length t (init c m0 clk0) s msgs hrun]
    simp [init]
  have hkeys : ((ledger_entries s.done_reqs).map (fun x => x.1)).Nodup := by
    rw [← ledger_ids_eq]
    exact hids
  have hmain : ∃ s1 msgs1, timer_function c { s with to_nop := mask } req_id =
      some (s1, msgs1) ∧
      s1.done_reqs = ledger_after_tick mask c.NUM_SHARDS s.done_reqs ∧
      (mask.any id = false → s1.done_reqs = s.done_reqs ∧ msgs1.all
        (fun m => match m.2 with
          | message.VT_NOP _ _ _ _ _ _ _ _ _ => false
          | _ => true) = true) := by
    by_cases hany : mask.any id = true
    · obtain ⟨s1, msgs1, htf, hdr, -⟩ :=
        timer_function_nop_total c { s with to_nop := mask } req_id hany hclk hmdc
      refine ⟨s1, msgs1, htf, ?_, ?_⟩
      · rw [hdr]
        exact nop_ledger_fst mask c.NUM_SHARDS s.done_reqs _ [] hids (by simp)
      · intro hno
        rw [hno] at hany
        cases hany
    · have hany2 : mask.any id = false := by
        cases hm : mask.any id with
        | false => rfl
        | true => exact absurd hm hany
      have hn : timer_nop c { s with to_nop := mask } req_id =
          some ({ s with to_nop := mask }, [], false) := by
        unfold timer_nop
        simp only [hany2, Bool.false_eq_true, if_false]
      obtain ⟨a, tv, hg⟩ := timer_gossip_shape c { s with to_nop := mask } false
      have htf : timer_function c { s with to_nop := mask } req_id =
          some ((timer_gossip c { s with to_nop := mask } false).1,
            [] ++ (timer_gossip c { s with to_nop := mask } false).2) := by
        unfold timer_function
        rw [hn]
      have hsame : (timer_gossip c { s with to_nop := mask } false).1.done_reqs =
          s.done_reqs := by
        rw [hg]
      refine ⟨_, _, htf, ?_, ?_⟩
      · rw [hsame, ledger_after_tick_idle mask c.NUM_SHARDS
          (bit_get_of_any_false hany2) s.done_reqs hnc]
      · intro _
        refine ⟨hsame, ?_⟩
        rw [List.nil_append, List.all_eq_true]
        intro m hm
        unfold timer_gossip at hm
        split at hm
        · obtain ⟨i, -, rfl⟩ := List.mem_map.1 hm
          rfl
        · simp at hm
  obtain ⟨s1, msgs1, htf, hL, hidle⟩ := hmain
  have hE := ledger_entries_after_tick mask c.NUM_SHARDS s.done_reqs
  rw [← hL] at hE
  refine ⟨s1, msgs1, htf, hL, ?_, ?_, hidle, ?_, ?_⟩
  · intro id type bits hmem
    constructor
    · intro hall hin
      rw [ledger_ids_eq, hE] at hin
      obtain ⟨x, hx, hxid⟩ := List.mem_map.1 hin
      obtain ⟨hx1, hx2⟩ := List.mem_filter.1 hx
      obtain ⟨y, hy, rfl⟩ := List.mem_map.1 hx1
      have hyid : y.1 = id := hxid
      have heq : y = (id, type, bits) := List.inj_on_of_nodup_map hkeys hy hmem hyid
      subst heq
      simp [hall] at hx2
    · intro hnall
      rw [hE]
      exact List.mem_filter.2 ⟨List.mem_map.2 ⟨(id, type, bits), hmem, rfl⟩, by simp [hnall]⟩
  · intro x hx
    rw [hE] at hx
    obtain ⟨hx1, hx2⟩ := List.mem_filter.1 hx
    obtain ⟨y, hy, rfl⟩ := List.mem_map.1 hx1
    exact ⟨by simpa using hx2, y, hy, rfl⟩
  · intro bits i hi
    exact nop_reply_bits_get mask bits i hi c.NUM_SHARDS
  · intro bits
    exact bits_all_iff c.NUM_SHARDS bits

/-- Witness for C18: after `reply_counted_not_retired` the ledger holds
program 11 with no bit set; a timer iteration with a NOP due for shard 0 only
keeps the entry with bit 0 set. -/
theorem nop_tick_erases_complete_witness :
    ((0 : Nat) < (⟨2, 2, 2, 0⟩ : Consts).NUM_SHARDS ∧
      run ⟨2, 2, 2, 0⟩ (init ⟨2, 2, 2, 0⟩ 0 [0, 0]) reply_counted_not_retired =
        some (reply_counted_state,
          ((run ⟨2, 2, 2, 0⟩ (init ⟨2, 2, 2, 0⟩ 0 [0, 0]) reply_counted_not_retired).getD
            (init ⟨2, 2, 2, 0⟩ 0 [0, 0], [])).2) ∧
      reply_counted_state.max_done_clk.length = (⟨2, 2, 2, 0⟩ : Consts).NUM_VTS ∧
      reply_counted_state.done_reqs = [(.DIJKSTRA, [(11, [false, false])])]) ∧
    ∃ s1 msgs1,
      timer_function ⟨2, 2, 2, 0⟩ { reply_counted_state with to_nop := [true, false] } 13 =
        some (s1, msgs1) ∧
      s1.done_reqs = [(.DIJKSTRA, [(11, [true, false])])] := by
  refine ⟨⟨by decide, by decide, by decide, by decide⟩, ?_⟩
  obtain ⟨s1, msgs1, h1, h2, -⟩ := nop_tick_erases_complete ⟨2, 2, 2, 0⟩ 0 [0, 0]
    reply_counted_not_retired reply_counted_state
    ((run ⟨2, 2, 2, 0⟩ (init ⟨2, 2, 2, 0⟩ 0 [0, 0]) reply_counted_not_retired).getD
      (init ⟨2, 2, 2, 0⟩ 0 [0, 0], [])).2 [true, false] 13
    (by decide) (by decide) (by decide)
  exact ⟨s1, msgs1, h1, by rw [h2]; decide⟩

/-- The entry of program 11 over two more timer iterations: the second one,
with a NOP due for shard 1, completes the bitset and erases the entry. -/
theorem reply_counted_two_ticks :
    (timer_function ⟨2, 2, 2, 0⟩ { reply_counted_state with to_nop := [true, false] } 13).map
      (fun r => r.1.done_reqs) = some [(.DIJKSTRA, [(11, [true, false])])] ∧
    ((timer_function ⟨2, 2, 2, 0⟩ { reply_counted_state with to_nop := [true, false] } 13).bind
      (fun r => timer_function ⟨2, 2, 2, 0⟩ { r.1 with to_nop := [false, true] } 14)).map
      (fun r => r.1.done_reqs) = some [(.DIJKSTRA, [])] ∧
    (timer_function ⟨2, 2, 2, 0⟩ { reply_counted_state with to_nop := [false, false] } 13).map
      (fun r => r.1.done_reqs) = some [(.DIJKSTRA, [(11, [false, false])])] := by
  refine ⟨by decide, by decide, by decide⟩

end Weaver
